import Mathlib

/-!
# A verification model of the `jd-core` diff engine

This file gives a shallow embedding, in Lean 4, of the Rust crate `jd-core`
(structural JSON diff/patch): the canonical `Node` data model, FNV-1a hashing,
option validation, the diff engine (object walk, list LCS with context),
the patch engine with list-context validation, the three renderers and diff
reversal.  Theorems at the end settle the specification claims.

Modelling conventions, chosen to mirror the Rust source:

* Rust `String` values are modelled as their UTF-8 byte sequences
  (`List Nat`, each entry `< 256`); Rust string comparison and ordering are
  byte-wise, which the model reproduces exactly.
* Rust `f64` values are modelled by their IEEE-754 bit pattern (a `Nat`
  below `2 ^ 64`); the numeric value of a finite pattern is decoded into `ℚ`
  exactly.  Comparisons of *finite* doubles (`==`, and `|a - b| <= 0.0`,
  which the engine uses at precision 0) coincide with the corresponding
  exact rational comparisons, which is how they are embedded.  (For a
  strictly positive precision the Rust subtraction rounds while the model
  subtracts exactly; the claims below only evaluate equality at precision
  0, where both agree bit-for-bit.)
* `BTreeMap`/`BTreeSet` are modelled as strictly-sorted association lists /
  sorted duplicate-free lists, exactly the representation invariant the
  Rust containers maintain.
* A Rust `panic!` (the diff engine's unimplemented set/multiset branch and
  out-of-bounds indexing) is modelled by `Option.none`; fallible functions
  return `Except`.
-/

set_option maxRecDepth 10000

namespace Jd

/-- UTF-8 byte string backing a Rust `String`. -/
abbrev Str := List Nat

/-- `HashCode = [u8; 8]` from `hash.rs`, kept as its 8 little-endian bytes. -/
abbrev HashCode := List Nat

/-- `2 ^ 64`, the wrap-around modulus of Rust `u64` arithmetic. -/
def u64Mod : Nat := 2 ^ 64

/-- FNV-1a 64-bit offset basis (`hash.rs`). -/
def fnvOffsetBasis : Nat := 0xcbf29ce484222325

/-- FNV-1a 64-bit prime (`hash.rs`). -/
def fnvPrime : Nat := 0x100000001b3

/-- One step of the FNV-1a loop: `hash ^= byte; hash = hash.wrapping_mul(PRIME)`. -/
def fnvFold (h b : Nat) : Nat := ((h ^^^ b) * fnvPrime) % u64Mod

/-- The FNV-1a state after folding all input bytes (`hash_bytes` loop). -/
def fnvHash (input : List Nat) : Nat := input.foldl fnvFold fnvOffsetBasis

/-- `u64::to_le_bytes`. -/
def natToLeBytes8 (n : Nat) : List Nat :=
  [n % 256, n / 2 ^ 8 % 256, n / 2 ^ 16 % 256, n / 2 ^ 24 % 256,
   n / 2 ^ 32 % 256, n / 2 ^ 40 % 256, n / 2 ^ 48 % 256, n / 2 ^ 56 % 256]

/-- `hash_bytes` from `hash.rs`: FNV-1a 64, emitted as 8 little-endian bytes. -/
def hash_bytes (input : List Nat) : HashCode := natToLeBytes8 (fnvHash input)

/-- Byte-lexicographic `<=`, the `Ord` instance Rust uses for `[u8; 8]` and
for `String`/`Vec<u8>` comparisons. -/
def bytesLe : List Nat → List Nat → Bool
  | [], _ => true
  | _ :: _, [] => false
  | a :: as, b :: bs => if a < b then true else if b < a then false else bytesLe as bs

/-- Byte-lexicographic strict order. -/
def bytesLt : List Nat → List Nat → Bool
  | _, [] => false
  | [], _ :: _ => true
  | a :: as, b :: bs => if a < b then true else if b < a then false else bytesLt as bs

/-- Ascending insertion used to model sorted Rust collections. -/
def insertSortedBy (le : α → α → Bool) (x : α) : List α → List α
  | [] => [x]
  | y :: ys => if le x y then x :: y :: ys else y :: insertSortedBy le x ys

/-- Ascending (stable) sort, modelling `Vec::sort` for the orders used here. -/
def sortBy (le : α → α → Bool) (xs : List α) : List α :=
  xs.foldr (insertSortedBy le) []

/-- `BTreeSet<HashCode>` insertion: sorted and duplicate-free. -/
def hashSetInsert (x : HashCode) : List HashCode → List HashCode
  | [] => [x]
  | y :: ys =>
    if x = y then y :: ys
    else if bytesLt x y then x :: y :: ys
    else y :: hashSetInsert x ys

/-- Collect hash codes into a `BTreeSet` model (sorted, duplicate-free). -/
def hashSetOfList (hs : List HashCode) : List HashCode :=
  hs.foldl (fun s h => hashSetInsert h s) []

/-- `combine` from `hash.rs`: sort the codes, concatenate their bytes, hash. -/
def combine (codes : List HashCode) : HashCode :=
  hash_bytes ((sortBy bytesLe codes).foldr (· ++ ·) [])

/-- Exponent field (11 bits) of an IEEE-754 binary64 bit pattern. -/
def f64ExpField (bits : Nat) : Nat := bits / 2 ^ 52 % 2 ^ 11

/-- Mantissa field (52 bits) of an IEEE-754 binary64 bit pattern. -/
def f64Mantissa (bits : Nat) : Nat := bits % 2 ^ 52

/-- Sign bit of an IEEE-754 binary64 bit pattern. -/
def f64SignBit (bits : Nat) : Nat := bits / 2 ^ 63 % 2

/-- `f64::is_finite`: the exponent field is not all ones. -/
def f64IsFinite (bits : Nat) : Bool := f64ExpField bits ≠ 2047

/-- `f64::is_nan`: exponent all ones with a non-zero mantissa. -/
def f64IsNan (bits : Nat) : Bool := f64ExpField bits = 2047 ∧ f64Mantissa bits ≠ 0

/-- `f64::is_infinite`: exponent all ones with a zero mantissa. -/
def f64IsInf (bits : Nat) : Bool := f64ExpField bits = 2047 ∧ f64Mantissa bits = 0

/-- The pattern of `-0.0_f64`. -/
def f64NegZeroBits : Nat := 2 ^ 63

/-- Whether a bit pattern denotes IEEE negative zero. -/
def f64IsNegZero (bits : Nat) : Bool := bits = f64NegZeroBits

/-- Exact rational value of a finite IEEE-754 binary64 bit pattern
(meaningless junk is returned on the non-finite exponent, which every use
below guards against). -/
def f64Val (bits : Nat) : ℚ :=
  let m := f64Mantissa bits
  let e := f64ExpField bits
  let mag : ℚ :=
    if e = 0 then mkRat (Int.ofNat m) (2 ^ 1074)
    else mkRat (Int.ofNat ((2 ^ 52 + m) * 2 ^ e)) (2 ^ 1075)
  if f64SignBit bits = 1 then Rat.neg mag else mag

/-- IEEE-754 `==` on doubles: never true on NaN; infinities compare by
sign; finite patterns compare by exact value (so `-0.0 == 0.0`). -/
def f64BitsEq (x y : Nat) : Bool :=
  if f64IsNan x ∨ f64IsNan y then false
  else if f64IsInf x ∨ f64IsInf y then x = y
  else f64Val x = f64Val y

/-- `Number` from `number.rs`: a wrapper around an `f64` bit pattern. -/
structure Number where
  bits : Nat
deriving DecidableEq, Repr

/-- `CanonicalizeError`, restricted to the variant the claims mention. -/
inductive CanonicalizeError where
  | notFinite (value : Nat)
deriving DecidableEq, Repr

/-- `Number::new`: validate finiteness, reject NaN and the infinities. -/
def Number.new (value : Nat) : Except CanonicalizeError Number :=
  if f64IsFinite value then .ok ⟨value⟩ else .error (.notFinite value)

/-- `Number::get`: the raw floating-point value (its bit pattern here). -/
def Number.get (n : Number) : Nat := n.bits

/-- Exact rational subtraction, spelled through `mkRat` so that concrete
values evaluate (the library subtraction is irreducible). -/
def ratSub (a b : ℚ) : ℚ := mkRat (a.num * b.den - b.num * a.den) (a.den * b.den)

/-- Absolute value, spelled so that concrete rationals evaluate. -/
def ratAbs (q : ℚ) : ℚ := if q < 0 then Rat.neg q else q

/-- `Number::equals_with_precision`: `(a - b).abs() <= precision`, embedded
exactly over `ℚ` (bit-faithful at precision `0`, see the header comment). -/
def Number.equalsWithPrecision (a b : Number) (precision : ℚ) : Bool :=
  ratAbs (ratSub (f64Val a.bits) (f64Val b.bits)) ≤ precision

/-- `Number::hash_code`: FNV-1a over the 8 little-endian bytes of the f64. -/
def Number.hashCode (n : Number) : HashCode := hash_bytes (natToLeBytes8 n.bits)

/-- `ArrayMode` from `options.rs`. -/
inductive ArrayMode where
  | list
  | set
  | multiSet
deriving DecidableEq, Repr

/-- `OptionsError` from `error.rs`. -/
inductive OptionsError where
  | precisionIncompatible
  | setKeysRequireSetMode
  | emptySetKey
deriving DecidableEq, Repr

/-- `DiffOptions` from `options.rs`.  The `precision` field holds the exact
value of the configured `f64` tolerance. -/
structure DiffOptions where
  array_mode : ArrayMode
  precision : ℚ
  set_keys : Option (List Str)
deriving DecidableEq, Repr

/-- `DiffOptions::default()`. -/
def DiffOptions.default : DiffOptions :=
  { array_mode := .list, precision := 0, set_keys := none }

/-- `DiffOptions::validate`. -/
def DiffOptions.validate (o : DiffOptions) : Except OptionsError Unit :=
  if o.array_mode ≠ ArrayMode.list ∧ 0 < o.precision then .error .precisionIncompatible
  else if o.set_keys.isSome ∧ o.array_mode ≠ ArrayMode.set then .error .setKeysRequireSetMode
  else .ok ()

/-- `DiffOptions::with_array_mode`. -/
def DiffOptions.with_array_mode (o : DiffOptions) (mode : ArrayMode) :
    Except OptionsError DiffOptions :=
  match ({ o with array_mode := mode } : DiffOptions).validate with
  | .error e => .error e
  | .ok _ => .ok { o with array_mode := mode }

/-- `DiffOptions::with_precision`. -/
def DiffOptions.with_precision (o : DiffOptions) (precision : ℚ) :
    Except OptionsError DiffOptions :=
  match ({ o with precision := precision } : DiffOptions).validate with
  | .error e => .error e
  | .ok _ => .ok { o with precision := precision }

/-- ASCII whitespace, standing in for `char::is_whitespace` in `str::trim`
(the claims only exercise ASCII keys). -/
def isWsByte (b : Nat) : Bool := b = 0x20 ∨ b = 0x09 ∨ b = 0x0A ∨ b = 0x0C ∨ b = 0x0D

/-- `str::trim().is_empty()`: every byte is whitespace. -/
def trimIsEmpty (s : Str) : Bool := s.all isWsByte

/-- Key collection loop of `with_set_keys`: reject a trim-empty key. -/
def collectSetKeys : List Str → Except OptionsError (List Str)
  | [] => .ok []
  | k :: ks =>
    if trimIsEmpty k then .error .emptySetKey
    else match collectSetKeys ks with
      | .error e => .error e
      | .ok rest => .ok (k :: rest)

/-- `Vec::dedup`: drop consecutive duplicates. -/
def dedupConsec [DecidableEq α] : List α → List α
  | [] => []
  | [x] => [x]
  | x :: y :: rest =>
    if x = y then dedupConsec (y :: rest) else x :: dedupConsec (y :: rest)

/-- The record `with_set_keys` validates and returns: sorted deduplicated
keys, array mode forced to set. -/
def setKeysTarget (o : DiffOptions) (collected : List Str) : DiffOptions :=
  { o with
    set_keys := some (dedupConsec (sortBy bytesLe collected)),
    array_mode := ArrayMode.set }

/-- `DiffOptions::with_set_keys`: validate keys, sort, dedup, force set mode. -/
def DiffOptions.with_set_keys (o : DiffOptions) (keys : List Str) :
    Except OptionsError DiffOptions :=
  match collectSetKeys keys with
  | .error e => .error e
  | .ok collected =>
    if collected.isEmpty then .error .emptySetKey
    else
      match (setKeysTarget o collected).validate with
      | .error e => .error e
      | .ok _ => .ok (setKeysTarget o collected)

/-- `Node` from `node.rs`: the canonical JSON data model plus the `Void`
sentinel.  Objects are `BTreeMap<String, Node>`, modelled as their sorted
association list. -/
inductive Node where
  | void
  | null
  | bool (b : Bool)
  | num (n : Number)
  | str (s : Str)
  | arr (elems : List Node)
  | obj (entries : List (Str × Node))
deriving Repr

/-- Hash-domain separator for `Void` (`node.rs`). -/
def VOID_HASH : HashCode := [0xF3, 0x97, 0x6B, 0x21, 0x91, 0x26, 0x8D, 0x96]

/-- Hash-domain separator for `Null` (`node.rs`). -/
def NULL_HASH : HashCode := [0xFE, 0x73, 0xAB, 0xCC, 0xE6, 0x32, 0xE0, 0x88]

/-- Hash-domain separator for `true` (`node.rs`). -/
def BOOL_TRUE_HASH : HashCode := [0x24, 0x6B, 0xE3, 0xE4, 0xAF, 0x59, 0xDC, 0x1C]

/-- Hash-domain separator for `false` (`node.rs`). -/
def BOOL_FALSE_HASH : HashCode := [0xC6, 0x38, 0x77, 0xD1, 0x0A, 0x7E, 0x1F, 0xBF]

/-- Seed prefixed to list hashes (`node.rs`). -/
def LIST_SEED : List Nat := [0xF5, 0x18, 0x0A, 0x71, 0xA4, 0xC4, 0x03, 0xF3]

/-- Seed prefixed to object hashes (`node.rs`). -/
def OBJECT_SEED : List Nat := [0x00, 0x5D, 0x39, 0xA4, 0x18, 0x10, 0xEA, 0xD5]

mutual

/-- `Node::hash_code` from `node.rs`. -/
def Node.hashCode (n : Node) (o : DiffOptions) : HashCode :=
  match n with
  | .void => VOID_HASH
  | .null => NULL_HASH
  | .bool true => BOOL_TRUE_HASH
  | .bool false => BOOL_FALSE_HASH
  | .num num => num.hashCode
  | .str s => hash_bytes s
  | .arr values =>
    match o.array_mode with
    | .list => hash_bytes (LIST_SEED ++ hashConcat values o)
    | .set => combine (hashSetOfList (hashCodes values o))
    | .multiSet => combine (hashCodes values o)
  | .obj map => hash_bytes (OBJECT_SEED ++ hashKvs map o)
termination_by structural n

/-- Concatenated child hash bytes (`hash_list` body). -/
def hashConcat (values : List Node) (o : DiffOptions) : List Nat :=
  match values with
  | [] => []
  | v :: rest => v.hashCode o ++ hashConcat rest o
termination_by structural values

/-- Child hash codes in order (`hash_set`/`hash_multiset` bodies). -/
def hashCodes (values : List Node) (o : DiffOptions) : List HashCode :=
  match values with
  | [] => []
  | v :: rest => v.hashCode o :: hashCodes rest o
termination_by structural values

/-- Per-entry bytes of `hash_object`: `FNV(key) ++ hash(value)` in ascending
key order (the map's iteration order). -/
def hashKvs (map : List (Str × Node)) (o : DiffOptions) : List Nat :=
  match map with
  | [] => []
  | (k, v) :: rest => hash_bytes k ++ v.hashCode o ++ hashKvs rest o
termination_by structural map

end

/-- `BTreeMap::get` on the sorted association-list model. -/
def objGet (entries : List (Str × Node)) (k : Str) : Option Node :=
  match entries with
  | [] => none
  | (k', v) :: rest => if k' = k then some v else objGet rest k

/-- `set_equals` from `node.rs`: equality of the two hash `BTreeSet`s. -/
def set_equals (lhs rhs : List Node) (o : DiffOptions) : Bool :=
  hashSetOfList (hashCodes lhs o) = hashSetOfList (hashCodes rhs o)

/-- `BTreeMap<HashCode, usize>` bump used by `multiset_equals`. -/
def bumpCount (counts : List (HashCode × Nat)) (h : HashCode) : List (HashCode × Nat) :=
  match counts with
  | [] => [(h, 1)]
  | (k, c) :: rest =>
    if k = h then (k, c + 1) :: rest
    else if bytesLt h k then (h, 1) :: (k, c) :: rest
    else (k, c) :: bumpCount rest h

/-- Decrement loop of `multiset_equals`: fail when a hash is missing or
already exhausted. -/
def consumeCounts (counts : List (HashCode × Nat)) : List HashCode → Option (List (HashCode × Nat))
  | [] => some counts
  | h :: hs =>
    let rec dec : List (HashCode × Nat) → Option (List (HashCode × Nat))
      | [] => none
      | (k, c) :: rest =>
        if k = h then (if 0 < c then some ((k, c - 1) :: rest) else none)
        else match dec rest with
          | none => none
          | some rest' => some ((k, c) :: rest')
    match dec counts with
    | none => none
    | some counts' => consumeCounts counts' hs

/-- `multiset_equals` from `node.rs`. -/
def multiset_equals (lhs rhs : List Node) (o : DiffOptions) : Bool :=
  if lhs.length ≠ rhs.length then false
  else
    let counts := (hashCodes lhs o).foldl bumpCount []
    match consumeCounts counts (hashCodes rhs o) with
    | none => false
    | some counts' => counts'.all (fun kc => kc.2 = 0)

mutual

/-- `Node::eq_with_options` from `node.rs`. -/
def Node.eqWithOptions (a b : Node) (o : DiffOptions) : Bool :=
  match a, b with
  | .void, .void => true
  | .null, .null => true
  | .bool x, .bool y => x = y
  | .num x, .num y => x.equalsWithPrecision y o.precision
  | .str x, .str y => x = y
  | .arr x, .arr y =>
    match o.array_mode with
    | .list => x.length = y.length ∧ zipAllEq x y o
    | .set => set_equals x y o
    | .multiSet => multiset_equals x y o
  | .obj x, .obj y => x.length = y.length ∧ objEntriesLe x y o
  | _, _ => false
termination_by structural a

/-- `iter().zip(...).all(...)` of `list_equals`. -/
def zipAllEq (lhs rhs : List Node) (o : DiffOptions) : Bool :=
  match lhs, rhs with
  | a :: as, b :: bs => a.eqWithOptions b o && zipAllEq as bs o
  | _, _ => true
termination_by structural lhs

/-- The per-key walk of the object branch of `eq_with_options`. -/
def objEntriesLe (lhs rhs : List (Str × Node)) (o : DiffOptions) : Bool :=
  match lhs with
  | [] => true
  | (k, va) :: rest =>
    match objGet rhs k with
    | none => false
    | some vb => va.eqWithOptions vb o && objEntriesLe rest rhs o
termination_by structural lhs

end

/-- `list_equals` from `node.rs` (its body is inlined at the list-mode
branch of `eq_with_options` above). -/
def listEquals (lhs rhs : List Node) (o : DiffOptions) : Bool :=
  lhs.length = rhs.length ∧ zipAllEq lhs rhs o

mutual

/-- Rust `==` on `Node` (the derived `PartialEq`): structural, with numbers
compared by IEEE-754 `f64` equality. -/
def Node.beqNode (a b : Node) : Bool :=
  match a, b with
  | .void, .void => true
  | .null, .null => true
  | .bool x, .bool y => x = y
  | .num x, .num y => f64BitsEq x.bits y.bits
  | .str x, .str y => x = y
  | .arr x, .arr y => beqList x y
  | .obj x, .obj y => beqEntries x y
  | _, _ => false
termination_by structural a

/-- Rust `==` on `Vec<Node>`. -/
def beqList (lhs rhs : List Node) : Bool :=
  match lhs, rhs with
  | [], [] => true
  | a :: as, b :: bs => a.beqNode b && beqList as bs
  | _, _ => false
termination_by structural lhs

/-- Rust `==` on `BTreeMap<String, Node>` (pairwise over sorted entries). -/
def beqEntries (lhs rhs : List (Str × Node)) : Bool :=
  match lhs, rhs with
  | [], [] => true
  | (ka, va) :: as, (kb, vb) :: bs => ka = kb && va.beqNode vb && beqEntries as bs
  | _, _ => false
termination_by structural lhs

end

/-- Well-formed UTF-8-ish byte string: every byte below 256. -/
def strWf (s : Str) : Bool := s.all (· < 256)

/-- Strictly ascending, all-well-formed key list (the `BTreeMap` invariant). -/
def keysSorted : List Str → Bool
  | [] => true
  | [k] => strWf k
  | k₁ :: k₂ :: rest => strWf k₁ && bytesLt k₁ k₂ && keysSorted (k₂ :: rest)

mutual

/-- Canonical well-formedness: numbers are finite 64-bit patterns, strings
are byte strings, object keys are strictly sorted, and `Void` is absent
(the parser only ever produces `Void` for a whitespace-only document root). -/
def Node.wf : Node → Bool
  | .void => false
  | .null => true
  | .bool _ => true
  | .num n => n.bits < u64Mod && f64IsFinite n.bits
  | .str s => strWf s
  | .arr elems => wfList elems
  | .obj entries => keysSorted (entries.map Prod.fst) && wfVals entries
termination_by structural n => n

/-- All elements well-formed. -/
def wfList : List Node → Bool
  | [] => true
  | v :: rest => v.wf && wfList rest
termination_by structural xs => xs

/-- All object values well-formed. -/
def wfVals : List (Str × Node) → Bool
  | [] => true
  | (_, v) :: rest => v.wf && wfVals rest
termination_by structural xs => xs

end

/-- `PathSegment` from `diff/path.rs`. -/
inductive PathSegment where
  | key (k : Str)
  | index (i : Int)
deriving Repr

/-- `Path` from `diff/path.rs` (a wrapper around `Vec<PathSegment>`). -/
abbrev Path := List PathSegment

/-- `DiffMetadata` from `diff/mod.rs`. -/
structure DiffMetadata where
  merge : Bool := false
  set_keys : Option (List Str) := none
  color : Option Bool := none
deriving DecidableEq, Repr

/-- `DiffMetadata::default()`. -/
def DiffMetadata.default : DiffMetadata := {}

/-- `DiffMetadata::merge()`. -/
def DiffMetadata.mergeMeta : DiffMetadata := { merge := true }

/-- `DiffMetadata::is_effective`. -/
def DiffMetadata.isEffective (m : DiffMetadata) : Bool :=
  m.merge || m.set_keys.isSome || m.color.isSome

/-- `DiffMetadata::absorb`: merge sticks `true`; the options overwrite when
present. -/
def DiffMetadata.absorb (self other : DiffMetadata) : DiffMetadata :=
  { merge := if other.merge then true else self.merge,
    set_keys := match other.set_keys with | some keys => some keys | none => self.set_keys,
    color := match other.color with | some c => some c | none => self.color }

/-- `DiffElement` from `diff/mod.rs`. -/
structure DiffElement where
  metadata : Option DiffMetadata := none
  path : Path := []
  before : List Node := []
  remove : List Node := []
  add : List Node := []
  after : List Node := []
deriving Repr

/-- `Diff` (a wrapper around `Vec<DiffElement>` in the source). -/
abbrev Diff := List DiffElement

/-- `is_void` from `diff/mod.rs` / `patch.rs`. -/
def is_void : Node → Bool
  | .void => true
  | _ => false

/-- `diff_primitives` from `diff/primitives.rs`. -/
def diff_primitives (lhs rhs : Node) (path : Path) : Diff :=
  [{ path := path,
     remove := if is_void lhs then [] else [lhs],
     add := if is_void rhs then [] else [rhs] }]

/-- `path_now` from `diff/list.rs`: drop the trailing placeholder, append the
current index. -/
def pathNow (path : Path) (cursor : Int) : Path :=
  path.dropLast ++ [PathSegment.index cursor]

/-- List indexing with a default, standing in for slice indexing whose
bounds are checked separately. -/
def getH (xs : List HashCode) (i : Nat) : HashCode := (xs.get? i).getD []

/-- `at_common` from `diff/list.rs`. -/
def atCommon (hashes : List HashCode) (cursor : Nat) (common : List HashCode) : Bool :=
  if cursor ≥ hashes.length ∨ common.isEmpty then false
  else getH hashes cursor = getH common 0

/-- `has_changes` from `diff/list.rs`. -/
def hasChanges (diff : List DiffElement) : Bool :=
  match diff.head? with
  | some element => !element.add.isEmpty || !element.remove.isEmpty
  | none => false

/-- `after_context` from `diff/list.rs` (`saturating_sub` is `Nat`
subtraction). -/
def afterContext (lhs : List Node) (aCursor commonCursor : Nat) : List Node :=
  let index := aCursor - commonCursor
  if index ≥ lhs.length then [Node.void] else [(lhs.get? index).getD .void]

/-- `same_container_type` from `diff/list.rs`. -/
def sameContainerType (lhs rhs : Node) : Bool :=
  match lhs, rhs with
  | .obj _, .obj _ => true
  | .arr _, .arr _ => true
  | _, _ => false

/-- Mutation of `diff[0]` in the `diff_rest` loop. -/
def mapHead (f : DiffElement → DiffElement) : List DiffElement → List DiffElement
  | [] => []
  | e :: rest => f e :: rest

/-- Entry `(i, j)` of the `longest_common_subsequence` DP table (the table in
`diff/list.rs` satisfies exactly this recurrence). -/
def lcsLen (lhs rhs : List HashCode) : Nat → Nat → Nat
  | 0, _ => 0
  | _ + 1, 0 => 0
  | i + 1, j + 1 =>
    if getH lhs i = getH rhs j then lcsLen lhs rhs i j + 1
    else max (lcsLen lhs rhs i (j + 1)) (lcsLen lhs rhs (i + 1) j)
termination_by i j => i + j

/-- The backtracking loop of `longest_common_subsequence`, producing the
pushed entries in push order (reversed by the caller, as in the source). -/
def lcsGo (lhs rhs : List HashCode) : Nat → Nat → List HashCode
  | 0, _ => []
  | _ + 1, 0 => []
  | i + 1, j + 1 =>
    if getH lhs i = getH rhs j then getH lhs i :: lcsGo lhs rhs i j
    else if lcsLen lhs rhs i (j + 1) ≥ lcsLen lhs rhs (i + 1) j then lcsGo lhs rhs i (j + 1)
    else lcsGo lhs rhs (i + 1) j
termination_by i j => i + j

/-- `longest_common_subsequence` from `diff/list.rs`. -/
def longest_common_subsequence (lhs rhs : List HashCode) : List HashCode :=
  (lcsGo lhs rhs lhs.length rhs.length).reverse

/-- The `while !at_common(rhs_hashes, b_cursor, common)` push loop of
`diff_rest` (branch: lhs at a common element).  `none` models the
out-of-bounds panic that indexing past the end would raise. -/
def collectAdds (rh common : List HashCode) (R : List Node) (b : Nat) : Option (List Node) :=
  if atCommon rh b common then some []
  else if h : b < R.length then
    match collectAdds rh common R (b + 1) with
    | none => none
    | some adds => some (R.get ⟨b, h⟩ :: adds)
  else none
termination_by R.length - b

/-- The `while !at_common(lhs_hashes, a_cursor, common)` removal loop of
`diff_rest` (branch: rhs at a common element). -/
def collectRemoves (lh common : List HashCode) (L : List Node) (a : Nat) : Option (List Node) :=
  if atCommon lh a common then some []
  else if h : a < L.length then
    match collectRemoves lh common L (a + 1) with
    | none => none
    | some removes => some (L.get ⟨a, h⟩ :: removes)
  else none
termination_by L.length - a

/-- A nonempty run is collected whenever the entry cursor is not common. -/
theorem collectAdds_pos {rh common : List HashCode} {R : List Node} {b : Nat} {adds : List Node}
    (hc : atCommon rh b common = false) (h : collectAdds rh common R b = some adds) :
    0 < adds.length := by
  rw [collectAdds] at h
  rw [hc] at h
  simp only [Bool.false_eq_true, if_false] at h
  split at h
  · split at h
    · exact absurd h (by simp)
    · cases h; simp
  · exact absurd h (by simp)

/-- A nonempty run is collected whenever the entry cursor is not common. -/
theorem collectRemoves_pos {lh common : List HashCode} {L : List Node} {a : Nat}
    {removes : List Node} (hc : atCommon lh a common = false)
    (h : collectRemoves lh common L a = some removes) : 0 < removes.length := by
  rw [collectRemoves] at h
  rw [hc] at h
  simp only [Bool.false_eq_true, if_false] at h
  split at h
  · split at h
    · exact absurd h (by simp)
    · cases h; simp
  · exact absurd h (by simp)

/-- A successful lookup returns a strict subterm. -/
theorem sizeOf_objGet {entries : List (Str × Node)} {k : Str} {v : Node}
    (h : objGet entries k = some v) : sizeOf v < sizeOf entries := by
  induction entries with
  | nil => simp [objGet] at h
  | cons kv rest ih =>
    obtain ⟨k', v'⟩ := kv
    rw [objGet] at h
    split at h
    · cases h
      simp only [List.cons.sizeOf_spec, Prod.mk.sizeOf_spec]
      omega
    · have := ih h
      simp only [List.cons.sizeOf_spec]
      omega

/-- Indexing returns a strict subterm. -/
theorem sizeOf_get_lt (xs : List Node) (i : Nat) (h : i < xs.length) :
    sizeOf xs[i] < sizeOf xs :=
  List.sizeOf_lt_of_mem (List.getElem_mem h)

/-- Dropping at least one element of a long-enough list shrinks it. -/
theorem sizeOf_drop_lt (xs : List Node) (a : Nat) (h0 : 0 < a) (hle : a ≤ xs.length) :
    sizeOf (xs.drop a) < sizeOf xs := by
  cases xs with
  | nil => simp at hle; omega
  | cons x rest =>
    cases a with
    | zero => omega
    | succ a' =>
      have hd : (x :: rest).drop (a' + 1) = rest.drop a' := rfl
      have hle' : sizeOf (rest.drop a') ≤ sizeOf rest := List.drop_sizeOf_le rest a'
      rw [hd]
      simp only [List.cons.sizeOf_spec]
      omega

/-- The additions walk over ascending rhs-only keys at the end of
`diff_objects` (the lookup into `r` always succeeds because the keys are
drawn from `r`; the default is unreachable). -/
def diffObjAddsLoop (l r : List (Str × Node)) (path : Path) : List Str → List DiffElement
  | [] => []
  | k :: ks =>
    if (objGet l k).isSome then diffObjAddsLoop l r path ks
    else
      { path := path ++ [PathSegment.key k], add := [(objGet r k).getD .void] }
        :: diffObjAddsLoop l r path ks

mutual

/-- `diff_impl` from `diff/mod.rs`.  `none` models the `panic!` on the
unimplemented set/multiset branch (and unreachable indexing panics below). -/
def diffImpl (lhs rhs : Node) (path : Path) (o : DiffOptions) : Option Diff :=
  if lhs.eqWithOptions rhs o then some []
  else
    match lhs, rhs with
    | .obj left, .obj right => diffObjects left right path o
    | .arr left, .arr right =>
      match o.array_mode with
      | .list => diffLists left right path o
      | _ => none
    | l, r => some (diff_primitives l r path)
termination_by (sizeOf lhs + sizeOf rhs, 3, 0)

/-- `diff_objects` from `diff/object.rs`. -/
def diffObjects (l r : List (Str × Node)) (path : Path) (o : DiffOptions) : Option Diff :=
  match diffObjLhsLoop l r path o (sortBy bytesLe (l.map Prod.fst)) with
  | none => none
  | some elements => some (elements ++ diffObjAddsLoop l r path (sortBy bytesLe (r.map Prod.fst)))
termination_by (sizeOf l + sizeOf r, 2, 0)

/-- The walk over ascending lhs keys in `diff_objects`: recurse on shared
keys, emit removals for lhs-only keys. -/
def diffObjLhsLoop (l r : List (Str × Node)) (path : Path) (o : DiffOptions) :
    List Str → Option Diff
  | [] => some []
  | k :: ks =>
    match hv : objGet l k with
    | none => none
    | some value =>
      match hw : objGet r k with
      | some other =>
        have h1 : sizeOf value < sizeOf l := sizeOf_objGet hv
        have h2 : sizeOf other < sizeOf r := sizeOf_objGet hw
        match diffImpl value other (path ++ [PathSegment.key k]) o with
        | none => none
        | some sub =>
          match diffObjLhsLoop l r path o ks with
          | none => none
          | some rest => some (sub ++ rest)
      | none =>
        match diffObjLhsLoop l r path o ks with
        | none => none
        | some rest =>
          some ({ path := path ++ [PathSegment.key k], remove := [value] } :: rest)
termination_by keys => (sizeOf l + sizeOf r, 1, keys.length)

/-- `diff_lists` from `diff/list.rs`. -/
def diffLists (l r : List Node) (path : Path) (o : DiffOptions) : Option Diff :=
  let lh := hashCodes l o
  let rh := hashCodes r o
  let common := longest_common_subsequence lh rh
  diffRest l r 0 (path ++ [PathSegment.index 0]) lh rh common .void o
termination_by (sizeOf l + sizeOf r, 2, 1)

/-- `diff_rest` from `diff/list.rs`: run the hunk loop, post-process the
buffer, then recurse on the remaining slices.  The final `none` branch is
unreachable (the loop only stops there with both cursors advanced). -/
def diffRest (L R : List Node) (pathIndex : Int) (path : Path) (lh rh common : List HashCode)
    (previous : Node) (o : DiffOptions) : Option Diff :=
  match diffLoop L R lh rh common path o
      [{ path := pathNow path pathIndex, before := [previous] }] 0 0 0 pathIndex with
  | none => none
  | some (diff, a, b, cc, pc) =>
    let diff :=
      if !hasChanges diff then []
      else if diff.length < 2 then
        mapHead
          (fun first =>
            if first.path.length ≤ path.length then { first with after := afterContext L a cc }
            else first)
          diff
      else diff
    if a = L.length ∧ b = R.length then some diff
    else if h : 0 < a ∧ a ≤ L.length ∧ 0 < b ∧ b ≤ R.length then
      let previous' := if b = 0 then Node.void else (R.get? (b - 1)).getD .void
      have hszL : sizeOf (L.drop a) < sizeOf L := sizeOf_drop_lt L a h.1 h.2.1
      have hszR : sizeOf (R.drop b) < sizeOf R := sizeOf_drop_lt R b h.2.2.1 h.2.2.2
      match diffRest (L.drop a) (R.drop b) pc (pathNow path pc) (lh.drop a) (rh.drop b)
          (common.drop cc) previous' o with
      | none => none
      | some rest => some (diff ++ rest)
    else none
termination_by (sizeOf L + sizeOf R, 1, 0)

/-- The main loop of `diff_rest`, with the cursor state made explicit.  The
source tests the exhaustion guards with `==`; since the cursors never
exceed the lengths, testing with `≥` is behaviour-equal and keeps the
bounds available.  Returns the final `(diff, a_cursor, b_cursor,
common_cursor, path_cursor)`. -/
def diffLoop (L R : List Node) (lh rh common : List HashCode) (path : Path) (o : DiffOptions)
    (diff : List DiffElement) (a b cc : Nat) (pc : Int) :
    Option (List DiffElement × Nat × Nat × Nat × Int) :=
  if hga : a ≥ L.length then
    some (mapHead (fun e => { e with add := e.add ++ R.drop b }) diff, a, R.length, cc,
      pc + 2 * ((R.length - b : Nat) : Int))
  else if hgb : b ≥ R.length then
    some (mapHead (fun e => { e with remove := e.remove ++ L.drop a }) diff, L.length, b, cc, pc)
  else if hcc : atCommon lh a common && atCommon rh b common then
    some (diff, a + 1, b + 1, cc + 1, pc + 1)
  else if hca : atCommon lh a common then
    match hadds : collectAdds rh common R b with
    | none => none
    | some adds =>
      have hcbf : atCommon rh b common = false := by
        cases hx : atCommon rh b common
        · rfl
        · exact absurd (by simp [hca, hx]) hcc
      have hpos : 0 < adds.length := collectAdds_pos hcbf hadds
      have hblt : b < R.length := by omega
      diffLoop L R lh rh common path o (mapHead (fun e => { e with add := e.add ++ adds }) diff)
        a (b + adds.length) cc (pc + (adds.length : Int))
  else if hcb : atCommon rh b common then
    match hrem : collectRemoves lh common L a with
    | none => none
    | some removes =>
      have hcaf : atCommon lh a common = false := by
        cases hx : atCommon lh a common
        · rfl
        · exact absurd hx hca
      have hpos : 0 < removes.length := collectRemoves_pos hcaf hrem
      have halt : a < L.length := by omega
      diffLoop L R lh rh common path o
        (mapHead (fun e => { e with remove := e.remove ++ removes }) diff)
        (a + removes.length) b cc pc
  else
    have ha : a < L.length := by omega
    have hb : b < R.length := by omega
    have hszA : sizeOf L[a] < sizeOf L := sizeOf_get_lt L a ha
    have hszB : sizeOf R[b] < sizeOf R := sizeOf_get_lt R b hb
    if sameContainerType L[a] R[b] then
      match diffImpl L[a] R[b] (pathNow path pc) o with
      | none => none
      | some subDiff =>
        if hasChanges diff then
          some (mapHead (fun e => { e with after := afterContext L a cc }) diff ++ subDiff,
            a + 1, b + 1, cc, pc + 1)
        else some (subDiff, a + 1, b + 1, cc, pc + 1)
    else
      diffLoop L R lh rh common path o
        (mapHead
          (fun e =>
            { e with remove := e.remove ++ [L[a]], add := e.add ++ [R[b]] })
          diff)
        (a + 1) (b + 1) cc (pc + 1)
termination_by (sizeOf L + sizeOf R, 0, (L.length - a) + (R.length - b))

end

/-- `diff_nodes` from `diff/mod.rs`: diff at the root path. -/
def diff_nodes (lhs rhs : Node) (o : DiffOptions) : Option Diff :=
  diffImpl lhs rhs [] o

/-- `serde_json::Number`: integer payloads are kept exactly, a float payload
keeps its bit pattern. -/
inductive JsonNumber where
  | i64 (v : Int)
  | u64 (v : Nat)
  | f64 (bits : Nat)
deriving DecidableEq, Repr

/-- `serde_json::Value` (object entries in map order). -/
inductive JsonValue where
  | null
  | bool (b : Bool)
  | num (n : JsonNumber)
  | str (s : Str)
  | arr (items : List JsonValue)
  | obj (entries : List (Str × JsonValue))
deriving Repr

/-- Truncation toward zero, the rounding of Rust's float-to-int `as` casts. -/
def ratTrunc (q : ℚ) : Int := q.num / (q.den : Int)

/-- `v as i64`: truncate and saturate to the `i64` range. -/
def i64Sat (q : ℚ) : Int := max (-(2 ^ 63)) (min (2 ^ 63 - 1) (ratTrunc q))

/-- `v as u64`: truncate and saturate to the `u64` range. -/
def u64Sat (q : ℚ) : Nat := (max 0 (min (2 ^ 64 - 1) (ratTrunc q))).toNat

/-- `Number::to_json_number` from `number.rs`.  `fract() == 0.0` holds
exactly when the value is an integer; `(i64::MAX as f64)` is `2^63` and
`(u64::MAX as f64)` is `2^64` (both casts round up). -/
def Number.to_json_number (n : Number) : JsonNumber :=
  let v := f64Val n.bits
  if v.den = 1 ∧ ¬(v = 0 ∧ f64SignBit n.bits = 1) then
    if (-(2 ^ 63) : ℚ) ≤ v ∧ v ≤ (2 ^ 63 : ℚ) then .i64 (i64Sat v)
    else if (0 : ℚ) ≤ v ∧ v ≤ (2 ^ 64 : ℚ) then .u64 (u64Sat v)
    else .f64 n.bits
  else .f64 n.bits

/-- `json_number_from_f64` from `diff/mod.rs` (same ladder, without the
negative-zero guard). -/
def json_number_from_f64 (bits : Nat) : JsonNumber :=
  let v := f64Val bits
  if v.den = 1 then
    if (-(2 ^ 63) : ℚ) ≤ v ∧ v ≤ (2 ^ 63 : ℚ) then .i64 (i64Sat v)
    else if (0 : ℚ) ≤ v ∧ v ≤ (2 ^ 64 : ℚ) then .u64 (u64Sat v)
    else .f64 bits
  else .f64 bits

mutual

/-- `Node::to_json_value` from `node.rs`: `None` exactly when the node
contains `Void` anywhere. -/
def Node.toJsonValue : Node → Option JsonValue
  | .void => none
  | .null => some .null
  | .bool b => some (.bool b)
  | .num n => some (.num n.to_json_number)
  | .str s => some (.str s)
  | .arr values =>
    match toJsonList values with
    | none => none
    | some items => some (.arr items)
  | .obj map =>
    match toJsonEntries map with
    | none => none
    | some entries => some (.obj entries)
termination_by structural n => n

/-- Children of an array, failing on any nested `Void`. -/
def toJsonList : List Node → Option (List JsonValue)
  | [] => some []
  | v :: rest =>
    match v.toJsonValue with
    | none => none
    | some item =>
      match toJsonList rest with
      | none => none
      | some items => some (item :: items)
termination_by structural xs => xs

/-- Entries of an object, failing on any nested `Void`. -/
def toJsonEntries : List (Str × Node) → Option (List (Str × JsonValue))
  | [] => some []
  | (k, v) :: rest =>
    match v.toJsonValue with
    | none => none
    | some item =>
      match toJsonEntries rest with
      | none => none
      | some items => some ((k, item) :: items)
termination_by structural xs => xs

end

/-- Lowercase hex digit. -/
def hexDigit (n : Nat) : String :=
  String.singleton (if n < 10 then Char.ofNat (48 + n) else Char.ofNat (87 + n))

/-- One byte of a JSON string, escaped the way `serde_json` escapes it.
Bytes at or above `0x80` are passed through; the concrete strings in the
claims are ASCII, where this is exact. -/
def escapeJsonByte (b : Nat) : String :=
  if b = 0x22 then "\\\""
  else if b = 0x5C then "\\\\"
  else if b = 0x08 then "\\b"
  else if b = 0x09 then "\\t"
  else if b = 0x0A then "\\n"
  else if b = 0x0C then "\\f"
  else if b = 0x0D then "\\r"
  else if b < 0x20 then "\\u00" ++ hexDigit (b / 16) ++ hexDigit (b % 16)
  else String.singleton (Char.ofNat b)

/-- A JSON string literal with quotes and escapes. -/
def jsonString (s : Str) : String :=
  "\"" ++ (s.map escapeJsonByte).foldr (· ++ ·) "" ++ "\""

/-- Decimal expansion of the fractional part (denominators here are powers
of two, so the expansion is finite; the fuel covers the deepest denormal). -/
def fracDigits (rest den : Nat) : Nat → String
  | 0 => ""
  | fuel + 1 =>
    if rest = 0 then ""
    else
      String.singleton (Char.ofNat (48 + rest * 10 / den)) ++ fracDigits (rest * 10 % den) den fuel

/-- Rendering of a float `serde_json` payload.  The exact decimal expansion
is used; it matches the shortest-roundtrip form on the integral values the
claims exercise (no claim depends on non-integral float formatting). -/
def f64ToString (bits : Nat) : String :=
  let q := f64Val bits
  let sign := if f64SignBit bits = 1 then "-" else ""
  let n := q.num.natAbs
  let d := q.den
  let rest := n % d
  sign ++ toString (n / d) ++ "." ++ (if rest = 0 then "0" else fracDigits rest d 1200)

/-- Display of a `serde_json::Number`. -/
def JsonNumber.render : JsonNumber → String
  | .i64 v => toString v
  | .u64 v => toString v
  | .f64 bits => f64ToString bits

mutual

/-- `serde_json::to_string` (compact form). -/
def JsonValue.render : JsonValue → String
  | .null => "null"
  | .bool true => "true"
  | .bool false => "false"
  | .num n => n.render
  | .str s => jsonString s
  | .arr items => "[" ++ renderItems items ++ "]"
  | .obj entries => "\x7b" ++ renderEntries entries ++ "\x7d"
termination_by structural v => v

/-- Comma-separated array items. -/
def renderItems : List JsonValue → String
  | [] => ""
  | [v] => v.render
  | v :: rest => v.render ++ "," ++ renderItems rest
termination_by structural items => items

/-- Comma-separated `"key":value` pairs. -/
def renderEntries : List (Str × JsonValue) → String
  | [] => ""
  | [(k, v)] => jsonString k ++ ":" ++ v.render
  | (k, v) :: rest => jsonString k ++ ":" ++ v.render ++ "," ++ renderEntries rest
termination_by structural entries => entries

end

/-- `node_to_json` from `diff/mod.rs` (the `expect` on a nested `Void` is
unreachable in the rendering flows considered and maps to `""`). -/
def node_to_json (node : Node) : String :=
  match node with
  | .void => ""
  | .num number => (json_number_from_f64 number.bits).render
  | other =>
    match other.toJsonValue with
    | some value => value.render
    | none => ""

/-- `RenderError` carries only its message. -/
abbrev RenderError := String

/-- `node_to_json_value` from `diff/mod.rs`. -/
def node_to_json_value (node : Node) : Except RenderError JsonValue :=
  match node with
  | .void => .error "cannot encode void value in JSON Patch"
  | .num number => .ok (.num (json_number_from_f64 number.bits))
  | other =>
    match other.toJsonValue with
    | some value => .ok value
    | none => .error "cannot encode void value in JSON Patch"

/-- Rendering of raw bytes as text (ASCII-exact), used by `Display` code. -/
def strRender (s : Str) : String :=
  (s.map (fun b => String.singleton (Char.ofNat b))).foldr (· ++ ·) ""

/-- `Display` for `PathSegment`. -/
def segRender : PathSegment → String
  | .key k => strRender k
  | .index i => toString i

/-- `Display` for `Path`: `[seg seg ...]` space-separated. -/
def path_to_string (path : List PathSegment) : String :=
  let rec go : List PathSegment → String
    | [] => ""
    | [s] => segRender s
    | s :: rest => segRender s ++ " " ++ go rest
  "[" ++ go path ++ "]"

/-- `node_json` from `patch.rs` (`{value:.0}` for integral floats, the
serde form otherwise; `Void` and unserializable nodes map to `""`). -/
def node_json (node : Node) : String :=
  match node with
  | .void => ""
  | .num number =>
    let v := f64Val number.bits
    if v.den = 1 then (if f64SignBit number.bits = 1 then "-" else "") ++ toString v.num.natAbs
    else f64ToString number.bits
  | other =>
    match other.toJsonValue with
    | some value => value.render
    | none => ""

/-- `PatchStrategy` from `patch.rs`. -/
inductive PatchStrategy where
  | strict
  | merge
deriving DecidableEq, Repr

/-- Result of a patch routine: either a Rust panic (out-of-bounds indexing,
unreachable in the engine's own flows), a `PatchError` message, or the
patched node. -/
inductive PatchOutcome where
  | panicked
  | err (msg : String)
  | ok (node : Node)
deriving Repr

/-- `non_set_diff_error` from `patch.rs`. -/
def non_set_diff_error (old_values _new_values : List Node) (path : List PathSegment) : String :=
  if old_values.length > 1 then
    "invalid diff: multiple removals from non-set at " ++ path_to_string path
  else "invalid diff: multiple additions to a non-set at " ++ path_to_string path

/-- `expect_value_error` from `patch.rs`. -/
def expect_value_error (expected found : Node) (path : List PathSegment) : String :=
  "found " ++ node_json found ++ " at " ++ path_to_string path ++ ": expected "
    ++ node_json expected

/-- `expected_collection_error` from `patch.rs`. -/
def expected_collection_error (node : Node) (segment : PathSegment) : String :=
  let expected := match segment with
    | .key _ => "JSON object"
    | .index _ => "JSON array"
  "found " ++ node_json node ++ " at " ++ segRender segment ++ ": expected " ++ expected

/-- `invalid_path_element_error` from `patch.rs`. -/
def invalid_path_element_error (segment : PathSegment) : String :=
  let typeName := match segment with
    | .key _ => "string"
    | .index _ => "float64"
  "invalid path element " ++ typeName ++ ": expected float64"

/-- `single_value` from `patch.rs`. -/
def single_value (values : List Node) : Node := (values.head?).getD .void

/-- `patch_scalar` from `patch.rs`. -/
def patchScalar (node : Node) (path_behind path_ahead : List PathSegment)
    (old_values new_values : List Node) (strategy : PatchStrategy) : PatchOutcome :=
  match path_ahead.head? with
  | some segment => .err (expected_collection_error node segment)
  | none =>
    if old_values.length > 1 ∨ new_values.length > 1 then
      .err (non_set_diff_error old_values new_values path_behind)
    else
      let old_value := single_value old_values
      let new_value := single_value new_values
      match strategy with
      | .merge =>
        if !is_void old_value then
          .err ("patch with merge strategy at " ++ path_to_string path_behind
            ++ " has unnecessary old value " ++ node_json old_value)
        else .ok new_value
      | .strict =>
        if !node.beqNode old_value then .err (expect_value_error old_value node path_behind)
        else .ok new_value

/-- Sorted insertion, i.e. `BTreeMap::insert` on the association-list model. -/
def objInsert (entries : List (Str × Node)) (k : Str) (v : Node) : List (Str × Node) :=
  match entries with
  | [] => [(k, v)]
  | (k', v') :: rest =>
    if k' = k then (k, v) :: rest
    else if bytesLt k k' then (k, v) :: (k', v') :: rest
    else (k', v') :: objInsert rest k v

/-- `BTreeMap::remove` on the association-list model. -/
def objRemove (entries : List (Str × Node)) (k : Str) : List (Str × Node) :=
  match entries with
  | [] => []
  | (k', v') :: rest => if k' = k then rest else (k', v') :: objRemove rest k

/-- The `before`-context walk of `patch_list` (`total` is the full context
length, so `distance = total - offset`). -/
def checkBefore (total : Nat) (raw : Int) (original : List Node) :
    List Node → Nat → PatchOutcome
  | [], _ => .ok .void
  | context :: more, offset =>
    let distance : Int := (total : Int) - (offset : Int)
    let check : Int := raw - distance
    if check < 0 then
      if check = -1 ∧ is_void context then checkBefore total raw original more (offset + 1)
      else
        .err ("invalid patch. before context " ++ node_json context ++ " out of bounds: "
          ++ toString check)
    else
      match original.get? check.toNat with
      | none => .panicked
      | some found =>
        if found.beqNode context then checkBefore total raw original more (offset + 1)
        else
          .err ("invalid patch. expected " ++ node_json context ++ " before. got "
            ++ node_json found)

/-- The removal loop of `patch_list`: pop each expected value at the
insertion index, failing on a mismatch (indexing past the end panics). -/
def removeLoop (ii : Nat) (working : List Node) : List Node → PatchOutcome × List Node
  | [] => (.ok .void, working)
  | expected :: more =>
    match working.get? ii with
    | none => (.panicked, working)
    | some found =>
      if found.beqNode expected then removeLoop ii (working.eraseIdx ii) more
      else
        (.err ("invalid patch. wanted " ++ node_json expected ++ ". found " ++ node_json found),
          working)

/-- The `after`-context walk of `patch_list`, evaluated against the
post-removal pre-insertion list. -/
def checkAfter (ii : Nat) (working : List Node) : List Node → Nat → PatchOutcome
  | [], _ => .ok .void
  | context :: more, offset =>
    let check := ii + offset
    if check ≥ working.length then
      if check = working.length ∧ is_void context then checkAfter ii working more (offset + 1)
      else
        .err ("invalid patch. after context " ++ node_json context ++ " out of bounds: "
          ++ toString check)
    else
      match working.get? check with
      | none => .panicked
      | some found =>
        if found.beqNode context then checkAfter ii working more (offset + 1)
        else
          .err ("invalid patch. expected " ++ node_json context ++ " after. got "
            ++ node_json found)

mutual

/-- `patch_element` from `patch.rs`: the merge strategy consumes leading
keys itself; everything else dispatches on the node type. -/
def patchElement (node : Node) (path_behind path_ahead : List PathSegment)
    (before remove add after : List Node) (strategy : PatchStrategy) : PatchOutcome :=
  match strategy with
  | .strict => patchDispatch node path_behind path_ahead before remove add after .strict
  | .merge =>
    match path_ahead with
    | [] => patchDispatch node path_behind [] before remove add after .merge
    | segment :: rest =>
      match segment with
    | .index _ => .err (expected_collection_error node segment)
      | .key key =>
        match node with
        | .obj map =>
          let existing := match objGet map key with
            | some v => v
            | none => if rest.isEmpty then Node.void else .obj []
          let mapRemoved := objRemove map key
          match patchElement existing (path_behind ++ [segment]) rest before remove add after
              .merge with
          | .ok patched =>
            if is_void patched ∧ rest.isEmpty then .ok (.obj mapRemoved)
            else if !is_void patched ∨ !rest.isEmpty then
              .ok (.obj (objInsert mapRemoved key patched))
            else .ok (.obj mapRemoved)
          | other => other
        | _ =>
          let seed := if rest.isEmpty then Node.void else Node.obj []
          match patchElement seed (path_behind ++ [segment]) rest before remove add after
              .merge with
          | .ok patched =>
            if !is_void patched ∨ !rest.isEmpty then .ok (.obj (objInsert [] key patched))
            else .ok (.obj [])
          | other => other
termination_by (path_ahead.length, 3)

/-- The type dispatch at the bottom of `patch_element`. -/
def patchDispatch (node : Node) (path_behind path_ahead : List PathSegment)
    (before remove add after : List Node) (strategy : PatchStrategy) : PatchOutcome :=
  match node with
  | .arr values => patchList values path_behind path_ahead before remove add after strategy
  | .obj map => patchObject map path_behind path_ahead remove add strategy
  | other =>
    match path_ahead.head? with
    | some segment => .err (expected_collection_error other segment)
    | none => patchScalar other path_behind path_ahead remove add strategy
termination_by (path_ahead.length, 2)

/-- `patch_object` from `patch.rs` (the context arguments are unused there). -/
def patchObject (map : List (Str × Node)) (path_behind path_ahead : List PathSegment)
    (old_values new_values : List Node) (strategy : PatchStrategy) : PatchOutcome :=
  match path_ahead with
  | [] =>
    if old_values.length > 1 ∨ new_values.length > 1 then
      .err (non_set_diff_error old_values new_values path_behind)
    else
      let new_value := single_value new_values
      if strategy = .merge then .ok new_value
      else
        let old_value := single_value old_values
        if !(Node.obj map).beqNode old_value then
          .err (expect_value_error old_value (.obj map) path_behind)
        else .ok new_value
  | segment :: rest =>
    match segment with
    | .index _ =>
      .err ("found " ++ node_json (.obj map) ++ " at " ++ path_to_string path_behind
        ++ ": expected JSON object")
    | .key key =>
      let next := match objGet map key with
        | some v => v
        | none =>
          match strategy with
          | .merge => if rest.isEmpty then Node.void else .obj []
          | .strict => Node.void
      match patchElement next (path_behind ++ [segment]) rest [] old_values new_values []
          strategy with
      | .ok patched =>
        if is_void patched then .ok (.obj (objRemove map key))
        else .ok (.obj (objInsert map key patched))
      | other => other
termination_by (path_ahead.length, 1)

/-- `patch_list` from `patch.rs`. -/
def patchList (list : List Node) (path_behind path_ahead : List PathSegment)
    (before remove add after : List Node) (strategy : PatchStrategy) : PatchOutcome :=
  if strategy = .merge then
    patchScalar (.arr list) path_behind path_ahead remove add strategy
  else
    match path_ahead with
    | [] =>
      if remove.length > 1 ∨ add.length > 1 then .err "cannot replace list with multiple values"
      else
        match remove with
        | [] => .err "invalid diff. must declare list to replace it"
        | wanted :: _ =>
          if !(Node.arr list).beqNode wanted then
            .err ("wanted " ++ node_json wanted ++ ". found " ++ node_json (.arr list))
          else
            match add with
            | [] => .ok .void
            | new_value :: _ => .ok new_value
    | segment :: rest =>
      match segment with
      | .key _ => .err (invalid_path_element_error segment)
      | .index raw =>
        if !rest.isEmpty then
          if raw < 0 ∨ (list.length : Int) ≤ raw then
            .err ("patch index out of bounds: " ++ toString raw)
          else
            match list.get? raw.toNat with
            | none => .panicked
            | some child =>
              match patchElement child (path_behind ++ [segment]) rest [] remove add []
                  strategy with
              | .ok patched => .ok (.arr (list.set raw.toNat patched))
              | other => other
        else if raw = -1 then
          if !remove.isEmpty then
            .err "invalid patch. appending to -1 index. but want to remove values"
          else .ok (.arr (list ++ add))
        else if raw < 0 then .err ("patch index out of bounds: " ++ toString raw)
        else
          let insertion_index := raw.toNat
          match checkBefore before.length raw list before 0 with
          | .ok _ =>
            let removeStep :=
              if remove.isEmpty then (PatchOutcome.ok .void, list)
              else if list.length ≤ insertion_index then
                (PatchOutcome.err ("remove values out bounds: " ++ toString raw), list)
              else removeLoop insertion_index list remove
            match removeStep with
            | (.ok _, working) =>
              if working.length < insertion_index then
                .err ("remove values out bounds: " ++ toString raw)
              else
                let result := working.take insertion_index ++ add ++ working.drop insertion_index
                match checkAfter insertion_index working after 0 with
                | .ok _ => .ok (.arr result)
                | other => other
            | (other, _) => other
          | other => other
termination_by (path_ahead.length, 1)

end

/-- The element loop of `apply_patch` from `patch.rs`, threading the
inherited metadata. -/
def applyLoop (current : Node) (inherited : Option DiffMetadata) : List DiffElement → PatchOutcome
  | [] => .ok current
  | element :: rest =>
    let inherited' :=
      match element.metadata with
      | some meta =>
        if meta.isEffective then
          match inherited with
          | some existing => some (existing.absorb meta)
          | none => some meta
        else inherited
      | none => inherited
    let metadata := Option.filter (fun m => m.isEffective) inherited'
    let strategy :=
      if (match metadata with | some m => m.merge | none => false) then PatchStrategy.merge
      else PatchStrategy.strict
    match patchElement current [] element.path element.before element.remove element.add
        element.after strategy with
    | .ok next => applyLoop next inherited' rest
    | other => other

/-- `apply_patch` from `patch.rs`. -/
def apply_patch (node : Node) (diff : Diff) : PatchOutcome :=
  applyLoop node none diff

/-- `RenderConfig` from `diff/mod.rs`. -/
structure RenderConfig where
  color : Bool := false
deriving DecidableEq, Repr

/-- ANSI reset. -/
def COLOR_RESET : String := "\x1b[0m"

/-- ANSI red. -/
def COLOR_RED : String := "\x1b[31m"

/-- ANSI green. -/
def COLOR_GREEN : String := "\x1b[32m"

/-- `DiffMetadata::render_header`. -/
def DiffMetadata.render_header (m : DiffMetadata) : String :=
  if m.merge then "^ \x7b\"Merge\":true\x7d\n" else ""

/-- Byte list of the ASCII rendering of a Lean string (digits and such). -/
def asciiBytes (s : String) : Str := s.toList.map Char.toNat

/-- `path_to_json` from `diff/mod.rs`.  An index is serialized through
`JsonNumber::from_f64`, whose serde form for the attainable index range is
the trailing-`.0` decimal. -/
def pathToJsonString (path : Path) : String :=
  let seg : PathSegment → String
    | .key k => jsonString k
    | .index i => toString i ++ ".0"
  let rec go : List PathSegment → String
    | [] => ""
    | [s] => seg s
    | s :: rest => seg s ++ "," ++ go rest
  "[" ++ go path ++ "]"

/-- Table entry of `lcs_chars` (same recurrence as the hash LCS, over
character code points). -/
def lcsCharLen (lhs rhs : List Nat) : Nat → Nat → Nat
  | 0, _ => 0
  | _ + 1, 0 => 0
  | i + 1, j + 1 =>
    if (lhs.get? i).getD 0 = (rhs.get? j).getD 0 then lcsCharLen lhs rhs i j + 1
    else max (lcsCharLen lhs rhs i (j + 1)) (lcsCharLen lhs rhs (i + 1) j)
termination_by i j => i + j

/-- Backtracking loop of `lcs_chars` (push order; reversed by the caller). -/
def lcsCharGo (lhs rhs : List Nat) : Nat → Nat → List Nat
  | 0, _ => []
  | _ + 1, 0 => []
  | i + 1, j + 1 =>
    if (lhs.get? i).getD 0 = (rhs.get? j).getD 0 then
      (lhs.get? i).getD 0 :: lcsCharGo lhs rhs i j
    else if lcsCharLen lhs rhs i (j + 1) ≥ lcsCharLen lhs rhs (i + 1) j then
      lcsCharGo lhs rhs i (j + 1)
    else lcsCharGo lhs rhs (i + 1) j
termination_by i j => i + j

/-- `lcs_chars` from `diff/mod.rs` (on byte strings; ASCII-exact). -/
def lcs_chars (lhs rhs : Str) : List Nat :=
  (lcsCharGo lhs rhs lhs.length rhs.length).reverse

/-- `color_string_diff` from `diff/mod.rs`. -/
def colorStringDiff (text : Str) (common : List Nat) (color : String) : String :=
  match text, common with
  | [], _ => ""
  | ch :: rest, c :: cs =>
    if ch = c then String.singleton (Char.ofNat ch) ++ colorStringDiff rest cs color
    else color ++ String.singleton (Char.ofNat ch) ++ COLOR_RESET ++ colorStringDiff rest (c :: cs) color
  | ch :: rest, [] =>
    color ++ String.singleton (Char.ofNat ch) ++ COLOR_RESET ++ colorStringDiff rest [] color

/-- The single-string-replacement probe of `render_element_native`. -/
def stringDiffPair (element : DiffElement) : Option (Str × Str) :=
  match element.remove, element.add with
  | [.str old], [.str new] => some (old, new)
  | _, _ => none

/-- The `before`-context lines of the native form. -/
def renderBeforeLines : List Node → String
  | [] => ""
  | b :: rest =>
    (if is_void b then "[\n" else "  " ++ node_to_json b ++ "\n") ++ renderBeforeLines rest

/-- The removal lines of the native form. -/
def renderRemoveLines (config : RenderConfig) (sd : Option (Str × Str)) : List Node → String
  | [] => ""
  | v :: rest =>
    (if is_void v then ""
     else
       match sd with
       | some (old, new) =>
         if config.color then "- \"" ++ colorStringDiff old (lcs_chars old new) COLOR_RED ++ "\"\n"
         else "- " ++ node_to_json v ++ "\n"
       | none =>
         if config.color then COLOR_RED ++ "- " ++ node_to_json v ++ "\n" ++ COLOR_RESET
         else "- " ++ node_to_json v ++ "\n")
      ++ renderRemoveLines config sd rest

/-- The addition lines of the native form. -/
def renderAddLines (config : RenderConfig) (sd : Option (Str × Str)) (isMerge : Bool) :
    List Node → String
  | [] => ""
  | v :: rest =>
    (if is_void v then
       if isMerge then
         if config.color then COLOR_GREEN ++ "+\n" ++ COLOR_RESET else "+\n"
       else ""
     else
       match sd with
       | some (old, new) =>
         if config.color then "+ \"" ++ colorStringDiff new (lcs_chars old new) COLOR_GREEN ++ "\"\n"
         else "+ " ++ node_to_json v ++ "\n"
       | none =>
         if config.color then COLOR_GREEN ++ "+ " ++ node_to_json v ++ "\n" ++ COLOR_RESET
         else "+ " ++ node_to_json v ++ "\n")
      ++ renderAddLines config sd isMerge rest

/-- The `after`-context lines of the native form. -/
def renderAfterLines : List Node → String
  | [] => ""
  | x :: rest =>
    (if is_void x then "]\n" else "  " ++ node_to_json x ++ "\n") ++ renderAfterLines rest

/-- `render_element_native` from `diff/mod.rs`. -/
def render_element_native (element : DiffElement) (config : RenderConfig) (isMerge : Bool) :
    String :=
  let sd := stringDiffPair element
  "@ " ++ pathToJsonString element.path ++ "\n"
    ++ renderBeforeLines element.before
    ++ renderRemoveLines config sd element.remove
    ++ renderAddLines config sd isMerge element.add
    ++ renderAfterLines element.after

/-- The element loop of `Diff::render`, threading the (overwriting)
inherited metadata. -/
def renderLoop (config : RenderConfig) (inherited : DiffMetadata) : List DiffElement → String
  | [] => ""
  | element :: rest =>
    let header := match element.metadata with
      | some metadata => metadata.render_header
      | none => ""
    let inherited' := match element.metadata with
      | some metadata => metadata
      | none => inherited
    let isMerge := match element.metadata with
      | some meta => meta.merge
      | none => inherited.merge
    header ++ render_element_native element config isMerge ++ renderLoop config inherited' rest

/-- `Diff::render` from `diff/mod.rs` (the native text form). -/
def Diff.render (diff : Diff) (config : RenderConfig) : String :=
  renderLoop config {} diff

/-- One RFC 6902 operation (`PatchElement` in `diff/mod.rs`; the `value` is
always populated by the three constructors used). -/
structure PatchOp where
  op : String
  path : Str
  value : JsonValue

/-- Serialization of one operation, in declared field order. -/
def PatchOp.render (o : PatchOp) : String :=
  "\x7b\"op\":\"" ++ o.op ++ "\",\"path\":" ++ jsonString o.path ++ ",\"value\":"
    ++ o.value.render ++ "\x7d"

/-- `serde_json::to_string` of the operations vector. -/
def renderOps (ops : List PatchOp) : String :=
  let rec go : List PatchOp → String
    | [] => ""
    | [o] => o.render
    | o :: rest => o.render ++ "," ++ go rest
  "[" ++ go ops ++ "]"

/-- `escape_pointer_segment` from `diff/mod.rs` (`~` then `/`). -/
def escapePointerSegment (s : Str) : Str :=
  s.foldr
    (fun b acc =>
      if b = 0x7E then 0x7E :: 0x30 :: acc
      else if b = 0x2F then 0x7E :: 0x31 :: acc
      else b :: acc)
    []

/-- Digit-string value, `none` when empty or non-digit (`str::parse` body). -/
def parseDigits : List Nat → Option Nat
  | [] => none
  | ds =>
    let rec go (acc : Nat) : List Nat → Option Nat
      | [] => some acc
      | d :: rest => if 0x30 ≤ d ∧ d ≤ 0x39 then go (acc * 10 + (d - 0x30)) rest else none
    go 0 ds

/-- `key.parse::<i64>().is_ok()`: optional sign, at least one digit, in the
`i64` range. -/
def strParsesAsI64 (s : Str) : Bool :=
  match s with
  | [] => false
  | b :: rest =>
    if b = 0x2B then
      match parseDigits rest with
      | some v => v ≤ 2 ^ 63 - 1
      | none => false
    else if b = 0x2D then
      match parseDigits rest with
      | some v => v ≤ 2 ^ 63
      | none => false
    else
      match parseDigits s with
      | some v => v ≤ 2 ^ 63 - 1
      | none => false

/-- `path_to_pointer` from `diff/mod.rs`. -/
def path_to_pointer (path : Path) : Except RenderError Str :=
  match path with
  | [] => .ok []
  | segment :: rest =>
    match segment with
    | .index i =>
      let bytes := if i = -1 then [0x2D] else asciiBytes (toString i)
      match path_to_pointer rest with
      | .error e => .error e
      | .ok tail => .ok (0x2F :: bytes ++ tail)
    | .key k =>
      if strParsesAsI64 k then
        .error ("JSON Pointer does not support object keys that look like numbers: "
          ++ strRender k)
      else if k = [0x2D] then .error "JSON Pointer does not support object key '-'"
      else
        match path_to_pointer rest with
        | .error e => .error e
        | .ok tail => .ok (0x2F :: escapePointerSegment k ++ tail)

/-- The per-element operation emission of `Diff::render_patch`. -/
def renderPatchElementOps (element : DiffElement) : Except RenderError (List PatchOp) :=
  if element.remove.isEmpty && element.add.isEmpty then
    .error "cannot render empty diff element as JSON Patch op"
  else
    match path_to_pointer element.path with
    | .error e => .error e
    | .ok pointer =>
      if element.before.length > 1 then
        .error ("only one line of before context supported. got "
          ++ toString element.before.length)
      else
        let beforeOps : Except RenderError (List PatchOp) :=
          match element.before.head? with
          | none => .ok []
          | some b =>
            if is_void b then .ok []
            else
              match element.path.getLast? with
              | none => .error "expected path. got empty path"
              | some (PathSegment.key _) => .error "wanted path index. got object key"
              | some (PathSegment.index idx) =>
                match path_to_pointer (element.path.dropLast ++ [PathSegment.index (idx - 1)]) with
                | .error e => .error e
                | .ok prevPointer =>
                  match node_to_json_value b with
                  | .error e => .error e
                  | .ok value => .ok [{ op := "test", path := prevPointer, value := value }]
        match beforeOps with
        | .error e => .error e
        | .ok ops0 =>
          if element.after.length > 1 then
            .error ("only one line of after context supported. got "
              ++ toString element.after.length)
          else
            let afterOps : Except RenderError (List PatchOp) :=
              match element.after.head? with
              | none => .ok []
              | some x =>
                if is_void x then .ok []
                else
                  match element.path.getLast? with
                  | none => .error "expected path. got empty path"
                  | some (PathSegment.key _) => .error "wanted path index. got object key"
                  | some (PathSegment.index idx) =>
                    let nextIndex := idx + (element.remove.length : Int)
                    match path_to_pointer
                        (element.path.dropLast ++ [PathSegment.index nextIndex]) with
                    | .error e => .error e
                    | .ok nextPointer =>
                      match node_to_json_value x with
                      | .error e => .error e
                      | .ok value => .ok [{ op := "test", path := nextPointer, value := value }]
            match afterOps with
            | .error e => .error e
            | .ok ops1 =>
              let removeOps : Except RenderError (List PatchOp) :=
                if (match element.remove.head? with
                    | some v => is_void v
                    | none => false) then .ok []
                else
                  let rec goRemove : List Node → Except RenderError (List PatchOp)
                    | [] => .ok []
                    | v :: rest =>
                      match node_to_json_value v with
                      | .error e => .error e
                      | .ok value =>
                        match goRemove rest with
                        | .error e => .error e
                        | .ok more =>
                          .ok ({ op := "test", path := pointer, value := value }
                            :: { op := "remove", path := pointer, value := value } :: more)
                  goRemove element.remove
              match removeOps with
              | .error e => .error e
              | .ok ops2 =>
                let rec goAdd : List Node → Except RenderError (List PatchOp)
                  | [] => .ok []
                  | v :: rest =>
                    if is_void v then goAdd rest
                    else
                      match node_to_json_value v with
                      | .error e => .error e
                      | .ok value =>
                        match goAdd rest with
                        | .error e => .error e
                        | .ok more =>
                          .ok ({ op := "add", path := pointer, value := value } :: more)
                match goAdd element.add.reverse with
                | .error e => .error e
                | .ok ops3 => .ok (ops0 ++ ops1 ++ ops2 ++ ops3)

/-- `Diff::render_patch` from `diff/mod.rs` (RFC 6902). -/
def Diff.render_patch (diff : Diff) : Except RenderError String :=
  if diff.isEmpty then .ok "[]"
  else
    let rec go : List DiffElement → Except RenderError (List PatchOp)
      | [] => .ok []
      | element :: rest =>
        match renderPatchElementOps element with
        | .error e => .error e
        | .ok ops =>
          match go rest with
          | .error e => .error e
          | .ok more => .ok (ops ++ more)
    match go diff with
    | .error e => .error e
    | .ok ops => .ok (renderOps ops)

/-- `Void`-to-`Null` rewriting of the additions in `render_merge`. -/
def normalizeMergeAdds (element : DiffElement) : DiffElement :=
  { element with add := element.add.map (fun v => if is_void v then Node.null else v) }

/-- The element loop of `Diff::render_merge`: overwrite-inherit metadata and
require each element to be merge-flagged. -/
def renderMergeNormalize (inherited : DiffMetadata) :
    List DiffElement → Except RenderError (List DiffElement)
  | [] => .ok []
  | element :: rest =>
    let inherited' := match element.metadata with
      | some metadata => metadata
      | none => inherited
    let isMerge := match element.metadata with
      | some meta => meta.merge
      | none => inherited.merge
    if !isMerge then .error "cannot render non-merge element as merge"
    else
      match renderMergeNormalize inherited' rest with
      | .error e => .error e
      | .ok more => .ok (normalizeMergeAdds element :: more)

/-- `Diff::render_merge` from `diff/mod.rs` (RFC 7386): apply the normalized
diff to `Void` with the patch engine, then serialize.  (A patch panic is
unreachable here: every element applies with the merge strategy, which
never indexes.) -/
def Diff.render_merge (diff : Diff) : Except RenderError String :=
  if diff.isEmpty then .ok "\x7b\x7d"
  else
    match renderMergeNormalize {} diff with
    | .error e => .error e
    | .ok normalized =>
      match apply_patch .void normalized with
      | .panicked => .error "patch panicked"
      | .err msg => .error msg
      | .ok patched =>
        match patched.toJsonValue with
        | none => .error "merge patch produced void value"
        | some value => .ok value.render

/-- The prefix scan of `Diff::reverse`: effective (absorbed) metadata per
element. -/
def activeMetadataScan (inherited : Option DiffMetadata) :
    List DiffElement → List (Option DiffMetadata)
  | [] => []
  | element :: rest =>
    let inherited' :=
      match element.metadata with
      | some meta =>
        if meta.isEffective then
          match inherited with
          | some existing => some (existing.absorb meta)
          | none => some meta
        else inherited
      | none => inherited
    inherited' :: activeMetadataScan inherited' rest

/-- The reversed-order emission loop of `Diff::reverse`. -/
def reverseEmit (lastEmitted : Option DiffMetadata) :
    List (DiffElement × Option DiffMetadata) → Except RenderError (List DiffElement)
  | [] => .ok []
  | (element, metadata) :: rest =>
    if (match metadata with | some meta => meta.merge | none => false) then
      .error ("cannot reverse merge diff element at " ++ path_to_string element.path)
    else
      let swapped := { element with remove := element.add, add := element.remove }
      let (clone, lastEmitted') :=
        match metadata with
        | some meta =>
          if lastEmitted ≠ some meta then ({ swapped with metadata := some meta }, some meta)
          else ({ swapped with metadata := none }, lastEmitted)
        | none => ({ swapped with metadata := none }, (none : Option DiffMetadata))
      match reverseEmit lastEmitted' rest with
      | .error e => .error e
      | .ok more => .ok (clone :: more)

/-- `Diff::reverse` from `diff/mod.rs`. -/
def Diff.reverse (diff : Diff) : Except RenderError Diff :=
  match diff with
  | [] => .ok []
  | _ =>
    let active := activeMetadataScan none diff
    reverseEmit none (diff.zip active).reverse

/-! ## General facts about the embedding -/

/-- The non-strict byte order is the negation of the flipped strict one. -/
theorem bytesLe_iff_not_lt (a b : Str) : bytesLe a b = true ↔ ¬bytesLt b a = true := by
  induction a generalizing b with
  | nil => cases b <;> simp [bytesLe, bytesLt]
  | cons x xs ih =>
    cases b with
    | nil => simp [bytesLe, bytesLt]
    | cons y ys =>
      by_cases hxy : x < y
      · simp [bytesLe, bytesLt, hxy, Nat.lt_asymm hxy]
      · by_cases hyx : y < x
        · simp [bytesLe, bytesLt, hxy, hyx]
        · simp [bytesLe, bytesLt, hxy, hyx, ih ys]

/-- Reflexivity of the byte order. -/
theorem bytesLe_refl (a : Str) : bytesLe a a = true := by
  induction a with
  | nil => rfl
  | cons x xs ih => simp [bytesLe, ih]

/-- Totality of the byte order. -/
theorem bytesLe_total (a b : Str) : bytesLe a b = true ∨ bytesLe b a = true := by
  induction a generalizing b with
  | nil => exact Or.inl rfl
  | cons x xs ih =>
    cases b with
    | nil => exact Or.inr rfl
    | cons y ys =>
      by_cases hxy : x < y
      · exact Or.inl (by simp [bytesLe, hxy])
      · by_cases hyx : y < x
        · exact Or.inr (by simp [bytesLe, hxy, hyx])
        · rcases ih ys with h | h
          · exact Or.inl (by simp [bytesLe, hxy, hyx, h])
          · exact Or.inr (by simp [bytesLe, hxy, hyx, h])

/-- Antisymmetry of the byte order. -/
theorem bytesLe_antisymm {a b : Str} (h1 : bytesLe a b = true) (h2 : bytesLe b a = true) :
    a = b := by
  induction a generalizing b with
  | nil => cases b with
    | nil => rfl
    | cons y ys => simp [bytesLe] at h2
  | cons x xs ih =>
    cases b with
    | nil => simp [bytesLe] at h1
    | cons y ys =>
      by_cases hxy : x < y
      · simp [bytesLe, hxy, Nat.lt_asymm hxy] at h2
      · by_cases hyx : y < x
        · simp [bytesLe, hxy, hyx] at h1
        · have : x = y := by omega
          subst this
          simp [bytesLe, hxy, hyx] at h1 h2
          rw [ih h1 h2]

/-- Head characterization of the non-strict byte order. -/
theorem bytesLe_cons (x y : Nat) (xs ys : Str) :
    bytesLe (x :: xs) (y :: ys) = true ↔ (x < y ∨ (x = y ∧ bytesLe xs ys = true)) := by
  simp only [bytesLe]
  by_cases hxy : x < y
  · simp [hxy]
  · by_cases hyx : y < x
    · simp [hxy, hyx]
      omega
    · have : x = y := by omega
      simp [hxy, hyx, this]

/-- Head characterization of the strict byte order. -/
theorem bytesLt_cons (x y : Nat) (xs ys : Str) :
    bytesLt (x :: xs) (y :: ys) = true ↔ (x < y ∨ (x = y ∧ bytesLt xs ys = true)) := by
  simp only [bytesLt]
  by_cases hxy : x < y
  · simp [hxy]
  · by_cases hyx : y < x
    · simp [hxy, hyx]
      omega
    · have : x = y := by omega
      simp [hxy, hyx, this]

/-- Transitivity of the byte order. -/
theorem bytesLe_trans {a b c : Str} (h1 : bytesLe a b = true) (h2 : bytesLe b c = true) :
    bytesLe a c = true := by
  induction a generalizing b c with
  | nil => rfl
  | cons x xs ih =>
    cases b with
    | nil => simp [bytesLe] at h1
    | cons y ys =>
      cases c with
      | nil => simp [bytesLe] at h2
      | cons z zs =>
        rw [bytesLe_cons] at h1 h2 ⊢
        rcases h1 with h1 | ⟨rfl, h1⟩
        · rcases h2 with h2 | ⟨rfl, h2⟩
          · exact Or.inl (by omega)
          · exact Or.inl h1
        · rcases h2 with h2 | ⟨rfl, h2⟩
          · exact Or.inl h2
          · exact Or.inr ⟨rfl, ih h1 h2⟩

/-- The strict byte order is irreflexive. -/
theorem bytesLt_irrefl (a : Str) : bytesLt a a = false := by
  have := bytesLe_iff_not_lt a a
  simp [bytesLe_refl] at this
  exact this

/-- The strict byte order is transitive. -/
theorem bytesLt_trans {a b c : Str} (h1 : bytesLt a b = true) (h2 : bytesLt b c = true) :
    bytesLt a c = true := by
  have hab : bytesLe a b = true := by
    rw [bytesLe_iff_not_lt]
    intro hba
    have h1' : ¬bytesLe b a = true := by
      intro h
      rw [bytesLe_iff_not_lt] at h
      exact h h1
    rcases bytesLe_total a b with h | h
    · exact h1' (by rw [bytesLe_iff_not_lt]; intro hcon; rw [bytesLe_iff_not_lt] at h; exact h hba)
    · exact h1' h
  by_cases hac : bytesLt a c = true
  · exact hac
  · exfalso
    have hca : bytesLe c a = true := by
      rw [bytesLe_iff_not_lt]
      simpa using hac
    have hcb : bytesLe c b = true := bytesLe_trans hca hab
    rw [bytesLe_iff_not_lt] at hcb
    exact hcb h2

/-- Strict order means unequal. -/
theorem bytesLt_ne {a b : Str} (h : bytesLt a b = true) : a ≠ b := by
  intro hab
  subst hab
  rw [bytesLt_irrefl] at h
  cases h

/-- Order with inequality is strict order. -/
theorem bytesLt_of_le_of_ne {a b : Str} (h : bytesLe a b = true) (hne : a ≠ b) :
    bytesLt a b = true := by
  by_cases hba : bytesLe b a = true
  · exact absurd (bytesLe_antisymm h hba) hne
  · rw [bytesLe_iff_not_lt] at hba
    simpa using hba

/-- Strict order implies non-strict. -/
theorem bytesLe_of_lt {a b : Str} (h : bytesLt a b = true) : bytesLe a b = true := by
  rw [bytesLe_iff_not_lt]
  intro hba
  exact bytesLt_ne (bytesLt_trans h hba) rfl

/-- The non-strict byte order as a proposition. -/
def leB (a b : Str) : Prop := bytesLe a b = true

instance : IsAntisymm Str leB := ⟨fun _ _ h1 h2 => bytesLe_antisymm h1 h2⟩

/-- Sorted insertion permutes a cons. -/
theorem insertSortedBy_perm (x : Str) (xs : List Str) :
    List.Perm (insertSortedBy bytesLe x xs) (x :: xs) := by
  induction xs with
  | nil => simp [insertSortedBy]
  | cons y ys ih =>
    rw [insertSortedBy]
    by_cases h : bytesLe x y = true
    · rw [if_pos h]
    · rw [if_neg h]
      exact List.Perm.trans (List.Perm.cons y ih) (List.Perm.swap x y ys)

/-- The insertion sort permutes its input. -/
theorem sortBy_perm (xs : List Str) : List.Perm (sortBy bytesLe xs) xs := by
  induction xs with
  | nil => rfl
  | cons x rest ih =>
    rw [sortBy] at ih ⊢
    exact List.Perm.trans (insertSortedBy_perm _ _) (List.Perm.cons x ih)

/-- Sorted insertion preserves sortedness. -/
theorem insertSortedBy_sorted (x : Str) {xs : List Str} (h : List.Sorted leB xs) :
    List.Sorted leB (insertSortedBy bytesLe x xs) := by
  induction xs with
  | nil => simp [insertSortedBy]
  | cons y ys ih =>
    rw [List.sorted_cons] at h
    rw [insertSortedBy]
    by_cases hxy : bytesLe x y = true
    · rw [if_pos hxy]
      rw [List.sorted_cons]
      refine ⟨fun b hb => ?_, List.sorted_cons.mpr h⟩
      rcases List.mem_cons.mp hb with rfl | hb
      · exact hxy
      · exact bytesLe_trans hxy (h.1 b hb)
    · rw [if_neg hxy]
      rw [List.sorted_cons]
      refine ⟨fun b hb => ?_, ih h.2⟩
      have hmem := (insertSortedBy_perm x ys).mem_iff.mp hb
      rcases List.mem_cons.mp hmem with rfl | hb'
      · rcases bytesLe_total b y with hh | hh
        · exact absurd hh hxy
        · exact hh
      · exact h.1 b hb'

/-- The insertion sort sorts. -/
theorem sortBy_sorted (xs : List Str) : List.Sorted leB (sortBy bytesLe xs) := by
  induction xs with
  | nil => simp [sortBy]
  | cons x rest ih =>
    rw [sortBy] at ih ⊢
    exact insertSortedBy_sorted x ih

/-- Permutations with equal byte multisets sort identically. -/
theorem sortBy_eq_of_perm {l1 l2 : List Str} (p : List.Perm l1 l2) :
    sortBy bytesLe l1 = sortBy bytesLe l2 := by
  refine List.eq_of_perm_of_sorted ?_ (sortBy_sorted l1) (sortBy_sorted l2)
  exact List.Perm.trans (sortBy_perm l1) (List.Perm.trans p (sortBy_perm l2).symm)

/-- The explicit subtraction agrees with the library subtraction. -/
theorem ratSub_eq (a b : ℚ) : ratSub a b = a - b := by
  unfold ratSub
  have ha : (a.den : ℤ) ≠ 0 := by exact_mod_cast a.den_nz
  have hb : (b.den : ℤ) ≠ 0 := by exact_mod_cast b.den_nz
  rw [Rat.mkRat_eq_divInt, Nat.cast_mul, ← Rat.divInt_sub_divInt _ _ ha hb,
    Rat.num_divInt_den, Rat.num_divInt_den]

/-- The explicit absolute value agrees with the library one. -/
theorem ratAbs_eq (q : ℚ) : ratAbs q = |q| := by
  unfold ratAbs
  show (if q < 0 then -q else q) = |q|
  rcases le_or_lt 0 q with h | h
  · rw [if_neg (not_lt.mpr h), abs_of_nonneg h]
  · rw [if_pos h, abs_of_neg h]

/-- At precision 0 the embedded comparison is exact value equality. -/
theorem equalsWithPrecision_zero (a b : Number) :
    a.equalsWithPrecision b 0 = true ↔ f64Val a.bits = f64Val b.bits := by
  unfold Number.equalsWithPrecision
  rw [ratSub_eq, ratAbs_eq]
  simp [abs_nonpos_iff, sub_eq_zero]

/-- The library negation is the core one. -/
theorem ratNeg_eq (q : ℚ) : Rat.neg q = -q := rfl

/-- Common-denominator numerator of the decoded magnitude. -/
def natMag (e m : Nat) : Nat := if e = 0 then 2 * m else (2 ^ 52 + m) * 2 ^ e

/-- The decoded value, written over the common denominator `2 ^ 1075`. -/
theorem f64Val_eq (bits : Nat) :
    f64Val bits =
      if f64SignBit bits = 1 then
        -(mkRat (natMag (f64ExpField bits) (f64Mantissa bits)) (2 ^ 1075))
      else mkRat (natMag (f64ExpField bits) (f64Mantissa bits)) (2 ^ 1075) := by
  unfold f64Val natMag
  have hpow : (2 : Nat) * 2 ^ 1074 = 2 ^ 1075 := by
    rw [Nat.mul_comm, ← pow_succ]
  have hden : mkRat ((f64Mantissa bits : Int)) (2 ^ 1074) =
      mkRat (2 * (f64Mantissa bits : Int)) (2 ^ 1075) := by
    have h2 : (2 : Nat) ≠ 0 := by norm_num
    have hml := Rat.mkRat_mul_left (n := (f64Mantissa bits : Int)) (d := 2 ^ 1074) h2
    rw [← hml, hpow]
    norm_cast
  by_cases he : f64ExpField bits = 0 <;> by_cases hs : f64SignBit bits = 1 <;>
    simp [he, hs, ratNeg_eq, hden]

/-- The common-denominator numerator determines exponent and mantissa. -/
theorem natMag_inj {e1 m1 e2 m2 : Nat} (hm1 : m1 < 2 ^ 52) (hm2 : m2 < 2 ^ 52)
    (h : natMag e1 m1 = natMag e2 m2) : e1 = e2 ∧ m1 = m2 := by
  have key : ∀ e m mm : Nat, e ≠ 0 → mm < 2 ^ 52 → 2 * mm < (2 ^ 52 + m) * 2 ^ e := by
    intro e m mm he hmm
    have hp1 : (2 : Nat) ^ 1 ≤ 2 ^ e := Nat.pow_le_pow_right (by norm_num) (by omega)
    have hp2 : (2 : Nat) ^ 52 * 2 ^ 1 ≤ (2 ^ 52 + m) * 2 ^ e :=
      Nat.mul_le_mul (by omega) hp1
    have hval : (2 : Nat) ^ 52 * 2 ^ 1 = 2 ^ 53 := by norm_num
    omega
  unfold natMag at h
  by_cases h1 : e1 = 0 <;> by_cases h2 : e2 = 0
  · simp [h1, h2] at h ⊢
    omega
  · rw [if_pos h1, if_neg h2] at h
    exact absurd h (Nat.ne_of_lt (key e2 m2 m1 h2 hm1))
  · rw [if_neg h1, if_pos h2] at h
    exact absurd h.symm (Nat.ne_of_lt (key e1 m1 m2 h1 hm2))
  · rw [if_neg h1, if_neg h2] at h
    have mono : ∀ ea ma eb mb : Nat, ea ≠ 0 → eb ≠ 0 → ma < 2 ^ 52 → ea < eb →
        (2 ^ 52 + ma) * 2 ^ ea < (2 ^ 52 + mb) * 2 ^ eb := by
      intro ea ma eb mb hea heb hma hlt
      have s1 : (2 ^ 52 + ma) * 2 ^ ea < 2 ^ 53 * 2 ^ ea :=
        (Nat.mul_lt_mul_right (Nat.pos_pow_of_pos ea (by norm_num))).mpr (by omega)
      have s2 : (2 : Nat) ^ 53 * 2 ^ ea = 2 ^ 52 * 2 ^ (ea + 1) := by
        rw [pow_succ]
        ring
      have s3 : (2 : Nat) ^ 52 * 2 ^ (ea + 1) ≤ (2 ^ 52 + mb) * 2 ^ eb :=
        Nat.mul_le_mul (by omega) (Nat.pow_le_pow_right (by norm_num) (by omega))
      omega
    rcases Nat.lt_trichotomy e1 e2 with hlt | heq | hgt
    · exact absurd h (Nat.ne_of_lt (mono e1 m1 e2 m2 h1 h2 hm1 hlt))
    · subst heq
      have := Nat.eq_of_mul_eq_mul_right (Nat.pos_pow_of_pos e1 (by norm_num)) h
      exact ⟨rfl, by omega⟩
    · exact absurd h.symm (Nat.ne_of_lt (mono e2 m2 e1 m1 h2 h1 hm2 hgt))

/-- The numerator vanishes only on the zero pattern. -/
theorem natMag_eq_zero {e m : Nat} : natMag e m = 0 ↔ (e = 0 ∧ m = 0) := by
  unfold natMag
  by_cases he : e = 0
  · simp [he]
  · rw [if_neg he]
    have h1 : 0 < 2 ^ e := Nat.pos_pow_of_pos e (by norm_num)
    have h2 : 0 < 2 ^ 52 + m := by positivity
    constructor
    · intro h
      exact absurd h (Nat.ne_of_gt (Nat.mul_pos h2 h1))
    · rintro ⟨h, _⟩
      exact absurd h he

/-- Same-denominator `mkRat` values are equal only on equal numerators. -/
theorem mkRat_natCast_inj {a b : Nat} {D : Nat} (hD : D ≠ 0)
    (h : mkRat (a : Int) D = mkRat (b : Int) D) : a = b := by
  rw [Rat.mkRat_eq_iff hD hD] at h
  have := Int.eq_of_mul_eq_mul_right (by exact_mod_cast hD) h
  exact_mod_cast this

/-- `mkRat` of a natural numerator is nonnegative. -/
theorem mkRat_natCast_nonneg (a D : Nat) : 0 ≤ mkRat ((a : Nat) : Int) D :=
  Rat.mkRat_nonneg (Int.natCast_nonneg a) D

/-- `mkRat` of a natural numerator vanishes only on a zero numerator. -/
theorem mkRat_natCast_eq_zero {a D : Nat} (hD : D ≠ 0)
    (h : mkRat ((a : Nat) : Int) D = 0) : a = 0 := by
  have := (Rat.mkRat_eq_zero hD).mp h
  exact_mod_cast this

/-- Bit patterns decompose into sign, exponent and mantissa fields. -/
theorem bits_recon (b : Nat) (hb : b < u64Mod) :
    b = f64SignBit b * 2 ^ 63 + f64ExpField b * 2 ^ 52 + f64Mantissa b := by
  unfold f64SignBit f64ExpField f64Mantissa u64Mod at *
  omega

/-- Injectivity of the IEEE-754 decode away from the two zeros: two
64-bit patterns, neither negative zero, with equal decoded values are
equal. -/
theorem f64Val_inj {b1 b2 : Nat} (h1 : b1 < u64Mod) (h2 : b2 < u64Mod)
    (hz1 : b1 ≠ f64NegZeroBits) (hz2 : b2 ≠ f64NegZeroBits)
    (h : f64Val b1 = f64Val b2) : b1 = b2 := by
  have hm1 : f64Mantissa b1 < 2 ^ 52 := Nat.mod_lt _ (by norm_num)
  have hm2 : f64Mantissa b2 < 2 ^ 52 := Nat.mod_lt _ (by norm_num)
  have hs1 : f64SignBit b1 < 2 := Nat.mod_lt _ (by norm_num)
  have hs2 : f64SignBit b2 < 2 := Nat.mod_lt _ (by norm_num)
  have hD : (2 ^ 1075 : Nat) ≠ 0 := by positivity
  rw [f64Val_eq, f64Val_eq] at h
  set M1 := natMag (f64ExpField b1) (f64Mantissa b1) with hM1
  set M2 := natMag (f64ExpField b2) (f64Mantissa b2) with hM2
  have finish : f64SignBit b1 = f64SignBit b2 → M1 = M2 → b1 = b2 := by
    intro hs hM
    obtain ⟨he, hm⟩ := natMag_inj hm1 hm2 hM
    rw [bits_recon b1 h1, bits_recon b2 h2, hs, he, hm]
  by_cases hb1 : f64SignBit b1 = 1 <;> by_cases hb2 : f64SignBit b2 = 1
  · rw [if_pos hb1, if_pos hb2, neg_inj] at h
    exact finish (hb1.trans hb2.symm) (mkRat_natCast_inj hD h)
  · exfalso
    rw [if_pos hb1, if_neg hb2] at h
    have e1 : (0 : ℚ) ≤ mkRat (M1 : Int) (2 ^ 1075) := mkRat_natCast_nonneg M1 (2 ^ 1075)
    have e2 : (0 : ℚ) ≤ mkRat (M2 : Int) (2 ^ 1075) := mkRat_natCast_nonneg M2 (2 ^ 1075)
    have hM2le : mkRat (M2 : Int) (2 ^ 1075) ≤ 0 := by
      rw [← h]
      exact neg_nonpos_of_nonneg e1
    have hz2q : mkRat (M2 : Int) (2 ^ 1075) = 0 := le_antisymm hM2le e2
    have hz1q : mkRat (M1 : Int) (2 ^ 1075) = 0 := neg_eq_zero.mp (h.trans hz2q)
    obtain ⟨he1, hmm1⟩ := natMag_eq_zero.mp (mkRat_natCast_eq_zero hD hz1q)
    apply hz1
    rw [bits_recon b1 h1, hb1, he1, hmm1]
    norm_num [f64NegZeroBits]
  · exfalso
    rw [if_neg hb1, if_pos hb2] at h
    have e1 : (0 : ℚ) ≤ mkRat (M1 : Int) (2 ^ 1075) := mkRat_natCast_nonneg M1 (2 ^ 1075)
    have e2 : (0 : ℚ) ≤ mkRat (M2 : Int) (2 ^ 1075) := mkRat_natCast_nonneg M2 (2 ^ 1075)
    have hM1le : mkRat (M1 : Int) (2 ^ 1075) ≤ 0 := by
      rw [h]
      exact neg_nonpos_of_nonneg e2
    have hz1q : mkRat (M1 : Int) (2 ^ 1075) = 0 := le_antisymm hM1le e1
    have hz2q : mkRat (M2 : Int) (2 ^ 1075) = 0 := neg_eq_zero.mp (h.symm.trans hz1q)
    obtain ⟨he2, hmm2⟩ := natMag_eq_zero.mp (mkRat_natCast_eq_zero hD hz2q)
    apply hz2
    rw [bits_recon b2 h2, hb2, he2, hmm2]
    norm_num [f64NegZeroBits]
  · rw [if_neg hb1, if_neg hb2] at h
    have hsa : f64SignBit b1 = 0 := by omega
    have hsb : f64SignBit b2 = 0 := by omega
    exact finish (hsa.trans hsb.symm) (mkRat_natCast_inj hD h)

/-- A non-finite pattern is a NaN or an infinity. -/
theorem not_finite_iff (v : Nat) :
    f64IsFinite v = false ↔ (f64IsNan v = true ∨ f64IsInf v = true) := by
  simp only [f64IsFinite, f64IsNan, f64IsInf, decide_eq_false_iff_not, decide_eq_true_eq,
    not_not]
  constructor
  · intro h
    by_cases hm : f64Mantissa v = 0
    · exact Or.inr ⟨h, hm⟩
    · exact Or.inl ⟨h, hm⟩
  · rintro (⟨h, _⟩ | ⟨h, _⟩) <;> exact h

/-! ## Negative-zero-free nodes -/

mutual

/-- No number in the tree carries the negative-zero bit pattern (the one
finite pattern whose value collides with another pattern's). -/
def noNegZero : Node → Bool
  | .void => true
  | .null => true
  | .bool _ => true
  | .num n => n.bits ≠ f64NegZeroBits
  | .str _ => true
  | .arr elems => noNegZeroList elems
  | .obj entries => noNegZeroVals entries
termination_by structural n => n

/-- All elements negative-zero-free. -/
def noNegZeroList : List Node → Bool
  | [] => true
  | v :: rest => noNegZero v && noNegZeroList rest
termination_by structural xs => xs

/-- All object values negative-zero-free. -/
def noNegZeroVals : List (Str × Node) → Bool
  | [] => true
  | (_, v) :: rest => noNegZero v && noNegZeroVals rest
termination_by structural xs => xs

end

/-! ## Multiset counting machinery -/

/-- Total count of a hash across a counts list (robust to duplicates). -/
def countsTotal : List (HashCode × Nat) → HashCode → Nat
  | [], _ => 0
  | (k, c) :: rest, h => (if k = h then c else 0) + countsTotal rest h

/-- `bumpCount` adds one to the bumped hash and nothing else. -/
theorem countsTotal_bumpCount (counts : List (HashCode × Nat)) (h h' : HashCode) :
    countsTotal (bumpCount counts h) h' =
      countsTotal counts h' + (if h' = h then 1 else 0) := by
  induction counts with
  | nil =>
    simp only [bumpCount, countsTotal]
    by_cases hh : h' = h
    · rw [if_pos hh.symm, if_pos hh]
    · rw [if_neg (Ne.symm hh), if_neg hh]
  | cons kc rest ih =>
    obtain ⟨k, c⟩ := kc
    simp only [bumpCount]
    by_cases hk : k = h
    · rw [if_pos hk]
      subst hk
      simp only [countsTotal]
      by_cases hh : k = h'
      · rw [if_pos hh, if_pos hh, if_pos hh.symm]
        omega
      · rw [if_neg hh, if_neg hh, if_neg (Ne.symm hh)]
        omega
    · rw [if_neg hk]
      by_cases hlt : bytesLt h k = true
      · rw [if_pos hlt]
        simp only [countsTotal]
        by_cases hh : h' = h
        · rw [if_pos hh.symm, if_pos hh]
          omega
        · rw [if_neg (Ne.symm hh), if_neg hh]
          omega
      · rw [if_neg hlt]
        simp only [countsTotal, ih]
        omega

/-- Folding `bumpCount` builds exact occurrence counts. -/
theorem countsTotal_foldl (hs : List HashCode) (acc : List (HashCode × Nat)) (h : HashCode) :
    countsTotal (hs.foldl bumpCount acc) h = countsTotal acc h + hs.count h := by
  induction hs generalizing acc with
  | nil => simp
  | cons x rest ih =>
    rw [List.foldl_cons, ih, countsTotal_bumpCount]
    rw [List.count_cons]
    simp only [beq_iff_eq]
    by_cases hx : h = x
    · rw [if_pos hx, if_pos hx.symm]
      omega
    · rw [if_neg hx, if_neg (Ne.symm hx)]
      omega

/-- One decrement step of `consumeCounts` lowers the consumed hash's total
by one and keeps the others. -/
theorem consumeCounts_dec (counts counts' : List (HashCode × Nat)) (h : HashCode)
    (hd : consumeCounts.dec h counts = some counts') :
    (∀ h', countsTotal counts h' =
      countsTotal counts' h' + (if h' = h then 1 else 0)) := by
  induction counts generalizing counts' with
  | nil =>
    rw [show consumeCounts.dec h [] = none from rfl] at hd
    cases hd
  | cons kc rest ih =>
    obtain ⟨k, c⟩ := kc
    rw [consumeCounts.dec] at hd
    by_cases hk : k = h
    · rw [if_pos hk] at hd
      by_cases hc : 0 < c
      · rw [if_pos hc] at hd
        cases hd
        intro h'
        simp only [countsTotal]
        by_cases hh : k = h'
        · rw [if_pos hh, if_pos hh, if_pos (hk ▸ hh).symm]
          omega
        · rw [if_neg hh, if_neg hh, if_neg (fun hq : h' = h => hh ((hq.trans hk.symm).symm))]
          omega
      · rw [if_neg hc] at hd
        cases hd
    · rw [if_neg hk] at hd
      cases hrec : consumeCounts.dec h rest with
      | none => rw [hrec] at hd; cases hd
      | some rest' =>
        rw [hrec] at hd
        cases hd
        intro h'
        have := ih rest' hrec h'
        simp only [countsTotal]
        omega

/-- `consumeCounts` subtracts exactly the occurrence counts of its input. -/
theorem consumeCounts_spec (hs : List HashCode) (counts counts' : List (HashCode × Nat))
    (h : consumeCounts counts hs = some counts') :
    ∀ x, countsTotal counts x = countsTotal counts' x + hs.count x := by
  induction hs generalizing counts with
  | nil =>
    rw [consumeCounts] at h
    cases h
    intro x
    rw [List.count_nil]
    omega
  | cons y rest ih =>
    rw [consumeCounts] at h
    cases hdec : consumeCounts.dec y counts with
    | none => rw [hdec] at h; cases h
    | some mid =>
      rw [hdec] at h
      simp only at h
      intro x
      have h1 := consumeCounts_dec counts mid y hdec x
      have h2 := ih mid h x
      rw [List.count_cons]
      simp only [beq_iff_eq]
      by_cases hx : x = y
      · rw [if_pos hx] at h1
        rw [if_pos hx.symm]
        omega
      · rw [if_neg hx] at h1
        rw [if_neg (Ne.symm hx)]
        omega

/-- All-zero counts have zero totals. -/
theorem countsTotal_all_zero (counts : List (HashCode × Nat))
    (h : counts.all (fun kc => kc.2 = 0) = true) (x : HashCode) : countsTotal counts x = 0 := by
  induction counts with
  | nil => rfl
  | cons kc rest ih =>
    obtain ⟨k, c⟩ := kc
    simp only [List.all_cons, Bool.and_eq_true, decide_eq_true_eq] at h
    rw [countsTotal]
    rw [ih h.2]
    simp [h.1]

/-- Occurrence counting normalised to `countP` over propositional equality. -/
theorem countA_eq_countP (x : HashCode) (L : List HashCode) :
    L.count x = List.countP (fun a => decide (a = x)) L := by
  induction L with
  | nil => rfl
  | cons y ys ih =>
    rw [List.count_cons, List.countP_cons, ih]
    by_cases hy : y = x <;> simp [hy]

/-- `multiset_equals` implies the two hash lists are permutations. -/
theorem multiset_equals_perm (l r : List Node) (o : DiffOptions)
    (h : multiset_equals l r o = true) :
    List.Perm (hashCodes l o) (hashCodes r o) := by
  rw [multiset_equals] at h
  split at h
  · cases h
  · have hm : (match consumeCounts ((hashCodes l o).foldl bumpCount []) (hashCodes r o) with
      | none => false
      | some counts2 => counts2.all fun kc => kc.2 = 0) = true := h
    cases hcons : consumeCounts ((hashCodes l o).foldl bumpCount []) (hashCodes r o) with
    | none => rw [hcons] at hm; cases hm
    | some counts' =>
      rw [hcons] at hm
      simp only at hm
      rw [List.perm_iff_count]
      intro x
      show List.countP (fun a => decide (a = x)) (hashCodes l o) =
        List.countP (fun a => decide (a = x)) (hashCodes r o)
      have h1 := consumeCounts_spec (hashCodes r o) _ counts' hcons x
      have h2 := countsTotal_foldl (hashCodes l o) [] x
      have h3 := countsTotal_all_zero counts' (by simpa using hm) x
      rw [countA_eq_countP] at h1 h2
      rw [show countsTotal [] x = 0 from rfl] at h2
      omega

/-- `multiset_equals` forces equal multiset hashes. -/
theorem multiset_equals_hash (l r : List Node) (o : DiffOptions)
    (h : multiset_equals l r o = true) :
    combine (hashCodes l o) = combine (hashCodes r o) := by
  unfold combine
  rw [sortBy_eq_of_perm (multiset_equals_perm l r o h)]

/-! ## Object-key machinery -/

/-- Strict byte order as a relation. -/
def ltB (a b : Str) : Prop := bytesLt a b = true

instance : IsTrans Str ltB := ⟨fun _ _ _ h1 h2 => bytesLt_trans h1 h2⟩

instance : IsAntisymm Str ltB :=
  ⟨fun a _ h1 h2 => absurd (bytesLt_trans h1 h2) (by simp [ltB, bytesLt_irrefl a])⟩

/-- A found key is present in the key list. -/
theorem objGet_some_mem (entries : List (Str × Node)) (k : Str) (v : Node)
    (h : objGet entries k = some v) : k ∈ entries.map Prod.fst := by
  induction entries with
  | nil => cases h
  | cons kv rest ih =>
    obtain ⟨k', v'⟩ := kv
    rw [objGet] at h
    by_cases hk : k' = k
    · simp [hk]
    · rw [if_neg hk] at h
      simp [ih h]

/-- Keys walked by `objEntriesLe` all occur on the right. -/
theorem objEntriesLe_subset (x y : List (Str × Node)) (o : DiffOptions)
    (h : objEntriesLe x y o = true) : ∀ k ∈ x.map Prod.fst, k ∈ y.map Prod.fst := by
  induction x with
  | nil => intro k hk; cases hk
  | cons kv rest ih =>
    obtain ⟨k', v'⟩ := kv
    rw [objEntriesLe] at h
    cases hget : objGet y k' with
    | none => rw [hget] at h; cases h
    | some vb =>
      rw [hget] at h
      simp only [Bool.and_eq_true] at h
      intro k hk
      simp only [List.map_cons, List.mem_cons] at hk
      cases hk with
      | inl he => exact he ▸ objGet_some_mem y k' vb hget
      | inr hm => exact ih h.2 k hm

/-- `keysSorted` keys are pairwise in strict byte order. -/
theorem keysSorted_pairwise (ks : List Str) (h : keysSorted ks = true) :
    List.Pairwise ltB ks := by
  induction ks with
  | nil => exact List.Pairwise.nil
  | cons k rest ih =>
    cases rest with
    | nil => exact List.pairwise_singleton ltB k
    | cons k2 rest2 =>
      rw [keysSorted] at h
      simp only [Bool.and_eq_true] at h
      have hp := ih h.2
      constructor
      · intro b hb
        cases hb with
        | head => exact h.1.2
        | tail _ hb2 =>
          have hk2 := (List.pairwise_cons.mp hp).1
          exact bytesLt_trans h.1.2 (hk2 b hb2)
      · exact hp

/-- Sorted key lists have no duplicates. -/
theorem keysSorted_nodup (ks : List Str) (h : keysSorted ks = true) : ks.Nodup :=
  (keysSorted_pairwise ks h).imp (fun hab => bytesLt_ne hab)

/-- Two sorted key lists of equal length with one contained in the other
coincide. -/
theorem sorted_keys_eq (kx ky : List Str) (hx : keysSorted kx = true)
    (hy : keysSorted ky = true) (hlen : kx.length = ky.length)
    (hsub : ∀ k ∈ kx, k ∈ ky) : kx = ky := by
  have hsp : kx.Subperm ky :=
    List.subperm_of_subset (keysSorted_nodup kx hx) (fun a ha => hsub a ha)
  have hperm : List.Perm kx ky := hsp.perm_of_length_le (le_of_eq hlen.symm)
  exact List.eq_of_perm_of_sorted hperm (keysSorted_pairwise kx hx) (keysSorted_pairwise ky hy)

/-- Dropping a head entry whose key is foreign to the walked list preserves
the `objEntriesLe` walk. -/
theorem objEntriesLe_tail (xs : List (Str × Node)) (k : Str) (vy : Node)
    (ys : List (Str × Node)) (o : DiffOptions)
    (hne : ∀ k' ∈ xs.map Prod.fst, k' ≠ k)
    (h : objEntriesLe xs ((k, vy) :: ys) o = true) :
    objEntriesLe xs ys o = true := by
  induction xs with
  | nil => rfl
  | cons kv rest ih =>
    obtain ⟨k1, v1⟩ := kv
    rw [objEntriesLe] at h ⊢
    have hk1 : k1 ≠ k := hne k1 (by simp)
    rw [objGet, if_neg (fun hq : k = k1 => hk1 hq.symm)] at h
    cases hget : objGet ys k1 with
    | none => rw [hget] at h; cases h
    | some vb =>
      rw [hget] at h
      simp only [Bool.and_eq_true] at h ⊢
      exact ⟨h.1, ih (fun k' hk' => hne k' (by simp [hk'])) h.2⟩

/-! ## Hash agreement with equality at precision 0 -/

/-- Pointwise hash agreement lifts through `hashConcat` (list-mode hashing). -/
theorem hashConcat_congr (o : DiffOptions) (S : Nat)
    (ih : ∀ v w, sizeOf v < S → v.wf = true → w.wf = true →
      noNegZero v = true → noNegZero w = true →
      v.eqWithOptions w o = true → v.hashCode o = w.hashCode o)
    (x y : List Node)
    (hsx : ∀ v ∈ x, sizeOf v < S)
    (hwx : wfList x = true) (hwy : wfList y = true)
    (hzx : noNegZeroList x = true) (hzy : noNegZeroList y = true)
    (hlen : x.length = y.length) (hzip : zipAllEq x y o = true) :
    hashConcat x o = hashConcat y o := by
  induction x generalizing y with
  | nil =>
    cases y with
    | nil => rfl
    | cons _ _ => simp at hlen
  | cons v vs ih2 =>
    cases y with
    | nil => simp at hlen
    | cons w ws =>
      rw [zipAllEq] at hzip
      simp only [Bool.and_eq_true] at hzip
      simp only [wfList, Bool.and_eq_true] at hwx hwy
      simp only [noNegZeroList, Bool.and_eq_true] at hzx hzy
      have h1 : v.hashCode o = w.hashCode o :=
        ih v w (hsx v (by simp)) hwx.1 hwy.1 hzx.1 hzy.1 hzip.1
      have h2 : hashConcat vs o = hashConcat ws o :=
        ih2 ws (fun u hu => hsx u (by simp [hu])) hwx.2 hwy.2 hzx.2 hzy.2
          (by simpa using hlen) hzip.2
      rw [hashConcat, hashConcat, h1, h2]

/-- Pointwise hash agreement lifts through `hashKvs` (object hashing), given
equal sorted key lists and the `objEntriesLe` walk. -/
theorem hashKvs_congr (o : DiffOptions) (S : Nat)
    (ih : ∀ v w, sizeOf v < S → v.wf = true → w.wf = true →
      noNegZero v = true → noNegZero w = true →
      v.eqWithOptions w o = true → v.hashCode o = w.hashCode o)
    (x y : List (Str × Node))
    (hsx : ∀ kv ∈ x, sizeOf (Prod.snd kv) < S)
    (hwx : wfVals x = true) (hwy : wfVals y = true)
    (hzx : noNegZeroVals x = true) (hzy : noNegZeroVals y = true)
    (hndx : (x.map Prod.fst).Nodup)
    (hkeys : x.map Prod.fst = y.map Prod.fst)
    (hwalk : objEntriesLe x y o = true) :
    hashKvs x o = hashKvs y o := by
  induction x generalizing y with
  | nil =>
    cases y with
    | nil => rfl
    | cons _ _ => simp at hkeys
  | cons kv rest ih2 =>
    obtain ⟨k, vx⟩ := kv
    cases y with
    | nil => simp at hkeys
    | cons kw ys =>
      obtain ⟨k2, vy⟩ := kw
      simp only [List.map_cons, List.cons.injEq] at hkeys
      obtain ⟨hk2, hkeys2⟩ := hkeys
      subst hk2
      rw [objEntriesLe, objGet, if_pos rfl] at hwalk
      simp only [Bool.and_eq_true] at hwalk
      simp only [wfVals, Bool.and_eq_true] at hwx hwy
      simp only [noNegZeroVals, Bool.and_eq_true] at hzx hzy
      have h1 : vx.hashCode o = vy.hashCode o :=
        ih vx vy (hsx (k, vx) (by simp)) hwx.1 hwy.1 hzx.1 hzy.1 hwalk.1
      simp only [List.map_cons] at hndx
      have hnd := List.nodup_cons.mp hndx
      have htail : objEntriesLe rest ys o = true :=
        objEntriesLe_tail rest k vy ys o
          (fun k' hk' heqk => hnd.1 (heqk ▸ hk')) hwalk.2
      have h2 : hashKvs rest o = hashKvs ys o :=
        ih2 ys (fun u hu => hsx u (by simp [hu])) hwx.2 hwy.2 hzx.2 hzy.2
          hnd.2 hkeys2 htail
      rw [hashKvs, hashKvs, h1, h2]

/-- Hash agreement at precision 0, by strong induction on node size. -/
theorem hash_eq_of_eq_aux (N : Nat) :
    ∀ (a b : Node) (o : DiffOptions), sizeOf a < N → o.precision = 0 →
      a.wf = true → b.wf = true → noNegZero a = true → noNegZero b = true →
      a.eqWithOptions b o = true → a.hashCode o = b.hashCode o := by
  induction N with
  | zero => intro a _ _ hsz; omega
  | succ n ihN =>
    intro a b o hsz hp hwa hwb hza hzb heq
    have ihS : ∀ v w, sizeOf v < sizeOf a → v.wf = true → w.wf = true →
        noNegZero v = true → noNegZero w = true →
        v.eqWithOptions w o = true → v.hashCode o = w.hashCode o :=
      fun v w hv => ihN v w o (by omega) hp
    cases a <;> cases b <;> (try (exfalso; revert heq; simp [Node.eqWithOptions]; done))
    · rfl
    · rfl
    · rename_i xb yb
      simp only [Node.eqWithOptions, decide_eq_true_eq] at heq
      rw [heq]
    · rename_i xn yn
      simp only [Node.eqWithOptions] at heq
      rw [hp] at heq
      have hv := (equalsWithPrecision_zero _ _).mp heq
      simp only [Node.wf, Bool.and_eq_true, decide_eq_true_eq] at hwa hwb
      simp only [noNegZero, decide_eq_true_eq] at hza hzb
      have hb : xn.bits = yn.bits := f64Val_inj hwa.1 hwb.1 hza hzb hv
      simp only [Node.hashCode, Number.hashCode, hb]
    · rename_i xs ys
      simp only [Node.eqWithOptions, decide_eq_true_eq] at heq
      rw [heq]
    · rename_i xl yl
      simp only [Node.eqWithOptions] at heq
      simp only [Node.wf] at hwa hwb
      simp only [noNegZero] at hza hzb
      have hsx : ∀ v ∈ xl, sizeOf v < sizeOf (Node.arr xl) := fun v hv => by
        have h1 := List.sizeOf_lt_of_mem hv
        simp only [Node.arr.sizeOf_spec]
        omega
      cases hmode : o.array_mode with
      | list =>
        rw [hmode] at heq
        simp only [decide_eq_true_eq] at heq
        have hcc := hashConcat_congr o (sizeOf (Node.arr xl)) ihS xl yl hsx
          hwa hwb hza hzb heq.1 heq.2
        simp only [Node.hashCode, hmode, hcc]
      | set =>
        rw [hmode] at heq
        simp only [set_equals, decide_eq_true_eq] at heq
        simp only [Node.hashCode, hmode, heq]
      | multiSet =>
        rw [hmode] at heq
        simp only at heq
        simp only [Node.hashCode, hmode]
        exact multiset_equals_hash xl yl o heq
    · rename_i xo yo
      simp only [Node.eqWithOptions, decide_eq_true_eq] at heq
      simp only [Node.wf, Bool.and_eq_true] at hwa hwb
      simp only [noNegZero] at hza hzb
      have hkeys : xo.map Prod.fst = yo.map Prod.fst :=
        sorted_keys_eq _ _ hwa.1 hwb.1 (by simp [heq.1])
          (objEntriesLe_subset xo yo o heq.2)
      have hnd : (xo.map Prod.fst).Nodup := keysSorted_nodup _ hwa.1
      have hsx : ∀ kv ∈ xo, sizeOf (Prod.snd kv) < sizeOf (Node.obj xo) := fun kv hkv => by
        obtain ⟨k', v'⟩ := kv
        have h1 := List.sizeOf_lt_of_mem hkv
        simp only [Prod.mk.sizeOf_spec] at h1
        simp only [Node.obj.sizeOf_spec]
        show sizeOf v' < 1 + sizeOf xo
        omega
      have hkv := hashKvs_congr o (sizeOf (Node.obj xo)) ihS xo yo hsx
        hwa.2 hwb.2 hza hzb hnd hkeys heq.2
      simp only [Node.hashCode, hkv]

/-- An integral rational is the cast of its numerator. -/
theorem ratNumCast_of_den_one (v : ℚ) (h : v.den = 1) : (v.num : ℚ) = v := by
  conv_rhs => rw [← Rat.num_div_den v]
  rw [h]
  simp

/-- Truncation is the numerator on integral rationals. -/
theorem ratTrunc_den_one (v : ℚ) (h : v.den = 1) : ratTrunc v = v.num := by
  unfold ratTrunc
  rw [h]
  simp

/-- Comparison against an integer cast reduces to the numerator. -/
theorem ratLe_intCast (v : ℚ) (h : v.den = 1) (c : Int) : v ≤ (c : ℚ) ↔ v.num ≤ c := by
  conv_lhs => rw [← ratNumCast_of_den_one v h]
  exact Int.cast_le

/-- Comparison from an integer cast reduces to the numerator. -/
theorem intCast_ratLe (c : Int) (v : ℚ) (h : v.den = 1) : (c : ℚ) ≤ v ↔ c ≤ v.num := by
  conv_lhs => rw [← ratNumCast_of_den_one v h]
  exact Int.cast_le

/-- `v as i64` is exact on integral values strictly inside the range. -/
theorem i64Sat_eq_num (v : ℚ) (hden : v.den = 1) (hge : -(2 ^ 63 : ℚ) ≤ v)
    (hle : v ≤ (2 ^ 63 : ℚ) - 1) : i64Sat v = v.num := by
  have h1 : v.num ≤ 2 ^ 63 - 1 := by
    rw [← ratLe_intCast v hden]
    calc v ≤ (2 ^ 63 : ℚ) - 1 := hle
    _ = ((2 ^ 63 - 1 : Int) : ℚ) := by push_cast; ring
  have h2 : -(2 ^ 63) ≤ v.num := by
    rw [← intCast_ratLe _ v hden]
    calc ((-(2 ^ 63) : Int) : ℚ) = -(2 ^ 63 : ℚ) := by push_cast; ring
    _ ≤ v := hge
  unfold i64Sat
  rw [ratTrunc_den_one v hden]
  omega

/-- `v as u64` is exact on integral values strictly inside the range. -/
theorem u64Sat_eq_num (v : ℚ) (hden : v.den = 1) (hge : (0 : ℚ) ≤ v)
    (hle : v ≤ (2 ^ 64 : ℚ) - 1) : u64Sat v = v.num.toNat := by
  have h1 : v.num ≤ 2 ^ 64 - 1 := by
    rw [← ratLe_intCast v hden]
    calc v ≤ (2 ^ 64 : ℚ) - 1 := hle
    _ = ((2 ^ 64 - 1 : Int) : ℚ) := by push_cast; ring
  have h2 : (0 : Int) ≤ v.num := by
    rw [← intCast_ratLe _ v hden]
    calc ((0 : Int) : ℚ) = (0 : ℚ) := by push_cast; ring
    _ ≤ v := hge
  unfold u64Sat
  rw [ratTrunc_den_one v hden]
  omega

/-! ## Structural equality from `eq_with_options` (precision 0, list mode) -/

/-- Members of a well-formed list are well-formed. -/
theorem wfList_mem {x : List Node} (h : wfList x = true) {v : Node} (hv : v ∈ x) :
    v.wf = true := by
  induction hv with
  | head as =>
    simp only [wfList, Bool.and_eq_true] at h
    exact h.1
  | tail b hm ih =>
    rename_i l
    simp only [wfList, Bool.and_eq_true] at h
    exact ih h.2

/-- Values of a well-formed entry list are well-formed. -/
theorem wfVals_mem {x : List (Str × Node)} (h : wfVals x = true) {kv : Str × Node}
    (hkv : kv ∈ x) : kv.2.wf = true := by
  induction hkv with
  | head as =>
    obtain ⟨k, v⟩ := kv
    simp only [wfVals, Bool.and_eq_true] at h
    exact h.1
  | tail b hm ih =>
    obtain ⟨k, v⟩ := b
    simp only [wfVals, Bool.and_eq_true] at h
    exact ih h.2

/-- Members of a negative-zero-free list are negative-zero-free. -/
theorem noNegZeroList_mem {x : List Node} (h : noNegZeroList x = true) {v : Node}
    (hv : v ∈ x) : noNegZero v = true := by
  induction hv with
  | head as =>
    simp only [noNegZeroList, Bool.and_eq_true] at h
    exact h.1
  | tail b hm ih =>
    simp only [noNegZeroList, Bool.and_eq_true] at h
    exact ih h.2

/-- Values of a negative-zero-free entry list are negative-zero-free. -/
theorem noNegZeroVals_mem {x : List (Str × Node)} (h : noNegZeroVals x = true)
    {kv : Str × Node} (hkv : kv ∈ x) : noNegZero kv.2 = true := by
  induction hkv with
  | head as =>
    obtain ⟨k, v⟩ := kv
    simp only [noNegZeroVals, Bool.and_eq_true] at h
    exact h.1
  | tail b hm ih =>
    obtain ⟨k, v⟩ := b
    simp only [noNegZeroVals, Bool.and_eq_true] at h
    exact ih h.2

/-- Pointwise equality lifts through zipped lists. -/
theorem zipAllEq_eq (o : DiffOptions) (S : Nat)
    (ih : ∀ v w, sizeOf v < S → v.wf = true → w.wf = true →
      noNegZero v = true → noNegZero w = true →
      v.eqWithOptions w o = true → v = w)
    (x y : List Node)
    (hsx : ∀ v ∈ x, sizeOf v < S)
    (hwx : wfList x = true) (hwy : wfList y = true)
    (hzx : noNegZeroList x = true) (hzy : noNegZeroList y = true)
    (hlen : x.length = y.length) (hzip : zipAllEq x y o = true) :
    x = y := by
  induction x generalizing y with
  | nil =>
    cases y with
    | nil => rfl
    | cons _ _ => simp at hlen
  | cons v vs ih2 =>
    cases y with
    | nil => simp at hlen
    | cons w ws =>
      rw [zipAllEq] at hzip
      simp only [Bool.and_eq_true] at hzip
      simp only [wfList, Bool.and_eq_true] at hwx hwy
      simp only [noNegZeroList, Bool.and_eq_true] at hzx hzy
      have h1 : v = w := ih v w (hsx v (by simp)) hwx.1 hwy.1 hzx.1 hzy.1 hzip.1
      have h2 : vs = ws :=
        ih2 ws (fun u hu => hsx u (by simp [hu])) hwx.2 hwy.2 hzx.2 hzy.2
          (by simpa using hlen) hzip.2
      rw [h1, h2]

/-- Pointwise equality lifts through object entry walks with equal sorted
keys. -/
theorem objEntries_eq (o : DiffOptions) (S : Nat)
    (ih : ∀ v w, sizeOf v < S → v.wf = true → w.wf = true →
      noNegZero v = true → noNegZero w = true →
      v.eqWithOptions w o = true → v = w)
    (x y : List (Str × Node))
    (hsx : ∀ kv ∈ x, sizeOf (Prod.snd kv) < S)
    (hwx : wfVals x = true) (hwy : wfVals y = true)
    (hzx : noNegZeroVals x = true) (hzy : noNegZeroVals y = true)
    (hndx : (x.map Prod.fst).Nodup)
    (hkeys : x.map Prod.fst = y.map Prod.fst)
    (hwalk : objEntriesLe x y o = true) :
    x = y := by
  induction x generalizing y with
  | nil =>
    cases y with
    | nil => rfl
    | cons _ _ => simp at hkeys
  | cons kv rest ih2 =>
    obtain ⟨k, vx⟩ := kv
    cases y with
    | nil => simp at hkeys
    | cons kw ys =>
      obtain ⟨k2, vy⟩ := kw
      simp only [List.map_cons, List.cons.injEq] at hkeys
      obtain ⟨hk2, hkeys2⟩ := hkeys
      subst hk2
      rw [objEntriesLe, objGet, if_pos rfl] at hwalk
      simp only [Bool.and_eq_true] at hwalk
      simp only [wfVals, Bool.and_eq_true] at hwx hwy
      simp only [noNegZeroVals, Bool.and_eq_true] at hzx hzy
      have h1 : vx = vy :=
        ih vx vy (hsx (k, vx) (by simp)) hwx.1 hwy.1 hzx.1 hzy.1 hwalk.1
      simp only [List.map_cons] at hndx
      have hnd := List.nodup_cons.mp hndx
      have htail : objEntriesLe rest ys o = true :=
        objEntriesLe_tail rest k vy ys o
          (fun k' hk' heqk => hnd.1 (heqk ▸ hk')) hwalk.2
      have h2 : rest = ys :=
        ih2 ys (fun u hu => hsx u (by simp [hu])) hwx.2 hwy.2 hzx.2 hzy.2
          hnd.2 hkeys2 htail
      rw [h1, h2]

/-- At precision 0 in list mode, `eq_with_options` on well-formed
negative-zero-free nodes is structural equality. -/
theorem eq_of_eqWithOptions_aux (N : Nat) :
    ∀ (a b : Node) (o : DiffOptions), sizeOf a < N → o.precision = 0 →
      o.array_mode = .list →
      a.wf = true → b.wf = true → noNegZero a = true → noNegZero b = true →
      a.eqWithOptions b o = true → a = b := by
  induction N with
  | zero => intro a _ _ hsz; omega
  | succ n ihN =>
    intro a b o hsz hp hmode hwa hwb hza hzb heq
    have ihS : ∀ v w, sizeOf v < sizeOf a → v.wf = true → w.wf = true →
        noNegZero v = true → noNegZero w = true →
        v.eqWithOptions w o = true → v = w :=
      fun v w hv => ihN v w o (by omega) hp hmode
    cases a <;> cases b <;> (try (exfalso; revert heq; simp [Node.eqWithOptions]; done))
    · rfl
    · rfl
    · rename_i xb yb
      simp only [Node.eqWithOptions, decide_eq_true_eq] at heq
      rw [heq]
    · rename_i xn yn
      simp only [Node.eqWithOptions] at heq
      rw [hp] at heq
      have hv := (equalsWithPrecision_zero _ _).mp heq
      simp only [Node.wf, Bool.and_eq_true, decide_eq_true_eq] at hwa hwb
      simp only [noNegZero, decide_eq_true_eq] at hza hzb
      have hb : xn.bits = yn.bits := f64Val_inj hwa.1 hwb.1 hza hzb hv
      cases xn
      cases yn
      simp only at hb
      rw [hb]
    · rename_i xs ys
      simp only [Node.eqWithOptions, decide_eq_true_eq] at heq
      rw [heq]
    · rename_i xl yl
      simp only [Node.eqWithOptions] at heq
      simp only [Node.wf] at hwa hwb
      simp only [noNegZero] at hza hzb
      rw [hmode] at heq
      simp only [decide_eq_true_eq] at heq
      have hsx : ∀ v ∈ xl, sizeOf v < sizeOf (Node.arr xl) := fun v hv => by
        have h1 := List.sizeOf_lt_of_mem hv
        simp only [Node.arr.sizeOf_spec]
        omega
      have := zipAllEq_eq o (sizeOf (Node.arr xl)) ihS xl yl hsx
        hwa hwb hza hzb heq.1 heq.2
      rw [this]
    · rename_i xo yo
      simp only [Node.eqWithOptions, decide_eq_true_eq] at heq
      simp only [Node.wf, Bool.and_eq_true] at hwa hwb
      simp only [noNegZero] at hza hzb
      have hkeys : xo.map Prod.fst = yo.map Prod.fst :=
        sorted_keys_eq _ _ hwa.1 hwb.1 (by simp [heq.1])
          (objEntriesLe_subset xo yo o heq.2)
      have hnd : (xo.map Prod.fst).Nodup := keysSorted_nodup _ hwa.1
      have hsx : ∀ kv ∈ xo, sizeOf (Prod.snd kv) < sizeOf (Node.obj xo) := fun kv hkv => by
        obtain ⟨k', v'⟩ := kv
        have h1 := List.sizeOf_lt_of_mem hkv
        simp only [Prod.mk.sizeOf_spec] at h1
        simp only [Node.obj.sizeOf_spec]
        show sizeOf v' < 1 + sizeOf xo
        omega
      have := objEntries_eq o (sizeOf (Node.obj xo)) ihS xo yo hsx
        hwa.2 hwb.2 hza hzb hnd hkeys heq.2
      rw [this]

/-- Wrapper for the structural-equality direction. -/
theorem eq_of_eqWithOptions {a b : Node} {o : DiffOptions} (hp : o.precision = 0)
    (hmode : o.array_mode = .list)
    (hwa : a.wf = true) (hwb : b.wf = true)
    (hza : noNegZero a = true) (hzb : noNegZero b = true)
    (heq : a.eqWithOptions b o = true) : a = b :=
  eq_of_eqWithOptions_aux (sizeOf a + 1) a b o (by omega) hp hmode hwa hwb hza hzb heq

/-- The zipped walk is reflexive. -/
theorem zipAllEq_refl (o : DiffOptions) (x : List Node)
    (ih : ∀ v ∈ x, v.eqWithOptions v o = true) : zipAllEq x x o = true := by
  induction x with
  | nil => rfl
  | cons v vs ih2 =>
    rw [zipAllEq]
    simp only [Bool.and_eq_true]
    exact ⟨ih v (by simp), ih2 (fun u hu => ih u (by simp [hu]))⟩

/-- The object walk is reflexive on nodup keys. -/
theorem objEntriesLe_refl (o : DiffOptions) (x full : List (Str × Node))
    (ih : ∀ kv ∈ x, (Prod.snd kv).eqWithOptions (Prod.snd kv) o = true)
    (hget : ∀ kv ∈ x, objGet full kv.1 = some kv.2) :
    objEntriesLe x full o = true := by
  induction x with
  | nil => rfl
  | cons kv rest ih2 =>
    obtain ⟨k, v⟩ := kv
    rw [objEntriesLe]
    rw [hget (k, v) (by simp)]
    simp only [Bool.and_eq_true]
    exact ⟨ih (k, v) (by simp),
      ih2 (fun u hu => ih u (by simp [hu])) (fun u hu => hget u (by simp [hu]))⟩

/-- On nodup keys, every entry is found by `objGet`. -/
theorem objGet_self (entries : List (Str × Node)) (hnd : (entries.map Prod.fst).Nodup) :
    ∀ kv ∈ entries, objGet entries kv.1 = some kv.2 := by
  induction entries with
  | nil => intro kv hkv; cases hkv
  | cons e rest ih =>
    obtain ⟨k, v⟩ := e
    simp only [List.map_cons] at hnd
    have hnd2 := List.nodup_cons.mp hnd
    intro kv hkv
    cases hkv with
    | head => rw [objGet, if_pos rfl]
    | tail _ hm =>
      rw [objGet]
      have hk : k ≠ kv.1 := by
        intro hk
        exact hnd2.1 (hk ▸ (List.mem_map.mpr ⟨kv, hm, rfl⟩))
      rw [if_neg hk]
      exact ih hnd2.2 kv hm

/-- `eq_with_options` is reflexive on well-formed nodes at precision 0 in
list mode. -/
theorem eqWithOptions_refl_aux (N : Nat) :
    ∀ (a : Node) (o : DiffOptions), sizeOf a < N → o.precision = 0 →
      o.array_mode = .list → a.wf = true → a.eqWithOptions a o = true := by
  induction N with
  | zero => intro a _ hsz; omega
  | succ n ihN =>
    intro a o hsz hp hmode hwa
    cases a with
    | void => rfl
    | null => rfl
    | bool b => simp [Node.eqWithOptions]
    | str s => simp [Node.eqWithOptions]
    | num x =>
      simp only [Node.eqWithOptions]
      rw [hp]
      rw [equalsWithPrecision_zero]
    | arr xl =>
      simp only [Node.eqWithOptions]
      rw [hmode]
      simp only [Node.wf] at hwa
      simp only [decide_eq_true_eq]
      refine ⟨by simp, zipAllEq_refl o xl (fun v hv => ?_)⟩
      have h1 := List.sizeOf_lt_of_mem hv
      have hwv : v.wf = true := wfList_mem hwa hv
      refine ihN v o ?_ hp hmode hwv
      simp only [Node.arr.sizeOf_spec] at hsz
      omega
    | obj xo =>
      simp only [Node.eqWithOptions]
      simp only [Node.wf, Bool.and_eq_true] at hwa
      simp only [decide_eq_true_eq]
      refine ⟨by simp, objEntriesLe_refl o xo xo (fun kv hkv => ?_)
        (objGet_self xo (keysSorted_nodup _ hwa.1))⟩
      have h1 := List.sizeOf_lt_of_mem hkv
      have hwv : kv.2.wf = true := wfVals_mem hwa.2 hkv
      refine ihN kv.2 o ?_ hp hmode hwv
      obtain ⟨k', v'⟩ := kv
      simp only [Prod.mk.sizeOf_spec] at h1
      simp only [Node.obj.sizeOf_spec] at hsz
      show sizeOf v' < n
      omega

/-- Wrapper: reflexivity of `eq_with_options`. -/
theorem eqWithOptions_refl {a : Node} {o : DiffOptions} (hp : o.precision = 0)
    (hmode : o.array_mode = .list) (hwa : a.wf = true) : a.eqWithOptions a o = true :=
  eqWithOptions_refl_aux (sizeOf a + 1) a o (by omega) hp hmode hwa

/-! ## Subterm enumeration and hash faithfulness -/

mutual

/-- All subterms of a node, the node itself included. -/
def subnodes : Node → List Node
  | .arr elems => .arr elems :: subnodesList elems
  | .obj entries => .obj entries :: subnodesVals entries
  | n => [n]
termination_by structural n => n

/-- Subterms of every element. -/
def subnodesList : List Node → List Node
  | [] => []
  | v :: rest => subnodes v ++ subnodesList rest
termination_by structural xs => xs

/-- Subterms of every object value. -/
def subnodesVals : List (Str × Node) → List Node
  | [] => []
  | (_, v) :: rest => subnodes v ++ subnodesVals rest
termination_by structural xs => xs

end

/-- Every node is its own subterm. -/
theorem self_mem_subnodes (n : Node) : n ∈ subnodes n := by
  cases n <;> simp [subnodes]

/-- Subterms of an array element are subterms of the array. -/
theorem subnodes_arr_sub {v : Node} {elems : List Node} (hv : v ∈ elems) :
    ∀ x ∈ subnodes v, x ∈ subnodes (.arr elems) := by
  intro x hx
  rw [subnodes]
  simp only [List.mem_cons]
  right
  induction hv with
  | head as => rw [subnodesList]; exact List.mem_append.mpr (Or.inl hx)
  | tail b hm ih => rw [subnodesList]; exact List.mem_append.mpr (Or.inr ih)

/-- Subterms of an object value are subterms of the object. -/
theorem subnodes_obj_sub {kv : Str × Node} {entries : List (Str × Node)} (hv : kv ∈ entries) :
    ∀ x ∈ subnodes kv.2, x ∈ subnodes (.obj entries) := by
  intro x hx
  rw [subnodes]
  simp only [List.mem_cons]
  right
  induction hv with
  | head as =>
    obtain ⟨k, v⟩ := kv
    rw [subnodesVals]
    exact List.mem_append.mpr (Or.inl hx)
  | tail b hm ih =>
    obtain ⟨k', v'⟩ := b
    rw [subnodesVals]
    exact List.mem_append.mpr (Or.inr ih)

/-- The hash-faithfulness hypothesis of the amended round-trip laws:
distinct nodes among the subterms of `a` and `b` never collide under
`hash_code`.  (It cannot hold for all nodes at once — the 64-bit hash has
collisions — but it holds for the finitely many subterms of any concrete
pair, which is what the diff algorithm touches.) -/
def HashFaithful (a b : Node) (o : DiffOptions) : Prop :=
  ∀ x ∈ subnodes a ++ subnodes b, ∀ y ∈ subnodes a ++ subnodes b,
    Node.hashCode x o = Node.hashCode y o → x = y

/-- Faithfulness restricts to children of arrays. -/
theorem hashFaithful_arr {xl yl : List Node} {o : DiffOptions} {i j : Nat}
    (h : HashFaithful (.arr xl) (.arr yl) o) (hi : i < xl.length) (hj : j < yl.length) :
    HashFaithful xl[i] yl[j] o := by
  intro x hx y hy hxy
  have hxm : x ∈ subnodes (Node.arr xl) ++ subnodes (Node.arr yl) := by
    rcases List.mem_append.mp hx with hx1 | hx2
    · exact List.mem_append.mpr (Or.inl (subnodes_arr_sub (xl.getElem_mem hi) x hx1))
    · exact List.mem_append.mpr (Or.inr (subnodes_arr_sub (yl.getElem_mem hj) x hx2))
  have hym : y ∈ subnodes (Node.arr xl) ++ subnodes (Node.arr yl) := by
    rcases List.mem_append.mp hy with hy1 | hy2
    · exact List.mem_append.mpr (Or.inl (subnodes_arr_sub (xl.getElem_mem hi) y hy1))
    · exact List.mem_append.mpr (Or.inr (subnodes_arr_sub (yl.getElem_mem hj) y hy2))
  exact h x hxm y hym hxy

/-- Faithfulness restricts to object children. -/
theorem hashFaithful_obj {xo yo : List (Str × Node)} {o : DiffOptions} {kx ky : Str × Node}
    (h : HashFaithful (.obj xo) (.obj yo) o) (hx : kx ∈ xo) (hy : ky ∈ yo) :
    HashFaithful kx.2 ky.2 o := by
  intro x hxm y hym hxy
  have hx2 : x ∈ subnodes (Node.obj xo) ++ subnodes (Node.obj yo) := by
    rcases List.mem_append.mp hxm with h1 | h2
    · exact List.mem_append.mpr (Or.inl (subnodes_obj_sub hx x h1))
    · exact List.mem_append.mpr (Or.inr (subnodes_obj_sub hy x h2))
  have hy2 : y ∈ subnodes (Node.obj xo) ++ subnodes (Node.obj yo) := by
    rcases List.mem_append.mp hym with h1 | h2
    · exact List.mem_append.mpr (Or.inl (subnodes_obj_sub hx y h1))
    · exact List.mem_append.mpr (Or.inr (subnodes_obj_sub hy y h2))
  exact h x hx2 y hy2 hxy

/-! ## Reflexivity of the Rust `==` on finite nodes -/

/-- `Vec<Node> == Vec<Node>` reflexivity, given element reflexivity. -/
theorem beqList_refl_param (S : Nat)
    (ih : ∀ v : Node, sizeOf v < S → v.wf = true → v.beqNode v = true)
    (xs : List Node) (hs : ∀ v ∈ xs, sizeOf v < S) (hw : wfList xs = true) :
    beqList xs xs = true := by
  induction xs with
  | nil => rfl
  | cons v rest ih2 =>
    simp only [wfList, Bool.and_eq_true] at hw
    rw [beqList]
    simp only [Bool.and_eq_true]
    exact ⟨ih v (hs v (by simp)) hw.1, ih2 (fun u hu => hs u (by simp [hu])) hw.2⟩

/-- `BTreeMap == BTreeMap` reflexivity, given value reflexivity. -/
theorem beqEntries_refl_param (S : Nat)
    (ih : ∀ v : Node, sizeOf v < S → v.wf = true → v.beqNode v = true)
    (xs : List (Str × Node)) (hs : ∀ kv ∈ xs, sizeOf (Prod.snd kv) < S)
    (hw : wfVals xs = true) : beqEntries xs xs = true := by
  induction xs with
  | nil => rfl
  | cons kv rest ih2 =>
    obtain ⟨k, v⟩ := kv
    simp only [wfVals, Bool.and_eq_true] at hw
    rw [beqEntries]
    simp only [Bool.and_eq_true]
    exact ⟨⟨by simp, ih v (hs (k, v) (by simp)) hw.1⟩,
      ih2 (fun u hu => hs u (by simp [hu])) hw.2⟩

/-- `Node == Node` is reflexive on well-formed (finite-number) nodes. -/
theorem beqNode_refl_aux (N : Nat) :
    ∀ a : Node, sizeOf a < N → a.wf = true → a.beqNode a = true := by
  induction N with
  | zero => intro a hsz; omega
  | succ n ihN =>
    intro a hsz hwa
    cases a with
    | void => rfl
    | null => rfl
    | bool b => simp [Node.beqNode]
    | str s => simp [Node.beqNode]
    | num x =>
      simp only [Node.wf, Bool.and_eq_true, decide_eq_true_eq] at hwa
      simp only [Node.beqNode, f64BitsEq]
      have hne : f64ExpField x.bits ≠ 2047 := by
        have := hwa.2
        unfold f64IsFinite at this
        simpa using this
      have hnan : f64IsNan x.bits = false := by
        unfold f64IsNan
        simp [hne]
      have hinf : f64IsInf x.bits = false := by
        unfold f64IsInf
        simp [hne]
      simp [hnan, hinf]
    | arr elems =>
      simp only [Node.wf] at hwa
      simp only [Node.beqNode]
      refine beqList_refl_param n (fun v hv hwv => ihN v (by omega) hwv) elems ?_ hwa
      intro v hv
      have h1 := List.sizeOf_lt_of_mem hv
      simp only [Node.arr.sizeOf_spec] at hsz
      omega
    | obj entries =>
      simp only [Node.wf, Bool.and_eq_true] at hwa
      simp only [Node.beqNode]
      refine beqEntries_refl_param n (fun v hv hwv => ihN v (by omega) hwv) entries ?_ hwa.2
      intro kv hkv
      obtain ⟨k, v⟩ := kv
      have h1 := List.sizeOf_lt_of_mem hkv
      simp only [Prod.mk.sizeOf_spec] at h1
      simp only [Node.obj.sizeOf_spec] at hsz
      show sizeOf v < n
      omega

/-- Wrapper: `==` reflexivity on well-formed nodes. -/
theorem beqNode_refl {a : Node} (hwa : a.wf = true) : a.beqNode a = true :=
  beqNode_refl_aux (sizeOf a + 1) a (by omega) hwa

/-! ## Strict patch application and its algebra -/

/-- Sequential strict application of diff elements whose leading `k` path
segments address the current node (the `pb` argument is the consumed
prefix, which only feeds error messages). -/
def applyStrict (pb : List PathSegment) (k : Nat) (n : Node) :
    List DiffElement → PatchOutcome
  | [] => .ok n
  | e :: rest =>
    match patchElement n pb (e.path.drop k) e.before e.remove e.add e.after .strict with
    | .ok next => applyStrict pb k next rest
    | other => other

/-- Application distributes over concatenation. -/
theorem applyStrict_append (pb : List PathSegment) (k : Nat) (n : Node)
    (d1 d2 : List DiffElement) :
    applyStrict pb k n (d1 ++ d2) =
      match applyStrict pb k n d1 with
      | .ok m => applyStrict pb k m d2
      | other => other := by
  induction d1 generalizing n with
  | nil => rfl
  | cons e rest ih =>
    rw [List.cons_append, applyStrict, applyStrict]
    cases patchElement n pb (e.path.drop k) e.before e.remove e.add e.after .strict with
    | ok next => exact ih next
    | panicked => rfl
    | err msg => rfl

/-- On metadata-free diffs, `apply_patch` is plain strict application. -/
theorem apply_patch_strict (n : Node) (d : List DiffElement)
    (h : ∀ e ∈ d, e.metadata = none) : apply_patch n d = applyStrict [] 0 n d := by
  rw [apply_patch]
  suffices hgen : ∀ m, applyLoop m none d = applyStrict [] 0 m d from hgen n
  induction d with
  | nil => intro m; rfl
  | cons e rest ih =>
    intro m
    rw [applyLoop, applyStrict]
    rw [h e (by simp)]
    simp only [List.drop_zero, Option.filter, Bool.false_eq_true, if_false]
    cases patchElement m [] e.path e.before e.remove e.add e.after .strict with
    | ok next => exact ih (fun x hx => h x (by simp [hx])) next
    | panicked => rfl
    | err msg => rfl

/-! ## The object update primitive -/

/-- The entry update performed by object navigation: a `Void` result removes
the key, anything else is inserted. -/
def objSet (m : List (Str × Node)) (k : Str) (v : Node) : List (Str × Node) :=
  if is_void v then objRemove m k else objInsert m k v

/-- Lookup after insertion at the same key. -/
theorem objGet_objInsert_self (m : List (Str × Node)) (k : Str) (v : Node) :
    objGet (objInsert m k v) k = some v := by
  induction m with
  | nil => simp [objInsert, objGet]
  | cons kv rest ih =>
    obtain ⟨k', v'⟩ := kv
    rw [objInsert]
    by_cases hk : k' = k
    · rw [if_pos hk, objGet, if_pos rfl]
    · rw [if_neg hk]
      by_cases hlt : bytesLt k k' = true
      · rw [if_pos hlt, objGet, if_pos rfl]
      · rw [if_neg hlt, objGet, if_neg hk]
        exact ih

/-- Lookup after insertion at another key. -/
theorem objGet_objInsert_other (m : List (Str × Node)) (k k' : Str) (v : Node)
    (hne : k ≠ k') : objGet (objInsert m k v) k' = objGet m k' := by
  induction m with
  | nil => simp [objInsert, objGet, hne]
  | cons kv rest ih =>
    obtain ⟨k1, v1⟩ := kv
    rw [objInsert]
    by_cases hk : k1 = k
    · rw [if_pos hk, objGet, if_neg hne, objGet, if_neg (hk ▸ hne)]
    · rw [if_neg hk]
      by_cases hlt : bytesLt k k1 = true
      · rw [if_pos hlt, objGet, if_neg hne, objGet]
      · rw [if_neg hlt, objGet, objGet]
        by_cases h1 : k1 = k'
        · rw [if_pos h1, if_pos h1]
        · rw [if_neg h1, if_neg h1]
          exact ih

/-- Lookup after removal at another key. -/
theorem objGet_objRemove_other (m : List (Str × Node)) (k k' : Str) (hne : k ≠ k') :
    objGet (objRemove m k) k' = objGet m k' := by
  induction m with
  | nil => rfl
  | cons kv rest ih =>
    obtain ⟨k1, v1⟩ := kv
    rw [objRemove]
    by_cases hk : k1 = k
    · rw [if_pos hk, objGet, if_neg (hk ▸ hne)]
    · rw [objGet, if_neg hk, objGet]
      by_cases h1 : k1 = k'
      · rw [if_pos h1, if_pos h1]
      · rw [if_neg h1, if_neg h1]
        exact ih

/-- Removal clears the key on duplicate-free entry lists. -/
theorem objGet_objRemove_self (m : List (Str × Node)) (k : Str)
    (hnd : (m.map Prod.fst).Nodup) : objGet (objRemove m k) k = none := by
  induction m with
  | nil => rfl
  | cons kv rest ih =>
    obtain ⟨k1, v1⟩ := kv
    simp only [List.map_cons] at hnd
    have hnd2 := List.nodup_cons.mp hnd
    rw [objRemove]
    by_cases hk : k1 = k
    · rw [if_pos hk]
      subst hk
      cases hres : objGet rest k1 with
      | none => rfl
      | some w => exact absurd (objGet_some_mem rest k1 w hres) hnd2.1
    · rw [if_neg hk, objGet, if_neg hk]
      exact ih hnd2.2

/-- Removing an absent key is the identity. -/
theorem objRemove_missing (m : List (Str × Node)) (k : Str) (h : objGet m k = none) :
    objRemove m k = m := by
  induction m with
  | nil => rfl
  | cons kv rest ih =>
    obtain ⟨k1, v1⟩ := kv
    rw [objGet] at h
    rw [objRemove]
    by_cases hk : k1 = k
    · rw [if_pos hk] at h; cases h
    · rw [if_neg hk] at h
      rw [if_neg hk, ih h]

/-- Reinserting the present value is the identity on sorted entry lists. -/
theorem objInsert_self (m : List (Str × Node)) (k : Str) (v : Node)
    (hs : keysSorted (m.map Prod.fst) = true) (h : objGet m k = some v) :
    objInsert m k v = m := by
  induction m with
  | nil => cases h
  | cons kv rest ih =>
    obtain ⟨k1, v1⟩ := kv
    rw [objGet] at h
    rw [objInsert]
    by_cases hk : k1 = k
    · rw [if_pos hk] at h
      cases h
      rw [if_pos hk, hk]
    · rw [if_neg hk] at h
      rw [if_neg hk]
      have hpw := keysSorted_pairwise _ hs
      simp only [List.map_cons] at hpw
      have hlt1 : ∀ b ∈ rest.map Prod.fst, ltB k1 b := (List.pairwise_cons.mp hpw).1
      have hkm : k ∈ rest.map Prod.fst := objGet_some_mem rest k v h
      have hk1k : bytesLt k1 k = true := hlt1 k hkm
      have hnlt : bytesLt k k1 = false := by
        cases hx : bytesLt k k1
        · rfl
        · exact absurd (bytesLt_trans hx hk1k) (by simp [bytesLt_irrefl])
      rw [hnlt]
      simp only [Bool.false_eq_true, if_false]
      have hsrest : keysSorted (rest.map Prod.fst) = true := by
        revert hs
        simp only [List.map_cons]
        cases hrest : rest.map Prod.fst with
        | nil => intro _; rfl
        | cons a l =>
          intro hs
          rw [keysSorted] at hs
          simp only [Bool.and_eq_true] at hs
          exact hs.2
      rw [ih hsrest h]

/-- Entries after insertion are the new pair or old entries. -/
theorem objInsert_subset (m : List (Str × Node)) (k : Str) (v : Node) :
    ∀ kv ∈ objInsert m k v, kv = (k, v) ∨ kv ∈ m := by
  induction m with
  | nil => intro kv hkv; simp [objInsert] at hkv; simp [hkv]
  | cons u rest ih =>
    obtain ⟨uk, uv⟩ := u
    intro kv hkv
    rw [objInsert] at hkv
    by_cases hu : uk = k
    · rw [if_pos hu] at hkv
      rcases List.mem_cons.mp hkv with hh | ht
      · exact Or.inl hh
      · exact Or.inr (List.mem_cons.mpr (Or.inr ht))
    · rw [if_neg hu] at hkv
      by_cases hul : bytesLt k uk = true
      · rw [if_pos hul] at hkv
        rcases List.mem_cons.mp hkv with hh | ht
        · exact Or.inl hh
        · exact Or.inr ht
      · rw [if_neg hul] at hkv
        rcases List.mem_cons.mp hkv with hh | ht
        · exact Or.inr (List.mem_cons.mpr (Or.inl hh))
        · rcases ih kv ht with h1 | h2
          · exact Or.inl h1
          · exact Or.inr (List.mem_cons.mpr (Or.inr h2))

/-- Entries after removal are old entries. -/
theorem objRemove_subset (m : List (Str × Node)) (k : Str) :
    ∀ kv ∈ objRemove m k, kv ∈ m := by
  induction m with
  | nil => intro kv hkv; cases hkv
  | cons u rest ih =>
    obtain ⟨uk, uv⟩ := u
    intro kv hkv
    rw [objRemove] at hkv
    by_cases hu : uk = k
    · rw [if_pos hu] at hkv
      exact List.mem_cons.mpr (Or.inr hkv)
    · rw [if_neg hu] at hkv
      rcases List.mem_cons.mp hkv with hh | ht
      · exact List.mem_cons.mpr (Or.inl hh)
      · exact List.mem_cons.mpr (Or.inr (ih kv ht))

/-- The tail of a sorted key list is sorted. -/
theorem keysSorted_tail {k : Str} {ks : List Str} (h : keysSorted (k :: ks) = true) :
    keysSorted ks = true := by
  cases ks with
  | nil => rfl
  | cons a l =>
    rw [keysSorted] at h
    simp only [Bool.and_eq_true] at h
    exact h.2

/-- The head of a sorted key list is well-formed. -/
theorem keysSorted_head_wf {k : Str} {ks : List Str} (h : keysSorted (k :: ks) = true) :
    strWf k = true := by
  cases ks with
  | nil => rw [keysSorted] at h; exact h
  | cons a l =>
    rw [keysSorted] at h
    simp only [Bool.and_eq_true] at h
    exact h.1.1

/-- Pairwise order plus well-formed keys rebuild sortedness. -/
theorem keysSorted_of_pairwise (ks : List Str) (hpw : List.Pairwise ltB ks)
    (hwf : ∀ x ∈ ks, strWf x = true) : keysSorted ks = true := by
  induction ks with
  | nil => rfl
  | cons a l ih =>
    cases l with
    | nil => rw [keysSorted]; exact hwf a (by simp)
    | cons b l2 =>
      rw [keysSorted]
      simp only [Bool.and_eq_true]
      have hp := List.pairwise_cons.mp hpw
      exact ⟨⟨hwf a (by simp), hp.1 b (by simp)⟩,
        ih hp.2 (fun x hx => hwf x (by simp [hx]))⟩

/-- Sorted key lists are pairwise with well-formed members. -/
theorem keysSorted_mem_wf {ks : List Str} (h : keysSorted ks = true) :
    ∀ x ∈ ks, strWf x = true := by
  induction ks with
  | nil => intro x hx; cases hx
  | cons a l ih =>
    intro x hx
    rcases List.mem_cons.mp hx with hh | ht
    · exact hh ▸ keysSorted_head_wf h
    · exact ih (keysSorted_tail h) x ht

/-- Sorted-key preservation under insertion (the new key must be a
well-formed byte string). -/
theorem objInsert_sorted (m : List (Str × Node)) (k : Str) (v : Node)
    (hs : keysSorted (m.map Prod.fst) = true) (hwk : strWf k = true) :
    keysSorted ((objInsert m k v).map Prod.fst) = true := by
  induction m with
  | nil => simp [objInsert, keysSorted, hwk]
  | cons kv rest ih =>
    obtain ⟨k1, v1⟩ := kv
    simp only [List.map_cons] at hs
    rw [objInsert]
    by_cases hk : k1 = k
    · rw [if_pos hk]
      subst hk
      simpa using hs
    · rw [if_neg hk]
      by_cases hlt : bytesLt k k1 = true
      · rw [if_pos hlt]
        simp only [List.map_cons]
        rw [keysSorted]
        simp only [Bool.and_eq_true]
        exact ⟨⟨hwk, hlt⟩, hs⟩
      · rw [if_neg hlt]
        simp only [List.map_cons]
        have hk1w : strWf k1 = true := keysSorted_head_wf hs
        have hk1k : bytesLt k1 k = true := by
          rcases bytesLe_total k1 k with hle | hle
          · exact bytesLt_of_le_of_ne hle hk
          · exact absurd (bytesLt_of_le_of_ne hle (fun hq => hk hq.symm))
              (by simp [hlt])
        have hsrest : keysSorted (rest.map Prod.fst) = true := keysSorted_tail hs
        have hins := ih hsrest
        have hpw1 : ∀ b ∈ rest.map Prod.fst, ltB k1 b :=
          (List.pairwise_cons.mp (keysSorted_pairwise _ hs)).1
        refine keysSorted_of_pairwise _ ?_ ?_
        · refine List.pairwise_cons.mpr ⟨?_, keysSorted_pairwise _ hins⟩
          intro b hb
          rcases List.mem_map.mp hb with ⟨⟨bk, bv⟩, hbm, hbe⟩
          subst hbe
          rcases objInsert_subset rest k v (bk, bv) hbm with hbkv | hbold
          · cases hbkv
            exact hk1k
          · exact hpw1 bk (List.mem_map.mpr ⟨(bk, bv), hbold, rfl⟩)
        · intro x hx
          rcases List.mem_cons.mp hx with hh | ht
          · exact hh ▸ hk1w
          · exact keysSorted_mem_wf hins x ht

/-- Sorted-key preservation under removal. -/
theorem objRemove_sorted (m : List (Str × Node)) (k : Str)
    (hs : keysSorted (m.map Prod.fst) = true) :
    keysSorted ((objRemove m k).map Prod.fst) = true := by
  induction m with
  | nil => rfl
  | cons kv rest ih =>
    obtain ⟨k1, v1⟩ := kv
    simp only [List.map_cons] at hs
    have hsrest : keysSorted (rest.map Prod.fst) = true := keysSorted_tail hs
    rw [objRemove]
    by_cases hk : k1 = k
    · rw [if_pos hk]
      exact hsrest
    · rw [if_neg hk]
      simp only [List.map_cons]
      have hk1w : strWf k1 = true := keysSorted_head_wf hs
      have hrec := ih hsrest
      have hpw1 : ∀ b ∈ rest.map Prod.fst, ltB k1 b :=
        (List.pairwise_cons.mp (keysSorted_pairwise _ hs)).1
      refine keysSorted_of_pairwise _ ?_ ?_
      · refine List.pairwise_cons.mpr ⟨?_, keysSorted_pairwise _ hrec⟩
        intro b hb
        rcases List.mem_map.mp hb with ⟨⟨bk, bv⟩, hbm, hbe⟩
        subst hbe
        exact hpw1 bk (List.mem_map.mpr ⟨(bk, bv), objRemove_subset rest k (bk, bv) hbm, rfl⟩)
      · intro x hx
        rcases List.mem_cons.mp hx with hh | ht
        · exact hh ▸ hk1w
        · exact keysSorted_mem_wf hrec x ht

/-- Sorted-key preservation under update. -/
theorem objSet_sorted (m : List (Str × Node)) (k : Str) (v : Node)
    (hs : keysSorted (m.map Prod.fst) = true) (hwk : strWf k = true) :
    keysSorted ((objSet m k v).map Prod.fst) = true := by
  unfold objSet
  by_cases hv : is_void v = true
  · rw [if_pos hv]; exact objRemove_sorted m k hs
  · rw [if_neg hv]; exact objInsert_sorted m k v hs hwk

/-- Lookup after update at the key. -/
theorem objGet_objSet_self (m : List (Str × Node)) (k : Str) (v : Node)
    (hnd : (m.map Prod.fst).Nodup) :
    objGet (objSet m k v) k = if is_void v then none else some v := by
  unfold objSet
  by_cases hv : is_void v = true
  · rw [if_pos hv, if_pos hv]
    exact objGet_objRemove_self m k hnd
  · rw [if_neg hv, if_neg hv]
    exact objGet_objInsert_self m k v

/-- Lookup after update at another key. -/
theorem objGet_objSet_other (m : List (Str × Node)) (k k' : Str) (v : Node)
    (hne : k ≠ k') : objGet (objSet m k v) k' = objGet m k' := by
  unfold objSet
  by_cases hv : is_void v = true
  · rw [if_pos hv]; exact objGet_objRemove_other m k k' hne
  · rw [if_neg hv]; exact objGet_objInsert_other m k k' v hne

/-- Extensionality of sorted entry lists. -/
theorem objExt (m1 m2 : List (Str × Node))
    (h1 : keysSorted (m1.map Prod.fst) = true) (h2 : keysSorted (m2.map Prod.fst) = true)
    (h : ∀ k, objGet m1 k = objGet m2 k) : m1 = m2 := by
  induction m1 generalizing m2 with
  | nil =>
    cases m2 with
    | nil => rfl
    | cons kv rest =>
      obtain ⟨k, v⟩ := kv
      exfalso
      have hthis := h k
      simp [objGet] at hthis
  | cons kv rest ih =>
    obtain ⟨k1, v1⟩ := kv
    cases m2 with
    | nil =>
      exfalso
      have hthis := h k1
      simp [objGet] at hthis
    | cons kw rest2 =>
      obtain ⟨k2, v2⟩ := kw
      have hpw1 := keysSorted_pairwise _ h1
      have hpw2 := keysSorted_pairwise _ h2
      simp only [List.map_cons] at hpw1 hpw2
      have hl1 := (List.pairwise_cons.mp hpw1).1
      have hl2 := (List.pairwise_cons.mp hpw2).1
      have hk12 : k1 = k2 := by
        by_contra hne
        have hg1 : objGet ((k2, v2) :: rest2) k1 = some v1 := by
          rw [← h k1, objGet, if_pos rfl]
        rw [objGet, if_neg (fun hq : k2 = k1 => hne hq.symm)] at hg1
        have hm1 : k1 ∈ rest2.map Prod.fst := objGet_some_mem _ _ _ hg1
        have hg2 : objGet ((k1, v1) :: rest) k2 = some v2 := by
          rw [h k2, objGet, if_pos rfl]
        rw [objGet, if_neg hne] at hg2
        have hm2 : k2 ∈ rest.map Prod.fst := objGet_some_mem _ _ _ hg2
        have hlt1 : bytesLt k2 k1 = true := hl2 k1 hm1
        have hlt2 : bytesLt k1 k2 = true := hl1 k2 hm2
        have hb := bytesLt_trans hlt1 hlt2
        rw [bytesLt_irrefl] at hb
        cases hb
      subst hk12
      have hv12 : v1 = v2 := by
        have hthis := h k1
        rw [objGet, if_pos rfl, objGet, if_pos rfl] at hthis
        cases hthis
        rfl
      subst hv12
      simp only [List.map_cons] at h1 h2
      have hs1 : keysSorted (rest.map Prod.fst) = true := keysSorted_tail h1
      have hs2 : keysSorted (rest2.map Prod.fst) = true := keysSorted_tail h2
      have htail : ∀ k, objGet rest k = objGet rest2 k := by
        intro k
        by_cases hk : k1 = k
        · subst hk
          cases hg1 : objGet rest k1 with
          | none =>
            cases hg2 : objGet rest2 k1 with
            | none => rfl
            | some w =>
              have hb : bytesLt k1 k1 = true := hl2 k1 (objGet_some_mem _ _ _ hg2)
              rw [bytesLt_irrefl] at hb
              cases hb
          | some w =>
            have hb : bytesLt k1 k1 = true := hl1 k1 (objGet_some_mem _ _ _ hg1)
            rw [bytesLt_irrefl] at hb
            cases hb
        · have hthis := h k
          rw [objGet, if_neg hk, objGet, if_neg hk] at hthis
          exact hthis
      rw [ih rest2 hs1 hs2 htail]

/-! ## Patch-step characterizations -/

theorem patchElement_drop_ctx (n : Node) (pb pa : List PathSegment) (bf rm ad af : List Node)
    (v : Node) (h : patchElement n pb pa bf rm ad af .strict = .ok v) :
    patchElement n pb pa [] rm ad [] .strict = .ok v := by
  rw [patchElement] at h ⊢
  cases n with
  | arr L =>
    rw [patchDispatch.eq_def] at h ⊢
    simp only at h ⊢
    rw [patchList.eq_def] at h ⊢
    rw [if_neg (by simp : ¬(PatchStrategy.strict = PatchStrategy.merge))] at h ⊢
    cases pa with
    | nil => exact h
    | cons seg rest =>
      cases seg with
      | key k => exact h
      | index raw =>
        simp only at h ⊢
        by_cases hrest : rest.isEmpty
        · rw [show (!rest.isEmpty) = false by simp [hrest]] at h ⊢
          simp only [Bool.false_eq_true, if_false] at h ⊢
          by_cases hneg : raw = -1
          · rw [if_pos hneg] at h ⊢
            exact h
          · rw [if_neg hneg] at h ⊢
            by_cases hneg2 : raw < 0
            · rw [if_pos hneg2] at h; cases h
            · rw [if_neg hneg2] at h ⊢
              cases hcb : checkBefore bf.length raw L bf 0 with
              | panicked => rw [hcb] at h; cases h
              | err msg => rw [hcb] at h; cases h
              | ok w =>
                rw [hcb] at h
                rw [show checkBefore ([] : List Node).length raw L [] 0 = .ok .void from rfl]
                simp only at h ⊢
                by_cases hrme : rm.isEmpty
                · rw [if_pos hrme] at h ⊢
                  simp only at h ⊢
                  by_cases hwl : L.length < raw.toNat
                  · rw [if_pos hwl] at h; cases h
                  · rw [if_neg hwl] at h ⊢
                    cases hca : checkAfter raw.toNat L af 0 with
                    | panicked => rw [hca] at h; cases h
                    | err msg => rw [hca] at h; cases h
                    | ok w3 =>
                      rw [hca] at h
                      rw [show checkAfter raw.toNat L ([] : List Node) 0 = .ok .void from rfl]
                      exact h
                · rw [if_neg hrme] at h ⊢
                  by_cases hlb : L.length ≤ raw.toNat
                  · rw [if_pos hlb] at h
                    simp only at h
                    cases h
                  · rw [if_neg hlb] at h ⊢
                    cases hrl : removeLoop raw.toNat L rm with
                    | mk outc working =>
                      rw [hrl] at h
                      cases outc with
                      | panicked => simp only at h; cases h
                      | err msg => simp only at h; cases h
                      | ok w2 =>
                        simp only at h ⊢
                        by_cases hwl : working.length < raw.toNat
                        · rw [if_pos hwl] at h; cases h
                        · rw [if_neg hwl] at h ⊢
                          cases hca : checkAfter raw.toNat working af 0 with
                          | panicked => rw [hca] at h; cases h
                          | err msg => rw [hca] at h; cases h
                          | ok w3 =>
                            rw [hca] at h
                            rw [show checkAfter raw.toNat working ([] : List Node) 0 =
                              .ok .void from rfl]
                            exact h
        · rw [show (!rest.isEmpty) = true by simp [hrest]] at h ⊢
          simp only [if_true] at h ⊢
          exact h
  | obj m =>
    rw [patchDispatch.eq_def] at h ⊢
    simp only at h ⊢
    exact h
  | void =>
    rw [patchDispatch.eq_def] at h ⊢
    simp only at h ⊢
    exact h
  | null =>
    rw [patchDispatch.eq_def] at h ⊢
    simp only at h ⊢
    exact h
  | bool x =>
    rw [patchDispatch.eq_def] at h ⊢
    simp only at h ⊢
    exact h
  | num x =>
    rw [patchDispatch.eq_def] at h ⊢
    simp only at h ⊢
    exact h
  | str s =>
    rw [patchDispatch.eq_def] at h ⊢
    simp only at h ⊢
    exact h
theorem patchElement_replace (n : Node) (pb : List PathSegment) (ad : List Node)
    (had : ad.length ≤ 1) (hrefl : n.beqNode n = true) :
    patchElement n pb [] [] [n] ad [] .strict = .ok (single_value ad) := by
  rw [patchElement]
  cases n with
  | arr L =>
    rw [patchDispatch.eq_def]
    simp only
    rw [patchList.eq_def]
    rw [if_neg (by simp : ¬(PatchStrategy.strict = PatchStrategy.merge))]
    simp only
    rw [if_neg (by simp; omega : ¬(([Node.arr L] : List Node).length > 1 ∨ ad.length > 1))]
    rw [show (!(Node.arr L).beqNode (Node.arr L)) = false by simp [hrefl]]
    simp only [Bool.false_eq_true, if_false]
    cases ad with
    | nil => rfl
    | cons x rest => rfl
  | obj m =>
    rw [patchDispatch.eq_def]
    simp only
    rw [patchObject]
    rw [if_neg (by simp; omega : ¬(([Node.obj m] : List Node).length > 1 ∨ ad.length > 1))]
    rw [if_neg (by simp : ¬(PatchStrategy.strict = PatchStrategy.merge))]
    have hb : (!(Node.obj m).beqNode (single_value [Node.obj m])) = false := by
      simp [single_value, hrefl]
    simp only [hb, Bool.false_eq_true, if_false]
  | void =>
    rw [patchDispatch.eq_def]
    simp only
    rw [patchScalar]
    simp only [List.head?_nil]
    rw [if_neg (by simp; omega : ¬(([Node.void] : List Node).length > 1 ∨ ad.length > 1))]
    rw [show (!(Node.void).beqNode (single_value [Node.void])) = false by
      simp [single_value, hrefl]]
    simp only [Bool.false_eq_true, if_false]
  | null =>
    rw [patchDispatch.eq_def]
    simp only
    rw [patchScalar]
    simp only [List.head?_nil]
    rw [if_neg (by simp; omega : ¬(([Node.null] : List Node).length > 1 ∨ ad.length > 1))]
    rw [show (!(Node.null).beqNode (single_value [Node.null])) = false by
      simp [single_value, hrefl]]
    simp only [Bool.false_eq_true, if_false]
  | bool x =>
    rw [patchDispatch.eq_def]
    simp only
    rw [patchScalar]
    simp only [List.head?_nil]
    rw [if_neg (by simp; omega : ¬(([Node.bool x] : List Node).length > 1 ∨ ad.length > 1))]
    rw [show (!(Node.bool x).beqNode (single_value [Node.bool x])) = false by
      simp [single_value, hrefl]]
    simp only [Bool.false_eq_true, if_false]
  | num x =>
    rw [patchDispatch.eq_def]
    simp only
    rw [patchScalar]
    simp only [List.head?_nil]
    rw [if_neg (by simp; omega : ¬(([Node.num x] : List Node).length > 1 ∨ ad.length > 1))]
    rw [show (!(Node.num x).beqNode (single_value [Node.num x])) = false by
      simp [single_value, hrefl]]
    simp only [Bool.false_eq_true, if_false]
  | str s =>
    rw [patchDispatch.eq_def]
    simp only
    rw [patchScalar]
    simp only [List.head?_nil]
    rw [if_neg (by simp; omega : ¬(([Node.str s] : List Node).length > 1 ∨ ad.length > 1))]
    rw [show (!(Node.str s).beqNode (single_value [Node.str s])) = false by
      simp [single_value, hrefl]]
    simp only [Bool.false_eq_true, if_false]

theorem patchElement_add_void (pb : List PathSegment) (ad : List Node)
    (had : ad.length ≤ 1) :
    patchElement .void pb [] [] [] ad [] .strict = .ok (single_value ad) := by
  rw [patchElement]
  rw [patchDispatch.eq_def]
  simp only
  rw [patchScalar]
  simp only [List.head?_nil]
  rw [if_neg (by simp; omega : ¬(([] : List Node).length > 1 ∨ ad.length > 1))]
  rfl

theorem patchElement_obj_nav (m : List (Str × Node)) (pb : List PathSegment) (k : Str)
    (τ : List PathSegment) (bf rm ad af : List Node) :
    patchElement (.obj m) pb (PathSegment.key k :: τ) bf rm ad af .strict =
      match patchElement ((objGet m k).getD .void) (pb ++ [PathSegment.key k]) τ
          [] rm ad [] .strict with
      | .ok patched => .ok (.obj (objSet m k patched))
      | other => other := by
  rw [patchElement]
  rw [patchDispatch.eq_def]
  simp only
  cases hg : objGet m k with
  | some v =>
    simp only [patchObject, hg, Option.getD_some]
    cases patchElement v (pb ++ [PathSegment.key k]) τ [] rm ad [] .strict with
    | ok patched =>
      simp only
      unfold objSet
      by_cases hv : is_void patched = true
      · rw [if_pos hv, if_pos hv]
      · rw [if_neg hv, if_neg hv]
    | panicked => rfl
    | err msg => rfl
  | none =>
    simp only [patchObject, hg, Option.getD_none]
    cases patchElement Node.void (pb ++ [PathSegment.key k]) τ [] rm ad [] .strict with
    | ok patched =>
      simp only
      unfold objSet
      by_cases hv : is_void patched = true
      · rw [if_pos hv, if_pos hv]
      · rw [if_neg hv, if_neg hv]
    | panicked => rfl
    | err msg => rfl

theorem patchElement_arr_nav (L : List Node) (pb : List PathSegment) (i : Int)
    (τ : List PathSegment) (bf rm ad af : List Node)
    (hτ : τ ≠ []) (hi : 0 ≤ i) (hlen : i.toNat < L.length) :
    patchElement (.arr L) pb (PathSegment.index i :: τ) bf rm ad af .strict =
      match patchElement (L.get ⟨i.toNat, hlen⟩) (pb ++ [PathSegment.index i]) τ
          [] rm ad [] .strict with
      | .ok patched => .ok (.arr (L.set i.toNat patched))
      | other => other := by
  rw [patchElement]
  rw [patchDispatch.eq_def]
  simp only
  rw [patchList.eq_def]
  rw [if_neg (by simp : ¬(PatchStrategy.strict = PatchStrategy.merge))]
  simp only
  have hτ2 : (!τ.isEmpty) = true := by
    cases τ with
    | nil => exact absurd rfl hτ
    | cons x xs => rfl
  rw [hτ2]
  simp only [if_true]
  have hbounds : ¬(i < 0 ∨ (L.length : Int) ≤ i) := by omega
  rw [if_neg hbounds]
  have hget : L.get? i.toNat = some (L.get ⟨i.toNat, hlen⟩) := List.get?_eq_get hlen
  rw [hget]

/-! ## Longest-common-subsequence facts -/

/-- `getH` at an in-bounds index is the element. -/
theorem getH_lt {xs : List HashCode} {i : Nat} (h : i < xs.length) :
    getH xs i = xs.get ⟨i, h⟩ := by
  unfold getH
  rw [List.get?_eq_get h]
  rfl

/-- `take (i+1)` splits off the last element. -/
theorem take_succ_concat {α : Type} (xs : List α) (i : Nat) (h : i < xs.length) :
    xs.take (i + 1) = xs.take i ++ [xs.get ⟨i, h⟩] := by
  rw [List.take_succ, List.getElem?_eq_getElem h]
  rfl

/-- The backtrack result is a reversed common subsequence of the prefixes. -/
theorem lcsGo_sublist (lhs rhs : List HashCode) :
    ∀ n i j, i + j ≤ n → i ≤ lhs.length → j ≤ rhs.length →
      List.Sublist (lcsGo lhs rhs i j).reverse (lhs.take i) ∧
      List.Sublist (lcsGo lhs rhs i j).reverse (rhs.take j) := by
  intro n
  induction n with
  | zero =>
    intro i j hn hi hj
    have h1 : i = 0 := by omega
    have h2 : j = 0 := by omega
    subst h1; subst h2
    rw [lcsGo]
    exact ⟨List.nil_sublist _, List.nil_sublist _⟩
  | succ m ih =>
    intro i j hn hi hj
    match i, j with
    | 0, j =>
      rw [lcsGo]
      exact ⟨List.nil_sublist _, List.nil_sublist _⟩
    | i + 1, 0 =>
      rw [lcsGo]
      exact ⟨List.nil_sublist _, List.nil_sublist _⟩
    | i + 1, j + 1 =>
      rw [lcsGo]
      by_cases heq : getH lhs i = getH rhs j
      · rw [if_pos heq]
        have hi2 : i < lhs.length := by omega
        have hj2 : j < rhs.length := by omega
        obtain ⟨hl, hr⟩ := ih i j (by omega) (by omega) (by omega)
        constructor
        · rw [List.reverse_cons, take_succ_concat lhs i hi2]
          refine List.Sublist.append hl ?_
          rw [getH_lt hi2]
        · rw [List.reverse_cons, take_succ_concat rhs j hj2]
          refine List.Sublist.append hr ?_
          rw [heq, getH_lt hj2]
      · rw [if_neg heq]
        by_cases hcmp : lcsLen lhs rhs i (j + 1) ≥ lcsLen lhs rhs (i + 1) j
        · rw [if_pos hcmp]
          obtain ⟨hl, hr⟩ := ih i (j + 1) (by omega) (by omega) (by omega)
          exact ⟨hl.trans ((List.take_prefix_take_left lhs (by omega : i ≤ i + 1)).sublist), hr⟩
        · rw [if_neg hcmp]
          obtain ⟨hl, hr⟩ := ih (i + 1) j (by omega) (by omega) (by omega)
          exact ⟨hl, hr.trans ((List.take_prefix_take_left rhs (by omega : j ≤ j + 1)).sublist)⟩
/-- The backtrack result has the DP length. -/
theorem lcsGo_length (lhs rhs : List HashCode) :
    ∀ n i j, i + j ≤ n → (lcsGo lhs rhs i j).length = lcsLen lhs rhs i j := by
  intro n
  induction n with
  | zero =>
    intro i j hn
    have h1 : i = 0 := by omega
    have h2 : j = 0 := by omega
    subst h1; subst h2
    rw [lcsGo, lcsLen]
    rfl
  | succ m ih =>
    intro i j hn
    match i, j with
    | 0, j =>
      rw [lcsGo, lcsLen]
      rfl
    | i + 1, 0 =>
      rw [lcsGo, lcsLen]
      rfl
    | i + 1, j + 1 =>
      rw [lcsGo, lcsLen]
      by_cases heq : getH lhs i = getH rhs j
      · rw [if_pos heq, if_pos heq]
        simp only [List.length_cons]
        rw [ih i j (by omega)]
      · rw [if_neg heq, if_neg heq]
        by_cases hcmp : lcsLen lhs rhs i (j + 1) ≥ lcsLen lhs rhs (i + 1) j
        · rw [if_pos hcmp, ih i (j + 1) (by omega)]
          omega
        · rw [if_neg hcmp, ih (i + 1) j (by omega)]
          omega

/-- Every common subsequence of the prefixes is at most the DP length. -/
theorem lcsLen_max (lhs rhs : List HashCode) :
    ∀ n i j, i + j ≤ n → i ≤ lhs.length → j ≤ rhs.length →
      ∀ w : List HashCode, List.Sublist w (lhs.take i) → List.Sublist w (rhs.take j) →
      w.length ≤ lcsLen lhs rhs i j := by
  intro n
  induction n with
  | zero =>
    intro i j hn hi hj w hwl hwr
    have h1 : i = 0 := by omega
    subst h1
    simp only [List.take_zero, List.sublist_nil] at hwl
    subst hwl
    simp
  | succ m ih =>
    intro i j hn hi hj w hwl hwr
    match i, j with
    | 0, j =>
      simp only [List.take_zero, List.sublist_nil] at hwl
      subst hwl
      simp
    | i + 1, 0 =>
      simp only [List.take_zero, List.sublist_nil] at hwr
      subst hwr
      simp
    | i + 1, j + 1 =>
      have hi2 : i < lhs.length := by omega
      have hj2 : j < rhs.length := by omega
      have hwl2 := hwl
      have hwr2 := hwr
      rw [take_succ_concat lhs i hi2, List.sublist_append_iff] at hwl2
      rw [take_succ_concat rhs j hj2, List.sublist_append_iff] at hwr2
      obtain ⟨w0, w1, hw01, hw0, hw1⟩ := hwl2
      obtain ⟨u0, u1, hu01, hu0, hu1⟩ := hwr2
      rw [List.sublist_singleton] at hw1 hu1
      rw [lcsLen]
      by_cases heq : getH lhs i = getH rhs j
      · rw [if_pos heq]
        cases hw1 with
        | inl h1 =>
          subst h1
          rw [List.append_nil] at hw01
          cases hu1 with
          | inl h2 =>
            subst h2
            rw [List.append_nil] at hu01
            have hb := ih i j (by omega) (by omega) (by omega) w
              (hw01 ▸ hw0) (hu01 ▸ hu0)
            omega
          | inr h2 =>
            subst h2
            have hu0l : List.Sublist u0 (lhs.take i) := by
              refine List.Sublist.trans ?_ (hw01 ▸ hw0)
              rw [hu01]
              exact List.sublist_append_left u0 _
            have hb := ih i j (by omega) (by omega) (by omega) u0 hu0l hu0
            have hlen : w.length = u0.length + 1 := by
              rw [hu01, List.length_append, List.length_singleton]
            omega
        | inr h1 =>
          subst h1
          have hw0r : List.Sublist w0 (rhs.take j) := by
            cases hu1 with
            | inl h2 =>
              subst h2
              rw [List.append_nil] at hu01
              refine List.Sublist.trans ?_ (hu01 ▸ hu0)
              rw [hw01]
              exact List.sublist_append_left w0 _
            | inr h2 =>
              subst h2
              have hcan : w0 = u0 := by
                have := hw01.symm.trans hu01
                exact (List.append_inj' this (by simp)).1
              rw [hcan]
              exact hu0
          have hb := ih i j (by omega) (by omega) (by omega) w0 hw0 hw0r
          have hlen : w.length = w0.length + 1 := by
            rw [hw01, List.length_append, List.length_singleton]
          omega
      · rw [if_neg heq]
        cases hw1 with
        | inl h1 =>
          subst h1
          rw [List.append_nil] at hw01
          have hb := ih i (j + 1) (by omega) (by omega) (by omega) w (hw01 ▸ hw0) hwr
          omega
        | inr h1 =>
          cases hu1 with
          | inl h2 =>
            subst h2
            rw [List.append_nil] at hu01
            have hb := ih (i + 1) j (by omega) (by omega) (by omega) w hwl (hu01 ▸ hu0)
            omega
          | inr h2 =>
            subst h1; subst h2
            exfalso
            apply heq
            have := hw01.symm.trans hu01
            have h3 : [lhs.get ⟨i, hi2⟩] = [rhs.get ⟨j, hj2⟩] :=
              (List.append_inj' this (by simp)).2
            rw [getH_lt hi2, getH_lt hj2]
            exact List.cons.inj h3 |>.1
/-- A maximum common subsequence (in the hash space). -/
def CSMax (common lh rh : List HashCode) : Prop :=
  List.Sublist common lh ∧ List.Sublist common rh ∧
    ∀ w : List HashCode, List.Sublist w lh → List.Sublist w rh → w.length ≤ common.length

/-- `longest_common_subsequence` is a maximum common subsequence. -/
theorem lcs_csmax (lh rh : List HashCode) :
    CSMax (longest_common_subsequence lh rh) lh rh := by
  unfold longest_common_subsequence
  obtain ⟨h1, h2⟩ := lcsGo_sublist lh rh (lh.length + rh.length) lh.length rh.length
    (by omega) (by omega) (by omega)
  rw [List.take_length] at h1 h2
  refine ⟨h1, h2, ?_⟩
  intro w hwl hwr
  have hb := lcsLen_max lh rh (lh.length + rh.length) lh.length rh.length
    (by omega) (by omega) (by omega) w
    (by rw [List.take_length]; exact hwl) (by rw [List.take_length]; exact hwr)
  rw [List.length_reverse, lcsGo_length lh rh (lh.length + rh.length) _ _ (by omega)]
  exact hb

/-- Maximality survives shrinking the ambient lists. -/
theorem csmax_shrink {c lh rh lh' rh' : List HashCode} (h : CSMax c lh rh)
    (h1 : List.Sublist c lh') (h2 : List.Sublist c rh')
    (h3 : List.Sublist lh' lh) (h4 : List.Sublist rh' rh) : CSMax c lh' rh' :=
  ⟨h1, h2, fun w hwl hwr => h.2.2 w (hwl.trans h3) (hwr.trans h4)⟩

/-- A sublist starting with a different element avoids the head. -/
theorem sublist_of_ne_head {c u : HashCode} {cs lt : List HashCode}
    (h : List.Sublist (c :: cs) (u :: lt)) (hne : c ≠ u) : List.Sublist (c :: cs) lt := by
  cases h with
  | cons _ h2 => exact h2
  | cons₂ => exact absurd rfl hne

/-- Tails of cons-sublists are sublists of the tail. -/
theorem sublist_tail_of_cons {c : HashCode} {cs : List HashCode} {u : HashCode}
    {lt : List HashCode} (h : List.Sublist (c :: cs) (u :: lt)) : List.Sublist cs lt := by
  cases h with
  | cons _ h2 => exact ((List.sublist_cons_self c cs).trans h2)
  | cons₂ _ h2 => exact h2

/-- Consuming a matched pair preserves maximality. -/
theorem csmax_tail {c : HashCode} {cs lt rt : List HashCode} {x y : HashCode}
    (h : CSMax (c :: cs) (x :: lt) (y :: rt)) (hx : c = x) (hy : c = y) :
    CSMax cs lt rt := by
  refine ⟨sublist_tail_of_cons h.1, sublist_tail_of_cons h.2.1, ?_⟩
  intro w hwl hwr
  have hcons := h.2.2 (c :: w)
    (by rw [hx]; exact List.Sublist.cons₂ x hwl)
    (by rw [hy]; exact List.Sublist.cons₂ y hwr)
  simpa using hcons

/-- Equal heads that are not at the common head contradict maximality. -/
theorem csmax_heads_ne {common lt rt : List HashCode} {u : HashCode}
    (h : CSMax common (u :: lt) (u :: rt)) (hhd : common.head? ≠ some u) : False := by
  cases common with
  | nil =>
    have := h.2.2 [u] (List.Sublist.cons₂ u (List.nil_sublist lt))
      (List.Sublist.cons₂ u (List.nil_sublist rt))
    simp at this
  | cons c cs =>
    have hne : c ≠ u := by
      intro hcu
      apply hhd
      rw [hcu]
      rfl
    have hl := sublist_of_ne_head h.1 hne
    have hr := sublist_of_ne_head h.2.1 hne
    have := h.2.2 (u :: c :: cs) (List.Sublist.cons₂ u hl) (List.Sublist.cons₂ u hr)
    simp at this
/-! ## Composition of strict application through one navigation step -/

/-- Updating with the value already present is the identity. -/
theorem objSet_get_self (m : List (Str × Node)) (kk : Str)
    (hs : keysSorted (m.map Prod.fst) = true)
    (hnv : ∀ v, objGet m kk = some v → is_void v = false) :
    objSet m kk ((objGet m kk).getD .void) = m := by
  cases hg : objGet m kk with
  | none =>
    simp only [Option.getD_none]
    unfold objSet
    rw [if_pos (by rfl : is_void Node.void = true)]
    exact objRemove_missing m kk hg
  | some v =>
    simp only [Option.getD_some]
    unfold objSet
    rw [if_neg (by rw [hnv v hg]; simp)]
    exact objInsert_self m kk v hs hg

/-- Two updates at the same key collapse to the last. -/
theorem objSet_objSet (m : List (Str × Node)) (kk : Str) (a b : Node)
    (hs : keysSorted (m.map Prod.fst) = true) (hwk : strWf kk = true) :
    objSet (objSet m kk a) kk b = objSet m kk b := by
  have hs1 := objSet_sorted m kk a hs hwk
  refine objExt _ _ (objSet_sorted _ kk b hs1 hwk) (objSet_sorted m kk b hs hwk) ?_
  intro k'
  by_cases hk : kk = k'
  · subst hk
    rw [objGet_objSet_self _ _ _ (keysSorted_nodup _ hs1),
      objGet_objSet_self _ _ _ (keysSorted_nodup _ hs)]
  · rw [objGet_objSet_other _ _ _ _ hk, objGet_objSet_other _ _ _ _ hk,
      objGet_objSet_other _ _ _ _ hk]

/-- A run of elements whose paths all pass through the key `kk` acts on an
object exactly as it acts on the entry at `kk`. -/
theorem applyStrict_obj_comp (pb : List PathSegment) (k : Nat) (kk : Str)
    (d : List DiffElement) (v' : Node) :
    ∀ m : List (Str × Node),
    keysSorted (m.map Prod.fst) = true → strWf kk = true →
    (∀ v, objGet m kk = some v → is_void v = false) →
    (∀ e ∈ d, e.path.drop k = PathSegment.key kk :: e.path.drop (k + 1)) →
    applyStrict (pb ++ [PathSegment.key kk]) (k + 1) ((objGet m kk).getD .void) d =
      .ok v' →
    applyStrict pb k (.obj m) d = .ok (.obj (objSet m kk v')) := by
  induction d with
  | nil =>
    intro m hs hwk hnv hpath hchild
    rw [applyStrict] at hchild ⊢
    cases hchild
    rw [objSet_get_self m kk hs hnv]
  | cons e rest ih =>
    intro m hs hwk hnv hpath hchild
    rw [applyStrict] at hchild ⊢
    rw [hpath e (by simp)]
    rw [patchElement_obj_nav]
    cases hstep : patchElement ((objGet m kk).getD Node.void)
        (pb ++ [PathSegment.key kk]) (e.path.drop (k + 1)) e.before e.remove e.add
        e.after .strict with
    | panicked => rw [hstep] at hchild; cases hchild
    | err msg => rw [hstep] at hchild; cases hchild
    | ok p1 =>
      rw [hstep] at hchild
      rw [patchElement_drop_ctx _ _ _ _ _ _ _ _ hstep]
      simp only
      have hs1 := objSet_sorted m kk p1 hs hwk
      have hget : (objGet (objSet m kk p1) kk).getD Node.void = p1 := by
        rw [objGet_objSet_self _ _ _ (keysSorted_nodup _ hs)]
        by_cases hv : is_void p1 = true
        · rw [if_pos hv, Option.getD_none]
          cases p1 with
          | void => rfl
          | null => cases hv
          | bool b => cases hv
          | num x => cases hv
          | str s => cases hv
          | arr l => cases hv
          | obj o => cases hv
        · rw [if_neg hv, Option.getD_some]
      have hnv1 : ∀ v, objGet (objSet m kk p1) kk = some v → is_void v = false := by
        intro v hv
        rw [objGet_objSet_self _ _ _ (keysSorted_nodup _ hs)] at hv
        by_cases h1 : is_void p1 = true
        · rw [if_pos h1] at hv; cases hv
        · rw [if_neg h1] at hv
          cases hv
          simpa using h1
      have := ih (objSet m kk p1) hs1 hwk hnv1
        (fun x hx => hpath x (by simp [hx])) (by rw [hget]; exact hchild)
      rw [this, objSet_objSet m kk p1 v' hs hwk]

/-- Writing back the element already at a position is the identity. -/
theorem list_set_self {α : Type} (L : List α) (n : Nat) (h : n < L.length) :
    L.set n (L.get ⟨n, h⟩) = L := by
  induction L generalizing n with
  | nil => cases h
  | cons x xs ih =>
    cases n with
    | zero => rfl
    | succ n2 =>
      simp only [List.set_cons_succ, List.cons.injEq, true_and]
      exact ih n2 (by simpa using h)

/-- A run of elements whose paths all pass deeper through the index `i`
acts on an array exactly as it acts on the element at `i`. -/
theorem applyStrict_arr_comp (pb : List PathSegment) (k : Nat) (i : Int)
    (d : List DiffElement) (v' : Node) (hi : 0 ≤ i) :
    ∀ L : List Node, ∀ hlen : i.toNat < L.length,
    (∀ e ∈ d, e.path.drop k = PathSegment.index i :: e.path.drop (k + 1) ∧
      e.path.drop (k + 1) ≠ []) →
    applyStrict (pb ++ [PathSegment.index i]) (k + 1) (L.get ⟨i.toNat, hlen⟩) d =
      .ok v' →
    applyStrict pb k (.arr L) d = .ok (.arr (L.set i.toNat v')) := by
  induction d with
  | nil =>
    intro L hlen hpath hchild
    rw [applyStrict] at hchild ⊢
    cases hchild
    rw [list_set_self L i.toNat hlen]
  | cons e rest ih =>
    intro L hlen hpath hchild
    rw [applyStrict] at hchild ⊢
    rw [(hpath e (by simp)).1]
    rw [patchElement_arr_nav L pb i _ _ _ _ _ (hpath e (by simp)).2 hi hlen]
    cases hstep : patchElement (L.get ⟨i.toNat, hlen⟩)
        (pb ++ [PathSegment.index i]) (e.path.drop (k + 1)) e.before e.remove e.add
        e.after .strict with
    | panicked => rw [hstep] at hchild; cases hchild
    | err msg => rw [hstep] at hchild; cases hchild
    | ok p1 =>
      rw [hstep] at hchild
      rw [patchElement_drop_ctx _ _ _ _ _ _ _ _ hstep]
      simp only
      have hlen1 : i.toNat < (L.set i.toNat p1).length := by
        rw [List.length_set]; exact hlen
      have hget : (L.set i.toNat p1).get ⟨i.toNat, hlen1⟩ = p1 := by
        rw [List.get_eq_getElem, List.getElem_set_self]
      have := ih (L.set i.toNat p1) hlen1
        (fun x hx => hpath x (by simp [hx])) (by rw [hget]; exact hchild)
      rw [this, List.set_set]
/-! ## Slice segments and the collect loops -/

/-- The segment `xs[i..j)`. -/
def sliceSeg (xs : List Node) (i j : Nat) : List Node := (xs.drop i).take (j - i)

/-- An empty segment. -/
theorem sliceSeg_self (xs : List Node) (i : Nat) : sliceSeg xs i i = [] := by
  unfold sliceSeg
  rw [Nat.sub_self]
  rfl

/-- Segments glue. -/
theorem sliceSeg_glue (xs : List Node) (i j k : Nat) (h1 : i ≤ j) (h2 : j ≤ k) :
    sliceSeg xs i j ++ sliceSeg xs j k = sliceSeg xs i k := by
  unfold sliceSeg
  have hd : xs.drop j = (xs.drop i).drop (j - i) := by
    rw [List.drop_drop]
    congr 1
    omega
  rw [hd, ← List.take_add]
  congr 1
  omega

/-- A head peels off a segment. -/
theorem sliceSeg_cons (xs : List Node) (i j : Nat) (hij : i < j) (h : i < xs.length) :
    xs.get ⟨i, h⟩ :: sliceSeg xs (i + 1) j = sliceSeg xs i j := by
  unfold sliceSeg
  rw [List.drop_eq_getElem_cons h]
  have hj : j - i = (j - (i + 1)) + 1 := by omega
  rw [hj, List.take_succ_cons]
  rfl

/-- A take extended by the adjacent segment. -/
theorem take_append_sliceSeg (xs : List Node) (i j : Nat) (h1 : i ≤ j) :
    xs.take i ++ sliceSeg xs i j = xs.take j := by
  unfold sliceSeg
  have hj : j = i + (j - i) := by omega
  rw [hj, List.take_add]
  congr 2
  omega

/-- A drop splits at a later position. -/
theorem drop_eq_sliceSeg_append (xs : List Node) (i j : Nat) (h1 : i ≤ j) :
    xs.drop i = sliceSeg xs i j ++ xs.drop j := by
  unfold sliceSeg
  have hj : j = i + (j - i) := by omega
  conv_lhs => rw [← List.drop_take_append_drop xs i (j - i)]
  rw [← hj]

/-- The segment length. -/
theorem sliceSeg_length (xs : List Node) (i j : Nat) (h1 : i ≤ j) (h2 : j ≤ xs.length) :
    (sliceSeg xs i j).length = j - i := by
  unfold sliceSeg
  rw [List.length_take, List.length_drop]
  omega

/-- A true `at_common` bounds the cursor and demands a nonempty `common`. -/
theorem atCommon_lt {xs common : List HashCode} {i : Nat} (h : atCommon xs i common = true) :
    i < xs.length ∧ common ≠ [] := by
  unfold atCommon at h
  by_cases hc : i ≥ xs.length ∨ common.isEmpty
  · rw [if_pos hc] at h
    cases h
  · push_neg at hc
    refine ⟨by omega, ?_⟩
    have := hc.2
    intro hnil
    rw [hnil] at this
    simp at this

/-- A false `at_common` at an in-bounds cursor is a head mismatch. -/
theorem atCommon_false_ne {xs : List HashCode} {c : HashCode} {cs : List HashCode} {i : Nat}
    (h : atCommon xs i (c :: cs) = false) (hi : i < xs.length) :
    getH xs i ≠ c := by
  unfold atCommon at h
  rw [if_neg (by simp; omega)] at h
  intro heq
  rw [show getH (c :: cs) 0 = c from rfl] at h
  rw [heq] at h
  simp at h

/-- The add-collection loop runs to the next common position. -/
theorem collectAdds_spec (rh : List HashCode) (c : HashCode) (cs : List HashCode)
    (R : List Node) (hlen : rh.length = R.length) :
    ∀ n b, R.length - b ≤ n → b ≤ R.length → List.Sublist (c :: cs) (rh.drop b) →
    ∃ b1, b ≤ b1 ∧ b1 < R.length ∧
      collectAdds rh (c :: cs) R b = some (sliceSeg R b b1) ∧
      atCommon rh b1 (c :: cs) = true ∧
      (∀ k, b ≤ k → k < b1 → atCommon rh k (c :: cs) = false) ∧
      List.Sublist (c :: cs) (rh.drop b1) := by
  intro n
  induction n with
  | zero =>
    intro b hn hb hsub
    have hbe : b = R.length := by omega
    subst hbe
    rw [show List.drop R.length rh = [] from by rw [← hlen]; exact List.drop_length rh] at hsub
    cases hsub
  | succ m ih =>
    intro b hn hb hsub
    by_cases hac : atCommon rh b (c :: cs) = true
    · refine ⟨b, le_refl b, ?_, ?_, hac, by omega, hsub⟩
      · have := (atCommon_lt hac).1
        omega
      · rw [collectAdds, if_pos hac, sliceSeg_self]
    · have hblt : b < R.length := by
        by_contra hge
        have hbe : b = R.length := by omega
        subst hbe
        rw [show List.drop R.length rh = [] from by rw [← hlen]; exact List.drop_length rh] at hsub
        cases hsub
      have hblt2 : b < rh.length := by omega
      have hne : c ≠ getH rh b := by
        intro heq
        exact atCommon_false_ne (by simpa using hac) hblt2 heq.symm
      have hsub2 : List.Sublist (c :: cs) (rh.drop (b + 1)) := by
        have hd : rh.drop b = rh.get ⟨b, hblt2⟩ :: rh.drop (b + 1) :=
          List.drop_eq_getElem_cons hblt2
        rw [hd] at hsub
        refine sublist_of_ne_head hsub ?_
        rw [getH_lt hblt2] at hne
        exact hne
      obtain ⟨b1, hb1a, hb1b, hb1c, hb1d, hb1e, hb1f⟩ :=
        ih (b + 1) (by omega) (by omega) hsub2
      refine ⟨b1, by omega, hb1b, ?_, hb1d, ?_, hb1f⟩
      · rw [collectAdds, if_neg (by simpa using hac), dif_pos hblt, hb1c,
          ← sliceSeg_cons R b b1 (by omega) hblt]
      · intro k hk1 hk2
        by_cases hkb : k = b
        · subst hkb
          simpa using hac
        · exact hb1e k (by omega) hk2

/-- The remove-collection loop runs to the next common position. -/
theorem collectRemoves_spec (lh : List HashCode) (c : HashCode) (cs : List HashCode)
    (L : List Node) (hlen : lh.length = L.length) :
    ∀ n a, L.length - a ≤ n → a ≤ L.length → List.Sublist (c :: cs) (lh.drop a) →
    ∃ a1, a ≤ a1 ∧ a1 < L.length ∧
      collectRemoves lh (c :: cs) L a = some (sliceSeg L a a1) ∧
      atCommon lh a1 (c :: cs) = true ∧
      (∀ k, a ≤ k → k < a1 → atCommon lh k (c :: cs) = false) ∧
      List.Sublist (c :: cs) (lh.drop a1) := by
  intro n
  induction n with
  | zero =>
    intro a hn ha hsub
    have hae : a = L.length := by omega
    subst hae
    rw [show List.drop L.length lh = [] from by rw [← hlen]; exact List.drop_length lh] at hsub
    cases hsub
  | succ m ih =>
    intro a hn ha hsub
    by_cases hac : atCommon lh a (c :: cs) = true
    · refine ⟨a, le_refl a, ?_, ?_, hac, by omega, hsub⟩
      · have := (atCommon_lt hac).1
        omega
      · rw [collectRemoves, if_pos hac, sliceSeg_self]
    · have halt : a < L.length := by
        by_contra hge
        have hae : a = L.length := by omega
        subst hae
        rw [show List.drop L.length lh = [] from by rw [← hlen]; exact List.drop_length lh] at hsub
        cases hsub
      have halt2 : a < lh.length := by omega
      have hne : c ≠ getH lh a := by
        intro heq
        exact atCommon_false_ne (by simpa using hac) halt2 heq.symm
      have hsub2 : List.Sublist (c :: cs) (lh.drop (a + 1)) := by
        have hd : lh.drop a = lh.get ⟨a, halt2⟩ :: lh.drop (a + 1) :=
          List.drop_eq_getElem_cons halt2
        rw [hd] at hsub
        refine sublist_of_ne_head hsub ?_
        rw [getH_lt halt2] at hne
        exact hne
      obtain ⟨a1, ha1a, ha1b, ha1c, ha1d, ha1e, ha1f⟩ :=
        ih (a + 1) (by omega) (by omega) hsub2
      refine ⟨a1, by omega, ha1b, ?_, ha1d, ?_, ha1f⟩
      · rw [collectRemoves, if_neg (by simpa using hac), dif_pos halt, ha1c,
          ← sliceSeg_cons L a a1 (by omega) halt]
      · intro k hk1 hk2
        by_cases hka : k = a
        · subst hka
          simpa using hac
        · exact ha1e k (by omega) hk2
/-! ## Single steps of the diff loop -/

theorem diffLoop_step_terminal_a (L R : List Node) (lh rh common : List HashCode) (path : Path)
    (o : DiffOptions) (e : DiffElement) (a b : Nat) (pc : Int) (hga : a ≥ L.length) :
    diffLoop L R lh rh common path o [e] a b 0 pc =
      some ([{ e with add := e.add ++ R.drop b }], a, R.length, 0,
        pc + 2 * ((R.length - b : Nat) : Int)) := by
  rw [diffLoop]
  rw [dif_pos hga]
  rfl

theorem diffLoop_step_terminal_b (L R : List Node) (lh rh common : List HashCode) (path : Path)
    (o : DiffOptions) (e : DiffElement) (a b : Nat) (pc : Int)
    (hga : ¬(a ≥ L.length)) (hgb : b ≥ R.length) :
    diffLoop L R lh rh common path o [e] a b 0 pc =
      some ([{ e with remove := e.remove ++ L.drop a }], L.length, b, 0, pc) := by
  rw [diffLoop]
  rw [dif_neg hga, dif_pos hgb]
  rfl

theorem diffLoop_step_common (L R : List Node) (lh rh common : List HashCode) (path : Path)
    (o : DiffOptions) (e : DiffElement) (a b : Nat) (pc : Int)
    (hga : ¬(a ≥ L.length)) (hgb : ¬(b ≥ R.length))
    (hcc : (atCommon lh a common && atCommon rh b common) = true) :
    diffLoop L R lh rh common path o [e] a b 0 pc =
      some ([e], a + 1, b + 1, 1, pc + 1) := by
  rw [diffLoop]
  rw [dif_neg hga, dif_neg hgb, dif_pos hcc]

theorem diffLoop_step_adds (L R : List Node) (lh rh common : List HashCode) (path : Path)
    (o : DiffOptions) (e : DiffElement) (a b : Nat) (pc : Int) (adds : List Node)
    (hga : ¬(a ≥ L.length)) (hgb : ¬(b ≥ R.length))
    (hcc : ¬((atCommon lh a common && atCommon rh b common) = true))
    (hca : atCommon lh a common = true)
    (hsome : collectAdds rh common R b = some adds) :
    diffLoop L R lh rh common path o [e] a b 0 pc =
      diffLoop L R lh rh common path o [{ e with add := e.add ++ adds }]
        a (b + adds.length) 0 (pc + (adds.length : Int)) := by
  rw [diffLoop]
  rw [dif_neg hga, dif_neg hgb, dif_neg hcc, dif_pos hca]
  split
  · next hnone => rw [hsome] at hnone; cases hnone
  · next adds2 hsome2 =>
    rw [hsome] at hsome2
    cases hsome2
    rfl

theorem diffLoop_step_removes (L R : List Node) (lh rh common : List HashCode) (path : Path)
    (o : DiffOptions) (e : DiffElement) (a b : Nat) (pc : Int) (removes : List Node)
    (hga : ¬(a ≥ L.length)) (hgb : ¬(b ≥ R.length))
    (hcc : ¬((atCommon lh a common && atCommon rh b common) = true))
    (hca : ¬(atCommon lh a common = true))
    (hcb : atCommon rh b common = true)
    (hsome : collectRemoves lh common L a = some removes) :
    diffLoop L R lh rh common path o [e] a b 0 pc =
      diffLoop L R lh rh common path o [{ e with remove := e.remove ++ removes }]
        (a + removes.length) b 0 pc := by
  rw [diffLoop]
  rw [dif_neg hga, dif_neg hgb, dif_neg hcc, dif_neg hca, dif_pos hcb]
  split
  · next hnone => rw [hsome] at hnone; cases hnone
  · next removes2 hsome2 =>
    rw [hsome] at hsome2
    cases hsome2
    rfl

theorem diffLoop_step_container (L R : List Node) (lh rh common : List HashCode) (path : Path)
    (o : DiffOptions) (e : DiffElement) (a b : Nat) (pc : Int) (sd : List DiffElement)
    (ha : a < L.length) (hb : b < R.length)
    (hcc : ¬((atCommon lh a common && atCommon rh b common) = true))
    (hca : ¬(atCommon lh a common = true))
    (hcb : ¬(atCommon rh b common = true))
    (hsame : sameContainerType (L.get ⟨a, ha⟩) (R.get ⟨b, hb⟩) = true)
    (hsub : diffImpl (L.get ⟨a, ha⟩) (R.get ⟨b, hb⟩) (pathNow path pc) o = some sd) :
    diffLoop L R lh rh common path o [e] a b 0 pc =
      some ((if hasChanges [e] = true
             then [{ e with after := afterContext L a 0 }] ++ sd
             else sd), a + 1, b + 1, 0, pc + 1) := by
  rw [diffLoop]
  rw [dif_neg (by omega : ¬(a ≥ L.length)), dif_neg (by omega : ¬(b ≥ R.length)),
    dif_neg hcc, dif_neg hca, dif_neg hcb]
  show (if sameContainerType (L.get ⟨a, ha⟩) (R.get ⟨b, hb⟩) = true then
      match diffImpl (L.get ⟨a, ha⟩) (R.get ⟨b, hb⟩) (pathNow path pc) o with
      | none => none
      | some subDiff =>
        if hasChanges [e] = true then
          some (mapHead (fun e2 => { e2 with after := afterContext L a 0 }) [e] ++ subDiff,
            a + 1, b + 1, 0, pc + 1)
        else some (subDiff, a + 1, b + 1, 0, pc + 1)
    else
      diffLoop L R lh rh common path o
        (mapHead (fun e2 =>
          { e2 with remove := e2.remove ++ [L.get ⟨a, ha⟩], add := e2.add ++ [R.get ⟨b, hb⟩] })
          [e]) (a + 1) (b + 1) 0 (pc + 1)) = _
  rw [if_pos hsame]
  split
  · next hnone => rw [hsub] at hnone; cases hnone
  · next sd2 hsub2 =>
    rw [hsub] at hsub2
    cases hsub2
    by_cases hch : hasChanges [e] = true
    · rw [if_pos hch, if_pos hch]
      rfl
    · rw [if_neg hch, if_neg hch]

theorem diffLoop_step_mismatch (L R : List Node) (lh rh common : List HashCode) (path : Path)
    (o : DiffOptions) (e : DiffElement) (a b : Nat) (pc : Int)
    (ha : a < L.length) (hb : b < R.length)
    (hcc : ¬((atCommon lh a common && atCommon rh b common) = true))
    (hca : ¬(atCommon lh a common = true))
    (hcb : ¬(atCommon rh b common = true))
    (hsame : ¬(sameContainerType (L.get ⟨a, ha⟩) (R.get ⟨b, hb⟩) = true)) :
    diffLoop L R lh rh common path o [e] a b 0 pc =
      diffLoop L R lh rh common path o
        [{ e with remove := e.remove ++ [L.get ⟨a, ha⟩], add := e.add ++ [R.get ⟨b, hb⟩] }]
        (a + 1) (b + 1) 0 (pc + 1) := by
  rw [diffLoop]
  rw [dif_neg (by omega : ¬(a ≥ L.length)), dif_neg (by omega : ¬(b ≥ R.length)),
    dif_neg hcc, dif_neg hca, dif_neg hcb]
  show (if sameContainerType (L.get ⟨a, ha⟩) (R.get ⟨b, hb⟩) = true then
      match diffImpl (L.get ⟨a, ha⟩) (R.get ⟨b, hb⟩) (pathNow path pc) o with
      | none => none
      | some subDiff =>
        if hasChanges [e] = true then
          some (mapHead (fun e2 => { e2 with after := afterContext L a 0 }) [e] ++ subDiff,
            a + 1, b + 1, 0, pc + 1)
        else some (subDiff, a + 1, b + 1, 0, pc + 1)
    else
      diffLoop L R lh rh common path o
        (mapHead (fun e2 =>
          { e2 with remove := e2.remove ++ [L.get ⟨a, ha⟩], add := e2.add ++ [R.get ⟨b, hb⟩] })
          [e]) (a + 1) (b + 1) 0 (pc + 1)) = _
  rw [if_neg hsame]
  rfl
/-! ## Round-trip packaging -/

/-- Indexing with the `Void` default. -/
def nodeAt (xs : List Node) (i : Nat) : Node := (xs.get? i).getD .void

/-- In-bounds `nodeAt` is plain indexing. -/
theorem nodeAt_lt {xs : List Node} {i : Nat} (h : i < xs.length) :
    nodeAt xs i = xs.get ⟨i, h⟩ := by
  unfold nodeAt
  rw [List.get?_eq_get h]
  rfl

/-- `Diff::reverse` on a metadata-free element swaps removes and adds. -/
def swapE (e : DiffElement) : DiffElement := { e with remove := e.add, add := e.remove }

/-- The reversal of a metadata-free diff. -/
def revSwap (d : List DiffElement) : List DiffElement := (d.map swapE).reverse

/-- Reversal distributes contravariantly over append. -/
theorem revSwap_append (d1 d2 : List DiffElement) :
    revSwap (d1 ++ d2) = revSwap d2 ++ revSwap d1 := by
  unfold revSwap
  rw [List.map_append, List.reverse_append]

/-- Reversal of a singleton. -/
theorem revSwap_single (e : DiffElement) : revSwap [e] = [swapE e] := rfl

/-- Reversal of a cons. -/
theorem revSwap_cons (e : DiffElement) (d : List DiffElement) :
    revSwap (e :: d) = revSwap d ++ [swapE e] := by
  rw [show e :: d = [e] ++ d from rfl, revSwap_append, revSwap_single]

/-- Members of the reversal are swapped members. -/
theorem mem_revSwap {x : DiffElement} {d : List DiffElement} (h : x ∈ revSwap d) :
    ∃ e ∈ d, x = swapE e := by
  unfold revSwap at h
  rw [List.mem_reverse, List.mem_map] at h
  obtain ⟨e, he, hx⟩ := h
  exact ⟨e, he, hx.symm⟩

/-- Structural facts every produced element satisfies. -/
def DiffElemsOk (σ : Path) (d : List DiffElement) : Prop :=
  ∀ e ∈ d, e.metadata = none ∧ List.IsPrefix σ e.path ∧ ¬(e.add = [] ∧ e.remove = [])

/-- The complete soundness package of a produced diff: structure, forward
application, and backward application of the swapped reversal. -/
def DiffOk (σ : Path) (x y : Node) (d : List DiffElement) : Prop :=
  DiffElemsOk σ d ∧
  (sameContainerType x y = true → ∀ e ∈ d, e.path ≠ σ) ∧
  (∀ pb, applyStrict pb σ.length x d = .ok y) ∧
  (∀ pb, applyStrict pb σ.length y (revSwap d) = .ok x)

/-- Hash lists have the carrier length. -/
theorem hashCodes_length (xs : List Node) (o : DiffOptions) :
    (hashCodes xs o).length = xs.length := by
  induction xs with
  | nil => rfl
  | cons v rest ih =>
    rw [hashCodes]
    simp only [List.length_cons, ih]

/-- Hash lists index pointwise. -/
theorem hashCodes_get (xs : List Node) (o : DiffOptions) (i : Nat) (h : i < xs.length) :
    getH (hashCodes xs o) i = (xs.get ⟨i, h⟩).hashCode o := by
  induction xs generalizing i with
  | nil => cases h
  | cons v rest ih =>
    rw [hashCodes]
    cases i with
    | zero => rfl
    | succ i2 =>
      rw [show getH ((v.hashCode o) :: hashCodes rest o) (i2 + 1) = getH (hashCodes rest o) i2
        from rfl]
      exact ih i2 (by simpa using h)

/-- Hash lists commute with `drop`. -/
theorem hashCodes_drop (xs : List Node) (o : DiffOptions) (n : Nat) :
    hashCodes (xs.drop n) o = (hashCodes xs o).drop n := by
  induction xs generalizing n with
  | nil =>
    rw [List.drop_nil, show hashCodes [] o = [] from rfl, List.drop_nil]
  | cons v rest ih =>
    cases n with
    | zero => rfl
    | succ n2 =>
      rw [List.drop_succ_cons, ih n2, hashCodes, List.drop_succ_cons]

/-- Dropping more yields a sublist. -/
theorem drop_sublist_of_le {α : Type} (xs : List α) {n m : Nat} (h : n ≤ m) :
    List.Sublist (xs.drop m) (xs.drop n) := by
  have hm : xs.drop m = (xs.drop n).drop (m - n) := by
    rw [List.drop_drop]
    congr 1
    omega
  rw [hm]
  exact List.drop_sublist (m - n) (xs.drop n)

/-- Advancing both cursors past non-common heads keeps maximality. -/
theorem csmax_advance {common lh rh : List HashCode} {a b : Nat}
    (h : CSMax common (lh.drop a) (rh.drop b))
    (hca : atCommon lh a common = false) (hcb : atCommon rh b common = false)
    (ha : a < lh.length) (hb : b < rh.length) :
    CSMax common (lh.drop (a + 1)) (rh.drop (b + 1)) := by
  cases common with
  | nil =>
    exact ⟨List.nil_sublist _, List.nil_sublist _, fun w hwl hwr =>
      h.2.2 w (hwl.trans (drop_sublist_of_le lh (by omega)))
        (hwr.trans (drop_sublist_of_le rh (by omega)))⟩
  | cons c cs =>
    have hl2 : List.Sublist (c :: cs) (lh.drop (a + 1)) := by
      have hd := List.drop_eq_getElem_cons ha
      rw [hd] at h
      refine sublist_of_ne_head h.1 ?_
      have h2 := atCommon_false_ne hca ha
      rw [getH_lt ha] at h2
      intro hc
      exact h2 (by rw [List.get_eq_getElem, ← hc])
    have hr2 : List.Sublist (c :: cs) (rh.drop (b + 1)) := by
      have hd := List.drop_eq_getElem_cons hb
      rw [hd] at h
      refine sublist_of_ne_head h.2.1 ?_
      have h2 := atCommon_false_ne hcb hb
      rw [getH_lt hb] at h2
      intro hc
      exact h2 (by rw [List.get_eq_getElem, ← hc])
    exact ⟨hl2, hr2, fun w hwl hwr =>
      h.2.2 w (hwl.trans (drop_sublist_of_le lh (by omega)))
        (hwr.trans (drop_sublist_of_le rh (by omega)))⟩

/-- The accumulated hunk element. -/
def accElem (e : DiffElement) (rm ad : List Node) : DiffElement :=
  { e with remove := e.remove ++ rm, add := e.add ++ ad }

/-- Accumulations compose. -/
theorem accElem_accElem (e : DiffElement) (rm1 ad1 rm2 ad2 : List Node) :
    accElem (accElem e rm1 ad1) rm2 ad2 = accElem e (rm1 ++ rm2) (ad1 ++ ad2) := by
  unfold accElem
  simp

/-- The trivial accumulation. -/
theorem accElem_nil (e : DiffElement) : accElem e [] [] = e := by
  unfold accElem
  simp

/-- Accumulating only additions. -/
theorem accElem_add (e : DiffElement) (ad : List Node) :
    { e with add := e.add ++ ad } = accElem e [] ad := by
  unfold accElem
  simp

/-- Accumulating only removals. -/
theorem accElem_remove (e : DiffElement) (rm : List Node) :
    { e with remove := e.remove ++ rm } = accElem e rm [] := by
  unfold accElem
  simp
/-! ## Applying one hunk element -/

/-- Lookup at the junction of an append. -/
theorem get_boundary {x : Node} (D t : List Node) :
    (D ++ x :: t).get? D.length = some x := by
  rw [List.get?_append_right (le_refl D.length), Nat.sub_self]
  rfl

/-- Erasing at the junction of an append. -/
theorem eraseIdx_boundary {x : Node} (D t : List Node) :
    (D ++ x :: t).eraseIdx D.length = D ++ t := by
  induction D with
  | nil => rfl
  | cons d D2 ih =>
    simp only [List.cons_append, List.length_cons, List.eraseIdx_cons_succ]
    rw [ih]

/-- The removal loop erases a literal prefix of the tail. -/
theorem removeLoop_spec (rm : List Node) :
    ∀ D T2 : List Node, (∀ x ∈ rm, x.beqNode x = true) →
    removeLoop D.length (D ++ (rm ++ T2)) rm = (.ok .void, D ++ T2) := by
  induction rm with
  | nil => intro D T2 _; rfl
  | cons x rest ih =>
    intro D T2 hbeq
    rw [removeLoop]
    rw [show (D ++ (x :: rest ++ T2)) = D ++ x :: (rest ++ T2) from by simp]
    rw [get_boundary D (rest ++ T2)]
    simp only
    rw [hbeq x (by simp)]
    simp only [if_true]
    rw [eraseIdx_boundary D (rest ++ T2)]
    exact ih D T2 (fun y hy => hbeq y (by simp [hy]))

/-- The before-context walk accepts the element just before the hunk. -/
theorem checkBefore_hunk (B : Nat) (D t : List Node) (p : Node) (hD : D.length = B)
    (hp0 : B = 0 → p = Node.void)
    (hp1 : 0 < B → D.get? (B - 1) = some p ∧ p.beqNode p = true) :
    checkBefore 1 (B : Int) (D ++ t) [p] 0 = .ok .void := by
  rw [checkBefore]
  have hsimp : ((B : Int) - (((1 : Nat) : Int) - ((0 : Nat) : Int))) = (B : Int) - 1 := by
    push_cast
    ring
  rw [hsimp]
  by_cases hB : B = 0
  · subst hB
    rw [if_pos (by norm_num : ((0 : Nat) : Int) - 1 < 0)]
    rw [if_pos ⟨by norm_num, by rw [hp0 rfl]; rfl⟩]
    rfl
  · have hpos : 0 < B := by omega
    obtain ⟨hget, hbeq⟩ := hp1 hpos
    rw [if_neg (by omega : ¬((B : Int) - 1 < 0))]
    have htn : ((B : Int) - 1).toNat = B - 1 := by omega
    rw [htn]
    rw [List.get?_append (by omega : B - 1 < D.length)]
    rw [hget]
    simp only
    rw [hbeq]
    simp only [if_true]
    rfl

/-- The after-context walk accepts the first surviving element (or the end). -/
theorem checkAfter_hunk (B : Nat) (D T2 aft : List Node) (hD : D.length = B)
    (haft : aft = [] ∨
      (∃ u, aft = [u] ∧ T2.get? 0 = some u ∧ u.beqNode u = true) ∨
      (aft = [Node.void] ∧ T2 = [])) :
    checkAfter B (D ++ T2) aft 0 = .ok .void := by
  rcases haft with h | ⟨u, h1, h2, h3⟩ | ⟨h1, h2⟩
  · subst h
    rfl
  · subst h1
    rw [checkAfter]
    have hlt : B + 0 < (D ++ T2).length := by
      rw [List.length_append]
      cases T2 with
      | nil => cases h2
      | cons y t => simp; omega
    rw [if_neg (by omega : ¬(B + 0 ≥ (D ++ T2).length))]
    have hget : (D ++ T2).get? (B + 0) = some u := by
      rw [List.get?_append_right (by omega : D.length ≤ B + 0)]
      rw [hD]
      simpa using h2
    rw [hget]
    simp only
    rw [h3]
    simp only [if_true]
    rfl
  · subst h1; subst h2
    rw [checkAfter]
    rw [if_pos (by rw [List.append_nil]; omega : B + 0 ≥ (D ++ ([] : List Node)).length)]
    rw [if_pos ⟨by rw [List.append_nil]; omega, rfl⟩]
    rfl

/-- Applying one hunk: with a valid before context, literally matching
removes, and a valid after context, the patch replaces the removed segment
with the additions. -/
theorem patchElement_hunk (pb : List PathSegment) (B : Nat) (D T2 rm ad aft : List Node)
    (p : Node) (hD : D.length = B)
    (hp0 : B = 0 → p = Node.void)
    (hp1 : 0 < B → D.get? (B - 1) = some p ∧ p.beqNode p = true)
    (hrm : ∀ x ∈ rm, x.beqNode x = true)
    (haft : aft = [] ∨
      (∃ u, aft = [u] ∧ T2.get? 0 = some u ∧ u.beqNode u = true) ∨
      (aft = [Node.void] ∧ T2 = [])) :
    patchElement (.arr (D ++ (rm ++ T2))) pb [PathSegment.index (B : Int)] [p] rm ad aft
      .strict = .ok (.arr (D ++ (ad ++ T2))) := by
  rw [patchElement]
  rw [patchDispatch.eq_def]
  simp only
  rw [patchList.eq_def]
  rw [if_neg (by simp : ¬(PatchStrategy.strict = PatchStrategy.merge))]
  simp only
  rw [show (!(([] : List PathSegment)).isEmpty) = false from rfl]
  simp only [Bool.false_eq_true, if_false]
  rw [if_neg (by omega : ¬((B : Int) = -1))]
  rw [if_neg (by omega : ¬((B : Int) < 0))]
  have hlen1 : ([p] : List Node).length = 1 := rfl
  rw [hlen1]
  rw [checkBefore_hunk B D (rm ++ T2) p hD hp0 hp1]
  have htn : ((B : Int)).toNat = B := by omega
  rw [htn]
  by_cases hrmE : rm.isEmpty
  · have hrm2 : rm = [] := by
      cases rm with
      | nil => rfl
      | cons x t => cases hrmE
    subst hrm2
    simp only [List.isEmpty_nil, if_true, List.nil_append]
    rw [if_neg (by rw [List.length_append]; omega : ¬((D ++ T2).length < B))]
    rw [checkAfter_hunk B D T2 aft hD haft]
    rw [show (D ++ T2).take B = D from by rw [← hD]; exact List.take_left D T2]
    rw [show (D ++ T2).drop B = T2 from by rw [← hD]; exact List.drop_left D T2]
    rw [List.append_assoc]
  · rw [if_neg (by simp [hrmE] : ¬(rm.isEmpty = true))]
    have hrm3 : rm ≠ [] := by
      cases rm with
      | nil => exact absurd rfl hrmE
      | cons x t => simp
    rw [if_neg (by
      rw [List.length_append, List.length_append]
      cases rm with
      | nil => exact absurd rfl hrm3
      | cons x t => simp; omega : ¬((D ++ (rm ++ T2)).length ≤ B))]
    rw [← hD, removeLoop_spec rm D T2 hrm]
    simp only
    rw [if_neg (by rw [List.length_append]; omega : ¬((D ++ T2).length < D.length))]
    rw [hD]
    rw [checkAfter_hunk B D T2 aft hD haft]
    rw [show (D ++ T2).take B = D from by rw [← hD]; exact List.take_left D T2]
    rw [show (D ++ T2).drop B = T2 from by rw [← hD]; exact List.drop_left D T2]
    rw [List.append_assoc]
/-! ## The loop outcome specification -/

/-- `path_now` on a one-segment extension replaces the segment. -/
theorem pathNow_concat (σ : Path) (s : PathSegment) (p : Int) :
    pathNow (σ ++ [s]) p = σ ++ [PathSegment.index p] := by
  unfold pathNow
  rw [List.dropLast_concat]

/-- A tail segment is the drop. -/
theorem sliceSeg_drop (xs : List Node) (i : Nat) : sliceSeg xs i xs.length = xs.drop i := by
  unfold sliceSeg
  exact List.take_of_length_le (by rw [List.length_drop])

/-- The three ways a run of the diff loop can stop, with the data each one
guarantees. -/
def LoopSpec (o : DiffOptions) (σ : Path) (L R : List Node) (common : List HashCode)
    (a b : Nat) (pc : Int) (e : DiffElement)
    (d1 : List DiffElement) (a1 b1 cc1 : Nat) (pc1 : Int) : Prop :=
  (a1 = L.length ∧ b1 = R.length ∧ cc1 = 0 ∧
    d1 = [accElem e (sliceSeg L a L.length) (sliceSeg R b R.length)])
  ∨
  (∃ a0 b0, a ≤ a0 ∧ a0 < L.length ∧ b ≤ b0 ∧ b0 < R.length ∧
    a1 = a0 + 1 ∧ b1 = b0 + 1 ∧ cc1 = 1 ∧ pc1 = pc + ((b0 - b : Nat) : Int) + 1 ∧
    d1 = [accElem e (sliceSeg L a a0) (sliceSeg R b b0)] ∧
    atCommon (hashCodes L o) a0 common = true ∧
    atCommon (hashCodes R o) b0 common = true ∧
    CSMax common ((hashCodes L o).drop a0) ((hashCodes R o).drop b0))
  ∨
  (∃ a0 b0 sd, a ≤ a0 ∧ a0 < L.length ∧ b ≤ b0 ∧ b0 < R.length ∧
    a1 = a0 + 1 ∧ b1 = b0 + 1 ∧ cc1 = 0 ∧ pc1 = pc + ((b0 - b : Nat) : Int) + 1 ∧
    sameContainerType (nodeAt L a0) (nodeAt R b0) = true ∧
    diffImpl (nodeAt L a0) (nodeAt R b0)
      (σ ++ [PathSegment.index (pc + ((b0 - b : Nat) : Int))]) o = some sd ∧
    DiffOk (σ ++ [PathSegment.index (pc + ((b0 - b : Nat) : Int))])
      (nodeAt L a0) (nodeAt R b0) sd ∧
    atCommon (hashCodes L o) a0 common = false ∧
    atCommon (hashCodes R o) b0 common = false ∧
    CSMax common ((hashCodes L o).drop a0) ((hashCodes R o).drop b0) ∧
    d1 = (if hasChanges [accElem e (sliceSeg L a a0) (sliceSeg R b b0)] = true
          then { accElem e (sliceSeg L a a0) (sliceSeg R b b0)
                   with after := afterContext L a0 0 } :: sd
          else sd))

/-- A loop outcome relative to an intermediate state lifts to the state the
run started from. -/
theorem LoopSpec_lift (o : DiffOptions) (σ : Path) (L R : List Node)
    (common : List HashCode) (a b a2 b2 : Nat) (pc : Int) (e : DiffElement)
    (d1 : List DiffElement) (a1 b1 cc1 : Nat) (pc1 : Int)
    (hspec : LoopSpec o σ L R common a2 b2 (pc + ((b2 - b : Nat) : Int))
      (accElem e (sliceSeg L a a2) (sliceSeg R b b2)) d1 a1 b1 cc1 pc1)
    (ha : a ≤ a2) (hb : b ≤ b2) (haL : a2 ≤ L.length) (hbR : b2 ≤ R.length) :
    LoopSpec o σ L R common a b pc e d1 a1 b1 cc1 pc1 := by
  rcases hspec with ⟨h1, h2, h3, h4⟩ | ⟨a0, b0, hs⟩ | ⟨a0, b0, sd, hs⟩
  · left
    refine ⟨h1, h2, h3, ?_⟩
    rw [h4, accElem_accElem, sliceSeg_glue L a a2 L.length ha haL,
      sliceSeg_glue R b b2 R.length hb hbR]
  · right; left
    obtain ⟨hs1, hs2, hs3, hs4, hs5, hs6, hs7, hs8, hs9, hs10, hs11, hs12⟩ := hs
    refine ⟨a0, b0, by omega, hs2, by omega, hs4, hs5, hs6, hs7, by
        rw [hs8]; push_cast; omega, ?_, hs10, hs11, hs12⟩
    rw [hs9, accElem_accElem, sliceSeg_glue L a a2 a0 ha hs1,
      sliceSeg_glue R b b2 b0 hb hs3]
  · right; right
    obtain ⟨hs1, hs2, hs3, hs4, hs5, hs6, hs7, hs8, hs9, hs10, hs11, hs12, hs13, hs14,
      hs15⟩ := hs
    have hidx : pc + ((b2 - b : Nat) : Int) + ((b0 - b2 : Nat) : Int) =
        pc + ((b0 - b : Nat) : Int) := by
      push_cast
      omega
    rw [hidx] at hs10 hs11
    refine ⟨a0, b0, sd, by omega, hs2, by omega, hs4, hs5, hs6, hs7, by
        rw [hs8]; push_cast; omega, hs9, hs10, hs11, hs12, hs13, hs14, ?_⟩
    rw [hs15, accElem_accElem, sliceSeg_glue L a a2 a0 ha hs1,
      sliceSeg_glue R b b2 b0 hb hs3]
/-! ## The diff loop meets its specification -/

theorem diffLoop_spec (o : DiffOptions) (σ : Path) (X : Int) (L R : List Node)
    (hwL : wfList L = true) (hwR : wfList R = true)
    (hzL : noNegZeroList L = true) (hzR : noNegZeroList R = true)
    (N : Nat)
    (ihN : ∀ x y : Node, ∀ σ2 : Path, sizeOf x + sizeOf y < N →
      x.wf = true → y.wf = true → noNegZero x = true → noNegZero y = true →
      HashFaithful x y o →
      ∃ d, diffImpl x y σ2 o = some d ∧ DiffOk σ2 x y d)
    (hsz : ∀ x ∈ L, ∀ y ∈ R, sizeOf x + sizeOf y < N)
    (hfa : ∀ x ∈ L, ∀ y ∈ R, HashFaithful x y o)
    (common : List HashCode) :
    ∀ M a b (pc : Int) (e : DiffElement),
      L.length - a + (R.length - b) ≤ M →
      a ≤ L.length → b ≤ R.length →
      CSMax common ((hashCodes L o).drop a) ((hashCodes R o).drop b) →
      ∃ d1 a1 b1 cc1 pc1,
        diffLoop L R (hashCodes L o) (hashCodes R o) common (σ ++ [PathSegment.index X]) o
          [e] a b 0 pc = some (d1, a1, b1, cc1, pc1) ∧
        LoopSpec o σ L R common a b pc e d1 a1 b1 cc1 pc1 := by
  intro M
  induction M with
  | zero =>
    intro a b pc e hM ha hb hcs
    have haL : a = L.length := by omega
    have hbR : b = R.length := by omega
    subst haL; subst hbR
    refine ⟨_, _, _, _, _,
      diffLoop_step_terminal_a L R _ _ common _ o e _ _ pc (le_refl _), ?_⟩
    left
    refine ⟨rfl, rfl, rfl, ?_⟩
    rw [sliceSeg_self, sliceSeg_drop]
    unfold accElem
    simp
  | succ M2 ihM =>
    intro a b pc e hM ha hb hcs
    by_cases hga : a ≥ L.length
    · have haL : a = L.length := by omega
      subst haL
      refine ⟨_, _, _, _, _,
        diffLoop_step_terminal_a L R _ _ common _ o e _ _ pc hga, ?_⟩
      left
      refine ⟨rfl, rfl, rfl, ?_⟩
      rw [sliceSeg_self, sliceSeg_drop]
      unfold accElem
      simp
    · by_cases hgb : b ≥ R.length
      · have hbR : b = R.length := by omega
        subst hbR
        refine ⟨_, _, _, _, _,
          diffLoop_step_terminal_b L R _ _ common _ o e _ _ pc hga hgb, ?_⟩
        left
        refine ⟨rfl, rfl, rfl, ?_⟩
        rw [sliceSeg_self, sliceSeg_drop]
        unfold accElem
        simp
      · by_cases hcc : (atCommon (hashCodes L o) a common
            && atCommon (hashCodes R o) b common) = true
        · rw [Bool.and_eq_true] at hcc
          refine ⟨_, _, _, _, _,
            diffLoop_step_common L R _ _ common _ o e _ _ pc hga hgb
              (by rw [hcc.1, hcc.2]; rfl), ?_⟩
          right; left
          have haL : a < L.length := by
            have := (atCommon_lt hcc.1).1
            rw [hashCodes_length] at this
            exact this
          have hbR : b < R.length := by
            have := (atCommon_lt hcc.2).1
            rw [hashCodes_length] at this
            exact this
          refine ⟨a, b, le_refl a, haL, le_refl b, hbR, rfl, rfl, rfl, by push_cast; omega,
            ?_, hcc.1, hcc.2, hcs⟩
          rw [sliceSeg_self, sliceSeg_self, accElem_nil]
        · by_cases hca : atCommon (hashCodes L o) a common = true
          · -- collect additions up to the next common position on the right
            obtain ⟨hcommon⟩ : ∃ _ : common ≠ [], True := ⟨(atCommon_lt hca).2, trivial⟩
            obtain ⟨c, cs, hccs⟩ : ∃ c cs, common = c :: cs := by
              cases common with
              | nil => exact absurd rfl hcommon
              | cons c cs => exact ⟨c, cs, rfl⟩
            have hcsub : List.Sublist common ((hashCodes R o).drop b) := hcs.2.1
            obtain ⟨b2, hb2a, hb2b, hb2c, hb2d, hb2e, hb2f⟩ :=
              collectAdds_spec (hashCodes R o) c cs R (hashCodes_length R o)
                (R.length - b) b (le_refl _) hb (by rw [← hccs]; exact hcsub)
            have hb2gt : b < b2 := by
              rcases Nat.lt_or_ge b b2 with h | h
              · exact h
              · exfalso
                have hbb2 : b2 = b := by omega
                subst hbb2
                have hcbf : atCommon (hashCodes R o) b2 common = false := by
                  cases hx : atCommon (hashCodes R o) b2 common
                  · rfl
                  · exact absurd (by rw [hca, hx]; rfl) hcc
                rw [hccs] at hcbf
                rw [hcbf] at hb2d
                cases hb2d
            have hlen2 : (sliceSeg R b b2).length = b2 - b :=
              sliceSeg_length R b b2 (by omega) (by omega)
            have hcs2 : CSMax common ((hashCodes L o).drop a) ((hashCodes R o).drop b2) :=
              csmax_shrink hcs hcs.1 (by rw [hccs]; exact hb2f) (List.Sublist.refl _)
                (drop_sublist_of_le _ (by omega : b ≤ b2))
            obtain ⟨d1, a1, b1, cc1, pc1, hloop, hspec⟩ :=
              ihM a b2 (pc + ((b2 - b : Nat) : Int))
                (accElem e (sliceSeg L a a) (sliceSeg R b b2))
                (by omega) ha (by omega) hcs2
            refine ⟨d1, a1, b1, cc1, pc1, ?_, ?_⟩
            · rw [diffLoop_step_adds L R _ _ common _ o e a b pc (sliceSeg R b b2) hga hgb
                hcc hca (by rw [hccs]; exact hb2c)]
              rw [show ({ e with add := e.add ++ sliceSeg R b b2 } : DiffElement) =
                accElem e (sliceSeg L a a) (sliceSeg R b b2) from by
                  rw [sliceSeg_self]; unfold accElem; simp]
              rw [hlen2, show b + (b2 - b) = b2 from by omega]
              exact hloop
            · exact LoopSpec_lift o σ L R common a b a b2 pc e d1 a1 b1 cc1 pc1
                (by rw [sliceSeg_self] at hspec ⊢; exact hspec) (le_refl a) (by omega)
                ha (by omega)
          · by_cases hcb : atCommon (hashCodes R o) b common = true
            · -- collect removals up to the next common position on the left
              obtain ⟨c, cs, hccs⟩ : ∃ c cs, common = c :: cs := by
                cases common with
                | nil => exact absurd rfl (atCommon_lt hcb).2
                | cons c cs => exact ⟨c, cs, rfl⟩
              have hcsub : List.Sublist common ((hashCodes L o).drop a) := hcs.1
              obtain ⟨a2, ha2a, ha2b, ha2c, ha2d, ha2e, ha2f⟩ :=
                collectRemoves_spec (hashCodes L o) c cs L (hashCodes_length L o)
                  (L.length - a) a (le_refl _) ha (by rw [← hccs]; exact hcsub)
              have ha2gt : a < a2 := by
                rcases Nat.lt_or_ge a a2 with h | h
                · exact h
                · exfalso
                  have haa2 : a2 = a := by omega
                  subst haa2
                  rw [hccs] at hca
                  rw [ha2d] at hca
                  exact hca rfl
              have hlen2 : (sliceSeg L a a2).length = a2 - a :=
                sliceSeg_length L a a2 (by omega) (by omega)
              have hcs2 : CSMax common ((hashCodes L o).drop a2) ((hashCodes R o).drop b) :=
                csmax_shrink hcs (by rw [hccs]; exact ha2f) hcs.2.1
                  (drop_sublist_of_le _ (by omega : a ≤ a2)) (List.Sublist.refl _)
              obtain ⟨d1, a1, b1, cc1, pc1, hloop, hspec⟩ :=
                ihM a2 b pc (accElem e (sliceSeg L a a2) (sliceSeg R b b))
                  (by omega) (by omega) hb hcs2
              refine ⟨d1, a1, b1, cc1, pc1, ?_, ?_⟩
              · rw [diffLoop_step_removes L R _ _ common _ o e a b pc (sliceSeg L a a2) hga
                  hgb hcc hca hcb (by rw [hccs]; exact ha2c)]
                rw [show ({ e with remove := e.remove ++ sliceSeg L a a2 } : DiffElement) =
                  accElem e (sliceSeg L a a2) (sliceSeg R b b) from by
                    rw [sliceSeg_self]; unfold accElem; simp]
                rw [hlen2, show a + (a2 - a) = a2 from by omega]
                exact hloop
              · refine LoopSpec_lift o σ L R common a b a2 b pc e d1 a1 b1 cc1 pc1 ?_
                  (by omega) (le_refl b) (by omega) hb
                rw [show pc + ((b - b : Nat) : Int) = pc from by push_cast; omega]
                exact hspec
            · -- container pair or mismatched scalars
              have ha2 : a < L.length := by omega
              have hb2 : b < R.length := by omega
              by_cases hsame : sameContainerType (L.get ⟨a, ha2⟩) (R.get ⟨b, hb2⟩) = true
              · obtain ⟨sd, hsub, hok⟩ :=
                  ihN (L.get ⟨a, ha2⟩) (R.get ⟨b, hb2⟩) (σ ++ [PathSegment.index pc])
                    (hsz _ (L.get_mem _ _) _ (R.get_mem _ _))
                    (wfList_mem hwL (L.get_mem _ _)) (wfList_mem hwR (R.get_mem _ _))
                    (noNegZeroList_mem hzL (L.get_mem _ _))
                    (noNegZeroList_mem hzR (R.get_mem _ _))
                    (hfa _ (L.get_mem _ _) _ (R.get_mem _ _))
                refine ⟨_, _, _, _, _,
                  diffLoop_step_container L R _ _ common _ o e a b pc sd ha2 hb2 hcc hca hcb
                    hsame (by rw [pathNow_concat]; exact hsub), ?_⟩
                right; right
                refine ⟨a, b, sd, le_refl a, ha2, le_refl b, hb2, rfl, rfl, rfl,
                  by push_cast; omega, ?_, ?_, ?_, ?_, ?_, hcs, ?_⟩
                · rw [nodeAt_lt ha2, nodeAt_lt hb2]
                  exact hsame
                · rw [nodeAt_lt ha2, nodeAt_lt hb2,
                    show pc + ((b - b : Nat) : Int) = pc from by push_cast; omega]
                  exact hsub
                · rw [nodeAt_lt ha2, nodeAt_lt hb2,
                    show pc + ((b - b : Nat) : Int) = pc from by push_cast; omega]
                  exact hok
                · cases hx : atCommon (hashCodes L o) a common
                  · rfl
                  · exact absurd hx hca
                · cases hx : atCommon (hashCodes R o) b common
                  · rfl
                  · exact absurd hx hcb
                · rw [sliceSeg_self, sliceSeg_self, accElem_nil]
                  by_cases hch : hasChanges [e] = true
                  · rw [if_pos hch, if_pos hch]
                    rfl
                  · rw [if_neg hch, if_neg hch]
              · have hcs2 : CSMax common ((hashCodes L o).drop (a + 1))
                    ((hashCodes R o).drop (b + 1)) := by
                  refine csmax_advance hcs ?_ ?_ (by rw [hashCodes_length]; omega)
                    (by rw [hashCodes_length]; omega)
                  · cases hx : atCommon (hashCodes L o) a common
                    · rfl
                    · exact absurd hx hca
                  · cases hx : atCommon (hashCodes R o) b common
                    · rfl
                    · exact absurd hx hcb
                obtain ⟨d1, a1, b1, cc1, pc1, hloop, hspec⟩ :=
                  ihM (a + 1) (b + 1) (pc + 1)
                    (accElem e (sliceSeg L a (a + 1)) (sliceSeg R b (b + 1)))
                    (by omega) (by omega) (by omega) hcs2
                refine ⟨d1, a1, b1, cc1, pc1, ?_, ?_⟩
                · have hrec : ({ e with
                      remove := e.remove ++ [L.get ⟨a, ha2⟩],
                      add := e.add ++ [R.get ⟨b, hb2⟩] } : DiffElement) =
                      accElem e (sliceSeg L a (a + 1)) (sliceSeg R b (b + 1)) := by
                    rw [← sliceSeg_cons L a (a + 1) (by omega) ha2, sliceSeg_self,
                      ← sliceSeg_cons R b (b + 1) (by omega) hb2, sliceSeg_self]
                    rfl
                  rw [diffLoop_step_mismatch L R _ _ common _ o e a b pc ha2 hb2 hcc hca hcb
                    hsame, hrec]
                  exact hloop
                · refine LoopSpec_lift o σ L R common a b (a + 1) (b + 1) pc e d1 a1 b1 cc1
                    pc1 ?_ (by omega) (by omega) (by omega) (by omega)
                  rw [show pc + ((b + 1 - b : Nat) : Int) = pc + 1 from by push_cast; omega]
                  exact hspec
/-! ## Post-processing steps of `diff_rest` -/

theorem diffRest_step_full (L R : List Node) (pathIndex : Int) (path : Path)
    (lh rh common : List HashCode) (previous : Node) (o : DiffOptions)
    (d1 : List DiffElement) (a1 b1 cc1 : Nat) (pc1 : Int)
    (hloop : diffLoop L R lh rh common path o
      [{ path := pathNow path pathIndex, before := [previous] }] 0 0 0 pathIndex =
      some (d1, a1, b1, cc1, pc1))
    (hfull : a1 = L.length ∧ b1 = R.length) :
    diffRest L R pathIndex path lh rh common previous o =
      some (if !hasChanges d1 then []
            else if d1.length < 2 then
              mapHead (fun first =>
                if first.path.length ≤ path.length then
                  { first with after := afterContext L a1 cc1 }
                else first) d1
            else d1) := by
  rw [diffRest]
  rw [hloop]
  simp only
  rw [if_pos hfull]

theorem diffRest_step_rec (L R : List Node) (pathIndex : Int) (path : Path)
    (lh rh common : List HashCode) (previous : Node) (o : DiffOptions)
    (d1 rest : List DiffElement) (a1 b1 cc1 : Nat) (pc1 : Int)
    (hloop : diffLoop L R lh rh common path o
      [{ path := pathNow path pathIndex, before := [previous] }] 0 0 0 pathIndex =
      some (d1, a1, b1, cc1, pc1))
    (hnfull : ¬(a1 = L.length ∧ b1 = R.length))
    (hbounds : 0 < a1 ∧ a1 ≤ L.length ∧ 0 < b1 ∧ b1 ≤ R.length)
    (hrec : diffRest (L.drop a1) (R.drop b1) pc1 (pathNow path pc1) (lh.drop a1)
      (rh.drop b1) (common.drop cc1)
      (if b1 = 0 then Node.void else (R.get? (b1 - 1)).getD .void) o = some rest) :
    diffRest L R pathIndex path lh rh common previous o =
      some ((if !hasChanges d1 then []
            else if d1.length < 2 then
              mapHead (fun first =>
                if first.path.length ≤ path.length then
                  { first with after := afterContext L a1 cc1 }
                else first) d1
            else d1) ++ rest) := by
  rw [diffRest]
  rw [hloop]
  simp only
  rw [if_neg hnfull, dif_pos hbounds, hrec]

/-! ## Slice translation and block application -/

/-- Well-formedness from pointwise well-formedness. -/
theorem wfList_of_forall (xs : List Node) (h : ∀ v ∈ xs, v.wf = true) :
    wfList xs = true := by
  induction xs with
  | nil => rfl
  | cons v rest ih =>
    rw [wfList]
    simp only [Bool.and_eq_true]
    exact ⟨h v (by simp), ih (fun u hu => h u (by simp [hu]))⟩

/-- Negative-zero freedom from pointwise freedom. -/
theorem noNegZeroList_of_forall (xs : List Node) (h : ∀ v ∈ xs, noNegZero v = true) :
    noNegZeroList xs = true := by
  induction xs with
  | nil => rfl
  | cons v rest ih =>
    rw [noNegZeroList]
    simp only [Bool.and_eq_true]
    exact ⟨h v (by simp), ih (fun u hu => h u (by simp [hu]))⟩

/-- Segments of a suffix are shifted segments. -/
theorem sliceSeg_shift (xs : List Node) (k i j : Nat) :
    sliceSeg (xs.drop k) i j = sliceSeg xs (k + i) (k + j) := by
  unfold sliceSeg
  rw [List.drop_drop]
  have h2 : j - i = (k + j) - (k + i) := by omega
  rw [h2]

/-- Members of a segment are members of the list. -/
theorem mem_sliceSeg {x : Node} {xs : List Node} {i j : Nat} (h : x ∈ sliceSeg xs i j) :
    x ∈ xs := by
  unfold sliceSeg at h
  exact List.mem_of_mem_drop (List.mem_of_mem_take h)

/-- Default indexing shifts over a drop. -/
theorem nodeAt_drop (xs : List Node) (k i : Nat) : nodeAt (xs.drop k) i = nodeAt xs (k + i) := by
  unfold nodeAt
  rw [List.get?_drop]

/-- Hash indexing shifts over a drop. -/
theorem getH_drop (xs : List HashCode) (k i : Nat) :
    getH (xs.drop k) i = getH xs (k + i) := by
  unfold getH
  rw [List.get?_drop]

/-- The prefix kept by a bounded take. -/
theorem length_take_of_le {α : Type} (xs : List α) (n : Nat) (h : n ≤ xs.length) :
    (xs.take n).length = n := by
  rw [List.length_take]
  omega

/-- `set` at the junction of an append. -/
theorem set_boundary {x v : Node} (D t : List Node) :
    (D ++ x :: t).set D.length v = D ++ v :: t := by
  induction D with
  | nil => rfl
  | cons d D2 ih =>
    simp only [List.cons_append, List.length_cons, List.set_cons_succ]
    rw [ih]

/-- A nonempty structurally sound diff always reports changes. -/
theorem hasChanges_of_ok {σ1 : Path} {e : DiffElement} {t : List DiffElement}
    (h : DiffElemsOk σ1 (e :: t)) : hasChanges (e :: t) = true := by
  have h2 := (h e (by simp)).2.2
  unfold hasChanges
  simp only [List.head?_cons]
  by_cases hadd : e.add = []
  · have hrm : e.remove ≠ [] := fun hr => h2 ⟨hadd, hr⟩
    rw [hadd]
    simp [hrm]
  · simp [hadd]

/-- The current list mid-run: done prefix from the right, rest from the left. -/
theorem cl_skip (Lf Rf : List Node) (A B : Nat) (hA : A < Lf.length) (hB : B < Rf.length)
    (heq : nodeAt Lf A = nodeAt Rf B) :
    Rf.take B ++ Lf.drop A = Rf.take (B + 1) ++ Lf.drop (A + 1) := by
  have heq2 : Lf[A] = Rf.get ⟨B, hB⟩ := by
    rw [nodeAt_lt hA, nodeAt_lt hB] at heq
    simpa using heq
  rw [List.drop_eq_getElem_cons hA, take_succ_concat Rf B hB, List.append_assoc,
    List.singleton_append, heq2]

/-- Forward application of one hunk in global coordinates. -/
theorem hunk_forward (pb : List PathSegment) (Lf Rf : List Node) (A B A1 B1 : Nat)
    (prev : Node) (aft : List Node)
    (hA : A ≤ A1) (hA1 : A1 ≤ Lf.length) (hB : B ≤ B1) (hB1 : B1 ≤ Rf.length)
    (hwL : wfList Lf = true) (hwR : wfList Rf = true)
    (hprev : prev = if B = 0 then Node.void else nodeAt Rf (B - 1)) (hBR : B ≤ Rf.length)
    (haft : aft = [] ∨ (aft = [nodeAt Lf A1] ∧ A1 < Lf.length) ∨
      (aft = [Node.void] ∧ A1 = Lf.length)) :
    patchElement (.arr (Rf.take B ++ Lf.drop A)) pb [PathSegment.index (B : Int)] [prev]
      (sliceSeg Lf A A1) (sliceSeg Rf B B1) aft .strict =
      .ok (.arr (Rf.take B1 ++ Lf.drop A1)) := by
  have hdec : Lf.drop A = sliceSeg Lf A A1 ++ Lf.drop A1 := drop_eq_sliceSeg_append Lf A A1 hA
  rw [hdec]
  have hres : Rf.take B ++ (sliceSeg Rf B B1 ++ Lf.drop A1) = Rf.take B1 ++ Lf.drop A1 := by
    rw [← List.append_assoc, take_append_sliceSeg Rf B B1 hB]
  rw [← hres]
  refine patchElement_hunk pb B (Rf.take B) (Lf.drop A1) (sliceSeg Lf A A1)
    (sliceSeg Rf B B1) aft prev (length_take_of_le Rf B hBR) ?_ ?_ ?_ ?_
  · intro hB0
    rw [hprev, if_pos hB0]
  · intro hBpos
    rw [hprev, if_neg (by omega)]
    constructor
    · rw [List.get?_take (by omega : B - 1 < B)]
      unfold nodeAt
      rw [List.get?_eq_get (by omega : B - 1 < Rf.length)]
      rfl
    · refine beqNode_refl (wfList_mem hwR ?_)
      unfold nodeAt
      rw [List.get?_eq_get (by omega : B - 1 < Rf.length)]
      exact List.get_mem Rf _ _
  · intro x hx
    exact beqNode_refl (wfList_mem hwL (mem_sliceSeg hx))
  · rcases haft with h | ⟨h1, h2⟩ | ⟨h1, h2⟩
    · left; exact h
    · right; left
      refine ⟨nodeAt Lf A1, h1, ?_, ?_⟩
      · rw [List.get?_drop, Nat.add_zero, List.get?_eq_get h2, nodeAt_lt h2]
      · refine beqNode_refl (wfList_mem hwL ?_)
        unfold nodeAt
        rw [List.get?_eq_get h2]
        exact List.get_mem Lf _ _
    · right; right
      refine ⟨h1, ?_⟩
      rw [h2, List.drop_length]

/-- Backward application of the swapped hunk in global coordinates. -/
theorem hunk_backward (pb : List PathSegment) (Lf Rf : List Node) (A B A1 B1 : Nat)
    (prev : Node) (aft : List Node)
    (hA : A ≤ A1) (hA1 : A1 ≤ Lf.length) (hB : B ≤ B1) (hB1 : B1 ≤ Rf.length)
    (hwL : wfList Lf = true) (hwR : wfList Rf = true)
    (hprev : prev = if B = 0 then Node.void else nodeAt Rf (B - 1))
    (haft : aft = [] ∨ (aft = [nodeAt Lf A1] ∧ A1 < Lf.length) ∨
      (aft = [Node.void] ∧ A1 = Lf.length)) :
    patchElement (.arr (Rf.take B1 ++ Lf.drop A1)) pb [PathSegment.index (B : Int)] [prev]
      (sliceSeg Rf B B1) (sliceSeg Lf A A1) aft .strict =
      .ok (.arr (Rf.take B ++ Lf.drop A)) := by
  have hdec : Rf.take B1 ++ Lf.drop A1 = Rf.take B ++ (sliceSeg Rf B B1 ++ Lf.drop A1) := by
    rw [← List.append_assoc, take_append_sliceSeg Rf B B1 hB]
  rw [hdec]
  have hres : Rf.take B ++ (sliceSeg Lf A A1 ++ Lf.drop A1) = Rf.take B ++ Lf.drop A := by
    rw [← drop_eq_sliceSeg_append Lf A A1 hA]
  rw [← hres]
  refine patchElement_hunk pb B (Rf.take B) (Lf.drop A1) (sliceSeg Rf B B1)
    (sliceSeg Lf A A1) aft prev (length_take_of_le Rf B (by omega)) ?_ ?_ ?_ ?_
  · intro hB0
    rw [hprev, if_pos hB0]
  · intro hBpos
    rw [hprev, if_neg (by omega)]
    constructor
    · rw [List.get?_take (by omega : B - 1 < B)]
      unfold nodeAt
      rw [List.get?_eq_get (by omega : B - 1 < Rf.length)]
      rfl
    · refine beqNode_refl (wfList_mem hwR ?_)
      unfold nodeAt
      rw [List.get?_eq_get (by omega : B - 1 < Rf.length)]
      exact List.get_mem Rf _ _
  · intro x hx
    exact beqNode_refl (wfList_mem hwR (mem_sliceSeg hx))
  · rcases haft with h | ⟨h1, h2⟩ | ⟨h1, h2⟩
    · left; exact h
    · right; left
      refine ⟨nodeAt Lf A1, h1, ?_, ?_⟩
      · rw [List.get?_drop, Nat.add_zero, List.get?_eq_get h2, nodeAt_lt h2]
      · refine beqNode_refl (wfList_mem hwL ?_)
        unfold nodeAt
        rw [List.get?_eq_get h2]
        exact List.get_mem Lf _ _
    · right; right
      refine ⟨h1, ?_⟩
      rw [h2, List.drop_length]
/-! ## Applying one sub-diff block -/

/-- Indexing at the junction of an append, with an index known to equal the
prefix length. -/
theorem get_boundary_at {x : Node} (D t : List Node) (n : Nat) (h : n = D.length) :
    (D ++ x :: t).get? n = some x := by
  rw [h]
  exact get_boundary D t

/-- Setting at the junction of an append, with an index known to equal the
prefix length. -/
theorem set_boundary_at {x v : Node} (D t : List Node) (n : Nat) (h : n = D.length) :
    (D ++ x :: t).set n v = D ++ v :: t := by
  rw [h]
  exact set_boundary D t

/-- Getting through a `get?` fact. -/
theorem get_of_getq {xs : List Node} {i : Nat} {v : Node} (h : xs.get? i = some v)
    (hlt : i < xs.length) : xs.get ⟨i, hlt⟩ = v := by
  rw [List.get?_eq_get hlt] at h
  exact Option.some.inj h

/-- The path of every element of a sound sub-diff starts with the block
index and continues. -/
theorem sdblock_path {σ : Path} {i : Int} {e : DiffElement}
    (hpre : List.IsPrefix (σ ++ [PathSegment.index i]) e.path)
    (hne : e.path ≠ σ ++ [PathSegment.index i]) :
    e.path.drop σ.length = PathSegment.index i :: e.path.drop (σ.length + 1) ∧
      e.path.drop (σ.length + 1) ≠ [] := by
  obtain ⟨t, ht⟩ := hpre
  have htne : t ≠ [] := by
    intro h0
    rw [h0, List.append_nil] at ht
    exact hne ht.symm
  have hp2 : e.path = σ ++ (PathSegment.index i :: t) := by
    rw [← ht, List.append_assoc]
    rfl
  have hd1 : e.path.drop σ.length = PathSegment.index i :: t := by
    rw [hp2]
    exact List.drop_left σ _
  have hd2 : e.path.drop (σ.length + 1) = t := by
    rw [← ht, show σ.length + 1 = (σ ++ [PathSegment.index i]).length from by simp]
    exact List.drop_left _ _
  rw [hd1, hd2]
  exact ⟨rfl, htne⟩

/-- Forward application of a sub-diff block in global coordinates. -/
theorem sdblock_forward (pb : List PathSegment) (σ : Path)
    (Lf Rf : List Node) (A1 B1 : Nat) (hA1 : A1 < Lf.length) (hB1 : B1 < Rf.length)
    (sd : List DiffElement)
    (hok : DiffOk (σ ++ [PathSegment.index (B1 : Int)]) (nodeAt Lf A1) (nodeAt Rf B1) sd)
    (hsame : sameContainerType (nodeAt Lf A1) (nodeAt Rf B1) = true) :
    applyStrict pb σ.length (.arr (Rf.take B1 ++ Lf.drop A1)) sd =
      .ok (.arr (Rf.take (B1 + 1) ++ Lf.drop (A1 + 1))) := by
  have hD : (Rf.take B1).length = B1 := length_take_of_le Rf B1 (by omega)
  have h0 : ((B1 : Int)).toNat = B1 := by omega
  have hdec : Rf.take B1 ++ Lf.drop A1 =
      Rf.take B1 ++ Lf.get ⟨A1, hA1⟩ :: Lf.drop (A1 + 1) := by
    rw [List.drop_eq_getElem_cons hA1]
    rfl
  have hlen : ((B1 : Int)).toNat < (Rf.take B1 ++ Lf.drop A1).length := by
    rw [List.length_append, hD, List.length_drop]
    omega
  have hq : (Rf.take B1 ++ Lf.drop A1).get? ((B1 : Int)).toNat = some (nodeAt Lf A1) := by
    rw [h0, hdec, nodeAt_lt hA1]
    exact get_boundary_at _ _ _ hD.symm
  have hget : (Rf.take B1 ++ Lf.drop A1).get ⟨((B1 : Int)).toNat, hlen⟩ = nodeAt Lf A1 :=
    get_of_getq hq hlen
  have happ := applyStrict_arr_comp pb σ.length (B1 : Int) sd (nodeAt Rf B1) (by omega)
    (Rf.take B1 ++ Lf.drop A1) hlen ?_ ?_
  · rw [happ]
    have hset : (Rf.take B1 ++ Lf.drop A1).set ((B1 : Int)).toNat (nodeAt Rf B1) =
        Rf.take (B1 + 1) ++ Lf.drop (A1 + 1) := by
      rw [h0, hdec, set_boundary_at _ _ _ hD.symm, take_succ_concat Rf B1 hB1,
        List.append_assoc, List.singleton_append, nodeAt_lt hB1]
    rw [hset]
  · intro e he
    exact sdblock_path ((hok.1 e he).2.1) (hok.2.1 hsame e he)
  · rw [hget]
    have happly := hok.2.2.1 (pb ++ [PathSegment.index (B1 : Int)])
    rw [show (σ ++ [PathSegment.index (B1 : Int)]).length = σ.length + 1 from by simp]
      at happly
    exact happly

/-- Backward application of a sub-diff block in global coordinates. -/
theorem sdblock_backward (pb : List PathSegment) (σ : Path)
    (Lf Rf : List Node) (A1 B1 : Nat) (hA1 : A1 < Lf.length) (hB1 : B1 < Rf.length)
    (sd : List DiffElement)
    (hok : DiffOk (σ ++ [PathSegment.index (B1 : Int)]) (nodeAt Lf A1) (nodeAt Rf B1) sd)
    (hsame : sameContainerType (nodeAt Lf A1) (nodeAt Rf B1) = true) :
    applyStrict pb σ.length (.arr (Rf.take (B1 + 1) ++ Lf.drop (A1 + 1))) (revSwap sd) =
      .ok (.arr (Rf.take B1 ++ Lf.drop A1)) := by
  have hD : (Rf.take B1).length = B1 := length_take_of_le Rf B1 (by omega)
  have h0 : ((B1 : Int)).toNat = B1 := by omega
  have hdec : Rf.take (B1 + 1) ++ Lf.drop (A1 + 1) =
      Rf.take B1 ++ Rf.get ⟨B1, hB1⟩ :: Lf.drop (A1 + 1) := by
    rw [take_succ_concat Rf B1 hB1, List.append_assoc, List.singleton_append]
  rw [hdec]
  have hlen : ((B1 : Int)).toNat <
      (Rf.take B1 ++ Rf.get ⟨B1, hB1⟩ :: Lf.drop (A1 + 1)).length := by
    rw [List.length_append, hD]
    simp only [List.length_cons]
    omega
  have hq : (Rf.take B1 ++ Rf.get ⟨B1, hB1⟩ :: Lf.drop (A1 + 1)).get? ((B1 : Int)).toNat =
      some (nodeAt Rf B1) := by
    rw [h0, nodeAt_lt hB1]
    exact get_boundary_at _ _ _ hD.symm
  have hget : (Rf.take B1 ++ Rf.get ⟨B1, hB1⟩ :: Lf.drop (A1 + 1)).get
      ⟨((B1 : Int)).toNat, hlen⟩ = nodeAt Rf B1 := get_of_getq hq hlen
  have happ := applyStrict_arr_comp pb σ.length (B1 : Int) (revSwap sd) (nodeAt Lf A1)
    (by omega) (Rf.take B1 ++ Rf.get ⟨B1, hB1⟩ :: Lf.drop (A1 + 1)) hlen ?_ ?_
  · rw [happ]
    rw [h0, set_boundary_at _ _ _ hD.symm]
    rw [show (Rf.take B1 ++ nodeAt Lf A1 :: Lf.drop (A1 + 1)) =
      Rf.take B1 ++ Lf.drop A1 from by
        rw [List.drop_eq_getElem_cons hA1, nodeAt_lt hA1]
        rfl]
  · intro e he
    obtain ⟨e0, he0, hswap⟩ := mem_revSwap he
    have hpath : e.path = e0.path := by rw [hswap]; rfl
    rw [hpath]
    exact sdblock_path ((hok.1 e0 he0).2.1) (hok.2.1 hsame e0 he0)
  · rw [hget]
    have happly := hok.2.2.2 (pb ++ [PathSegment.index (B1 : Int)])
    rw [show (σ ++ [PathSegment.index (B1 : Int)]).length = σ.length + 1 from by simp]
      at happly
    exact happly
/-! ## Hunk element bridges -/

/-- A fully explicit hunk element. -/
def mkHunk (σ1 : Path) (prev : Node) (rm ad aft : List Node) : DiffElement :=
  { metadata := none, path := σ1, before := [prev], remove := rm, add := ad, after := aft }

/-- The loop template accumulates into a hunk. -/
theorem accElem_template (P : Path) (prev : Node) (X Y : List Node) :
    accElem { path := P, before := [prev] } X Y = mkHunk P prev X Y [] := by
  unfold accElem mkHunk
  simp

/-- The after-override of an accumulated template. -/
theorem accElem_template_after (P : Path) (prev : Node) (X Y aft : List Node) :
    ({ accElem { path := P, before := [prev] } X Y with after := aft } : DiffElement) =
      mkHunk P prev X Y aft := by
  unfold accElem mkHunk
  simp

/-- Overriding the after context of a hunk. -/
theorem mkHunk_after (σ1 : Path) (prev : Node) (rm ad aft aft2 : List Node) :
    ({ mkHunk σ1 prev rm ad aft with after := aft2 } : DiffElement) =
      mkHunk σ1 prev rm ad aft2 := by
  unfold mkHunk
  simp

/-- Swapping a hunk swaps its payload lists. -/
theorem swapE_mkHunk (σ1 : Path) (prev : Node) (rm ad aft : List Node) :
    swapE (mkHunk σ1 prev rm ad aft) = mkHunk σ1 prev ad rm aft := rfl

/-- `mapHead` over a singleton. -/
theorem mapHead_single (f : DiffElement → DiffElement) (e : DiffElement) :
    mapHead f [e] = [f e] := rfl

/-- Applying a hunk element at the head of a diff. -/
theorem mkHunk_apply (pb : List PathSegment) (σ : Path) (i : Int) (prev : Node)
    (rm ad aft : List Node) (n v : Node) (rest : List DiffElement)
    (h : patchElement n pb [PathSegment.index i] [prev] rm ad aft .strict = .ok v) :
    applyStrict pb σ.length n (mkHunk (σ ++ [PathSegment.index i]) prev rm ad aft :: rest) =
      applyStrict pb σ.length v rest := by
  rw [applyStrict]
  unfold mkHunk
  simp only [List.drop_left]
  rw [h]

/-- Structural facts of a hunk element. -/
theorem mkHunk_ok (σ : Path) (i : Int) (prev : Node) (rm ad aft : List Node)
    (hne : ¬(ad = [] ∧ rm = [])) :
    (mkHunk (σ ++ [PathSegment.index i]) prev rm ad aft).metadata = none ∧
    List.IsPrefix σ (mkHunk (σ ++ [PathSegment.index i]) prev rm ad aft).path ∧
    ¬((mkHunk (σ ++ [PathSegment.index i]) prev rm ad aft).add = [] ∧
      (mkHunk (σ ++ [PathSegment.index i]) prev rm ad aft).remove = []) := by
  unfold mkHunk
  exact ⟨rfl, ⟨[PathSegment.index i], rfl⟩, hne⟩

/-- A hunk path is strictly below its base. -/
theorem mkHunk_path_ne (σ : Path) (i : Int) (prev : Node) (rm ad aft : List Node) :
    (mkHunk (σ ++ [PathSegment.index i]) prev rm ad aft).path ≠ σ := by
  unfold mkHunk
  intro h
  simp only at h
  have := congrArg List.length h
  simp at this
/-! ## Small facts feeding the diff-rest induction -/

/-- A true `at_common` pins the hash at the cursor. -/
theorem atCommon_true_eq {xs common : List HashCode} {i : Nat}
    (h : atCommon xs i common = true) : getH xs i = getH common 0 := by
  unfold atCommon at h
  by_cases hc : i ≥ xs.length ∨ common.isEmpty
  · rw [if_pos hc] at h
    cases h
  · rw [if_neg hc] at h
    simpa using h

/-- The after context beyond the end. -/
theorem afterContext_end (L : List Node) (a cc : Nat) (h : a - cc ≥ L.length) :
    afterContext L a cc = [Node.void] := by
  unfold afterContext
  rw [if_pos h]

/-- The after context at an in-bounds position. -/
theorem afterContext_at (L : List Node) (a cc : Nat) (h : a - cc < L.length) :
    afterContext L a cc = [nodeAt L (a - cc)] := by
  unfold afterContext
  rw [if_neg (by omega)]
  unfold nodeAt
  rfl

/-- The change flag of a single hunk. -/
theorem hasChanges_mkHunk (σ1 : Path) (prev : Node) (rm ad aft : List Node) :
    hasChanges [mkHunk σ1 prev rm ad aft] = (!ad.isEmpty || !rm.isEmpty) := by
  unfold hasChanges mkHunk
  rfl

/-- Global hash indexing through a slice. -/
theorem getH_global (Lf : List Node) (o : DiffOptions) (A a0 : Nat)
    (h : A + a0 < Lf.length) :
    getH ((hashCodes Lf o).drop A) a0 = (nodeAt Lf (A + a0)).hashCode o := by
  rw [getH_drop, hashCodes_get Lf o (A + a0) h, nodeAt_lt h]

/-- Hash-equal in-bounds entries of faithful lists are equal. -/
theorem pair_eq_of_hash (Lf Rf : List Node) (o : DiffOptions)
    (hfa : ∀ x ∈ Lf, ∀ y ∈ Rf, HashFaithful x y o) (A1 B1 : Nat)
    (hA1 : A1 < Lf.length) (hB1 : B1 < Rf.length)
    (hh : (nodeAt Lf A1).hashCode o = (nodeAt Rf B1).hashCode o) :
    nodeAt Lf A1 = nodeAt Rf B1 := by
  rw [nodeAt_lt hA1, nodeAt_lt hB1] at hh ⊢
  refine hfa _ (List.get_mem Lf _ _) _ (List.get_mem Rf _ _)
    _ (List.mem_append.mpr (Or.inl (self_mem_subnodes _)))
    _ (List.mem_append.mpr (Or.inr (self_mem_subnodes _))) hh

/-- Dropping one more from a slice. -/
theorem slice_drop (Lf : List Node) (A k : Nat) :
    (Lf.drop A).drop k = Lf.drop (A + k) := by
  rw [List.drop_drop]

/-- Dropping one more from a hash slice. -/
theorem slice_dropH (lh : List HashCode) (A k : Nat) :
    (lh.drop A).drop k = lh.drop (A + k) := by
  rw [List.drop_drop]

/-- Applying the empty diff. -/
theorem applyStrict_nil (pb : List PathSegment) (k : Nat) (n : Node) :
    applyStrict pb k n [] = .ok n := rfl
/-! ## The exhausted diff-rest call -/

/-- When both lists are exhausted the level produces the empty diff. -/
theorem diffRest_spec_full_empty (o : DiffOptions) (σ : Path) (Lf Rf : List Node)
    (A B : Nat) (common : List HashCode) (prev : Node)
    (hA : A = Lf.length) (hB : B = Rf.length)
    (hcs : CSMax common ((hashCodes Lf o).drop A) ((hashCodes Rf o).drop B)) :
    ∃ d, diffRest (Lf.drop A) (Rf.drop B) (B : Int) (σ ++ [PathSegment.index (B : Int)])
        ((hashCodes Lf o).drop A) ((hashCodes Rf o).drop B) common prev o = some d ∧
      DiffElemsOk σ d ∧ (∀ e ∈ d, e.path ≠ σ) ∧
      (∀ pb, applyStrict pb σ.length (.arr (Rf.take B ++ Lf.drop A)) d =
        .ok (.arr Rf)) ∧
      (∀ pb, applyStrict pb σ.length (.arr Rf) (revSwap d) =
        .ok (.arr (Rf.take B ++ Lf.drop A))) := by
  have hLe : Lf.drop A = [] := by rw [hA, List.drop_length]
  have hRe : Rf.drop B = [] := by rw [hB, List.drop_length]
  have hLh : (hashCodes Lf o).drop A = [] := by
    rw [← hashCodes_drop, hLe]
    rfl
  have hRh : (hashCodes Rf o).drop B = [] := by
    rw [← hashCodes_drop, hRe]
    rfl
  rw [hLe, hRe, hLh, hRh]
  have hcommon : common = [] := by
    have := hcs.1
    rw [hLh] at this
    exact List.sublist_nil.mp this
  subst hcommon
  have hloop := diffLoop_step_terminal_a ([] : List Node) ([] : List Node)
    ([] : List HashCode) ([] : List HashCode) ([] : List HashCode)
    (σ ++ [PathSegment.index (B : Int)]) o
    { path := pathNow (σ ++ [PathSegment.index (B : Int)]) (B : Int), before := [prev] }
    0 0 (B : Int) (le_refl 0)
  have hres := diffRest_step_full ([] : List Node) ([] : List Node) (B : Int)
    (σ ++ [PathSegment.index (B : Int)]) [] [] [] prev o _ _ _ _ _ hloop ⟨rfl, rfl⟩
  refine ⟨[], ?_, ?_, ?_, ?_, ?_⟩
  · rw [hres]
    rfl
  · intro e he
    cases he
  · intro e he
    cases he
  · intro pb
    rw [applyStrict_nil]
    rw [hB, List.take_length, List.append_nil]
  · intro pb
    rw [show revSwap [] = [] from rfl, applyStrict_nil]
    rw [hB, List.take_length, List.append_nil]
/-! ## The diff-rest recursion meets its specification -/

/-- Appending after a successful prefix application. -/
theorem applyStrict_append_ok {pb : List PathSegment} {k : Nat} {n m : Node}
    {d1 d2 : List DiffElement} (h : applyStrict pb k n d1 = .ok m) :
    applyStrict pb k n (d1 ++ d2) = applyStrict pb k m d2 := by
  rw [applyStrict_append, h]

/-- The change flag of a hunk-headed diff. -/
theorem hasChanges_mkHunk_cons (σ1 : Path) (prev : Node) (rm ad aft : List Node)
    (rest : List DiffElement) :
    hasChanges (mkHunk σ1 prev rm ad aft :: rest) = (!ad.isEmpty || !rm.isEmpty) := rfl

/-- Elements of a sound sub-diff are sound one level up. -/
theorem sd_elems_ok (σ : Path) (i : Int) (x y : Node) (sd : List DiffElement)
    (hok : DiffOk (σ ++ [PathSegment.index i]) x y sd) :
    DiffElemsOk σ sd ∧ ∀ e ∈ sd, e.path ≠ σ := by
  constructor
  · intro e he
    obtain ⟨hm, hp, hne⟩ := hok.1 e he
    exact ⟨hm, List.IsPrefix.trans ⟨[PathSegment.index i], rfl⟩ hp, hne⟩
  · intro e he hps
    obtain ⟨hm, hp, hne⟩ := hok.1 e he
    have hle := hp.length_le
    rw [hps] at hle
    simp at hle

/-- A false slice `at_common` is a false global `at_common`. -/
theorem atCommon_global_false (xs : List HashCode) (A i : Nat) (common : List HashCode)
    (h : atCommon (xs.drop A) i common = false) (hlt : A + i < xs.length) :
    atCommon xs (A + i) common = false := by
  unfold atCommon at h ⊢
  by_cases hc : common.isEmpty
  · rw [if_pos (Or.inr hc)]
  · rw [if_neg (by push_neg; exact ⟨by omega, by simpa using hc⟩)]
    rw [if_neg (by push_neg; refine ⟨by rw [List.length_drop]; omega, by simpa using hc⟩)]
      at h
    rw [getH_drop] at h
    exact h

theorem diffRest_spec (o : DiffOptions) (σ : Path) (Lf Rf : List Node)
    (hwL : wfList Lf = true) (hwR : wfList Rf = true)
    (hzL : noNegZeroList Lf = true) (hzR : noNegZeroList Rf = true)
    (N : Nat)
    (ihN : ∀ x y : Node, ∀ σ2 : Path, sizeOf x + sizeOf y < N →
      x.wf = true → y.wf = true → noNegZero x = true → noNegZero y = true →
      HashFaithful x y o →
      ∃ d, diffImpl x y σ2 o = some d ∧ DiffOk σ2 x y d)
    (hsz : ∀ x ∈ Lf, ∀ y ∈ Rf, sizeOf x + sizeOf y < N)
    (hfa : ∀ x ∈ Lf, ∀ y ∈ Rf, HashFaithful x y o) :
    ∀ K A B (common : List HashCode) (prev : Node),
      Lf.length - A + (Rf.length - B) ≤ K →
      A ≤ Lf.length → B ≤ Rf.length →
      CSMax common ((hashCodes Lf o).drop A) ((hashCodes Rf o).drop B) →
      prev = (if B = 0 then Node.void else nodeAt Rf (B - 1)) →
      ∃ d, diffRest (Lf.drop A) (Rf.drop B) (B : Int) (σ ++ [PathSegment.index (B : Int)])
          ((hashCodes Lf o).drop A) ((hashCodes Rf o).drop B) common prev o = some d ∧
        DiffElemsOk σ d ∧ (∀ e ∈ d, e.path ≠ σ) ∧
        (∀ pb, applyStrict pb σ.length (.arr (Rf.take B ++ Lf.drop A)) d =
          .ok (.arr Rf)) ∧
        (∀ pb, applyStrict pb σ.length (.arr Rf) (revSwap d) =
          .ok (.arr (Rf.take B ++ Lf.drop A))) := by
  intro K
  induction K with
  | zero =>
    intro A B common prev hK hA hB hcs hprev
    exact diffRest_spec_full_empty o σ Lf Rf A B common prev (by omega) (by omega) hcs
  | succ K2 ihK =>
    intro A B common prev hK hA hB hcs hprev
    have hwL2 : wfList (Lf.drop A) = true :=
      wfList_of_forall _ (fun v hv => wfList_mem hwL (List.mem_of_mem_drop hv))
    have hwR2 : wfList (Rf.drop B) = true :=
      wfList_of_forall _ (fun v hv => wfList_mem hwR (List.mem_of_mem_drop hv))
    have hzL2 : noNegZeroList (Lf.drop A) = true :=
      noNegZeroList_of_forall _ (fun v hv => noNegZeroList_mem hzL (List.mem_of_mem_drop hv))
    have hzR2 : noNegZeroList (Rf.drop B) = true :=
      noNegZeroList_of_forall _ (fun v hv => noNegZeroList_mem hzR (List.mem_of_mem_drop hv))
    have hsz2 : ∀ x ∈ Lf.drop A, ∀ y ∈ Rf.drop B, sizeOf x + sizeOf y < N :=
      fun x hx y hy => hsz x (List.mem_of_mem_drop hx) y (List.mem_of_mem_drop hy)
    have hfa2 : ∀ x ∈ Lf.drop A, ∀ y ∈ Rf.drop B, HashFaithful x y o :=
      fun x hx y hy => hfa x (List.mem_of_mem_drop hx) y (List.mem_of_mem_drop hy)
    have hcs0 : CSMax common ((hashCodes (Lf.drop A) o).drop 0)
        ((hashCodes (Rf.drop B) o).drop 0) := by
      rw [hashCodes_drop, hashCodes_drop, List.drop_zero, List.drop_zero]
      exact hcs
    obtain ⟨d1, a1, b1, cc1, pc1, hloop, hspec⟩ :=
      diffLoop_spec o σ (B : Int) (Lf.drop A) (Rf.drop B) hwL2 hwR2 hzL2 hzR2 N ihN
        hsz2 hfa2 common ((Lf.drop A).length + (Rf.drop B).length) 0 0 (B : Int)
        { path := pathNow (σ ++ [PathSegment.index (B : Int)]) (B : Int),
          before := [prev] }
        (by omega) (by omega) (by omega) hcs0
    rw [hashCodes_drop, hashCodes_drop] at hloop
    rcases hspec with ⟨hT1, hT2, hT3, hT4⟩ | ⟨a0, b0, hC⟩ | ⟨a0, b0, sd, hK3⟩
    · -- the loop consumed everything: one terminal hunk (or nothing)
      by_cases hboth : Lf.drop A = [] ∧ Rf.drop B = []
      · exact diffRest_spec_full_empty o σ Lf Rf A B common prev
          (by have := hboth.1; rw [List.drop_eq_nil_iff_le] at this; omega)
          (by have := hboth.2; rw [List.drop_eq_nil_iff_le] at this; omega) hcs
      · have hseg1 : sliceSeg (Lf.drop A) 0 (Lf.drop A).length = Lf.drop A := by
          rw [sliceSeg_drop, List.drop_zero]
        have hseg2 : sliceSeg (Rf.drop B) 0 (Rf.drop B).length = Rf.drop B := by
          rw [sliceSeg_drop, List.drop_zero]
        rw [hseg1, hseg2, pathNow_concat, accElem_template] at hT4
        have hch : hasChanges [mkHunk (σ ++ [PathSegment.index (B : Int)]) prev
            (Lf.drop A) (Rf.drop B) []] = true := by
          rw [hasChanges_mkHunk]
          rcases not_and_or.mp hboth with h | h
          · have : (Lf.drop A).isEmpty = false := by
              cases hx : Lf.drop A with
              | nil => exact absurd hx h
              | cons y ys => rfl
            rw [this]
            simp
          · have : (Rf.drop B).isEmpty = false := by
              cases hx : Rf.drop B with
              | nil => exact absurd hx h
              | cons y ys => rfl
            rw [this]
            simp
        have hres := diffRest_step_full (Lf.drop A) (Rf.drop B) (B : Int)
          (σ ++ [PathSegment.index (B : Int)]) ((hashCodes Lf o).drop A)
          ((hashCodes Rf o).drop B) common prev o d1 a1 b1 cc1 pc1 hloop ⟨hT1, hT2⟩
        rw [hT4] at hres
        rw [if_neg (by rw [hch]; simp)] at hres
        rw [if_pos (by simp : ([mkHunk (σ ++ [PathSegment.index (B : Int)]) prev
          (Lf.drop A) (Rf.drop B) []] : List DiffElement).length < 2)] at hres
        simp only [mapHead] at hres
        rw [if_pos (by unfold mkHunk; simp)] at hres
        rw [mkHunk_after] at hres
        rw [hT1, hT3, afterContext_end _ _ _ (by omega)] at hres
        have hAlt : A ≤ Lf.length := hA
        have hBlt : B ≤ Rf.length := hB
        refine ⟨_, hres, ?_, ?_, ?_, ?_⟩
        · intro e he
          rw [List.mem_singleton] at he
          subst he
          refine mkHunk_ok σ (B : Int) prev _ _ _ ?_
          intro hc
          exact hboth ⟨hc.2, hc.1⟩
        · intro e he
          rw [List.mem_singleton] at he
          subst he
          exact mkHunk_path_ne σ (B : Int) prev _ _ _
        · intro pb
          have hp := hunk_forward pb Lf Rf A B Lf.length Rf.length prev [Node.void]
            hA (le_refl _) hB (le_refl _) hwL hwR hprev hB
            (Or.inr (Or.inr ⟨rfl, rfl⟩))
          rw [sliceSeg_drop, sliceSeg_drop] at hp
          rw [mkHunk_apply pb σ (B : Int) prev _ _ _ _ _ _ hp, applyStrict_nil,
            List.take_length, List.drop_length, List.append_nil]
        · intro pb
          rw [revSwap_single, swapE_mkHunk]
          have hp := hunk_backward pb Lf Rf A B Lf.length Rf.length prev [Node.void]
            hA (le_refl _) hB (le_refl _) hwL hwR hprev
            (Or.inr (Or.inr ⟨rfl, rfl⟩))
          rw [sliceSeg_drop, sliceSeg_drop] at hp
          rw [List.take_length, List.drop_length, List.append_nil] at hp
          rw [mkHunk_apply pb σ (B : Int) prev _ _ _ _ _ _ hp, applyStrict_nil]
    · -- the loop stopped at a common pair
      obtain ⟨hC1, hC2, hC3, hC4, hC5, hC6, hC7, hC8, hC9, hC10, hC11, hC12⟩ := hC
      rw [List.length_drop] at hC2
      rw [List.length_drop] at hC4
      have hseg1 : sliceSeg (Lf.drop A) 0 a0 = sliceSeg Lf A (A + a0) := by
        rw [sliceSeg_shift, Nat.add_zero]
      have hseg2 : sliceSeg (Rf.drop B) 0 b0 = sliceSeg Rf B (B + b0) := by
        rw [sliceSeg_shift, Nat.add_zero]
      rw [hseg1, hseg2, pathNow_concat, accElem_template] at hC9
      have hA1 : A + a0 < Lf.length := by omega
      have hB1 : B + b0 < Rf.length := by omega
      have hhL : (nodeAt Lf (A + a0)).hashCode o = getH common 0 := by
        rw [← getH_global Lf o A a0 hA1]
        have := atCommon_true_eq hC10
        rw [hashCodes_drop] at this
        exact this
      have hhR : (nodeAt Rf (B + b0)).hashCode o = getH common 0 := by
        rw [← getH_global Rf o B b0 hB1]
        have := atCommon_true_eq hC11
        rw [hashCodes_drop] at this
        exact this
      have heq : nodeAt Lf (A + a0) = nodeAt Rf (B + b0) :=
        pair_eq_of_hash Lf Rf o hfa (A + a0) (B + b0) hA1 hB1 (by rw [hhL, hhR])
      obtain ⟨c, cs, hccs⟩ : ∃ c cs, common = c :: cs := by
        cases common with
        | nil => exact absurd rfl (atCommon_lt hC10).2
        | cons c cs => exact ⟨c, cs, rfl⟩
      have hcs1 : CSMax common ((hashCodes Lf o).drop (A + a0))
          ((hashCodes Rf o).drop (B + b0)) := by
        have h2 := hC12
        rw [hashCodes_drop, hashCodes_drop, slice_dropH, slice_dropH] at h2
        exact h2
      have hcstail : CSMax (common.drop 1) ((hashCodes Lf o).drop (A + a0 + 1))
          ((hashCodes Rf o).drop (B + b0 + 1)) := by
        have hlt1 : A + a0 < (hashCodes Lf o).length := by rw [hashCodes_length]; omega
        have hlt2 : B + b0 < (hashCodes Rf o).length := by rw [hashCodes_length]; omega
        have hd1 := List.drop_eq_getElem_cons hlt1
        have hd2 := List.drop_eq_getElem_cons hlt2
        rw [hccs]
        rw [hccs, hd1, hd2] at hcs1
        refine csmax_tail hcs1 ?_ ?_
        · have : getH ((hashCodes Lf o).drop A) a0 = c := by
            rw [hccs] at hC10
            have := atCommon_true_eq hC10
            rw [hashCodes_drop] at this
            exact this
          rw [getH_drop] at this
          rw [← this, getH_lt hlt1]
          rfl
        · have : getH ((hashCodes Rf o).drop B) b0 = c := by
            rw [hccs] at hC11
            have := atCommon_true_eq hC11
            rw [hashCodes_drop] at this
            exact this
          rw [getH_drop] at this
          rw [← this, getH_lt hlt2]
          rfl
      have hprevrec : (if b1 = 0 then Node.void
          else ((Rf.drop B).get? (b1 - 1)).getD .void) =
          (if B + b0 + 1 = 0 then Node.void else nodeAt Rf (B + b0 + 1 - 1)) := by
        rw [hC6, if_neg (by omega), if_neg (by omega), List.get?_drop]
        unfold nodeAt
        rw [show B + (b0 + 1 - 1) = B + b0 + 1 - 1 from by omega]
      have hpc : pc1 = ((B + b0 + 1 : Nat) : Int) := by
        rw [hC8]
        push_cast
        omega
      by_cases hzero : a0 = 0 ∧ b0 = 0
      · -- leading common element: the hunk is dropped
        obtain ⟨hz1, hz2⟩ := hzero
        subst hz1; subst hz2
        rw [Nat.add_zero, Nat.add_zero, sliceSeg_self, sliceSeg_self] at hC9
        have hch : hasChanges d1 = false := by
          rw [hC9, hasChanges_mkHunk]
          rfl
        by_cases hfull : a1 = (Lf.drop A).length ∧ b1 = (Rf.drop B).length
        · have hres := diffRest_step_full (Lf.drop A) (Rf.drop B) (B : Int)
            (σ ++ [PathSegment.index (B : Int)]) ((hashCodes Lf o).drop A)
            ((hashCodes Rf o).drop B) common prev o d1 a1 b1 cc1 pc1 hloop hfull
          rw [if_pos (by rw [hch]; rfl)] at hres
          have hAfin : A + 1 = Lf.length := by
            have := hfull.1
            rw [List.length_drop, hC5] at this
            omega
          have hBfin : B + 1 = Rf.length := by
            have := hfull.2
            rw [List.length_drop, hC6] at this
            omega
          have hcl : Rf.take B ++ Lf.drop A = Rf := by
            rw [cl_skip Lf Rf A B (by omega) (by omega)
              (by rw [show A + 0 = A from by omega, show B + 0 = B from by omega] at heq
                  exact heq)]
            rw [hAfin, hBfin, List.take_length, List.drop_length, List.append_nil]
          refine ⟨[], hres, ?_, ?_, ?_, ?_⟩
          · intro e he
            cases he
          · intro e he
            cases he
          · intro pb
            rw [applyStrict_nil, hcl]
          · intro pb
            rw [show revSwap [] = [] from rfl, applyStrict_nil, hcl]
        · obtain ⟨drest, hrest, hrko, hrkp, hrkf, hrkb⟩ :=
            ihK (A + 1) (B + 1) (common.drop 1)
              (if B + 1 = 0 then Node.void else nodeAt Rf (B + 1 - 1))
              (by omega) (by omega) (by omega)
              (by
                have := hcstail
                rw [show A + 0 + 1 = A + 1 from by omega,
                  show B + 0 + 1 = B + 1 from by omega] at this
                exact this)
              rfl
          have hrec : diffRest ((Lf.drop A).drop a1) ((Rf.drop B).drop b1) pc1
              (pathNow (σ ++ [PathSegment.index (B : Int)]) pc1)
              (((hashCodes Lf o).drop A).drop a1) (((hashCodes Rf o).drop B).drop b1)
              (common.drop cc1)
              (if b1 = 0 then Node.void else ((Rf.drop B).get? (b1 - 1)).getD .void) o =
              some drest := by
            rw [hprevrec, hC5, hC6, hC7, slice_drop, slice_drop, slice_dropH, slice_dropH,
              pathNow_concat, hpc]
            rw [show A + 0 + 1 = A + 1 from by omega, show B + 0 + 1 = B + 1 from by omega]
            rw [show B + 0 + 1 = B + 1 from by omega] at hrest
            exact hrest
          have hres := diffRest_step_rec (Lf.drop A) (Rf.drop B) (B : Int)
            (σ ++ [PathSegment.index (B : Int)]) ((hashCodes Lf o).drop A)
            ((hashCodes Rf o).drop B) common prev o d1 drest a1 b1 cc1 pc1 hloop hfull
            (by rw [hC5, hC6]; rw [List.length_drop, List.length_drop]; omega) hrec
          rw [if_pos (by rw [hch]; rfl), List.nil_append] at hres
          have hclstep : Rf.take B ++ Lf.drop A = Rf.take (B + 1) ++ Lf.drop (A + 1) := by
            refine cl_skip Lf Rf A B (by omega) (by omega) ?_
            rw [show A + 0 = A from by omega, show B + 0 = B from by omega] at heq
            exact heq
          refine ⟨drest, hres, hrko, hrkp, ?_, ?_⟩
          · intro pb
            rw [hclstep]
            exact hrkf pb
          · intro pb
            rw [hclstep]
            exact hrkb pb
      · -- the hunk is kept, with the common element as after context
        have hlen1 : (sliceSeg Lf A (A + a0)).length = a0 := by
          rw [sliceSeg_length Lf A (A + a0) (by omega) (by omega)]
          omega
        have hlen2 : (sliceSeg Rf B (B + b0)).length = b0 := by
          rw [sliceSeg_length Rf B (B + b0) (by omega) (by omega)]
          omega
        have hch : hasChanges d1 = true := by
          rw [hC9, hasChanges_mkHunk]
          rcases not_and_or.mp hzero with h | h
          · have hne : sliceSeg Lf A (A + a0) ≠ [] := by
              intro h0
              rw [h0] at hlen1
              simp at hlen1
              omega
            have : (sliceSeg Lf A (A + a0)).isEmpty = false := by
              cases hx : sliceSeg Lf A (A + a0) with
              | nil => exact absurd hx hne
              | cons y ys => rfl
            rw [this]
            simp
          · have hne : sliceSeg Rf B (B + b0) ≠ [] := by
              intro h0
              rw [h0] at hlen2
              simp at hlen2
              omega
            have : (sliceSeg Rf B (B + b0)).isEmpty = false := by
              cases hx : sliceSeg Rf B (B + b0) with
              | nil => exact absurd hx hne
              | cons y ys => rfl
            rw [this]
            simp
        have haft : afterContext (Lf.drop A) a1 cc1 = [nodeAt Lf (A + a0)] := by
          rw [hC5, hC7, afterContext_at _ _ _ (by rw [List.length_drop]; omega)]
          rw [show a0 + 1 - 1 = a0 from by omega, nodeAt_drop]
        have hd2 : (if !hasChanges d1 then []
            else if d1.length < 2 then
              mapHead (fun first =>
                if first.path.length ≤ (σ ++ [PathSegment.index (B : Int)]).length then
                  { first with after := afterContext (Lf.drop A) a1 cc1 }
                else first) d1
            else d1) =
            [mkHunk (σ ++ [PathSegment.index (B : Int)]) prev (sliceSeg Lf A (A + a0))
              (sliceSeg Rf B (B + b0)) [nodeAt Lf (A + a0)]] := by
          rw [if_neg (by rw [hch]; simp), hC9]
          rw [if_pos (by simp)]
          simp only [mapHead]
          rw [if_pos (by unfold mkHunk; simp)]
          rw [haft, mkHunk_after]
        have hmk_ne : ¬((sliceSeg Rf B (B + b0)) = [] ∧ (sliceSeg Lf A (A + a0)) = []) := by
          intro hc
          rcases not_and_or.mp hzero with h | h
          · apply h
            rw [hc.2] at hlen1
            simpa using hlen1.symm
          · apply h
            rw [hc.1] at hlen2
            simpa using hlen2.symm
        by_cases hfull : a1 = (Lf.drop A).length ∧ b1 = (Rf.drop B).length
        · have hres := diffRest_step_full (Lf.drop A) (Rf.drop B) (B : Int)
            (σ ++ [PathSegment.index (B : Int)]) ((hashCodes Lf o).drop A)
            ((hashCodes Rf o).drop B) common prev o d1 a1 b1 cc1 pc1 hloop hfull
          rw [hd2] at hres
          have hAfin : A + a0 + 1 = Lf.length := by
            have := hfull.1
            rw [List.length_drop, hC5] at this
            omega
          have hBfin : B + b0 + 1 = Rf.length := by
            have := hfull.2
            rw [List.length_drop, hC6] at this
            omega
          have hclstep : Rf.take (B + b0) ++ Lf.drop (A + a0) = Rf := by
            rw [cl_skip Lf Rf (A + a0) (B + b0) hA1 hB1 heq, hAfin, hBfin,
              List.take_length, List.drop_length, List.append_nil]
          refine ⟨_, hres, ?_, ?_, ?_, ?_⟩
          · intro e he
            rw [List.mem_singleton] at he
            subst he
            exact mkHunk_ok σ (B : Int) prev _ _ _ hmk_ne
          · intro e he
            rw [List.mem_singleton] at he
            subst he
            exact mkHunk_path_ne σ (B : Int) prev _ _ _
          · intro pb
            have hp := hunk_forward pb Lf Rf A B (A + a0) (B + b0) prev
              [nodeAt Lf (A + a0)] (by omega) (by omega) (by omega) (by omega)
              hwL hwR hprev hB (Or.inr (Or.inl ⟨rfl, hA1⟩))
            rw [mkHunk_apply pb σ (B : Int) prev _ _ _ _ _ _ hp, applyStrict_nil, hclstep]
          · intro pb
            rw [revSwap_single, swapE_mkHunk]
            have hp := hunk_backward pb Lf Rf A B (A + a0) (B + b0) prev
              [nodeAt Lf (A + a0)] (by omega) (by omega) (by omega) (by omega)
              hwL hwR hprev (Or.inr (Or.inl ⟨rfl, hA1⟩))
            rw [hclstep] at hp
            rw [mkHunk_apply pb σ (B : Int) prev _ _ _ _ _ _ hp, applyStrict_nil]
        · obtain ⟨drest, hrest, hrko, hrkp, hrkf, hrkb⟩ :=
            ihK (A + a0 + 1) (B + b0 + 1) (common.drop 1)
              (if B + b0 + 1 = 0 then Node.void else nodeAt Rf (B + b0 + 1 - 1))
              (by omega) (by omega) (by omega) hcstail rfl
          have hrec : diffRest ((Lf.drop A).drop a1) ((Rf.drop B).drop b1) pc1
              (pathNow (σ ++ [PathSegment.index (B : Int)]) pc1)
              (((hashCodes Lf o).drop A).drop a1) (((hashCodes Rf o).drop B).drop b1)
              (common.drop cc1)
              (if b1 = 0 then Node.void else ((Rf.drop B).get? (b1 - 1)).getD .void) o =
              some drest := by
            rw [hprevrec, hC5, hC6, hC7, slice_drop, slice_drop, slice_dropH, slice_dropH,
              pathNow_concat, hpc]
            rw [show A + (a0 + 1) = A + a0 + 1 from by omega,
              show B + (b0 + 1) = B + b0 + 1 from by omega]
            exact hrest
          have hres := diffRest_step_rec (Lf.drop A) (Rf.drop B) (B : Int)
            (σ ++ [PathSegment.index (B : Int)]) ((hashCodes Lf o).drop A)
            ((hashCodes Rf o).drop B) common prev o d1 drest a1 b1 cc1 pc1 hloop hfull
            (by rw [hC5, hC6, List.length_drop, List.length_drop]; omega) hrec
          rw [hd2] at hres
          have hclstep : Rf.take (B + b0) ++ Lf.drop (A + a0) =
              Rf.take (B + b0 + 1) ++ Lf.drop (A + a0 + 1) :=
            cl_skip Lf Rf (A + a0) (B + b0) hA1 hB1 heq
          refine ⟨_, hres, ?_, ?_, ?_, ?_⟩
          · intro e he
            rw [List.singleton_append, List.mem_cons] at he
            rcases he with he1 | he2
            · subst he1
              exact mkHunk_ok σ (B : Int) prev _ _ _ hmk_ne
            · exact hrko e he2
          · intro e he
            rw [List.singleton_append, List.mem_cons] at he
            rcases he with he1 | he2
            · subst he1
              exact mkHunk_path_ne σ (B : Int) prev _ _ _
            · exact hrkp e he2
          · intro pb
            rw [List.singleton_append]
            have hp := hunk_forward pb Lf Rf A B (A + a0) (B + b0) prev
              [nodeAt Lf (A + a0)] (by omega) (by omega) (by omega) (by omega)
              hwL hwR hprev hB (Or.inr (Or.inl ⟨rfl, hA1⟩))
            rw [mkHunk_apply pb σ (B : Int) prev _ _ _ _ _ _ hp, hclstep]
            exact hrkf pb
          · intro pb
            rw [List.singleton_append, revSwap_cons]
            rw [applyStrict_append_ok (hrkb pb)]
            rw [swapE_mkHunk]
            have hp := hunk_backward pb Lf Rf A B (A + a0) (B + b0) prev
              [nodeAt Lf (A + a0)] (by omega) (by omega) (by omega) (by omega)
              hwL hwR hprev (Or.inr (Or.inl ⟨rfl, hA1⟩))
            rw [hclstep] at hp
            rw [mkHunk_apply pb σ (B : Int) prev _ _ _ _ _ _ hp, applyStrict_nil]
    · -- the loop stopped at a container pair
      obtain ⟨hK1, hK2, hK3b, hK4, hK5, hK6, hK7, hK8, hK9, hK10, hK11, hK12, hK13,
        hK14, hK15⟩ := hK3
      rw [List.length_drop] at hK2 hK4
      have hA1 : A + a0 < Lf.length := by omega
      have hB1 : B + b0 < Rf.length := by omega
      have hseg1 : sliceSeg (Lf.drop A) 0 a0 = sliceSeg Lf A (A + a0) := by
        rw [sliceSeg_shift, Nat.add_zero]
      have hseg2 : sliceSeg (Rf.drop B) 0 b0 = sliceSeg Rf B (B + b0) := by
        rw [sliceSeg_shift, Nat.add_zero]
      have hidx : (B : Int) + ((b0 - 0 : Nat) : Int) = ((B + b0 : Nat) : Int) := by
        push_cast
        omega
      rw [nodeAt_drop, nodeAt_drop] at hK9
      rw [nodeAt_drop, nodeAt_drop, hidx] at hK10
      rw [nodeAt_drop, nodeAt_drop, hidx] at hK11
      rw [hseg1, hseg2, pathNow_concat, accElem_template_after, accElem_template] at hK15
      have hcs1 : CSMax common ((hashCodes Lf o).drop (A + a0))
          ((hashCodes Rf o).drop (B + b0)) := by
        have h2 := hK14
        rw [hashCodes_drop, hashCodes_drop, slice_dropH, slice_dropH] at h2
        exact h2
      have hgflagL : atCommon (hashCodes Lf o) (A + a0) common = false := by
        refine atCommon_global_false (hashCodes Lf o) A a0 common ?_
          (by rw [hashCodes_length]; omega)
        rw [← hashCodes_drop]
        exact hK12
      have hgflagR : atCommon (hashCodes Rf o) (B + b0) common = false := by
        refine atCommon_global_false (hashCodes Rf o) B b0 common ?_
          (by rw [hashCodes_length]; omega)
        rw [← hashCodes_drop]
        exact hK13
      have hcsadv : CSMax common ((hashCodes Lf o).drop (A + a0 + 1))
          ((hashCodes Rf o).drop (B + b0 + 1)) :=
        csmax_advance hcs1 hgflagL hgflagR (by rw [hashCodes_length]; omega)
          (by rw [hashCodes_length]; omega)
      have hprevrec : (if b1 = 0 then Node.void
          else ((Rf.drop B).get? (b1 - 1)).getD .void) =
          (if B + b0 + 1 = 0 then Node.void else nodeAt Rf (B + b0 + 1 - 1)) := by
        rw [hK6, if_neg (by omega), if_neg (by omega), List.get?_drop]
        unfold nodeAt
        rw [show B + (b0 + 1 - 1) = B + b0 + 1 - 1 from by omega]
      have hpc : pc1 = ((B + b0 + 1 : Nat) : Int) := by
        rw [hK8]
        push_cast
        omega
      by_cases hsd : sd = []
      · -- an equal pair of containers at the stop position
        subst hsd
        have heq : nodeAt Lf (A + a0) = nodeAt Rf (B + b0) := by
          have h1 := hK11.2.2.1 []
          rw [applyStrict_nil] at h1
          exact PatchOutcome.ok.inj h1
        by_cases hzero : a0 = 0 ∧ b0 = 0
        · -- nothing accumulated: the pair is silently skipped
          obtain ⟨hz1, hz2⟩ := hzero
          subst hz1; subst hz2
          simp only [Nat.add_zero] at hA1 hB1 heq hcs1 hgflagL hgflagR
          simp only [Nat.add_zero] at hcsadv hprevrec hpc hK15
          rw [sliceSeg_self, sliceSeg_self] at hK15
          have hd1v : d1 = [] := by
            rw [hK15, if_neg (by rw [hasChanges_mkHunk]; simp)]
          rw [hd1v] at hloop
          by_cases hfull : a1 = (Lf.drop A).length ∧ b1 = (Rf.drop B).length
          · have hres := diffRest_step_full (Lf.drop A) (Rf.drop B) (B : Int)
              (σ ++ [PathSegment.index (B : Int)]) ((hashCodes Lf o).drop A)
              ((hashCodes Rf o).drop B) common prev o [] a1 b1 cc1 pc1 hloop hfull
            rw [if_pos (by rfl)] at hres
            have hAfin : A + 1 = Lf.length := by
              have := hfull.1
              rw [List.length_drop, hK5] at this
              omega
            have hBfin : B + 1 = Rf.length := by
              have := hfull.2
              rw [List.length_drop, hK6] at this
              omega
            have hcl : Rf.take B ++ Lf.drop A = Rf := by
              rw [cl_skip Lf Rf A B (by omega) (by omega) heq, hAfin, hBfin,
                List.take_length, List.drop_length, List.append_nil]
            refine ⟨[], hres, ?_, ?_, ?_, ?_⟩
            · intro e he
              cases he
            · intro e he
              cases he
            · intro pb
              rw [applyStrict_nil, hcl]
            · intro pb
              rw [show revSwap [] = [] from rfl, applyStrict_nil, hcl]
          · obtain ⟨drest, hrest, hrko, hrkp, hrkf, hrkb⟩ :=
              ihK (A + 1) (B + 1) common
                (if B + 1 = 0 then Node.void else nodeAt Rf (B + 1 - 1))
                (by omega) (by omega) (by omega) hcsadv rfl
            have hrec : diffRest ((Lf.drop A).drop a1) ((Rf.drop B).drop b1) pc1
                (pathNow (σ ++ [PathSegment.index (B : Int)]) pc1)
                (((hashCodes Lf o).drop A).drop a1) (((hashCodes Rf o).drop B).drop b1)
                (common.drop cc1)
                (if b1 = 0 then Node.void else ((Rf.drop B).get? (b1 - 1)).getD .void) o =
                some drest := by
              rw [hprevrec, hK5, hK6, hK7, slice_drop, slice_drop, slice_dropH,
                slice_dropH, pathNow_concat, hpc, List.drop_zero]
              rw [show A + (0 + 1) = A + 1 from by omega,
                show B + (0 + 1) = B + 1 from by omega]
              exact hrest
            have hres := diffRest_step_rec (Lf.drop A) (Rf.drop B) (B : Int)
              (σ ++ [PathSegment.index (B : Int)]) ((hashCodes Lf o).drop A)
              ((hashCodes Rf o).drop B) common prev o [] drest a1 b1 cc1 pc1 hloop hfull
              (by rw [hK5, hK6, List.length_drop, List.length_drop]; omega) hrec
            rw [if_pos (by rfl), List.nil_append] at hres
            have hclstep : Rf.take B ++ Lf.drop A = Rf.take (B + 1) ++ Lf.drop (A + 1) :=
              cl_skip Lf Rf A B (by omega) (by omega) heq
            refine ⟨drest, hres, hrko, hrkp, ?_, ?_⟩
            · intro pb
              rw [hclstep]
              exact hrkf pb
            · intro pb
              rw [hclstep]
              exact hrkb pb
        · -- accumulated changes followed by an equal pair cannot happen
          exfalso
          have hlt1 : A + a0 < (hashCodes Lf o).length := by rw [hashCodes_length]; omega
          have hlt2 : B + b0 < (hashCodes Rf o).length := by rw [hashCodes_length]; omega
          have hv1 : (hashCodes Lf o).get ⟨A + a0, hlt1⟩ =
              (nodeAt Lf (A + a0)).hashCode o := by
            have h2 := getH_global Lf o A a0 hA1
            rw [getH_drop, getH_lt hlt1] at h2
            exact h2
          have hv2 : (hashCodes Rf o).get ⟨B + b0, hlt2⟩ =
              (nodeAt Lf (A + a0)).hashCode o := by
            have h2 := getH_global Rf o B b0 hB1
            rw [getH_drop, getH_lt hlt2] at h2
            rw [h2, heq]
          have hcs2 := hcs1
          rw [List.drop_eq_getElem_cons hlt1, List.drop_eq_getElem_cons hlt2] at hcs2
          rw [show ((hashCodes Lf o)[A + a0] : HashCode) =
            (nodeAt Lf (A + a0)).hashCode o from by simpa using hv1] at hcs2
          rw [show ((hashCodes Rf o)[B + b0] : HashCode) =
            (nodeAt Lf (A + a0)).hashCode o from by simpa using hv2] at hcs2
          refine csmax_heads_ne hcs2 ?_
          cases hcm : common with
          | nil => simp
          | cons c cs =>
            have hne := atCommon_false_ne (by rw [← hcm]; exact hgflagL) hlt1
            rw [getH_lt hlt1, hv1] at hne
            simp only [List.head?_cons, ne_eq, Option.some.injEq]
            exact fun hcu => hne hcu.symm
      · -- a genuine sub-diff below the stop position
        obtain ⟨e1, sd', hsd2⟩ := List.exists_cons_of_ne_nil hsd
        have hmem1 : e1 ∈ sd := by
          rw [hsd2]
          exact List.mem_cons_self e1 sd'
        have hdeok : DiffElemsOk (σ ++ [PathSegment.index ((B + b0 : Nat) : Int)])
            (e1 :: sd') := by
          rw [← hsd2]
          exact hK11.1
        have hchsd : hasChanges sd = true := by
          rw [hsd2]
          exact hasChanges_of_ok hdeok
        have hfirstlong : ¬(e1.path.length ≤
            (σ ++ [PathSegment.index (B : Int)]).length) := by
          intro hle
          have hpre : List.IsPrefix (σ ++ [PathSegment.index ((B + b0 : Nat) : Int)])
              e1.path := (hK11.1 e1 hmem1).2.1
          have hne2 : e1.path ≠ σ ++ [PathSegment.index ((B + b0 : Nat) : Int)] :=
            hK11.2.1 hK9 e1 hmem1
          have hlenp := hpre.length_le
          refine hne2 ?_
          refine (hpre.eq_of_length ?_).symm
          simp only [List.length_append, List.length_singleton] at hle hlenp ⊢
          omega
        by_cases hzero : a0 = 0 ∧ b0 = 0
        · -- no accumulated hunk: the diff is the sub-diff alone
          obtain ⟨hz1, hz2⟩ := hzero
          subst hz1; subst hz2
          simp only [Nat.add_zero] at hA1 hB1 hcsadv hprevrec hpc hK9 hK11 hK15
          rw [sliceSeg_self, sliceSeg_self] at hK15
          have hd1v : d1 = sd := by
            rw [hK15, if_neg (by rw [hasChanges_mkHunk]; simp)]
          rw [hd1v] at hloop
          have helems := sd_elems_ok σ (B : Int) _ _ sd hK11
          have hd2 : (if !hasChanges sd then []
              else if sd.length < 2 then
                mapHead (fun first =>
                  if first.path.length ≤ (σ ++ [PathSegment.index (B : Int)]).length then
                    { first with after := afterContext (Lf.drop A) a1 cc1 }
                  else first) sd
              else sd) = sd := by
            rw [if_neg (by rw [hchsd]; simp)]
            by_cases hl : sd.length < 2
            · rw [if_pos hl]
              have hnil : sd' = [] := by
                cases hsp : sd' with
                | nil => rfl
                | cons u us =>
                  rw [hsd2, hsp] at hl
                  simp only [List.length_cons] at hl
                  omega
              rw [hsd2, hnil]
              simp only [mapHead]
              rw [if_neg hfirstlong]
            · rw [if_neg hl]
          by_cases hfull : a1 = (Lf.drop A).length ∧ b1 = (Rf.drop B).length
          · have hres := diffRest_step_full (Lf.drop A) (Rf.drop B) (B : Int)
              (σ ++ [PathSegment.index (B : Int)]) ((hashCodes Lf o).drop A)
              ((hashCodes Rf o).drop B) common prev o sd a1 b1 cc1 pc1 hloop hfull
            rw [hd2] at hres
            have hAfin : A + 1 = Lf.length := by
              have := hfull.1
              rw [List.length_drop, hK5] at this
              omega
            have hBfin : B + 1 = Rf.length := by
              have := hfull.2
              rw [List.length_drop, hK6] at this
              omega
            refine ⟨sd, hres, helems.1, helems.2, ?_, ?_⟩
            · intro pb
              have hsb := sdblock_forward pb σ Lf Rf A B hA1 hB1 sd hK11 hK9
              rw [hsb, hAfin, hBfin, List.take_length, List.drop_length, List.append_nil]
            · intro pb
              have hsb := sdblock_backward pb σ Lf Rf A B hA1 hB1 sd hK11 hK9
              rw [hAfin, hBfin, List.take_length, List.drop_length, List.append_nil] at hsb
              exact hsb
          · obtain ⟨drest, hrest, hrko, hrkp, hrkf, hrkb⟩ :=
              ihK (A + 1) (B + 1) common
                (if B + 1 = 0 then Node.void else nodeAt Rf (B + 1 - 1))
                (by omega) (by omega) (by omega) hcsadv rfl
            have hrec : diffRest ((Lf.drop A).drop a1) ((Rf.drop B).drop b1) pc1
                (pathNow (σ ++ [PathSegment.index (B : Int)]) pc1)
                (((hashCodes Lf o).drop A).drop a1) (((hashCodes Rf o).drop B).drop b1)
                (common.drop cc1)
                (if b1 = 0 then Node.void else ((Rf.drop B).get? (b1 - 1)).getD .void) o =
                some drest := by
              rw [hprevrec, hK5, hK6, hK7, slice_drop, slice_drop, slice_dropH,
                slice_dropH, pathNow_concat, hpc, List.drop_zero]
              rw [show A + (0 + 1) = A + 1 from by omega,
                show B + (0 + 1) = B + 1 from by omega]
              exact hrest
            have hres := diffRest_step_rec (Lf.drop A) (Rf.drop B) (B : Int)
              (σ ++ [PathSegment.index (B : Int)]) ((hashCodes Lf o).drop A)
              ((hashCodes Rf o).drop B) common prev o sd drest a1 b1 cc1 pc1 hloop hfull
              (by rw [hK5, hK6, List.length_drop, List.length_drop]; omega) hrec
            rw [hd2] at hres
            refine ⟨_, hres, ?_, ?_, ?_, ?_⟩
            · intro e he
              rcases List.mem_append.mp he with h1 | h2
              · exact helems.1 e h1
              · exact hrko e h2
            · intro e he
              rcases List.mem_append.mp he with h1 | h2
              · exact helems.2 e h1
              · exact hrkp e h2
            · intro pb
              rw [applyStrict_append_ok
                (sdblock_forward pb σ Lf Rf A B hA1 hB1 sd hK11 hK9)]
              exact hrkf pb
            · intro pb
              rw [revSwap_append, applyStrict_append_ok (hrkb pb)]
              exact sdblock_backward pb σ Lf Rf A B hA1 hB1 sd hK11 hK9
        · -- changes accumulated before a genuine sub-diff
          have hlen1 : (sliceSeg Lf A (A + a0)).length = a0 := by
            rw [sliceSeg_length Lf A (A + a0) (by omega) (by omega)]
            omega
          have hlen2 : (sliceSeg Rf B (B + b0)).length = b0 := by
            rw [sliceSeg_length Rf B (B + b0) (by omega) (by omega)]
            omega
          have hchH : hasChanges [mkHunk (σ ++ [PathSegment.index (B : Int)]) prev
              (sliceSeg Lf A (A + a0)) (sliceSeg Rf B (B + b0)) []] = true := by
            rw [hasChanges_mkHunk]
            rcases not_and_or.mp hzero with h | h
            · have hne : sliceSeg Lf A (A + a0) ≠ [] := by
                intro h0
                rw [h0] at hlen1
                simp at hlen1
                omega
              have : (sliceSeg Lf A (A + a0)).isEmpty = false := by
                cases hx : sliceSeg Lf A (A + a0) with
                | nil => exact absurd hx hne
                | cons y ys => rfl
              rw [this]
              simp
            · have hne : sliceSeg Rf B (B + b0) ≠ [] := by
                intro h0
                rw [h0] at hlen2
                simp at hlen2
                omega
              have : (sliceSeg Rf B (B + b0)).isEmpty = false := by
                cases hx : sliceSeg Rf B (B + b0) with
                | nil => exact absurd hx hne
                | cons y ys => rfl
              rw [this]
              simp
          have hmk_ne : ¬((sliceSeg Rf B (B + b0)) = [] ∧
              (sliceSeg Lf A (A + a0)) = []) := by
            intro hc
            rcases not_and_or.mp hzero with h | h
            · apply h
              rw [hc.2] at hlen1
              simpa using hlen1.symm
            · apply h
              rw [hc.1] at hlen2
              simpa using hlen2.symm
          have haft : afterContext (Lf.drop A) a0 0 = [nodeAt Lf (A + a0)] := by
            rw [afterContext_at _ _ _ (by rw [List.length_drop]; omega)]
            rw [show a0 - 0 = a0 from rfl, nodeAt_drop]
          have hd1v : d1 = mkHunk (σ ++ [PathSegment.index (B : Int)]) prev
              (sliceSeg Lf A (A + a0)) (sliceSeg Rf B (B + b0))
              [nodeAt Lf (A + a0)] :: sd := by
            rw [hK15, if_pos hchH, haft]
          have hchd1 : hasChanges (mkHunk (σ ++ [PathSegment.index (B : Int)]) prev
              (sliceSeg Lf A (A + a0)) (sliceSeg Rf B (B + b0))
              [nodeAt Lf (A + a0)] :: sd) = true := by
            rw [hasChanges_mkHunk_cons]
            have hchH2 := hchH
            rw [hasChanges_mkHunk] at hchH2
            exact hchH2
          have hd2 : (if !hasChanges d1 then []
              else if d1.length < 2 then
                mapHead (fun first =>
                  if first.path.length ≤ (σ ++ [PathSegment.index (B : Int)]).length then
                    { first with after := afterContext (Lf.drop A) a1 cc1 }
                  else first) d1
              else d1) =
              mkHunk (σ ++ [PathSegment.index (B : Int)]) prev (sliceSeg Lf A (A + a0))
                (sliceSeg Rf B (B + b0)) [nodeAt Lf (A + a0)] :: sd := by
            rw [hd1v]
            rw [if_neg (by rw [hchd1]; simp)]
            rw [if_neg (by rw [hsd2]; simp only [List.length_cons]; omega)]
          have helems := sd_elems_ok σ ((B + b0 : Nat) : Int) _ _ sd hK11
          by_cases hfull : a1 = (Lf.drop A).length ∧ b1 = (Rf.drop B).length
          · have hres := diffRest_step_full (Lf.drop A) (Rf.drop B) (B : Int)
              (σ ++ [PathSegment.index (B : Int)]) ((hashCodes Lf o).drop A)
              ((hashCodes Rf o).drop B) common prev o d1 a1 b1 cc1 pc1 hloop hfull
            rw [hd2] at hres
            have hAfin : A + a0 + 1 = Lf.length := by
              have := hfull.1
              rw [List.length_drop, hK5] at this
              omega
            have hBfin : B + b0 + 1 = Rf.length := by
              have := hfull.2
              rw [List.length_drop, hK6] at this
              omega
            refine ⟨_, hres, ?_, ?_, ?_, ?_⟩
            · intro e he
              rcases List.mem_cons.mp he with he1 | he2
              · subst he1
                exact mkHunk_ok σ (B : Int) prev _ _ _ hmk_ne
              · exact helems.1 e he2
            · intro e he
              rcases List.mem_cons.mp he with he1 | he2
              · subst he1
                exact mkHunk_path_ne σ (B : Int) prev _ _ _
              · exact helems.2 e he2
            · intro pb
              have hp := hunk_forward pb Lf Rf A B (A + a0) (B + b0) prev
                [nodeAt Lf (A + a0)] (by omega) (by omega) (by omega) (by omega)
                hwL hwR hprev hB (Or.inr (Or.inl ⟨rfl, hA1⟩))
              rw [mkHunk_apply pb σ (B : Int) prev _ _ _ _ _ _ hp]
              have hsb := sdblock_forward pb σ Lf Rf (A + a0) (B + b0) hA1 hB1 sd hK11 hK9
              rw [hsb, hAfin, hBfin, List.take_length, List.drop_length, List.append_nil]
            · intro pb
              rw [revSwap_cons]
              have hsb := sdblock_backward pb σ Lf Rf (A + a0) (B + b0) hA1 hB1 sd hK11 hK9
              rw [hAfin, hBfin, List.take_length, List.drop_length, List.append_nil] at hsb
              rw [applyStrict_append_ok hsb, swapE_mkHunk]
              have hp := hunk_backward pb Lf Rf A B (A + a0) (B + b0) prev
                [nodeAt Lf (A + a0)] (by omega) (by omega) (by omega) (by omega)
                hwL hwR hprev (Or.inr (Or.inl ⟨rfl, hA1⟩))
              rw [mkHunk_apply pb σ (B : Int) prev _ _ _ _ _ _ hp, applyStrict_nil]
          · obtain ⟨drest, hrest, hrko, hrkp, hrkf, hrkb⟩ :=
              ihK (A + a0 + 1) (B + b0 + 1) common
                (if B + b0 + 1 = 0 then Node.void else nodeAt Rf (B + b0 + 1 - 1))
                (by omega) (by omega) (by omega) hcsadv rfl
            have hrec : diffRest ((Lf.drop A).drop a1) ((Rf.drop B).drop b1) pc1
                (pathNow (σ ++ [PathSegment.index (B : Int)]) pc1)
                (((hashCodes Lf o).drop A).drop a1) (((hashCodes Rf o).drop B).drop b1)
                (common.drop cc1)
                (if b1 = 0 then Node.void else ((Rf.drop B).get? (b1 - 1)).getD .void) o =
                some drest := by
              rw [hprevrec, hK5, hK6, hK7, slice_drop, slice_drop, slice_dropH,
                slice_dropH, pathNow_concat, hpc, List.drop_zero]
              rw [show A + (a0 + 1) = A + a0 + 1 from by omega,
                show B + (b0 + 1) = B + b0 + 1 from by omega]
              exact hrest
            have hres := diffRest_step_rec (Lf.drop A) (Rf.drop B) (B : Int)
              (σ ++ [PathSegment.index (B : Int)]) ((hashCodes Lf o).drop A)
              ((hashCodes Rf o).drop B) common prev o d1 drest a1 b1 cc1 pc1 hloop hfull
              (by rw [hK5, hK6, List.length_drop, List.length_drop]; omega) hrec
            rw [hd2] at hres
            refine ⟨_, hres, ?_, ?_, ?_, ?_⟩
            · intro e he
              rw [List.cons_append, List.mem_cons] at he
              rcases he with he1 | he2
              · subst he1
                exact mkHunk_ok σ (B : Int) prev _ _ _ hmk_ne
              · rcases List.mem_append.mp he2 with h1 | h2
                · exact helems.1 e h1
                · exact hrko e h2
            · intro e he
              rw [List.cons_append, List.mem_cons] at he
              rcases he with he1 | he2
              · subst he1
                exact mkHunk_path_ne σ (B : Int) prev _ _ _
              · rcases List.mem_append.mp he2 with h1 | h2
                · exact helems.2 e h1
                · exact hrkp e h2
            · intro pb
              rw [List.cons_append]
              have hp := hunk_forward pb Lf Rf A B (A + a0) (B + b0) prev
                [nodeAt Lf (A + a0)] (by omega) (by omega) (by omega) (by omega)
                hwL hwR hprev hB (Or.inr (Or.inl ⟨rfl, hA1⟩))
              rw [mkHunk_apply pb σ (B : Int) prev _ _ _ _ _ _ hp]
              rw [applyStrict_append_ok
                (sdblock_forward pb σ Lf Rf (A + a0) (B + b0) hA1 hB1 sd hK11 hK9)]
              exact hrkf pb
            · intro pb
              rw [List.cons_append, revSwap_cons, revSwap_append, List.append_assoc]
              rw [applyStrict_append_ok (hrkb pb)]
              rw [applyStrict_append_ok
                (sdblock_backward pb σ Lf Rf (A + a0) (B + b0) hA1 hB1 sd hK11 hK9)]
              rw [swapE_mkHunk]
              have hp := hunk_backward pb Lf Rf A B (A + a0) (B + b0) prev
                [nodeAt Lf (A + a0)] (by omega) (by omega) (by omega) (by omega)
                hwL hwR hprev (Or.inr (Or.inl ⟨rfl, hA1⟩))
              rw [mkHunk_apply pb σ (B : Int) prev _ _ _ _ _ _ hp, applyStrict_nil]
/-! ## Object diff groundwork -/

/-- Well-formed nodes are not `Void`. -/
theorem is_void_of_wf {v : Node} (h : v.wf = true) : is_void v = false := by
  cases v with
  | void => simp [Node.wf] at h
  | null => rfl
  | bool b => rfl
  | num x => rfl
  | str s => rfl
  | arr l => rfl
  | obj m => rfl

/-- Every key of a sorted key list is a well-formed byte string. -/
theorem keysSorted_strWf {ks : List Str} (h : keysSorted ks = true) :
    ∀ k ∈ ks, strWf k = true := by
  induction ks with
  | nil => intro k hk; cases hk
  | cons k0 rest ih =>
    intro k hk
    have hw0 : strWf k0 = true := by
      cases rest with
      | nil => exact h
      | cons k1 r2 =>
        rw [keysSorted] at h
        simp only [Bool.and_eq_true] at h
        exact h.1.1
    rcases List.mem_cons.mp hk with rfl | hk2
    · exact hw0
    · exact ih (keysSorted_tail h) k hk2

/-- The head of a sorted key list does not recur in the tail. -/
theorem keysSorted_head_not_mem {k : Str} {ks : List Str}
    (h : keysSorted (k :: ks) = true) : k ∉ ks := by
  intro hmem
  have hp := keysSorted_pairwise _ h
  have hlt := (List.pairwise_cons.mp hp).1 k hmem
  exact bytesLt_ne hlt rfl

/-- A present key has a value. -/
theorem objGet_isSome_of_mem {m : List (Str × Node)} {k : Str}
    (h : k ∈ m.map Prod.fst) : (objGet m k).isSome = true := by
  induction m with
  | nil => cases h
  | cons kv rest ih =>
    obtain ⟨k0, v0⟩ := kv
    rw [objGet]
    by_cases hk : k0 = k
    · rw [if_pos hk]; rfl
    · rw [if_neg hk]
      rcases List.mem_cons.mp h with h1 | h2
      · exact absurd h1.symm hk
      · exact ih h2

/-- An absent key has no value. -/
theorem objGet_none_of_not_mem {m : List (Str × Node)} {k : Str}
    (h : k ∉ m.map Prod.fst) : objGet m k = none := by
  cases hg : objGet m k with
  | none => rfl
  | some v => exact absurd (objGet_some_mem m k v hg) h

/-- Lookup returns an actual entry. -/
theorem objGet_mem_pair {m : List (Str × Node)} {k : Str} {v : Node}
    (h : objGet m k = some v) : (k, v) ∈ m := by
  induction m with
  | nil => cases h
  | cons kv rest ih =>
    obtain ⟨k0, v0⟩ := kv
    rw [objGet] at h
    by_cases hk : k0 = k
    · rw [if_pos hk] at h
      cases h
      subst hk
      exact List.mem_cons_self _ _
    · rw [if_neg hk] at h
      exact List.mem_cons_of_mem _ (ih h)

/-- Sorting an already sorted key list is the identity. -/
theorem sortBy_of_keysSorted {ks : List Str} (h : keysSorted ks = true) :
    sortBy bytesLe ks = ks := by
  refine List.eq_of_perm_of_sorted (sortBy_perm ks) (sortBy_sorted ks) ?_
  exact (keysSorted_pairwise ks h).imp (fun hab => bytesLe_of_lt hab)

/-- Splitting a path that passes through a key segment. -/
theorem keyblock_path {σ : Path} {kk : Str} {e : DiffElement}
    (hpre : List.IsPrefix (σ ++ [PathSegment.key kk]) e.path) :
    e.path.drop σ.length = PathSegment.key kk :: e.path.drop (σ.length + 1) := by
  obtain ⟨t, ht⟩ := hpre
  have hp2 : e.path = σ ++ (PathSegment.key kk :: t) := by
    rw [← ht, List.append_assoc]
    rfl
  have hd1 : e.path.drop σ.length = PathSegment.key kk :: t := by
    rw [hp2]
    exact List.drop_left σ _
  have hd2 : e.path.drop (σ.length + 1) = t := by
    rw [← ht, show σ.length + 1 = (σ ++ [PathSegment.key kk]).length from by simp]
    exact List.drop_left _ _
  rw [hd1, hd2]

/-- A path below a key segment differs from the base path. -/
theorem keypath_ne {σ : Path} {kk : Str} {e : DiffElement}
    (hpre : List.IsPrefix (σ ++ [PathSegment.key kk]) e.path) : e.path ≠ σ := by
  intro h0
  have hle := hpre.length_le
  rw [h0, List.length_append, List.length_singleton] at hle
  omega

/-- The lhs walk on no keys. -/
theorem diffObjLhsLoop_nil (l r : List (Str × Node)) (σ : Path) (o : DiffOptions) :
    diffObjLhsLoop l r σ o [] = some [] := by
  rw [diffObjLhsLoop]

/-- One step of the lhs walk at a shared key. -/
theorem diffObjLhsLoop_shared (l r : List (Str × Node)) (σ : Path) (o : DiffOptions)
    (k : Str) (ks : List Str) (value other : Node) (sub rest : List DiffElement)
    (hv : objGet l k = some value) (hw : objGet r k = some other)
    (hsub : diffImpl value other (σ ++ [PathSegment.key k]) o = some sub)
    (hrest : diffObjLhsLoop l r σ o ks = some rest) :
    diffObjLhsLoop l r σ o (k :: ks) = some (sub ++ rest) := by
  rw [diffObjLhsLoop]
  split
  · next heq => rw [hv] at heq; cases heq
  · next value2 heq =>
    rw [hv] at heq
    cases heq
    split
    · next other2 heq2 =>
      rw [hw] at heq2
      cases heq2
      rw [hsub, hrest]
    · next heq2 => rw [hw] at heq2; cases heq2

/-- One step of the lhs walk at an lhs-only key. -/
theorem diffObjLhsLoop_remove (l r : List (Str × Node)) (σ : Path) (o : DiffOptions)
    (k : Str) (ks : List Str) (value : Node) (rest : List DiffElement)
    (hv : objGet l k = some value) (hw : objGet r k = none)
    (hrest : diffObjLhsLoop l r σ o ks = some rest) :
    diffObjLhsLoop l r σ o (k :: ks) =
      some ({ path := σ ++ [PathSegment.key k], remove := [value] } :: rest) := by
  rw [diffObjLhsLoop]
  split
  · next heq => rw [hv] at heq; cases heq
  · next value2 heq =>
    rw [hv] at heq
    cases heq
    split
    · next other2 heq2 => rw [hw] at heq2; cases heq2
    · next heq2 =>
      rw [hrest]

/-- `diff_objects` in terms of its two walks. -/
theorem diffObjects_eq (l r : List (Str × Node)) (σ : Path) (o : DiffOptions)
    (es : List DiffElement)
    (hlhs : diffObjLhsLoop l r σ o (sortBy bytesLe (l.map Prod.fst)) = some es) :
    diffObjects l r σ o =
      some (es ++ diffObjAddsLoop l r σ (sortBy bytesLe (r.map Prod.fst))) := by
  rw [diffObjects, hlhs]

/-- Inserting a fresh key through one add element. -/
theorem applyStrict_obj_insert (pb : List PathSegment) (σ : Path)
    (m : List (Str × Node)) (kk : Str) (w : Node) (rest : List DiffElement)
    (hg : objGet m kk = none) :
    applyStrict pb σ.length (.obj m)
        ({ path := σ ++ [PathSegment.key kk], add := [w] } :: rest) =
      applyStrict pb σ.length (.obj (objSet m kk w)) rest := by
  rw [applyStrict]
  simp only [List.drop_left]
  rw [patchElement_obj_nav, hg, Option.getD_none,
    patchElement_add_void _ _ (by simp)]
  rfl

/-- Deleting a key through one remove element. -/
theorem applyStrict_obj_delete (pb : List PathSegment) (σ : Path)
    (m : List (Str × Node)) (kk : Str) (v : Node) (rest : List DiffElement)
    (hg : objGet m kk = some v) (hwv : v.wf = true) :
    applyStrict pb σ.length (.obj m)
        ({ path := σ ++ [PathSegment.key kk], remove := [v] } :: rest) =
      applyStrict pb σ.length (.obj (objSet m kk .void)) rest := by
  rw [applyStrict]
  simp only [List.drop_left]
  rw [patchElement_obj_nav, hg, Option.getD_some,
    patchElement_replace _ _ _ (by simp) (beqNode_refl hwv)]
  rfl

/-- The additions walk: element shape, forward action, backward action. -/
theorem diffObjAddsLoop_spec (l r : List (Str × Node)) (σ : Path)
    (hvr : wfVals r = true) :
    ∀ ks : List Str, keysSorted ks = true →
      (∀ k ∈ ks, k ∈ r.map Prod.fst) →
      (∀ e ∈ diffObjAddsLoop l r σ ks,
        e.metadata = none ∧ List.IsPrefix σ e.path ∧ ¬(e.add = [] ∧ e.remove = []) ∧
        e.path ≠ σ) ∧
      (∀ m : List (Str × Node), keysSorted (m.map Prod.fst) = true →
        (∀ k ∈ ks, objGet l k = none → objGet m k = none) →
        ∃ m2, (∀ pb, applyStrict pb σ.length (.obj m) (diffObjAddsLoop l r σ ks) =
            .ok (.obj m2)) ∧
          keysSorted (m2.map Prod.fst) = true ∧
          (∀ k ∈ ks, objGet l k = none → objGet m2 k = objGet r k) ∧
          (∀ k, (k ∉ ks ∨ (objGet l k).isSome = true) → objGet m2 k = objGet m k)) ∧
      (∀ m : List (Str × Node), keysSorted (m.map Prod.fst) = true →
        (∀ k ∈ ks, objGet l k = none → objGet m k = objGet r k) →
        ∃ m2, (∀ pb, applyStrict pb σ.length (.obj m)
            (revSwap (diffObjAddsLoop l r σ ks)) = .ok (.obj m2)) ∧
          keysSorted (m2.map Prod.fst) = true ∧
          (∀ k ∈ ks, objGet l k = none → objGet m2 k = none) ∧
          (∀ k, (k ∉ ks ∨ (objGet l k).isSome = true) → objGet m2 k = objGet m k)) := by
  intro ks
  induction ks with
  | nil =>
    intro hks hmem
    refine ⟨?_, ?_, ?_⟩
    · intro e he
      rw [diffObjAddsLoop] at he
      cases he
    · intro m hs hinv
      refine ⟨m, ?_, hs, ?_, ?_⟩
      · intro pb
        rw [diffObjAddsLoop, applyStrict]
      · intro k hk
        cases hk
      · intro k hk
        rfl
    · intro m hs hinv
      refine ⟨m, ?_, hs, ?_, ?_⟩
      · intro pb
        rw [diffObjAddsLoop]
        rw [show revSwap [] = [] from rfl, applyStrict]
      · intro k hk
        cases hk
      · intro k hk
        rfl
  | cons k0 ks2 ih =>
    intro hks hmem
    have hks2 : keysSorted ks2 = true := keysSorted_tail hks
    have hnm : k0 ∉ ks2 := keysSorted_head_not_mem hks
    have hmem2 : ∀ k ∈ ks2, k ∈ r.map Prod.fst := fun k hk => hmem k (by simp [hk])
    have hwk0 : strWf k0 = true := keysSorted_strWf hks k0 (by simp)
    obtain ⟨helem2, hfwd2, hbwd2⟩ := ih hks2 hmem2
    by_cases hl0 : (objGet l k0).isSome = true
    · -- shared key: nothing is emitted
      have hstep : diffObjAddsLoop l r σ (k0 :: ks2) = diffObjAddsLoop l r σ ks2 := by
        rw [diffObjAddsLoop, if_pos hl0]
      refine ⟨?_, ?_, ?_⟩
      · intro e he
        rw [hstep] at he
        exact helem2 e he
      · intro m hs hinv
        obtain ⟨m2, hap, hs2, hset, hkeep⟩ :=
          hfwd2 m hs (fun k hk => hinv k (by simp [hk]))
        refine ⟨m2, ?_, hs2, ?_, ?_⟩
        · intro pb
          rw [hstep]
          exact hap pb
        · intro k hk hnone
          rcases List.mem_cons.mp hk with rfl | hk2
          · rw [hnone] at hl0
            cases hl0
          · exact hset k hk2 hnone
        · intro k hk
          refine hkeep k ?_
          rcases hk with hk1 | hk2
          · exact Or.inl (fun hc => hk1 (by simp [hc]))
          · exact Or.inr hk2
      · intro m hs hinv
        obtain ⟨m2, hap, hs2, hset, hkeep⟩ :=
          hbwd2 m hs (fun k hk => hinv k (by simp [hk]))
        refine ⟨m2, ?_, hs2, ?_, ?_⟩
        · intro pb
          rw [hstep]
          exact hap pb
        · intro k hk hnone
          rcases List.mem_cons.mp hk with rfl | hk2
          · rw [hnone] at hl0
            cases hl0
          · exact hset k hk2 hnone
        · intro k hk
          refine hkeep k ?_
          rcases hk with hk1 | hk2
          · exact Or.inl (fun hc => hk1 (by simp [hc]))
          · exact Or.inr hk2
    · -- rhs-only key: one add element, then the rest
      have hl0n : objGet l k0 = none := by
        cases hq : objGet l k0 with
        | none => rfl
        | some v => rw [hq] at hl0; simp at hl0
      obtain ⟨w0, hw0⟩ : ∃ w0, objGet r k0 = some w0 := by
        have := objGet_isSome_of_mem (hmem k0 (by simp))
        cases hq : objGet r k0 with
        | none => rw [hq] at this; cases this
        | some w => exact ⟨w, rfl⟩
      have hww : w0.wf = true := wfVals_mem hvr (objGet_mem_pair hw0)
      have hwnv : is_void w0 = false := is_void_of_wf hww
      have hstep : diffObjAddsLoop l r σ (k0 :: ks2) =
          { path := σ ++ [PathSegment.key k0], add := [(objGet r k0).getD .void] }
            :: diffObjAddsLoop l r σ ks2 := by
        rw [diffObjAddsLoop, if_neg hl0]
      rw [hw0, Option.getD_some] at hstep
      refine ⟨?_, ?_, ?_⟩
      · intro e he
        rw [hstep] at he
        rcases List.mem_cons.mp he with rfl | he2
        · refine ⟨rfl, ⟨[PathSegment.key k0], rfl⟩, by simp, ?_⟩
          exact @keypath_ne σ k0 _ ⟨[], by simp⟩
        · exact helem2 e he2
      · intro m hs hinv
        have hmk0 : objGet m k0 = none := hinv k0 (by simp) hl0n
        have hs1 : keysSorted ((objSet m k0 w0).map Prod.fst) = true :=
          objSet_sorted m k0 w0 hs hwk0
        obtain ⟨m2, hap, hs2, hset, hkeep⟩ :=
          hfwd2 (objSet m k0 w0) hs1 (fun k hk hkn => by
            rw [objGet_objSet_other m k0 k w0
              (fun hc => hnm (hc ▸ hk))]
            exact hinv k (by simp [hk]) hkn)
        refine ⟨m2, ?_, hs2, ?_, ?_⟩
        · intro pb
          rw [hstep, applyStrict_obj_insert pb σ m k0 w0 _ hmk0]
          exact hap pb
        · intro k hk hnone
          rcases List.mem_cons.mp hk with rfl | hk2
          · rw [hkeep k (Or.inl hnm), objGet_objSet_self m k w0 (keysSorted_nodup _ hs),
              if_neg (by rw [hwnv]; simp), hw0]
          · exact hset k hk2 hnone
        · intro k hk
          have hkk0 : k ≠ k0 := by
            rcases hk with hk1 | hk2
            · exact fun hc => hk1 (by simp [hc])
            · intro hc
              rw [hc, hl0n] at hk2
              cases hk2
          rw [hkeep k (by
            rcases hk with hk1 | hk2
            · exact Or.inl (fun hc => hk1 (by simp [hc]))
            · exact Or.inr hk2)]
          exact objGet_objSet_other m k0 k w0 (fun hc => hkk0 hc.symm)
      · intro m hs hinv
        obtain ⟨m2, hap, hs2, hset, hkeep⟩ :=
          hbwd2 m hs (fun k hk hkn => hinv k (by simp [hk]) hkn)
        have hm2k0 : objGet m2 k0 = some w0 := by
          rw [hkeep k0 (Or.inl hnm), hinv k0 (by simp) hl0n, hw0]
        have hs3 : keysSorted ((objSet m2 k0 .void).map Prod.fst) = true :=
          objSet_sorted m2 k0 .void hs2 hwk0
        refine ⟨objSet m2 k0 .void, ?_, hs3, ?_, ?_⟩
        · intro pb
          rw [hstep, revSwap_cons]
          rw [applyStrict_append_ok (hap pb)]
          rw [show swapE { path := σ ++ [PathSegment.key k0], add := [w0] } =
            { path := σ ++ [PathSegment.key k0], remove := [w0] } from rfl]
          rw [applyStrict_obj_delete pb σ m2 k0 w0 [] hm2k0 hww]
          rw [applyStrict]
        · intro k hk hnone
          rcases List.mem_cons.mp hk with rfl | hk2
          · rw [objGet_objSet_self m2 k .void (keysSorted_nodup _ hs2)]
            rfl
          · rw [objGet_objSet_other m2 k0 k .void (fun hc => hnm (hc ▸ hk2))]
            exact hset k hk2 hnone
        · intro k hk
          have hkk0 : k ≠ k0 := by
            rcases hk with hk1 | hk2
            · exact fun hc => hk1 (by simp [hc])
            · intro hc
              rw [hc, hl0n] at hk2
              cases hk2
          rw [objGet_objSet_other m2 k0 k .void (fun hc => hkk0 hc.symm)]
          refine hkeep k ?_
          rcases hk with hk1 | hk2
          · exact Or.inl (fun hc => hk1 (by simp [hc]))
          · exact Or.inr hk2

/-- The lhs walk: success, element shape, forward action, backward action. -/
theorem diffObjLhsLoop_spec (l r : List (Str × Node)) (σ : Path) (o : DiffOptions)
    (hvl : wfVals l = true) (hvr : wfVals r = true)
    (hsubdiff : ∀ k value other, objGet l k = some value → objGet r k = some other →
      ∃ sub, diffImpl value other (σ ++ [PathSegment.key k]) o = some sub ∧
        DiffOk (σ ++ [PathSegment.key k]) value other sub) :
    ∀ ks : List Str, keysSorted ks = true →
      (∀ k ∈ ks, k ∈ l.map Prod.fst) →
      ∃ es, diffObjLhsLoop l r σ o ks = some es ∧
        (∀ e ∈ es, e.metadata = none ∧ List.IsPrefix σ e.path ∧
          ¬(e.add = [] ∧ e.remove = []) ∧ e.path ≠ σ) ∧
        (∀ m : List (Str × Node), keysSorted (m.map Prod.fst) = true →
          (∀ k ∈ ks, objGet m k = objGet l k) →
          ∃ m2, (∀ pb, applyStrict pb σ.length (.obj m) es = .ok (.obj m2)) ∧
            keysSorted (m2.map Prod.fst) = true ∧
            (∀ k ∈ ks, objGet m2 k = objGet r k) ∧
            (∀ k, k ∉ ks → objGet m2 k = objGet m k)) ∧
        (∀ m : List (Str × Node), keysSorted (m.map Prod.fst) = true →
          (∀ k ∈ ks, objGet m k = objGet r k) →
          ∃ m2, (∀ pb, applyStrict pb σ.length (.obj m) (revSwap es) = .ok (.obj m2)) ∧
            keysSorted (m2.map Prod.fst) = true ∧
            (∀ k ∈ ks, objGet m2 k = objGet l k) ∧
            (∀ k, k ∉ ks → objGet m2 k = objGet m k)) := by
  intro ks
  induction ks with
  | nil =>
    intro hks hmem
    refine ⟨[], diffObjLhsLoop_nil l r σ o, ?_, ?_, ?_⟩
    · intro e he
      cases he
    · intro m hs hinv
      exact ⟨m, fun pb => rfl, hs, fun k hk => absurd hk (List.not_mem_nil k),
        fun k hk => rfl⟩
    · intro m hs hinv
      exact ⟨m, fun pb => rfl, hs, fun k hk => absurd hk (List.not_mem_nil k),
        fun k hk => rfl⟩
  | cons k0 ks2 ih =>
    intro hks hmem
    have hks2 : keysSorted ks2 = true := keysSorted_tail hks
    have hnm : k0 ∉ ks2 := keysSorted_head_not_mem hks
    have hmem2 : ∀ k ∈ ks2, k ∈ l.map Prod.fst := fun k hk => hmem k (by simp [hk])
    have hwk0 : strWf k0 = true := keysSorted_strWf hks k0 (by simp)
    obtain ⟨value, hv⟩ : ∃ v, objGet l k0 = some v := by
      have := objGet_isSome_of_mem (hmem k0 (by simp))
      cases hq : objGet l k0 with
      | none => rw [hq] at this; cases this
      | some v => exact ⟨v, rfl⟩
    have hwv : value.wf = true := wfVals_mem hvl (objGet_mem_pair hv)
    obtain ⟨rest, hrest, helem2, hfwd2, hbwd2⟩ := ih hks2 hmem2
    cases hw : objGet r k0 with
    | some other =>
      have hwo : other.wf = true := wfVals_mem hvr (objGet_mem_pair hw)
      obtain ⟨sub, hsub, hsubok⟩ := hsubdiff k0 value other hv hw
      refine ⟨sub ++ rest,
        diffObjLhsLoop_shared l r σ o k0 ks2 value other sub rest hv hw hsub hrest,
        ?_, ?_, ?_⟩
      · intro e he
        rcases List.mem_append.mp he with h1 | h2
        · obtain ⟨hm, hp, hne⟩ := hsubok.1 e h1
          exact ⟨hm, List.IsPrefix.trans ⟨[PathSegment.key k0], rfl⟩ hp, hne,
            keypath_ne hp⟩
        · exact helem2 e h2
      · intro m hs hinv
        have hm0 : objGet m k0 = some value := by rw [hinv k0 (by simp), hv]
        have hchunk : ∀ pb, applyStrict pb σ.length (.obj m) sub =
            .ok (.obj (objSet m k0 other)) := by
          intro pb
          refine applyStrict_obj_comp pb σ.length k0 sub other m hs hwk0 ?_ ?_ ?_
          · intro v hvv
            rw [hm0] at hvv
            cases hvv
            exact is_void_of_wf hwv
          · intro e he
            exact keyblock_path (hsubok.1 e he).2.1
          · rw [hm0, Option.getD_some]
            have happ := hsubok.2.2.1 (pb ++ [PathSegment.key k0])
            rw [show (σ ++ [PathSegment.key k0]).length = σ.length + 1 from by simp]
              at happ
            exact happ
        have hs1 : keysSorted ((objSet m k0 other).map Prod.fst) = true :=
          objSet_sorted m k0 other hs hwk0
        have hinv1 : ∀ k ∈ ks2, objGet (objSet m k0 other) k = objGet l k := by
          intro k hk
          rw [objGet_objSet_other m k0 k other (fun hc => hnm (hc ▸ hk))]
          exact hinv k (by simp [hk])
        obtain ⟨m2, hap, hs2, hset, hkeep⟩ := hfwd2 (objSet m k0 other) hs1 hinv1
        refine ⟨m2, ?_, hs2, ?_, ?_⟩
        · intro pb
          rw [applyStrict_append_ok (hchunk pb)]
          exact hap pb
        · intro k hk
          rcases List.mem_cons.mp hk with rfl | hk2
          · rw [hkeep k hnm, objGet_objSet_self m k other (keysSorted_nodup _ hs),
              if_neg (by rw [is_void_of_wf hwo]; simp), hw]
          · exact hset k hk2
        · intro k hk
          have hkk0 : k ≠ k0 := fun hc => hk (by simp [hc])
          rw [hkeep k (fun hc => hk (by simp [hc]))]
          exact objGet_objSet_other m k0 k other (fun hc => hkk0 hc.symm)
      · intro m hs hinv
        obtain ⟨m2, hap, hs2, hset, hkeep⟩ :=
          hbwd2 m hs (fun k hk => hinv k (by simp [hk]))
        have hm20 : objGet m2 k0 = some other := by
          rw [hkeep k0 hnm, hinv k0 (by simp), hw]
        have hchunk : ∀ pb, applyStrict pb σ.length (.obj m2) (revSwap sub) =
            .ok (.obj (objSet m2 k0 value)) := by
          intro pb
          refine applyStrict_obj_comp pb σ.length k0 (revSwap sub) value m2 hs2 hwk0
            ?_ ?_ ?_
          · intro v hvv
            rw [hm20] at hvv
            cases hvv
            exact is_void_of_wf hwo
          · intro e he
            obtain ⟨e0, he0, hswap⟩ := mem_revSwap he
            have hpath : e.path = e0.path := by rw [hswap]; rfl
            rw [hpath]
            exact keyblock_path (hsubok.1 e0 he0).2.1
          · rw [hm20, Option.getD_some]
            have happ := hsubok.2.2.2 (pb ++ [PathSegment.key k0])
            rw [show (σ ++ [PathSegment.key k0]).length = σ.length + 1 from by simp]
              at happ
            exact happ
        have hs3 : keysSorted ((objSet m2 k0 value).map Prod.fst) = true :=
          objSet_sorted m2 k0 value hs2 hwk0
        refine ⟨objSet m2 k0 value, ?_, hs3, ?_, ?_⟩
        · intro pb
          rw [revSwap_append, applyStrict_append_ok (hap pb)]
          exact hchunk pb
        · intro k hk
          rcases List.mem_cons.mp hk with rfl | hk2
          · rw [objGet_objSet_self m2 k value (keysSorted_nodup _ hs2),
              if_neg (by rw [is_void_of_wf hwv]; simp), hv]
          · rw [objGet_objSet_other m2 k0 k value (fun hc => hnm (hc ▸ hk2))]
            exact hset k hk2
        · intro k hk
          have hkk0 : k ≠ k0 := fun hc => hk (by simp [hc])
          rw [objGet_objSet_other m2 k0 k value (fun hc => hkk0 hc.symm)]
          exact hkeep k (fun hc => hk (by simp [hc]))
    | none =>
      refine ⟨{ path := σ ++ [PathSegment.key k0], remove := [value] } :: rest,
        diffObjLhsLoop_remove l r σ o k0 ks2 value rest hv hw hrest, ?_, ?_, ?_⟩
      · intro e he
        rcases List.mem_cons.mp he with rfl | he2
        · refine ⟨rfl, ⟨[PathSegment.key k0], rfl⟩, by simp, ?_⟩
          exact @keypath_ne σ k0 _ ⟨[], by simp⟩
        · exact helem2 e he2
      · intro m hs hinv
        have hm0 : objGet m k0 = some value := by rw [hinv k0 (by simp), hv]
        have hs1 : keysSorted ((objSet m k0 .void).map Prod.fst) = true :=
          objSet_sorted m k0 .void hs hwk0
        have hinv1 : ∀ k ∈ ks2, objGet (objSet m k0 .void) k = objGet l k := by
          intro k hk
          rw [objGet_objSet_other m k0 k .void (fun hc => hnm (hc ▸ hk))]
          exact hinv k (by simp [hk])
        obtain ⟨m2, hap, hs2, hset, hkeep⟩ := hfwd2 (objSet m k0 .void) hs1 hinv1
        refine ⟨m2, ?_, hs2, ?_, ?_⟩
        · intro pb
          rw [applyStrict_obj_delete pb σ m k0 value rest hm0 hwv]
          exact hap pb
        · intro k hk
          rcases List.mem_cons.mp hk with rfl | hk2
          · rw [hkeep k hnm, objGet_objSet_self m k .void (keysSorted_nodup _ hs), hw]
            rfl
          · exact hset k hk2
        · intro k hk
          have hkk0 : k ≠ k0 := fun hc => hk (by simp [hc])
          rw [hkeep k (fun hc => hk (by simp [hc]))]
          exact objGet_objSet_other m k0 k .void (fun hc => hkk0 hc.symm)
      · intro m hs hinv
        obtain ⟨m2, hap, hs2, hset, hkeep⟩ :=
          hbwd2 m hs (fun k hk => hinv k (by simp [hk]))
        have hm20 : objGet m2 k0 = none := by
          rw [hkeep k0 hnm, hinv k0 (by simp), hw]
        have hs3 : keysSorted ((objSet m2 k0 value).map Prod.fst) = true :=
          objSet_sorted m2 k0 value hs2 hwk0
        refine ⟨objSet m2 k0 value, ?_, hs3, ?_, ?_⟩
        · intro pb
          rw [revSwap_cons, applyStrict_append_ok (hap pb)]
          rw [show swapE { path := σ ++ [PathSegment.key k0], remove := [value] } =
            { path := σ ++ [PathSegment.key k0], add := [value] } from rfl]
          rw [applyStrict_obj_insert pb σ m2 k0 value [] hm20]
          rw [applyStrict]
        · intro k hk
          rcases List.mem_cons.mp hk with rfl | hk2
          · rw [objGet_objSet_self m2 k value (keysSorted_nodup _ hs2),
              if_neg (by rw [is_void_of_wf hwv]; simp), hv]
          · rw [objGet_objSet_other m2 k0 k value (fun hc => hnm (hc ▸ hk2))]
            exact hset k hk2
        · intro k hk
          have hkk0 : k ≠ k0 := fun hc => hk (by simp [hc])
          rw [objGet_objSet_other m2 k0 k value (fun hc => hkk0 hc.symm)]
          exact hkeep k (fun hc => hk (by simp [hc]))

/-- `diff_objects` meets the round-trip specification. -/
theorem diffObjects_spec (l r : List (Str × Node)) (σ : Path) (o : DiffOptions)
    (hsl : keysSorted (l.map Prod.fst) = true) (hvl : wfVals l = true)
    (hsr : keysSorted (r.map Prod.fst) = true) (hvr : wfVals r = true)
    (hsubdiff : ∀ k value other, objGet l k = some value → objGet r k = some other →
      ∃ sub, diffImpl value other (σ ++ [PathSegment.key k]) o = some sub ∧
        DiffOk (σ ++ [PathSegment.key k]) value other sub) :
    ∃ d, diffObjects l r σ o = some d ∧ DiffOk σ (.obj l) (.obj r) d := by
  obtain ⟨es, hlhs, helems, hfwd, hbwd⟩ :=
    diffObjLhsLoop_spec l r σ o hvl hvr hsubdiff (l.map Prod.fst) hsl (fun k hk => hk)
  obtain ⟨helemsA, hfwdA, hbwdA⟩ :=
    diffObjAddsLoop_spec l r σ hvr (r.map Prod.fst) hsr (fun k hk => hk)
  have hd : diffObjects l r σ o =
      some (es ++ diffObjAddsLoop l r σ (r.map Prod.fst)) := by
    rw [diffObjects_eq l r σ o es (by rw [sortBy_of_keysSorted hsl]; exact hlhs),
      sortBy_of_keysSorted hsr]
  obtain ⟨m1, hap1, hs1, hset1, hkeep1⟩ := hfwd l hsl (fun k hk => rfl)
  obtain ⟨m2, hap2, hs2, hset2, hkeep2⟩ := hfwdA m1 hs1 (fun k hk hn => by
    have hknl : k ∉ l.map Prod.fst := fun hc => by
      have hq := objGet_isSome_of_mem hc
      rw [hn] at hq
      cases hq
    rw [hkeep1 k hknl, hn])
  have hm2r : m2 = r := by
    refine objExt m2 r hs2 hsr ?_
    intro k
    by_cases hkl : k ∈ l.map Prod.fst
    · rw [hkeep2 k (Or.inr (objGet_isSome_of_mem hkl))]
      exact hset1 k hkl
    · by_cases hkr : k ∈ r.map Prod.fst
      · exact hset2 k hkr (objGet_none_of_not_mem hkl)
      · rw [hkeep2 k (Or.inl hkr), hkeep1 k hkl, objGet_none_of_not_mem hkl,
          objGet_none_of_not_mem hkr]
  obtain ⟨m1b, hap1b, hs1b, hset1b, hkeep1b⟩ := hbwdA r hsr (fun k hk hn => rfl)
  obtain ⟨m2b, hap2b, hs2b, hset2b, hkeep2b⟩ := hbwd m1b hs1b (fun k hk => by
    rw [hkeep1b k (Or.inr (objGet_isSome_of_mem hk))])
  have hm2l : m2b = l := by
    refine objExt m2b l hs2b hsl ?_
    intro k
    by_cases hkl : k ∈ l.map Prod.fst
    · exact hset2b k hkl
    · rw [hkeep2b k hkl, objGet_none_of_not_mem hkl]
      by_cases hkr : k ∈ r.map Prod.fst
      · exact hset1b k hkr (objGet_none_of_not_mem hkl)
      · rw [hkeep1b k (Or.inl hkr), objGet_none_of_not_mem hkr]
  refine ⟨es ++ diffObjAddsLoop l r σ (r.map Prod.fst), hd, ?_, ?_, ?_, ?_⟩
  · intro e he
    rcases List.mem_append.mp he with h1 | h2
    · obtain ⟨ha, hb, hc, _⟩ := helems e h1
      exact ⟨ha, hb, hc⟩
    · obtain ⟨ha, hb, hc, _⟩ := helemsA e h2
      exact ⟨ha, hb, hc⟩
  · intro hsame e he
    rcases List.mem_append.mp he with h1 | h2
    · exact (helems e h1).2.2.2
    · exact (helemsA e h2).2.2.2
  · intro pb
    rw [applyStrict_append_ok (hap1 pb), hap2 pb, hm2r]
  · intro pb
    rw [revSwap_append, applyStrict_append_ok (hap1b pb), hap2b pb, hm2l]

/-- `diff_impl` falls back to the primitive diff off the container diagonal. -/
theorem diffImpl_prim (x y : Node) (σ : Path) (o : DiffOptions)
    (heq : ¬x.eqWithOptions y o = true) (hsame : sameContainerType x y = false) :
    diffImpl x y σ o = some (diff_primitives x y σ) := by
  rw [diffImpl, if_neg heq]
  · intro e1 e2 h1 h2
    subst h1; subst h2
    simp [sameContainerType] at hsame
  · intro e1 e2 h1 h2
    subst h1; subst h2
    simp [sameContainerType] at hsame

/-- The primitive diff replaces the whole node. -/
theorem diff_primitives_ok (x y : Node) (σ : Path)
    (hwx : x.wf = true) (hwy : y.wf = true)
    (hsame : sameContainerType x y = false) :
    DiffOk σ x y (diff_primitives x y σ) := by
  have hvx : is_void x = false := is_void_of_wf hwx
  have hvy : is_void y = false := is_void_of_wf hwy
  have hdp : diff_primitives x y σ = [{ path := σ, remove := [x], add := [y] }] := by
    rw [diff_primitives, hvx, hvy]
    rfl
  rw [hdp]
  refine ⟨?_, ?_, ?_, ?_⟩
  · intro e he
    rcases List.mem_singleton.mp he with rfl
    exact ⟨rfl, List.prefix_refl σ, by simp⟩
  · intro hc
    rw [hsame] at hc
    cases hc
  · intro pb
    rw [applyStrict]
    simp only [List.drop_length]
    rw [patchElement_replace x pb [y] (by simp) (beqNode_refl hwx)]
    rfl
  · intro pb
    rw [show revSwap [{ path := σ, remove := [x], add := [y] }] =
      [{ path := σ, remove := [y], add := [x] }] from rfl]
    rw [applyStrict]
    simp only [List.drop_length]
    rw [patchElement_replace y pb [x] (by simp) (beqNode_refl hwy)]
    rfl

/-- `diff_lists` meets the round-trip specification. -/
theorem diffLists_spec (l r : List Node) (σ : Path) (o : DiffOptions)
    (hwL : wfList l = true) (hwR : wfList r = true)
    (hzL : noNegZeroList l = true) (hzR : noNegZeroList r = true)
    (N : Nat)
    (ihN : ∀ x y : Node, ∀ σ2 : Path, sizeOf x + sizeOf y < N →
      x.wf = true → y.wf = true → noNegZero x = true → noNegZero y = true →
      HashFaithful x y o →
      ∃ d, diffImpl x y σ2 o = some d ∧ DiffOk σ2 x y d)
    (hsz : ∀ x ∈ l, ∀ y ∈ r, sizeOf x + sizeOf y < N)
    (hfa : ∀ x ∈ l, ∀ y ∈ r, HashFaithful x y o) :
    ∃ d, diffLists l r σ o = some d ∧ DiffOk σ (.arr l) (.arr r) d := by
  obtain ⟨d, hd, hok, hne, hfwdX, hbwdX⟩ :=
    diffRest_spec o σ l r hwL hwR hzL hzR N ihN hsz hfa (l.length + r.length)
      0 0 (longest_common_subsequence (hashCodes l o) (hashCodes r o)) .void
      (by omega) (by omega) (by omega)
      (by rw [List.drop_zero, List.drop_zero]; exact lcs_csmax _ _)
      (by simp)
  simp only [List.drop_zero, Nat.cast_zero] at hd
  refine ⟨d, ?_, hok, fun hsame e he => hne e he, ?_, ?_⟩
  · rw [diffLists]
    exact hd
  · intro pb
    have h2 := hfwdX pb
    rw [List.take_zero, List.drop_zero, List.nil_append] at h2
    exact h2
  · intro pb
    have h2 := hbwdX pb
    rw [List.take_zero, List.drop_zero, List.nil_append] at h2
    exact h2

/-- Sound diffs exist for all well-formed hash-faithful pairs (strong
induction on size). -/
theorem diff_apply_aux (o : DiffOptions) (hp : o.precision = 0)
    (hm : o.array_mode = ArrayMode.list) :
    ∀ N : Nat, ∀ x y : Node, ∀ σ : Path, sizeOf x + sizeOf y < N →
      x.wf = true → y.wf = true → noNegZero x = true → noNegZero y = true →
      HashFaithful x y o →
      ∃ d, diffImpl x y σ o = some d ∧ DiffOk σ x y d := by
  intro N
  induction N with
  | zero =>
    intro x y σ hsz hwx hwy hzx hzy hfa
    exact absurd hsz (by omega)
  | succ N2 ih =>
    intro x y σ hsz hwx hwy hzx hzy hfa
    by_cases heq : x.eqWithOptions y o = true
    · have hxy : x = y := eq_of_eqWithOptions hp hm hwx hwy hzx hzy heq
      subst hxy
      refine ⟨[], by rw [diffImpl.eq_def, if_pos heq], ?_, ?_, ?_, ?_⟩
      · intro e he
        cases he
      · intro hsame e he
        cases he
      · intro pb
        rfl
      · intro pb
        rfl
    · have hprim : sameContainerType x y = false →
          ∃ d, diffImpl x y σ o = some d ∧ DiffOk σ x y d := fun hsame =>
        ⟨diff_primitives x y σ, diffImpl_prim x y σ o heq hsame,
          diff_primitives_ok x y σ hwx hwy hsame⟩
      cases x with
      | void => simp [Node.wf] at hwx
      | null =>
        exact hprim (by cases y <;> rfl)
      | bool b =>
        exact hprim (by cases y <;> rfl)
      | num n =>
        exact hprim (by cases y <;> rfl)
      | str s =>
        exact hprim (by cases y <;> rfl)
      | obj ml =>
        cases y with
        | void => simp [Node.wf] at hwy
        | null => exact hprim rfl
        | bool b => exact hprim rfl
        | num n => exact hprim rfl
        | str s => exact hprim rfl
        | arr ra => exact hprim rfl
        | obj mr =>
          simp only [Node.wf, Bool.and_eq_true] at hwx hwy
          simp only [noNegZero] at hzx hzy
          simp only [Node.obj.sizeOf_spec] at hsz
          obtain ⟨d, hd, hok⟩ := diffObjects_spec ml mr σ o hwx.1 hwx.2 hwy.1 hwy.2
            (fun k value other hv hw => by
              refine ih value other (σ ++ [PathSegment.key k]) ?_ ?_ ?_ ?_ ?_ ?_
              · have h1 : sizeOf value < sizeOf ml := sizeOf_objGet hv
                have h2 : sizeOf other < sizeOf mr := sizeOf_objGet hw
                omega
              · exact wfVals_mem hwx.2 (objGet_mem_pair hv)
              · exact wfVals_mem hwy.2 (objGet_mem_pair hw)
              · exact noNegZeroVals_mem hzx (objGet_mem_pair hv)
              · exact noNegZeroVals_mem hzy (objGet_mem_pair hw)
              · exact hashFaithful_obj hfa (objGet_mem_pair hv) (objGet_mem_pair hw))
          refine ⟨d, ?_, hok⟩
          rw [diffImpl.eq_def, if_neg heq]
          exact hd
      | arr la =>
        cases y with
        | void => simp [Node.wf] at hwy
        | null => exact hprim rfl
        | bool b => exact hprim rfl
        | num n => exact hprim rfl
        | str s => exact hprim rfl
        | obj mr => exact hprim rfl
        | arr ra =>
          simp only [Node.wf] at hwx hwy
          simp only [noNegZero] at hzx hzy
          simp only [Node.arr.sizeOf_spec] at hsz
          have hszp : ∀ x ∈ la, ∀ y ∈ ra, sizeOf x + sizeOf y < N2 := by
            intro x hx y hy
            have h1 := List.sizeOf_lt_of_mem hx
            have h2 := List.sizeOf_lt_of_mem hy
            omega
          have hfap : ∀ x ∈ la, ∀ y ∈ ra, HashFaithful x y o := by
            intro x hx y hy
            obtain ⟨i, hi, hix⟩ := List.getElem_of_mem hx
            obtain ⟨j, hj, hjy⟩ := List.getElem_of_mem hy
            rw [← hix, ← hjy]
            exact hashFaithful_arr hfa hi hj
          obtain ⟨d, hd, hok⟩ := diffLists_spec la ra σ o hwx hwy hzx hzy N2 ih
            hszp hfap
          refine ⟨d, ?_, hok⟩
          rw [diffImpl.eq_def, if_neg heq, hm]
          exact hd

/-- The metadata scan of a metadata-free diff is all `none`. -/
theorem activeMetadataScan_none (d : List DiffElement)
    (h : ∀ e ∈ d, e.metadata = none) :
    activeMetadataScan none d = List.replicate d.length none := by
  induction d with
  | nil => rfl
  | cons e rest ih =>
    rw [activeMetadataScan, h e (by simp)]
    simp only
    rw [ih (fun x hx => h x (by simp [hx]))]
    rfl

/-- Zipping with a replicated constant is mapping a pairing. -/
theorem zip_replicate_none (d : List DiffElement) :
    d.zip (List.replicate d.length (none : Option DiffMetadata)) =
      d.map (fun e => (e, none)) := by
  induction d with
  | nil => rfl
  | cons x xs ih =>
    rw [List.length_cons, List.replicate_succ, List.zip_cons_cons, ih, List.map_cons]

/-- The reversed emission over metadata-free pairs swaps payloads in place. -/
theorem reverseEmit_none (L : List DiffElement) (h : ∀ e ∈ L, e.metadata = none) :
    reverseEmit none (L.map (fun e => (e, none))) = .ok (L.map swapE) := by
  induction L with
  | nil => rfl
  | cons e rest ih =>
    rw [List.map_cons, reverseEmit]
    simp only
    rw [if_neg (by simp)]
    rw [List.map_cons]
    rw [ih (fun x hx => h x (by simp [hx]))]
    simp only [swapE, h e (by simp)]

/-- Reversing a metadata-free diff swaps payloads and element order. -/
theorem diff_reverse_none (d : List DiffElement)
    (h : ∀ e ∈ d, e.metadata = none) :
    Diff.reverse d = .ok (revSwap d) := by
  have hz : (d.zip (activeMetadataScan none d)).reverse =
      d.reverse.map (fun e => (e, none)) := by
    rw [activeMetadataScan_none d h, zip_replicate_none, List.reverse_map]
  have hrs : revSwap d = d.reverse.map swapE := by
    rw [revSwap, List.reverse_map]
  cases hd : d with
  | nil => rfl
  | cons e0 rest =>
    rw [Diff.reverse.eq_def]
    simp only
    rw [← hd, hz, reverseEmit_none _ (fun e he => h e (List.mem_reverse.mp he)), hrs]

/-- One FNV fold lands below `2^64`. -/
theorem fnvFold_lt (h b : Nat) : fnvFold h b < u64Mod :=
  Nat.mod_lt _ (by rw [u64Mod]; exact Nat.two_pow_pos 64)

/-- The FNV hash of a nonempty input lands below `2^64`. -/
theorem fnvHash_lt (input : List Nat) (h : input ≠ []) : fnvHash input < u64Mod := by
  have hgen : ∀ (l : List Nat) (h0 : Nat), h0 < u64Mod →
      l.foldl fnvFold h0 < u64Mod := by
    intro l
    induction l with
    | nil => intro h0 hh; exact hh
    | cons x xs ih =>
      intro h0 hh
      rw [List.foldl_cons]
      exact ih _ (fnvFold_lt _ _)
  cases input with
  | nil => exact absurd rfl h
  | cons b rest =>
    rw [fnvHash, List.foldl_cons]
    exact hgen rest _ (fnvFold_lt _ _)

/-- Two distinct nine-byte strings share an FNV-64 hash (pigeonhole over
`256^9 > 2^64` inputs). -/
theorem fnv_collision : ∃ s1 s2 : Str, s1 ≠ s2 ∧
    (∀ c ∈ s1, c < 256) ∧ (∀ c ∈ s2, c < 256) ∧ fnvHash s1 = fnvHash s2 := by
  have hcard : Fintype.card (Fin u64Mod) < Fintype.card (Fin 9 → Fin 256) := by
    rw [Fintype.card_fin, Fintype.card_fun, Fintype.card_fin, Fintype.card_fin, u64Mod]
    norm_num
  obtain ⟨v1, v2, hne, hfeq⟩ := Fintype.exists_ne_map_eq_of_card_lt
    (fun v : Fin 9 → Fin 256 => (⟨fnvHash ((List.ofFn v).map Fin.val),
      fnvHash_lt _ (by simp)⟩ : Fin u64Mod)) hcard
  refine ⟨(List.ofFn v1).map Fin.val, (List.ofFn v2).map Fin.val, ?_, ?_, ?_, ?_⟩
  · intro hc
    apply hne
    apply List.ofFn_injective
    exact List.map_injective_iff.mpr Fin.val_injective hc
  · intro c hc
    obtain ⟨x, hx, hxc⟩ := List.mem_map.mp hc
    rw [← hxc]
    exact x.isLt
  · intro c hc
    obtain ⟨x, hx, hxc⟩ := List.mem_map.mp hc
    rw [← hxc]
    exact x.isLt
  · simpa using congrArg Fin.val hfeq

/-- The common subsequence of equal singleton hash lists. -/
theorem lcs_single (H : HashCode) : longest_common_subsequence [H] [H] = [H] := by
  rw [longest_common_subsequence]
  show (lcsGo [H] [H] 1 1).reverse = [H]
  rw [lcsGo, if_pos rfl, lcsGo]
  rfl

/-- Hash-colliding singleton arrays produce an empty diff. -/
theorem collision_diff_empty (o : DiffOptions) (hm : o.array_mode = ArrayMode.list)
    (s1 s2 : Str) (hH : hash_bytes s1 = hash_bytes s2) :
    diff_nodes (.arr [.str s1]) (.arr [.str s2]) o = some [] := by
  rw [diff_nodes]
  by_cases heq : (Node.arr [Node.str s1]).eqWithOptions (Node.arr [Node.str s2]) o = true
  · rw [diffImpl.eq_def, if_pos heq]
  · rw [diffImpl.eq_def, if_neg heq, hm]
    show diffLists [Node.str s1] [Node.str s2] [] o = some []
    rw [diffLists]
    show diffRest [Node.str s1] [Node.str s2] 0 ([] ++ [PathSegment.index 0])
      (hashCodes [Node.str s1] o) (hashCodes [Node.str s2] o)
      (longest_common_subsequence (hashCodes [Node.str s1] o)
        (hashCodes [Node.str s2] o)) .void o = some []
    have hcl : hashCodes [Node.str s1] o = [hash_bytes s1] := rfl
    have hcr : hashCodes [Node.str s2] o = [hash_bytes s1] := by
      show [hash_bytes s2] = [hash_bytes s1]
      rw [hH]
    rw [hcl, hcr, lcs_single]
    have hloop := diffLoop_step_common [Node.str s1] [Node.str s2] [hash_bytes s1]
      [hash_bytes s1] [hash_bytes s1] ([] ++ [PathSegment.index 0]) o
      { path := pathNow ([] ++ [PathSegment.index 0]) 0, before := [Node.void] } 0 0 0
      (by simp) (by simp) (by simp [atCommon, getH])
    have hres := diffRest_step_full [Node.str s1] [Node.str s2] 0
      ([] ++ [PathSegment.index 0]) [hash_bytes s1] [hash_bytes s1] [hash_bytes s1]
      .void o
      [{ path := pathNow ([] ++ [PathSegment.index 0]) 0, before := [Node.void] }]
      1 1 1 1 hloop (by simp)
    rw [hres]
    rfl
/-! ## The claims -/

/-- C3 counterexample: the claim fails as stated for every pair of nodes.
`0.0` and `-0.0` are equal under `eq_with_options` at precision 0 (IEEE-754
value equality through the exact rational decoding), yet `hash_code` hashes
their distinct bit patterns to different codes. -/
theorem claim_C3_counterexample :
    Node.eqWithOptions (.num ⟨0⟩) (.num ⟨f64NegZeroBits⟩) DiffOptions.default = true ∧
    DiffOptions.default.precision = 0 ∧
    Node.hashCode (.num ⟨0⟩) DiffOptions.default ≠
      Node.hashCode (.num ⟨f64NegZeroBits⟩) DiffOptions.default := by
  refine ⟨?_, rfl, ?_⟩ <;> decide

/-- C3 (amended): hashing agrees with equality at precision 0 on well-formed
nodes that avoid the `-0.0` bit pattern: for all such `a`, `b` and options
`O` with precision 0 (any array mode), `eq_with_options(a, b, O)` implies
`hash_code(a, O) = hash_code(b, O)`. -/
theorem claim_C3 (a b : Node) (o : DiffOptions) (hp : o.precision = 0)
    (hwa : a.wf = true) (hwb : b.wf = true)
    (hza : noNegZero a = true) (hzb : noNegZero b = true)
    (heq : a.eqWithOptions b o = true) : a.hashCode o = b.hashCode o :=
  hash_eq_of_eq_aux (sizeOf a + 1) a b o (by omega) hp hwa hwb hza hzb heq

/-- Closed witness for the amended C3 at a concrete input. -/
theorem claim_C3_witness :
    DiffOptions.default.precision = 0 ∧
    (Node.bool true).wf = true ∧
    Node.eqWithOptions (.bool true) (.bool true) DiffOptions.default = true ∧
    Node.hashCode (.bool true) DiffOptions.default =
      Node.hashCode (.bool true) DiffOptions.default :=
  ⟨rfl, rfl, by decide,
    claim_C3 (.bool true) (.bool true) DiffOptions.default rfl rfl rfl rfl rfl
      (by decide)⟩

/-- C7 counterexample: `2^63` (bits `0x43E0000000000000`) does not fit in
`i64` (it exceeds `i64::MAX`), so the claim says it should take the `u64`
encoding; the code instead compares against `(i64::MAX as f64) = 2^63` and
returns the saturated `i64` encoding `9223372036854775807`, a different
number than the value. -/
theorem claim_C7_counterexample :
    Number.to_json_number ⟨0x43E0000000000000⟩ = .i64 9223372036854775807 ∧
    f64Val 0x43E0000000000000 = (2 ^ 63 : ℚ) ∧
    ¬(f64Val 0x43E0000000000000 ≤ (9223372036854775807 : ℚ)) := by
  refine ⟨?_, ?_, ?_⟩ <;> decide

/-- C7 (amended): for every `Number` the conversion is integer-encoded
exactly when the value is integral, not negative zero, and lies in
`[-2^63, 2^64]` (the saturating float thresholds, not the exact integer
ranges); it is the exact `i64` numerator on `[-2^63, 2^63 - 1]`, the exact
`u64` numerator on `(2^63, 2^64 - 1]`, saturates to `i64::MAX` at `2^63`
and to `u64::MAX` at `2^64`, and negative zero always keeps the `f64` form
with its bit pattern intact. -/
theorem claim_C7 (n : Number) :
    (((∃ i, n.to_json_number = .i64 i) ∨ (∃ u, n.to_json_number = .u64 u)) ↔
      ((f64Val n.bits).den = 1 ∧ ¬(f64Val n.bits = 0 ∧ f64SignBit n.bits = 1) ∧
        -(2 ^ 63 : ℚ) ≤ f64Val n.bits ∧ f64Val n.bits ≤ (2 ^ 64 : ℚ))) ∧
    ((f64Val n.bits).den = 1 → ¬(f64Val n.bits = 0 ∧ f64SignBit n.bits = 1) →
      -(2 ^ 63 : ℚ) ≤ f64Val n.bits → f64Val n.bits ≤ (2 ^ 63 : ℚ) - 1 →
      n.to_json_number = .i64 (f64Val n.bits).num) ∧
    ((f64Val n.bits).den = 1 → (2 ^ 63 : ℚ) < f64Val n.bits →
      f64Val n.bits ≤ (2 ^ 64 : ℚ) - 1 →
      n.to_json_number = .u64 (f64Val n.bits).num.toNat) ∧
    (f64Val n.bits = 0 → f64SignBit n.bits = 1 → n.to_json_number = .f64 n.bits) ∧
    (f64Val n.bits = (2 ^ 63 : ℚ) → n.to_json_number = .i64 (2 ^ 63 - 1)) ∧
    (f64Val n.bits = (2 ^ 64 : ℚ) → n.to_json_number = .u64 (2 ^ 64 - 1)) := by
  have hdef : n.to_json_number =
      (if (f64Val n.bits).den = 1 ∧ ¬(f64Val n.bits = 0 ∧ f64SignBit n.bits = 1) then
        (if -(2 ^ 63 : ℚ) ≤ f64Val n.bits ∧ f64Val n.bits ≤ (2 ^ 63 : ℚ) then
          JsonNumber.i64 (i64Sat (f64Val n.bits))
        else if (0 : ℚ) ≤ f64Val n.bits ∧ f64Val n.bits ≤ (2 ^ 64 : ℚ) then
          JsonNumber.u64 (u64Sat (f64Val n.bits))
        else JsonNumber.f64 n.bits)
      else JsonNumber.f64 n.bits) := rfl
  rw [hdef]
  split_ifs with h1 h2 h3
  · refine ⟨?_, ?_, ?_, ?_, ?_, ?_⟩
    · constructor
      · intro _
        exact ⟨h1.1, h1.2, h2.1, le_trans h2.2 (by norm_num)⟩
      · intro _
        exact Or.inl ⟨_, rfl⟩
    · intro hden hnz hge hle
      rw [i64Sat_eq_num _ hden hge hle]
    · intro _ hgt _
      exact absurd h2.2 (not_le.mpr hgt)
    · intro h0 hs
      exact absurd ⟨h0, hs⟩ h1.2
    · intro hv
      rw [hv]
      decide
    · intro hv
      rw [hv] at h2
      exact absurd h2.2 (by norm_num)
  · refine ⟨?_, ?_, ?_, ?_, ?_, ?_⟩
    · constructor
      · intro _
        exact ⟨h1.1, h1.2, le_trans (by norm_num) h3.1, h3.2⟩
      · intro _
        exact Or.inr ⟨_, rfl⟩
    · intro hden hnz hge hle
      exact absurd ⟨hge, le_trans hle (by norm_num)⟩ h2
    · intro hden hgt hle
      rw [u64Sat_eq_num _ hden (le_trans (by norm_num) (le_of_lt hgt)) hle]
    · intro h0 hs
      exact absurd ⟨h0, hs⟩ h1.2
    · intro hv
      rw [hv] at h2
      exact absurd ⟨by norm_num, by norm_num⟩ h2
    · intro hv
      rw [hv]
      decide
  · refine ⟨?_, ?_, ?_, ?_, ?_, ?_⟩
    · constructor
      · rintro (⟨i, hi⟩ | ⟨u, hu⟩)
        · simp at hi
        · simp at hu
      · rintro ⟨hden, hnz, hge, hle⟩
        by_cases hc : f64Val n.bits ≤ (2 ^ 63 : ℚ)
        · exact absurd ⟨hge, hc⟩ h2
        · exact absurd ⟨le_trans (by norm_num) (le_of_not_le hc), hle⟩ h3
    · intro hden hnz hge hle
      exact absurd ⟨hge, le_trans hle (by norm_num)⟩ h2
    · intro hden hgt hle
      exact absurd ⟨le_trans (by norm_num) (le_of_lt hgt), le_trans hle (by norm_num)⟩ h3
    · intro h0 hs
      exact absurd ⟨h0, hs⟩ h1.2
    · intro hv
      rw [hv] at h2
      exact absurd ⟨by norm_num, by norm_num⟩ h2
    · intro hv
      rw [hv] at h3
      exact absurd ⟨by norm_num, by norm_num⟩ h3
  · refine ⟨?_, ?_, ?_, ?_, ?_, ?_⟩
    · constructor
      · rintro (⟨i, hi⟩ | ⟨u, hu⟩)
        · simp at hi
        · simp at hu
      · rintro ⟨hden, hnz, _, _⟩
        exact absurd ⟨hden, hnz⟩ h1
    · intro hden hnz _ _
      exact absurd ⟨hden, hnz⟩ h1
    · intro hden hgt _
      refine absurd ⟨hden, fun hz => ?_⟩ h1
      rw [hz.1] at hgt
      exact absurd hgt (by norm_num)
    · intro _ _
      rfl
    · intro hv
      refine absurd ⟨by rw [hv]; decide, fun hz => ?_⟩ h1
      rw [hv] at hz
      exact absurd hz.1 (by norm_num)
    · intro hv
      refine absurd ⟨by rw [hv]; decide, fun hz => ?_⟩ h1
      rw [hv] at hz
      exact absurd hz.1 (by norm_num)

/-- Closed witness for the amended C7: `5.0` is integer-encoded exactly. -/
theorem claim_C7_witness :
    Number.to_json_number ⟨0x4014000000000000⟩ = .i64 5 := by
  have h5 : f64Val (⟨0x4014000000000000⟩ : Number).bits = (5 : ℚ) := by decide
  have h := (claim_C7 ⟨0x4014000000000000⟩).2.1 (by decide) (by decide)
    (by rw [h5]; norm_num) (by rw [h5]; norm_num)
  rw [h]
  decide

/-- The expected single diff element of scenario S1. -/
def c4elem : DiffElement :=
  { path := [PathSegment.key [97]],
    remove := [Node.num ⟨0x3FF0000000000000⟩],
    add := [Node.num ⟨0x4000000000000000⟩] }

/-- The expected RFC 6902 operations of scenario S1. -/
def c4ops : List PatchOp :=
  [{ op := "test", path := [0x2F, 97], value := .num (.i64 1) },
   { op := "remove", path := [0x2F, 97], value := .num (.i64 1) },
   { op := "add", path := [0x2F, 97], value := .num (.i64 2) }]

/-- The S1 roots compare unequal. -/
theorem c4h1 : Node.eqWithOptions (.obj [([97], .num ⟨0x3FF0000000000000⟩)])
    (.obj [([97], .num ⟨0x4000000000000000⟩)]) DiffOptions.default = false := by decide

/-- The S1 values compare unequal. -/
theorem c4h2 : Node.eqWithOptions (.num ⟨0x3FF0000000000000⟩) (.num ⟨0x4000000000000000⟩)
    DiffOptions.default = false := by decide

/-- The S1 leaf diff. -/
theorem c4A : diffImpl (.num ⟨0x3FF0000000000000⟩) (.num ⟨0x4000000000000000⟩)
    [PathSegment.key [97]] DiffOptions.default = some [c4elem] := by
  simp [diffImpl, c4h2, diff_primitives, is_void, c4elem]

/-- The S1 lhs-key walk. -/
theorem c4B : diffObjLhsLoop [([97], .num ⟨0x3FF0000000000000⟩)]
    [([97], .num ⟨0x4000000000000000⟩)] [] DiffOptions.default [[97]] = some [c4elem] := by
  simp [diffObjLhsLoop, objGet, c4A]

/-- The S1 rhs-additions walk adds nothing. -/
theorem c4C : diffObjAddsLoop [([97], .num ⟨0x3FF0000000000000⟩)]
    [([97], .num ⟨0x4000000000000000⟩)] [] [[97]] = [] := by
  simp [diffObjAddsLoop, objGet]

/-- The S1 object diff. -/
theorem c4D : diffObjects [([97], .num ⟨0x3FF0000000000000⟩)]
    [([97], .num ⟨0x4000000000000000⟩)] [] DiffOptions.default = some [c4elem] := by
  rw [diffObjects]
  have hsort : sortBy bytesLe ([([97], Node.num ⟨0x3FF0000000000000⟩)].map Prod.fst) = [[97]] := rfl
  have hsort2 : sortBy bytesLe ([([97], Node.num ⟨0x4000000000000000⟩)].map Prod.fst) = [[97]] := rfl
  rw [hsort, hsort2, c4B, c4C]
  rfl

/-- The S1 diff structure. -/
theorem c4_diff_eq :
    diff_nodes (.obj [([97], .num ⟨0x3FF0000000000000⟩)])
      (.obj [([97], .num ⟨0x4000000000000000⟩)]) DiffOptions.default = some [c4elem] := by
  simp [diff_nodes, diffImpl, c4h1, c4D]

/-- The S1 native render string. -/
theorem c4_render_eq : Diff.render [c4elem] {} = "@ [\"a\"]\n- 1\n+ 2\n" := rfl

/-- The S1 JSON Patch string. -/
theorem c4_patch_eq :
    Diff.render_patch [c4elem] =
      .ok "[\x7b\"op\":\"test\",\"path\":\"/a\",\"value\":1\x7d,\x7b\"op\":\"remove\",\"path\":\"/a\",\"value\":1\x7d,\x7b\"op\":\"add\",\"path\":\"/a\",\"value\":2\x7d]" := by
  have h1 : renderPatchElementOps c4elem = .ok c4ops := rfl
  have h2 : renderOps c4ops =
      "[\x7b\"op\":\"test\",\"path\":\"/a\",\"value\":1\x7d,\x7b\"op\":\"remove\",\"path\":\"/a\",\"value\":1\x7d,\x7b\"op\":\"add\",\"path\":\"/a\",\"value\":2\x7d]" := rfl
  simp [Diff.render_patch, Diff.render_patch.go, h1, h2]

/-- Modelled from the spec: effective metadata inherits forward across
elements with the `absorb` rule (merge sticks `true` once set); an element
is effectively merge-flagged when the absorbed metadata carries `merge`. -/
def specAbsorbMergeOk (inherited : DiffMetadata) : List DiffElement → Bool
  | [] => true
  | e :: rest =>
    let inherited' := match e.metadata with
      | some meta => inherited.absorb meta
      | none => inherited
    inherited'.merge && specAbsorbMergeOk inherited' rest

/-- The amended characterization of the code: effective metadata inherits
forward by overwriting (a present metadata replaces the inherited one); an
element is merge-flagged when its effective metadata carries `merge`. -/
def overwriteMergeOk (inherited : DiffMetadata) : List DiffElement → Bool
  | [] => true
  | e :: rest =>
    let inherited' := match e.metadata with
      | some meta => meta
      | none => inherited
    inherited'.merge && overwriteMergeOk inherited' rest

/-- The normalization loop of `render_merge` succeeds exactly on
overwrite-merge-flagged diffs. -/
theorem renderMergeNormalize_ok_iff (inherited : DiffMetadata) (d : List DiffElement) :
    (∃ out, renderMergeNormalize inherited d = .ok out) ↔
      overwriteMergeOk inherited d = true := by
  induction d generalizing inherited with
  | nil => exact ⟨fun _ => rfl, fun _ => ⟨[], rfl⟩⟩
  | cons e rest ih =>
    rw [renderMergeNormalize, overwriteMergeOk]
    cases hm : e.metadata with
    | none =>
      simp only
      simp only [Bool.and_eq_true]
      by_cases hmerge : inherited.merge
      · rw [hmerge]
        simp only [Bool.not_true, Bool.false_eq_true, if_false, true_and]
        cases hrec : renderMergeNormalize inherited rest with
        | error msg =>
          constructor
          · rintro ⟨out, hout⟩
            cases hout
          · intro hok
            obtain ⟨out, hout⟩ := (ih inherited).mpr hok
            rw [hout] at hrec
            cases hrec
        | ok more =>
          constructor
          · intro _
            exact (ih inherited).mp ⟨more, hrec⟩
          · intro _
            exact ⟨_, rfl⟩
      · rw [Bool.not_eq_true] at hmerge
        rw [hmerge]
        simp only [Bool.not_false, if_true, Bool.false_eq_true, false_and]
        constructor
        · rintro ⟨out, hout⟩
          cases hout
        · intro h
          cases h
    | some meta =>
      simp only
      simp only [Bool.and_eq_true]
      by_cases hmerge : meta.merge
      · rw [hmerge]
        simp only [Bool.not_true, Bool.false_eq_true, if_false, true_and]
        cases hrec : renderMergeNormalize meta rest with
        | error msg =>
          constructor
          · rintro ⟨out, hout⟩
            cases hout
          · intro hok
            obtain ⟨out, hout⟩ := (ih meta).mpr hok
            rw [hout] at hrec
            cases hrec
        | ok more =>
          constructor
          · intro _
            exact (ih meta).mp ⟨more, hrec⟩
          · intro _
            exact ⟨_, rfl⟩
      · rw [Bool.not_eq_true] at hmerge
        rw [hmerge]
        simp only [Bool.not_false, if_true, Bool.false_eq_true, false_and]
        constructor
        · rintro ⟨out, hout⟩
          cases hout
        · intro h
          cases h

/-- When a diff is not overwrite-merge-flagged the loop yields the exact
error string. -/
theorem renderMergeNormalize_err (inherited : DiffMetadata) (d : List DiffElement)
    (h : overwriteMergeOk inherited d = false) :
    renderMergeNormalize inherited d = .error "cannot render non-merge element as merge" := by
  induction d generalizing inherited with
  | nil => cases h
  | cons e rest ih =>
    rw [overwriteMergeOk] at h
    rw [renderMergeNormalize]
    cases hm : e.metadata with
    | none =>
      rw [hm] at h
      simp only at h ⊢
      simp only [Bool.and_eq_false_iff] at h
      by_cases hmerge : inherited.merge
      · rw [hmerge]
        simp only [Bool.not_true, Bool.false_eq_true, if_false]
        have hrest : overwriteMergeOk inherited rest = false := by
          cases h with
          | inl hc => rw [hmerge] at hc; cases hc
          | inr hc => exact hc
        rw [ih inherited hrest]
      · rw [Bool.not_eq_true] at hmerge
        rw [hmerge]
        simp
    | some meta =>
      rw [hm] at h
      simp only at h ⊢
      simp only [Bool.and_eq_false_iff] at h
      by_cases hmerge : meta.merge
      · rw [hmerge]
        simp only [Bool.not_true, Bool.false_eq_true, if_false]
        have hrest : overwriteMergeOk meta rest = false := by
          cases h with
          | inl hc => rw [hmerge] at hc; cases hc
          | inr hc => exact hc
        rw [ih meta hrest]
      · rw [Bool.not_eq_true] at hmerge
        rw [hmerge]
        simp

/-- The all-merge diff whose application still fails: merge patches reject
carried old values. -/
theorem c5_apply_error :
    Diff.render_merge
      [{ metadata := some { merge := true }, path := [PathSegment.key [97]],
         remove := [Node.num ⟨0x3FF0000000000000⟩],
         add := [Node.num ⟨0x4000000000000000⟩] }] =
      .error "patch with merge strategy at [a] has unnecessary old value 1" := by
  simp [Diff.render_merge, renderMergeNormalize, normalizeMergeAdds, is_void,
    apply_patch, applyLoop, patchElement, patchDispatch, patchScalar,
    single_value, path_to_string, segRender, strRender, node_json,
    DiffMetadata.isEffective, Option.filter]
  decide

/-- C5 counterexample: the claim's error condition is wrong in both
directions.  Under the spec's absorb rule `merge` sticks once set, so a
merge-flagged element followed by a `merge:false` metadata element is still
"effectively merge-flagged" — yet the code (which overwrites the inherited
metadata) errors.  And a fully merge-flagged diff can still error, from the
patch application pass. -/
theorem claim_C5_counterexample :
    (specAbsorbMergeOk {}
        [{ metadata := some { merge := true }, path := [PathSegment.key [97]],
           add := [Node.num ⟨0x3FF0000000000000⟩] },
         { metadata := some {}, path := [PathSegment.key [98]],
           add := [Node.num ⟨0x4000000000000000⟩] }] = true ∧
      Diff.render_merge
        [{ metadata := some { merge := true }, path := [PathSegment.key [97]],
           add := [Node.num ⟨0x3FF0000000000000⟩] },
         { metadata := some {}, path := [PathSegment.key [98]],
           add := [Node.num ⟨0x4000000000000000⟩] }] =
        .error "cannot render non-merge element as merge") ∧
    (specAbsorbMergeOk {}
        [{ metadata := some { merge := true }, path := [PathSegment.key [97]],
           remove := [Node.num ⟨0x3FF0000000000000⟩],
           add := [Node.num ⟨0x4000000000000000⟩] }] = true ∧
      overwriteMergeOk {}
        [{ metadata := some { merge := true }, path := [PathSegment.key [97]],
           remove := [Node.num ⟨0x3FF0000000000000⟩],
           add := [Node.num ⟨0x4000000000000000⟩] }] = true ∧
      Diff.render_merge
        [{ metadata := some { merge := true }, path := [PathSegment.key [97]],
           remove := [Node.num ⟨0x3FF0000000000000⟩],
           add := [Node.num ⟨0x4000000000000000⟩] }] =
        .error "patch with merge strategy at [a] has unnecessary old value 1") :=
  ⟨⟨rfl, rfl⟩, rfl, rfl, c5_apply_error⟩

/-- C5 (amended): `render_merge` on an empty diff returns `"{}"`; the
normalization pass errs with "cannot render non-merge element as merge"
exactly when some element is not merge-flagged under the code's
overwrite-inheritance rule (a present metadata replaces the inherited one —
not the absorb rule); and on merge-flagged diffs the result can still be an
error from the patch-application pass. -/
theorem claim_C5 :
    Diff.render_merge [] = .ok "\x7b\x7d" ∧
    (∀ (inherited : DiffMetadata) (d : List DiffElement),
      (∃ out, renderMergeNormalize inherited d = .ok out) ↔
        overwriteMergeOk inherited d = true) ∧
    (∀ d : Diff, d ≠ [] → overwriteMergeOk {} d = false →
      Diff.render_merge d = .error "cannot render non-merge element as merge") := by
  refine ⟨rfl, renderMergeNormalize_ok_iff, ?_⟩
  intro d hne hflags
  rw [Diff.render_merge]
  rw [if_neg (by simpa using hne)]
  rw [renderMergeNormalize_err {} d hflags]

/-- Closed witness for the amended C5 at a concrete non-merge diff. -/
theorem claim_C5_witness :
    ([({} : DiffElement)] : Diff) ≠ [] ∧
    overwriteMergeOk {} [({} : DiffElement)] = false ∧
    Diff.render_merge [({} : DiffElement)] =
      .error "cannot render non-merge element as merge" :=
  ⟨by simp, rfl, claim_C5.2.2 [({} : DiffElement)] (by simp) rfl⟩

/-- C4: for lhs `{"a":1}` and rhs `{"a":2}` the diff is exactly one element
with path `["a"]`, remove `[1]`, add `[2]` and no context or metadata; the
native renderer emits exactly the three-line hunk, and `render_patch` emits
exactly the pinned JSON Patch string. -/
theorem claim_C4 :
    diff_nodes (.obj [([97], .num ⟨0x3FF0000000000000⟩)])
        (.obj [([97], .num ⟨0x4000000000000000⟩)]) DiffOptions.default = some [c4elem] ∧
    Diff.render [c4elem] {} = "@ [\"a\"]\n- 1\n+ 2\n" ∧
    Diff.render_patch [c4elem] =
      .ok "[\x7b\"op\":\"test\",\"path\":\"/a\",\"value\":1\x7d,\x7b\"op\":\"remove\",\"path\":\"/a\",\"value\":1\x7d,\x7b\"op\":\"add\",\"path\":\"/a\",\"value\":2\x7d]" :=
  ⟨c4_diff_eq, c4_render_eq, c4_patch_eq⟩

/-- C6: `Number::new(v)` returns the `NotFinite{value}` error exactly when
`v` is NaN or an infinity; on every finite `v` it succeeds and `get()`
returns `v` unchanged. -/
theorem claim_C6 (v : Nat) (hv : v < u64Mod) :
    (Number.new v = .error (.notFinite v) ↔ (f64IsNan v = true ∨ f64IsInf v = true)) ∧
    (f64IsFinite v = true → Number.new v = .ok ⟨v⟩ ∧ Number.get ⟨v⟩ = v) := by
  refine ⟨⟨fun h => ?_, fun h => ?_⟩, fun h => ?_⟩
  · rw [← not_finite_iff]
    unfold Number.new at h
    by_cases hf : f64IsFinite v = true
    · rw [if_pos hf] at h
      exact absurd h (by simp)
    · exact Bool.not_eq_true _ ▸ (by simpa using hf)
  · have hf : f64IsFinite v = false := (not_finite_iff v).mpr h
    unfold Number.new
    rw [hf]
    simp
  · unfold Number.new
    rw [h]
    exact ⟨by simp, rfl⟩

/-- Witness for C6 at the bit pattern of positive infinity. -/
theorem claim_C6_witness :
    (0x7FF0000000000000 < u64Mod) ∧
    ((Number.new 0x7FF0000000000000 = .error (.notFinite 0x7FF0000000000000) ↔
        (f64IsNan 0x7FF0000000000000 = true ∨ f64IsInf 0x7FF0000000000000 = true)) ∧
      (f64IsFinite 0x7FF0000000000000 = true →
        Number.new 0x7FF0000000000000 = .ok ⟨0x7FF0000000000000⟩ ∧
          Number.get ⟨0x7FF0000000000000⟩ = 0x7FF0000000000000)) :=
  ⟨by decide, claim_C6 0x7FF0000000000000 (by decide)⟩

/-- C10: under set array mode, equality ignores ordering and multiplicity:
`[x, x]` equals `[x]` for every node `x`. -/
theorem claim_C10 (x : Node) (o : DiffOptions) (hm : o.array_mode = ArrayMode.set) :
    Node.eqWithOptions (.arr [x, x]) (.arr [x]) o = true := by
  rw [Node.eqWithOptions, hm]
  show set_equals [x, x] [x] o = true
  simp [set_equals, hashCodes, hashSetOfList, hashSetInsert]

/-- Witness for C10 at `x = null` under plain set options. -/
theorem claim_C10_witness :
    ({ array_mode := ArrayMode.set, precision := 0, set_keys := none } :
        DiffOptions).array_mode = ArrayMode.set ∧
    Node.eqWithOptions (.arr [.null, .null]) (.arr [.null])
      { array_mode := ArrayMode.set, precision := 0, set_keys := none } = true :=
  ⟨rfl, claim_C10 .null _ rfl⟩

/-- Options values reachable through the public constructor surface:
`Default` followed by any sequence of successful mutator calls. -/
inductive ReachableOptions : DiffOptions → Prop where
  | dflt : ReachableOptions DiffOptions.default
  | withArrayMode {o o' : DiffOptions} {m : ArrayMode} : ReachableOptions o →
      o.with_array_mode m = .ok o' → ReachableOptions o'
  | withPrecision {o o' : DiffOptions} {p : ℚ} : ReachableOptions o →
      o.with_precision p = .ok o' → ReachableOptions o'
  | withSetKeys {o o' : DiffOptions} {ks : List Str} : ReachableOptions o →
      o.with_set_keys ks = .ok o' → ReachableOptions o'

/-- The two invariants `validate` actually enforces. -/
theorem validate_ok_invariants (o : DiffOptions) (h : o.validate = .ok ()) :
    (0 < o.precision → o.array_mode = ArrayMode.list) ∧
    (o.set_keys.isSome = true → o.array_mode = ArrayMode.set) := by
  unfold DiffOptions.validate at h
  split_ifs at h with h1 h2
  constructor
  · intro hp
    by_contra hm
    exact h1 ⟨hm, hp⟩
  · intro hs
    by_contra hm
    exact h2 ⟨hs, hm⟩

/-- C8 (amended): every reachable options value satisfies the validated
invariants — a positive precision forces list mode and present set keys
force set mode.  (The spec's additional `precision ≥ 0` is not enforced;
see the counterexample.) -/
theorem claim_C8 (o : DiffOptions) (h : ReachableOptions o) :
    (0 < o.precision → o.array_mode = ArrayMode.list) ∧
    (o.set_keys.isSome = true → o.array_mode = ArrayMode.set) := by
  induction h with
  | dflt => exact ⟨fun _ => rfl, by simp [DiffOptions.default]⟩
  | withArrayMode _ hok _ =>
    unfold DiffOptions.with_array_mode at hok
    split at hok
    next e heq => exact absurd hok (by simp)
    next u heq =>
      cases u
      cases hok
      exact validate_ok_invariants _ heq
  | withPrecision _ hok _ =>
    unfold DiffOptions.with_precision at hok
    split at hok
    next e heq => exact absurd hok (by simp)
    next u heq =>
      cases u
      cases hok
      exact validate_ok_invariants _ heq
  | withSetKeys _ hok _ =>
    unfold DiffOptions.with_set_keys at hok
    split at hok
    next e heq => exact absurd hok (by simp)
    next ks heq =>
      split at hok
      · exact absurd hok (by simp)
      · split at hok
        next e heq2 => exact absurd hok (by simp)
        next u heq2 =>
          cases u
          cases hok
          exact validate_ok_invariants _ heq2

/-- Witness for C8 at an options value reached through `with_precision`. -/
theorem claim_C8_witness :
    (0 < ({ array_mode := ArrayMode.list, precision := 2, set_keys := none } :
        DiffOptions).precision →
      ({ array_mode := ArrayMode.list, precision := 2, set_keys := none } :
        DiffOptions).array_mode = ArrayMode.list) ∧
    (({ array_mode := ArrayMode.list, precision := 2, set_keys := none } :
        DiffOptions).set_keys.isSome = true →
      ({ array_mode := ArrayMode.list, precision := 2, set_keys := none } :
        DiffOptions).array_mode = ArrayMode.set) :=
  claim_C8 _ (ReachableOptions.withPrecision ReachableOptions.dflt rfl)

/-- Counterexample to C8 as stated: `with_precision(-1.0)` validates
successfully, producing a reachable options value with negative precision. -/
theorem claim_C8_counterexample :
    DiffOptions.default.with_precision (-1) =
      .ok { array_mode := ArrayMode.list, precision := -1, set_keys := none } ∧
    ¬(0 ≤ ({ array_mode := ArrayMode.list, precision := -1, set_keys := none } :
        DiffOptions).precision) := by
  constructor
  · rfl
  · norm_num

/-- C9: the set/multiset branch of the diff dispatch never produces a diff
on unequal arrays (the source panics there; the model returns `none`). -/
theorem claim_C9 (l r : List Node) (o : DiffOptions)
    (hm : o.array_mode = ArrayMode.set ∨ o.array_mode = ArrayMode.multiSet)
    (hne : Node.eqWithOptions (.arr l) (.arr r) o = false) :
    diff_nodes (.arr l) (.arr r) o = none := by
  unfold diff_nodes
  rw [diffImpl]
  rw [hne]
  rcases hm with h | h <;> simp [h]

/-- Witness for C9 at `[1]` vs `[2]` in set mode. -/
theorem claim_C9_witness :
    (({ array_mode := ArrayMode.set, precision := 0, set_keys := none } :
        DiffOptions).array_mode = ArrayMode.set ∨
      ({ array_mode := ArrayMode.set, precision := 0, set_keys := none } :
        DiffOptions).array_mode = ArrayMode.multiSet) ∧
    Node.eqWithOptions (.arr [.num ⟨0x3FF0000000000000⟩]) (.arr [.num ⟨0x4000000000000000⟩])
      { array_mode := ArrayMode.set, precision := 0, set_keys := none } = false ∧
    diff_nodes (.arr [.num ⟨0x3FF0000000000000⟩]) (.arr [.num ⟨0x4000000000000000⟩])
      { array_mode := ArrayMode.set, precision := 0, set_keys := none } = none := by
  refine ⟨Or.inl rfl, by decide, claim_C9 _ _ _ (Or.inl rfl) (by decide)⟩


/-- A byte string drawn from bytes below 256 is a well-formed string node. -/
theorem strNode_wf {s : Str} (hs : ∀ c ∈ s, c < 256) : (Node.str s).wf = true := by
  show strWf s = true
  rw [strWf, List.all_eq_true]
  intro c hc
  simpa using hs c hc

/-- C1 counterexample: the round-trip law fails as stated.  Two distinct
nine-byte strings share an FNV-64 hash (pigeonhole), so the two singleton
arrays hash alike, the LCS treats them as common, `diff` is empty, and
applying it to the base cannot produce the target. -/
theorem claim_C1_counterexample :
    ¬ ∀ (a b : Node) (o : DiffOptions), o.array_mode = ArrayMode.list →
        o.precision = 0 → o.set_keys = none →
        a.wf = true → b.wf = true → noNegZero a = true → noNegZero b = true →
        ∀ d, diff_nodes a b o = some d → apply_patch a d = .ok b := by
  intro hall
  obtain ⟨s1, s2, hne, hc1, hc2, hH⟩ := fnv_collision
  have hHb : hash_bytes s1 = hash_bytes s2 := by rw [hash_bytes, hash_bytes, hH]
  have hd := collision_diff_empty DiffOptions.default rfl s1 s2 hHb
  have hw1 : (Node.arr [Node.str s1]).wf = true := by
    show wfList [Node.str s1] = true
    simp only [wfList, Bool.and_true]
    exact strNode_wf hc1
  have hw2 : (Node.arr [Node.str s2]).wf = true := by
    show wfList [Node.str s2] = true
    simp only [wfList, Bool.and_true]
    exact strNode_wf hc2
  have happ := hall (.arr [.str s1]) (.arr [.str s2]) DiffOptions.default rfl rfl rfl
    hw1 hw2 rfl rfl [] hd
  rw [apply_patch_strict _ _ (fun e he => absurd he (List.not_mem_nil e))] at happ
  have hab := PatchOutcome.ok.inj happ
  simp only [Node.arr.injEq, List.cons.injEq, Node.str.injEq, and_true] at hab
  exact hne hab

/-- C1 (amended): on well-formed, negative-zero-free, hash-faithful pairs the
diff succeeds and applying it to the base yields the target. -/
theorem claim_C1 (a b : Node) (o : DiffOptions) (hp : o.precision = 0)
    (hm : o.array_mode = ArrayMode.list)
    (hwa : a.wf = true) (hwb : b.wf = true)
    (hza : noNegZero a = true) (hzb : noNegZero b = true)
    (hfa : HashFaithful a b o) :
    ∃ d, diff_nodes a b o = some d ∧ apply_patch a d = .ok b := by
  obtain ⟨d, hd, hok⟩ := diff_apply_aux o hp hm (sizeOf a + sizeOf b + 1) a b []
    (by omega) hwa hwb hza hzb hfa
  refine ⟨d, hd, ?_⟩
  rw [apply_patch_strict a d (fun e he => (hok.1 e he).1)]
  exact hok.2.2.1 []

/-- C1 witness at `null` vs `null` with default options. -/
theorem claim_C1_witness :
    ∃ d, diff_nodes .null .null DiffOptions.default = some d ∧
      apply_patch .null d = .ok .null :=
  claim_C1 .null .null DiffOptions.default rfl rfl rfl rfl rfl rfl
    (by
      intro x hx y hy hxy
      simp [subnodes] at hx hy
      rw [hx, hy])

/-- C2 counterexample: the reverse round-trip fails as stated, on the same
hash-colliding pair (the empty diff carries no metadata and reverses to
itself, but applying it to the target leaves the target unchanged). -/
theorem claim_C2_counterexample :
    ¬ ∀ (a b : Node) (o : DiffOptions), o.array_mode = ArrayMode.list →
        o.precision = 0 → o.set_keys = none →
        a.wf = true → b.wf = true → noNegZero a = true → noNegZero b = true →
        ∀ d rd, diff_nodes a b o = some d → (∀ e ∈ d, e.metadata = none) →
          Diff.reverse d = .ok rd → apply_patch b rd = .ok a := by
  intro hall
  obtain ⟨s1, s2, hne, hc1, hc2, hH⟩ := fnv_collision
  have hHb : hash_bytes s1 = hash_bytes s2 := by rw [hash_bytes, hash_bytes, hH]
  have hd := collision_diff_empty DiffOptions.default rfl s1 s2 hHb
  have hw1 : (Node.arr [Node.str s1]).wf = true := by
    show wfList [Node.str s1] = true
    simp only [wfList, Bool.and_true]
    exact strNode_wf hc1
  have hw2 : (Node.arr [Node.str s2]).wf = true := by
    show wfList [Node.str s2] = true
    simp only [wfList, Bool.and_true]
    exact strNode_wf hc2
  have happ := hall (.arr [.str s1]) (.arr [.str s2]) DiffOptions.default rfl rfl rfl
    hw1 hw2 rfl rfl [] [] hd (fun e he => absurd he (List.not_mem_nil e)) rfl
  rw [apply_patch_strict _ _ (fun e he => absurd he (List.not_mem_nil e))] at happ
  have hab := PatchOutcome.ok.inj happ
  simp only [Node.arr.injEq, List.cons.injEq, Node.str.injEq, and_true] at hab
  exact hne hab.symm

/-- C2 (amended): on well-formed, negative-zero-free, hash-faithful pairs the
diff is metadata-free, its reversal succeeds, and applying the reversal to
the target restores the base. -/
theorem claim_C2 (a b : Node) (o : DiffOptions) (hp : o.precision = 0)
    (hm : o.array_mode = ArrayMode.list)
    (hwa : a.wf = true) (hwb : b.wf = true)
    (hza : noNegZero a = true) (hzb : noNegZero b = true)
    (hfa : HashFaithful a b o) :
    ∃ d rd, diff_nodes a b o = some d ∧ (∀ e ∈ d, e.metadata = none) ∧
      Diff.reverse d = .ok rd ∧ apply_patch b rd = .ok a := by
  obtain ⟨d, hd, hok⟩ := diff_apply_aux o hp hm (sizeOf a + sizeOf b + 1) a b []
    (by omega) hwa hwb hza hzb hfa
  have hmeta : ∀ e ∈ d, e.metadata = none := fun e he => (hok.1 e he).1
  refine ⟨d, revSwap d, hd, hmeta, diff_reverse_none d hmeta, ?_⟩
  rw [apply_patch_strict b (revSwap d) (fun e he => by
    obtain ⟨e0, he0, hsw⟩ := mem_revSwap he
    rw [hsw]
    exact hmeta e0 he0)]
  exact hok.2.2.2 []

/-- C2 witness at `null` vs `null` with default options. -/
theorem claim_C2_witness :
    ∃ d rd, diff_nodes .null .null DiffOptions.default = some d ∧
      (∀ e ∈ d, e.metadata = none) ∧ Diff.reverse d = .ok rd ∧
      apply_patch .null rd = .ok .null :=
  claim_C2 .null .null DiffOptions.default rfl rfl rfl rfl rfl rfl
    (by
      intro x hx y hy hxy
      simp [subnodes] at hx hy
      rw [hx, hy])

end Jd
